import Mathlib

/-!
# Coordinate codec and symmetry tables of the two-phase solver (`src/coord.cc`, `src/sym.cc`)

A shallow embedding of the rank and unrank functions of `coord.cc`, of its table builders
`initMoveCoord` and `initMergeUDEdges`, and of the table builders `initSym`, `initCPermTables`
and `initFSliceTables` of `sym.cc`, with the round-trip laws and the table properties proved
over the embedding.

Conventions of the embedding.

* A C array `int a[]` is a `List Int`; a read `a[i]` is `a.getD i 0` and a write `a[i] = x` is
  `a.set i x`.  All reads and writes of the source are in bounds on the inputs the theorems
  speak about.
* `Coord` and `CoordLL` are declared in `coord.h`, which is not among the sources.  `Coord` is
  the unsigned 16 bit integer: `setSSlice`, whose parameter is declared `uint16_t`, is passed to
  `initMoveCoord` as a `void (*)(CubieCube &, Coord)`.  A value of type `Coord` is an `Int` in
  `[0, 65536)`; every assignment to a variable of type `Coord`, every argument passed as a
  `Coord` and every `Coord` result goes through `toCoord`, the reduction modulo `2^16`.
  `CoordLL`, the type of the parameter of `setPermCoord` (`setEdges` passes it a `uint64_t`), is
  a mathematical integer.
* `/` and `%` are the truncating `Int.tdiv` and `Int.tmod` of C, and the test `val - tmp >= 0`
  is a comparison of integers, as the operands are promoted to `int`.
* Loop counters and lengths are `Nat`.
* A `while` loop whose exit depends on the data takes a `fuel` argument bounding the number of
  times its condition is evaluated and returns `none` when the fuel runs out.
* The cells of the tables of `sym.cc` are `uint32_t` and `uint16_t`; a value written to such a
  cell is reduced modulo `2^32` or `2^16`.
-/

namespace TwoPhase

/-! ## The type `Coord` -/

/-- The conversion of an integer to `Coord`, the unsigned integer of 16 bits: the reduction
modulo `2^16 = 65536`. -/
def toCoord (x : Int) : Int := x % 65536

/-! ## Tables of `misc.h` -/

/-- Modelled from the spec: the table `fac` of `misc.h` (not among the sources), with
`fac[n] = n!`. -/
def fac (n : Nat) : Int := (Nat.factorial n : Int)

/-- Modelled from the spec: the table `cnk` of `misc.h` (not among the sources), with
`cnk[n][r] = binomial(n, r)`. -/
def cnk (n r : Nat) : Int := (Nat.choose n r : Int)

/-! ## Permutation rank (`getPermCoord`) -/

/-- The loop `for (int j = 0; j < i; j++) cubies1[j] = cubies1[j + 1];` run from `j` for `n`
more iterations. -/
def shiftDown : Nat → Nat → List Int → List Int
  | 0, _, a => a
  | n + 1, j, a => shiftDown n (j + 1) (a.set j (a.getD (j + 1) 0))

/-- One pass of the body of the `while` loop of `getPermCoord`, without the counter: the cells
`0..i` are rotated one step to the left. -/
def rotLeft (a : List Int) (i : Nat) : List Int :=
  let first := a.getD 0 0
  (shiftDown i 0 a).set i first

/-- The loop `while (cubies1[i] != max_cubie) { ...; n_rots++; }` of `getPermCoord`; every
evaluation of the condition uses one unit of fuel. -/
def rotateUntil : Nat → List Int → Nat → Int → Int → Option (List Int × Int)
  | 0, _, _, _, _ => none
  | fuel + 1, cubies1, i, max_cubie, n_rots =>
    if cubies1.getD i 0 ≠ max_cubie then
      rotateUntil fuel (rotLeft cubies1 i) i max_cubie (n_rots + 1)
    else
      some (cubies1, n_rots)

/-- The loop `for (int i = len - 1; i > 0; i--)` of `getPermCoord`, entered with counter `i`;
`val` is a `Coord`. -/
def getPermLoop (fuel : Nat) : Nat → List Int → Int → Int → Option Int
  | 0, _, _, val => some val
  | i + 1, cubies1, max_cubie, val =>
    match rotateUntil fuel cubies1 (i + 1) max_cubie 0 with
    | none => none
    | some (cubies2, n_rots) =>
      getPermLoop fuel i cubies2 (max_cubie - 1)
        (toCoord ((val + n_rots) * ((i + 1 : Nat) : Int)))

/-- `getPermCoord(cubies, len, max_cubie)`. -/
def getPermCoord (fuel : Nat) (cubies : List Int) (len : Nat) (max_cubie : Int) : Option Int :=
  getPermLoop fuel (len - 1) (cubies.take len) max_cubie 0

/-! ## Permutation unrank (`setPermCoord`) -/

/-- The loop `for (int i = len - 1; i >= 0; i--) { cubies[i] = max_cubie; max_cubie--; }`,
with `i + 1` the first argument. -/
def fillLabels : Nat → Int → List Int → List Int
  | 0, _, cubies => cubies
  | i + 1, max_cubie, cubies => fillLabels i (max_cubie - 1) (cubies.set i max_cubie)

/-- The loop `for (int j = i; j > 0; j--) cubies[j] = cubies[j - 1];`, entered with counter
`j`. -/
def shiftUp : Nat → List Int → List Int
  | 0, a => a
  | j + 1, a => shiftUp j (a.set (j + 1) (a.getD j 0))

/-- One pass of the body of the `while` loop of `setPermCoord`: the cells `0..i` are rotated one
step to the right. -/
def rotRight (a : List Int) (i : Nat) : List Int :=
  let last := a.getD i 0
  (shiftUp i a).set 0 last

/-- The loop `while (n_rots-- > 0) { ... }` of `setPermCoord`: it runs `n_rots` times when
`n_rots` is positive and not at all otherwise. -/
def rotRightTimes (n_rots : Int) (a : List Int) (i : Nat) : List Int :=
  Nat.iterate (fun b => rotRight b i) n_rots.toNat a

/-- The body of the loop `for (int i = 1; i < len; i++)` of `setPermCoord` at counter `i`, on the
state `(val, cubies)`. -/
def setPermStep (s : Int × List Int) (i : Nat) : Int × List Int :=
  let n_rots := Int.tmod s.1 ((i + 1 : Nat) : Int)
  (Int.tdiv s.1 ((i + 1 : Nat) : Int), rotRightTimes n_rots s.2 i)

/-- `setPermCoord(val, cubies, len, max_cubie)`: the contents of `cubies[0..len-1]` after the
call.  The first loop overwrites every one of these cells, so the result does not depend on what
the array held before; it starts here as `len` zeros.  The second loop runs over the counters
`1, ..., len - 1`, the list `List.range' 1 (len - 1)`. -/
def setPermCoord (val : Int) (len : Nat) (max_cubie : Int) : List Int :=
  ((List.range' 1 (len - 1)).foldl setPermStep
    (val, fillLabels len max_cubie (List.replicate len 0))).2

/-! ## Orientation rank and unrank (`getOriCoord`, `setOriCoord`) -/

/-- `getOriCoord(oris, len, n_oris)`; `val` is a `Coord`. -/
def getOriCoord (oris : List Int) (len : Nat) (n_oris : Int) : Int :=
  (List.range (len - 1)).foldl (fun val i => toCoord (n_oris * val + oris.getD i 0)) 0

/-- The body of the loop of `setOriCoord` at counter `i`, on the state `(val, oris, parity)`. -/
def setOriStep (n_oris : Int) (i : Nat) (s : Int × List Int × Int) : Int × List Int × Int :=
  let oris := s.2.1.set i (Int.tmod s.1 n_oris)
  (toCoord (Int.tdiv s.1 n_oris), oris, s.2.2 + oris.getD i 0)

/-- `setOriCoord(val, oris, len, n_oris)`: the contents of `oris[0..len-1]` after the call (every
cell is overwritten; the array starts here as `len` zeros).  The parameter `val` is a `Coord`:
the argument is converted at the call.  The loop
`for (int i = len - 2; i >= 0; i--)` visits the counters of `List.range (len - 1)` from the
last to the first, which is the order in which `foldr` applies the body. -/
def setOriCoord (val : Int) (len : Nat) (n_oris : Int) : List Int :=
  let s := (List.range (len - 1)).foldr (setOriStep n_oris)
    (toCoord val, List.replicate len 0, 0)
  s.2.1.set (len - 1) (Int.tmod (n_oris - Int.tmod s.2.2 n_oris) n_oris)

/-! ## Position and permutation rank (`getPosPermCoord`) -/

/-- The body of the `from_left` loop of `getPosPermCoord` at counter `i`, on the state
`(val, j, cubies1)`. -/
def getPosLeftStep (cubies : List Int) (min_cubie max_cubie : Int)
    (s : Int × Nat × List Int) (i : Nat) : Int × Nat × List Int :=
  if min_cubie ≤ cubies.getD i 0 ∧ cubies.getD i 0 ≤ max_cubie then
    (toCoord (s.1 + cnk i (s.2.1 + 1)), s.2.1 + 1, s.2.2.set s.2.1 (cubies.getD i 0))
  else s

/-- The body of the other loop of `getPosPermCoord` at counter `i`, on the state
`(val, j, cubies1)`; here `j` counts down and is an `int`. -/
def getPosRightStep (cubies : List Int) (len len1 : Nat) (min_cubie max_cubie : Int)
    (s : Int × Int × List Int) (i : Nat) : Int × Int × List Int :=
  if min_cubie ≤ cubies.getD i 0 ∧ cubies.getD i 0 ≤ max_cubie then
    (toCoord (s.1 + cnk (len - 1 - i) (s.2.1 + 1).toNat), s.2.1 - 1,
      s.2.2.set ((len1 : Int) - 1 - s.2.1).toNat (cubies.getD i 0))
  else s

/-- The part of `getPosPermCoord` before its `return`: the position value `val` and the
extracted labels `cubies1`.  The local array `cubies1` has `len1` cells and is not initialised
in the source; it starts here as `len1` zeros, and every cell is overwritten when `cubies` holds
exactly `len1` labels of the window. -/
def getPosPart (cubies : List Int) (len : Nat) (min_cubie max_cubie : Int) (from_left : Bool) :
    Int × List Int :=
  let len1 := (max_cubie - min_cubie + 1).toNat
  let cubies1 := List.replicate len1 (0 : Int)
  if from_left then
    let s := (List.range len).foldl (getPosLeftStep cubies min_cubie max_cubie) (0, 0, cubies1)
    (s.1, s.2.2)
  else
    let s := (List.range len).foldl (getPosRightStep cubies len len1 min_cubie max_cubie)
      (0, (len1 : Int) - 1, cubies1)
    (s.1, s.2.2)

/-- `getPosPermCoord(cubies, len, min_cubie, max_cubie, from_left)`; the fuel is that of the
call of `getPermCoord`.  The result is a `Coord`. -/
def getPosPermCoord (fuel : Nat) (cubies : List Int) (len : Nat) (min_cubie max_cubie : Int)
    (from_left : Bool) : Option Int :=
  let len1 := (max_cubie - min_cubie + 1).toNat
  let p := getPosPart cubies len min_cubie max_cubie from_left
  match getPermCoord fuel p.2 len1 max_cubie with
  | none => none
  | some r => some (toCoord (fac len1 * p.1 + r))

/-! ## Position and permutation unrank (`setPosPermCoord`) -/

/-- The body of the `from_left` loop of `setPosPermCoord` at counter `i`, on the state
`(val, j, cubies)`. -/
def setPosLeftStep (cubies1 : List Int) (i : Nat) (s : Int × Int × List Int) :
    Int × Int × List Int :=
  let tmp := cnk i (s.2.1 + 1).toNat
  if s.1 - tmp ≥ 0 then
    (toCoord (s.1 - tmp), s.2.1 - 1, s.2.2.set i (cubies1.getD s.2.1.toNat 0))
  else
    (s.1, s.2.1, s.2.2.set i (-1))

/-- The body of the other loop of `setPosPermCoord` at counter `i`, on the state
`(val, j, cubies)`. -/
def setPosRightStep (cubies1 : List Int) (len len1 : Nat) (s : Int × Int × List Int) (i : Nat) :
    Int × Int × List Int :=
  let tmp := cnk (len - 1 - i) (s.2.1 + 1).toNat
  if s.1 - tmp ≥ 0 then
    (toCoord (s.1 - tmp), s.2.1 - 1,
      s.2.2.set i (cubies1.getD ((len1 : Int) - 1 - s.2.1).toNat 0))
  else
    (s.1, s.2.1, s.2.2.set i (-1))

/-- The body of the last loop of `setPosPermCoord` at counter `i`, on the state
`(cubie, cubies)`. -/
def fillStep (min_cubie max_cubie : Int) (s : Int × List Int) (i : Nat) : Int × List Int :=
  let cubie := if s.1 = min_cubie then max_cubie + 1 else s.1
  if s.2.getD i 0 = -1 then (cubie + 1, s.2.set i cubie) else (cubie, s.2)

/-- `setPosPermCoord(val, cubies, len, min_cubie, max_cubie, from_left)`: the contents of
`cubies[0..len-1]` after the call (every cell is overwritten by the placement loop; the array
starts here as `len` zeros).  The parameter `val` is a `Coord`: the argument is converted at the
call, `val0` below.  The `from_left` loop counts `i` down from `len - 1`, which is the order in
which `foldr` applies the body over `List.range len`. -/
def setPosPermCoord (val : Int) (len : Nat) (min_cubie max_cubie : Int) (from_left : Bool) :
    List Int :=
  let val0 := toCoord val
  let len1 := (max_cubie - min_cubie + 1).toNat
  let cubies1 := setPermCoord (Int.tmod val0 (fac len1)) len1 max_cubie
  let val1 := toCoord (Int.tdiv val0 (fac len1))
  let j : Int := (len1 : Int) - 1
  let cubies := List.replicate len (0 : Int)
  let placed :=
    if from_left then
      ((List.range len).foldr (setPosLeftStep cubies1) (val1, j, cubies)).2.2
    else
      ((List.range len).foldl (setPosRightStep cubies1 len len1) (val1, j, cubies)).2.2
  ((List.range len).foldl (fillStep min_cubie max_cubie) (0, placed)).2

/-! ## Cubes, moves and the coordinates of a cube (`cubie.h`, `moves.h`, `coord.cc`) -/

/-- Modelled from the spec: the cube state of `cubie.h` (not among the sources), four sequences:
the corner permutation (8 labels `0..7`), the edge permutation (12 labels `0..11`), the corner
orientation (8 values in `0..2`) and the edge orientation (12 values in `0..1`), in the order of
the initialisers of `moves.h`. -/
structure CubieCube where
  cp : List Int
  ep : List Int
  co : List Int
  eo : List Int
  deriving DecidableEq

/-- Modelled from the spec: the solved cube of `cubie.h` (not among the sources), the identity
of the composition. -/
def kSolvedCube : CubieCube :=
  { cp := [0, 1, 2, 3, 4, 5, 6, 7], ep := [0, 1, 2, 3, 4, 5, 6, 7, 8, 9, 10, 11],
    co := [0, 0, 0, 0, 0, 0, 0, 0], eo := [0, 0, 0, 0, 0, 0, 0, 0, 0, 0, 0, 0] }

/-- `N_MOVES` of `moves.h`, without `FACES5`. -/
def N_MOVES : Nat := 18

/-- `kInvMove` of `moves.h`, with `U1 = 0, U2 = 1, U3 = 2, R1 = 3, ..., B3 = 17`. -/
def kInvMove : List Nat :=
  [2, 1, 0, 5, 4, 3, 8, 7, 6, 11, 10, 9, 14, 13, 12, 17, 16, 15]

/-- `kUCube` of `moves.h`, with the corners numbered `URF, UFL, ULB, UBR, DFR, DLF, DBL, DRB`
and the edges numbered `UR, UF, UL, UB, DR, DF, DL, DB, FR, FL, BL, BR` from `0` (the
enumerations of `cubie.h`, which is not among the sources); an empty initialiser `{}` is an
array of zeros. -/
def kUCube : CubieCube :=
  { cp := [3, 0, 1, 2, 4, 5, 6, 7], ep := [3, 0, 1, 2, 4, 5, 6, 7, 8, 9, 10, 11],
    co := [0, 0, 0, 0, 0, 0, 0, 0], eo := [0, 0, 0, 0, 0, 0, 0, 0, 0, 0, 0, 0] }

/-- `kRCube` of `moves.h`. -/
def kRCube : CubieCube :=
  { cp := [4, 1, 2, 0, 7, 5, 6, 3], ep := [8, 1, 2, 3, 11, 5, 6, 7, 4, 9, 10, 0],
    co := [2, 0, 0, 1, 1, 0, 0, 2], eo := [0, 0, 0, 0, 0, 0, 0, 0, 0, 0, 0, 0] }

/-- `kFCube` of `moves.h`. -/
def kFCube : CubieCube :=
  { cp := [1, 5, 2, 3, 0, 4, 6, 7], ep := [0, 9, 2, 3, 4, 8, 6, 7, 1, 5, 10, 11],
    co := [1, 2, 0, 0, 2, 1, 0, 0], eo := [0, 1, 0, 0, 0, 1, 0, 0, 1, 1, 0, 0] }

/-- `kDCube` of `moves.h`. -/
def kDCube : CubieCube :=
  { cp := [0, 1, 2, 3, 5, 6, 7, 4], ep := [0, 1, 2, 3, 5, 6, 7, 4, 8, 9, 10, 11],
    co := [0, 0, 0, 0, 0, 0, 0, 0], eo := [0, 0, 0, 0, 0, 0, 0, 0, 0, 0, 0, 0] }

/-- `kLCube` of `moves.h`. -/
def kLCube : CubieCube :=
  { cp := [0, 2, 6, 3, 4, 1, 5, 7], ep := [0, 1, 10, 3, 4, 5, 9, 7, 8, 2, 6, 11],
    co := [0, 1, 2, 0, 0, 2, 1, 0], eo := [0, 0, 0, 0, 0, 0, 0, 0, 0, 0, 0, 0] }

/-- `kBCube` of `moves.h`. -/
def kBCube : CubieCube :=
  { cp := [0, 1, 3, 7, 4, 5, 2, 6], ep := [0, 1, 2, 11, 4, 5, 6, 10, 8, 9, 3, 7],
    co := [0, 0, 1, 2, 0, 0, 2, 1], eo := [0, 0, 0, 1, 0, 0, 0, 1, 0, 0, 1, 1] }

/-- Modelled from the spec: `N_CORNERS` of `cubie.h` (not among the sources). -/
def N_CORNERS : Nat := 8

/-- Modelled from the spec: `N_EDGES` of `cubie.h` (not among the sources). -/
def N_EDGES : Nat := 12

/-- Modelled from the spec: the edge label `UR` of `cubie.h` (not among the sources); the edges
are numbered `UR, UF, UL, UB, DR, DF, DL, DB, FR, FL, BL, BR` from `0`. -/
def UR : Int := 0

/-- Modelled from the spec: the edge label `UB` of `cubie.h`. -/
def UB : Int := 3

/-- Modelled from the spec: the edge label `DR` of `cubie.h`. -/
def DR : Int := 4

/-- Modelled from the spec: the edge label `DB` of `cubie.h`. -/
def DB : Int := 7

/-- Modelled from the spec: the edge label `FR` of `cubie.h`. -/
def FR : Int := 8

/-- Modelled from the spec: the edge label `BR` of `cubie.h`. -/
def BR : Int := 11

/-- Modelled from the spec: `N_TWIST` of `coord.h` (not among the sources), `3^7`. -/
def N_TWIST : Nat := 2187

/-- Modelled from the spec: `N_FLIP` of `coord.h` (not among the sources), `2^11`. -/
def N_FLIP : Nat := 2048

/-- Modelled from the spec: `N_SSLICE` of `coord.h` (not among the sources),
`choose(12,4) * 4!`. -/
def N_SSLICE : Nat := 11880

/-- Modelled from the spec: `N_UEDGES` of `coord.h` (not among the sources). -/
def N_UEDGES : Nat := 11880

/-- Modelled from the spec: `N_DEDGES` of `coord.h` (not among the sources). -/
def N_DEDGES : Nat := 11880

/-- Modelled from the spec: `N_CORNERS_C` of `coord.h` (not among the sources), `8!`. -/
def N_CORNERS_C : Nat := 40320

/-- `getTwist(cube)`. -/
def getTwist (cube : CubieCube) : Int := getOriCoord cube.co N_CORNERS 3

/-- `getFlip(cube)`. -/
def getFlip (cube : CubieCube) : Int := getOriCoord cube.eo N_EDGES 2

/-- `getSSlice(cube)`. -/
def getSSlice (fuel : Nat) (cube : CubieCube) : Option Int :=
  getPosPermCoord fuel cube.ep N_EDGES FR BR false

/-- `getUEdges(cube)`. -/
def getUEdges (fuel : Nat) (cube : CubieCube) : Option Int :=
  getPosPermCoord fuel cube.ep N_EDGES UR UB true

/-- `getDEdges(cube)`. -/
def getDEdges (fuel : Nat) (cube : CubieCube) : Option Int :=
  getPosPermCoord fuel cube.ep N_EDGES DR DB true

/-- `getCorners(cube)`. -/
def getCorners (fuel : Nat) (cube : CubieCube) : Option Int :=
  getPermCoord fuel cube.cp N_CORNERS ((N_CORNERS : Int) - 1)

/-- `setTwist(cube, twist)`: the call writes all the cells of `cube.co`. -/
def setTwist (cube : CubieCube) (twist : Int) : CubieCube :=
  { cube with co := setOriCoord twist N_CORNERS 3 }

/-- `setFlip(cube, flip)`: the call writes all the cells of `cube.eo`. -/
def setFlip (cube : CubieCube) (flip : Int) : CubieCube :=
  { cube with eo := setOriCoord flip N_EDGES 2 }

/-- `setSSlice(cube, sslice)`: the call writes all the cells of `cube.ep`. -/
def setSSlice (cube : CubieCube) (sslice : Int) : CubieCube :=
  { cube with ep := setPosPermCoord sslice N_EDGES FR BR false }

/-- `setUEdges(cube, uedges)`: the call writes all the cells of `cube.ep`. -/
def setUEdges (cube : CubieCube) (uedges : Int) : CubieCube :=
  { cube with ep := setPosPermCoord uedges N_EDGES UR UB true }

/-- `setDEdges(cube, dedges)`: the call writes all the cells of `cube.ep`. -/
def setDEdges (cube : CubieCube) (dedges : Int) : CubieCube :=
  { cube with ep := setPosPermCoord dedges N_EDGES DR DB true }

/-- `setCorners(cube, corners)`: the call writes all the cells of `cube.cp`; the parameter
`corners` is a `Coord`. -/
def setCorners (cube : CubieCube) (corners : Int) : CubieCube :=
  { cube with cp := setPermCoord (toCoord corners) N_CORNERS ((N_CORNERS : Int) - 1) }

/-! ## The move table builder (`initMoveCoord`)

The functions `getCoord`, `setCoord` and `mul` are the function pointers of the source.  `mul`
takes the two factors and the previous contents of the cube it writes to.  `move_cubes` is the
table of `moves.cc`, which is not among the sources; it is a parameter.  A table is the list of
its rows; rows and cells are written once each, in increasing index order, and are appended
here.  A cell holds what the call of `getCoord` returned, `none` when it did not return. -/

/-- The body of the loop `for (int m = 0; m < N_MOVES; m++)` of `initMoveCoord` at counter `m`,
on the state `(cube2, row)`. -/
def moveRowStep (getCoord : CubieCube → Option Int)
    (mul : CubieCube → CubieCube → CubieCube → CubieCube) (move_cubes : Nat → CubieCube)
    (cube1 : CubieCube) (s : CubieCube × List (Option Int)) (m : Nat) :
    CubieCube × List (Option Int) :=
  let cube2 := mul cube1 (move_cubes m) s.1
  (cube2, s.2 ++ [getCoord cube2])

/-- The body of the loop `for (Coord c = 0; c < n_coords; c++)` of `initMoveCoord` at counter
`c`, on the state `(cube1, cube2, coord_move1)`. -/
def moveTableStep (getCoord : CubieCube → Option Int) (setCoord : CubieCube → Int → CubieCube)
    (mul : CubieCube → CubieCube → CubieCube → CubieCube) (move_cubes : Nat → CubieCube)
    (s : CubieCube × CubieCube × List (List (Option Int))) (c : Nat) :
    CubieCube × CubieCube × List (List (Option Int)) :=
  let cube1 := setCoord s.1 (c : Int)
  let r := (List.range N_MOVES).foldl (moveRowStep getCoord mul move_cubes cube1) (s.2.1, [])
  (cube1, r.1, s.2.2 ++ [r.2])

/-- `initMoveCoord(coord_move, n_coords, getCoord, setCoord, mul)`: the table stored in
`*coord_move`.  The local `cube2` is not initialised in the source; its first contents are the
parameter `cube2`. -/
def initMoveCoord (n_coords : Nat) (getCoord : CubieCube → Option Int)
    (setCoord : CubieCube → Int → CubieCube)
    (mul : CubieCube → CubieCube → CubieCube → CubieCube) (move_cubes : Nat → CubieCube)
    (cube2 : CubieCube) : List (List (Option Int)) :=
  ((List.range n_coords).foldl (moveTableStep getCoord setCoord mul move_cubes)
    (kSolvedCube, cube2, [])).2.2

/-- `initTwistMove()`: the table `twist_move`. -/
def initTwistMove (mulCorners : CubieCube → CubieCube → CubieCube → CubieCube)
    (move_cubes : Nat → CubieCube) (cube2 : CubieCube) : List (List (Option Int)) :=
  initMoveCoord N_TWIST (fun cube => some (getTwist cube)) setTwist mulCorners move_cubes cube2

/-- `initFlipMove()`: the table `flip_move`. -/
def initFlipMove (mulEdges : CubieCube → CubieCube → CubieCube → CubieCube)
    (move_cubes : Nat → CubieCube) (cube2 : CubieCube) : List (List (Option Int)) :=
  initMoveCoord N_FLIP (fun cube => some (getFlip cube)) setFlip mulEdges move_cubes cube2

/-- `initSSliceMove()`: the table `sslice_move`. -/
def initSSliceMove (fuel : Nat) (mulEdges : CubieCube → CubieCube → CubieCube → CubieCube)
    (move_cubes : Nat → CubieCube) (cube2 : CubieCube) : List (List (Option Int)) :=
  initMoveCoord N_SSLICE (getSSlice fuel) setSSlice mulEdges move_cubes cube2

/-- `initUEdgesMove()`: the table `uedges_move`. -/
def initUEdgesMove (fuel : Nat) (mulEdges : CubieCube → CubieCube → CubieCube → CubieCube)
    (move_cubes : Nat → CubieCube) (cube2 : CubieCube) : List (List (Option Int)) :=
  initMoveCoord N_UEDGES (getUEdges fuel) setUEdges mulEdges move_cubes cube2

/-- `initDEdgesMove()`: the table `dedges_move`. -/
def initDEdgesMove (fuel : Nat) (mulEdges : CubieCube → CubieCube → CubieCube → CubieCube)
    (move_cubes : Nat → CubieCube) (cube2 : CubieCube) : List (List (Option Int)) :=
  initMoveCoord N_DEDGES (getDEdges fuel) setDEdges mulEdges move_cubes cube2

/-- `initCornersMove()`: the table `corners_move`. -/
def initCornersMove (fuel : Nat) (mulCorners : CubieCube → CubieCube → CubieCube → CubieCube)
    (move_cubes : Nat → CubieCube) (cube2 : CubieCube) : List (List (Option Int)) :=
  initMoveCoord N_CORNERS_C (getCorners fuel) setCorners mulCorners move_cubes cube2

/-- The cell `table[c][m]` of a move table. -/
def tableEntry (table : List (List (Option Int))) (c : Int) (m : Nat) : Option Int :=
  (table.getD c.toNat []).getD m none

/-! ## Vocabulary of the statements -/

/-- The labels `max_cubie - len + 1, ..., max_cubie` in ascending order. -/
def labelRange (len : Nat) (max_cubie : Int) : List Int :=
  (List.range len).map (fun (t : Nat) => max_cubie - (len : Int) + 1 + (t : Int))

/-- Cell-wise composition of two permutations of `n` cells: cell `i` of the product holds
`a[b[i]]`. -/
def composePerm (a b : List Int) (n : Nat) : List Int :=
  (List.range n).map (fun i => a.getD (b.getD i 0).toNat 0)

/-- Cell-wise composition of the orientations of two cubes, with `bp` the permutation of the
right factor: cell `i` of the product holds `(ao[bp[i]] + bo[i]) % base`. -/
def composeOri (ao bp bo : List Int) (n : Nat) (base : Int) : List Int :=
  (List.range n).map (fun i => Int.tmod (ao.getD (bp.getD i 0).toNat 0 + bo.getD i 0) base)

/-- An orientation sequence of `n` cells over `base`: every cell lies in `[0, base)` and the
cells sum to `0` modulo `base`. -/
def OriValid (x : List Int) (n : Nat) (base : Int) : Prop :=
  x.length = n ∧ (∀ d ∈ x, 0 ≤ d ∧ d < base) ∧ x.sum % base = 0

instance (x : List Int) (n : Nat) (base : Int) : Decidable (OriValid x n base) := by
  unfold OriValid
  infer_instance

/-- A cube whose permutations are bijections on their labels and whose orientations satisfy the
sum constraints. -/
def ValidCube (cube : CubieCube) : Prop :=
  cube.cp.Perm (labelRange N_CORNERS ((N_CORNERS : Int) - 1)) ∧
  cube.ep.Perm (labelRange N_EDGES ((N_EDGES : Int) - 1)) ∧
  OriValid cube.co N_CORNERS 3 ∧ OriValid cube.eo N_EDGES 2

instance (cube : CubieCube) : Decidable (ValidCube cube) := by
  unfold ValidCube
  infer_instance

/-- Cell-wise composition of two cubes: the permutations compose and the orientations add
along the permutation of the right factor. -/
def composeCube (a b : CubieCube) : CubieCube :=
  { cp := composePerm a.cp b.cp N_CORNERS, ep := composePerm a.ep b.ep N_EDGES,
    co := composeOri a.co b.cp b.co N_CORNERS 3, eo := composeOri a.eo b.ep b.eo N_EDGES 2 }

/-- A corner multiplication that writes the cell-wise product of the corners and leaves the edges
of the written cube as they were. -/
def cellwiseMulCorners (a b old : CubieCube) : CubieCube :=
  { old with cp := (composeCube a b).cp, co := (composeCube a b).co }

/-- An edge multiplication that writes the cell-wise product of the edges and leaves the corners
of the written cube as they were. -/
def cellwiseMulEdges (a b old : CubieCube) : CubieCube :=
  { old with ep := (composeCube a b).ep, eo := (composeCube a b).eo }

/-- A table of the 18 moves: the first, second and third powers of the six cubes of `moves.h`,
in the order of the move numbers `U1, U2, U3, R1, ..., B3`. -/
def powerMoves (m : Nat) : CubieCube :=
  let base := [kUCube, kRCube, kFCube, kDCube, kLCube, kBCube].getD (m / 3) kSolvedCube
  match m % 3 with
  | 0 => base
  | 1 => composeCube base base
  | _ => composeCube (composeCube base base) base

/-- Whether a label lies in the window `min_cubie..max_cubie`. -/
def inWindow (min_cubie max_cubie : Int) (x : Int) : Bool :=
  decide (min_cubie ≤ x ∧ x ≤ max_cubie)

/-! ## The rank and unrank functions over the unbounded integers

The loops of the rank and unrank functions with every conversion to `Coord` left out.  None of
these functions is part of the embedding; the proofs compare the functions of the embedding with
them. -/

/-- The loop of `getPermLoop` without the conversion of `val`. -/
def getPermLoopZ (fuel : Nat) : Nat → List Int → Int → Int → Option Int
  | 0, _, _, val => some val
  | i + 1, cubies1, max_cubie, val =>
    match rotateUntil fuel cubies1 (i + 1) max_cubie 0 with
    | none => none
    | some (cubies2, n_rots) =>
      getPermLoopZ fuel i cubies2 (max_cubie - 1) ((val + n_rots) * ((i + 1 : Nat) : Int))

/-- The function `getPermCoord` without the conversion of `val`. -/
def getPermCoordZ (fuel : Nat) (cubies : List Int) (len : Nat) (max_cubie : Int) : Option Int :=
  getPermLoopZ fuel (len - 1) (cubies.take len) max_cubie 0

/-- The function `getOriCoord` without the conversion of `val`. -/
def getOriCoordZ (oris : List Int) (len : Nat) (n_oris : Int) : Int :=
  (List.range (len - 1)).foldl (fun val i => n_oris * val + oris.getD i 0) 0

/-- The step `setOriStep` without the conversion of `val`. -/
def setOriStepZ (n_oris : Int) (i : Nat) (s : Int × List Int × Int) : Int × List Int × Int :=
  let oris := s.2.1.set i (Int.tmod s.1 n_oris)
  (Int.tdiv s.1 n_oris, oris, s.2.2 + oris.getD i 0)

/-- The function `setOriCoord` without the conversion of `val`. -/
def setOriCoordZ (val : Int) (len : Nat) (n_oris : Int) : List Int :=
  let s := (List.range (len - 1)).foldr (setOriStepZ n_oris) (val, List.replicate len 0, 0)
  s.2.1.set (len - 1) (Int.tmod (n_oris - Int.tmod s.2.2 n_oris) n_oris)

/-- The step `getPosLeftStep` without the conversion of `val`. -/
def getPosLeftStepZ (cubies : List Int) (min_cubie max_cubie : Int)
    (s : Int × Nat × List Int) (i : Nat) : Int × Nat × List Int :=
  if min_cubie ≤ cubies.getD i 0 ∧ cubies.getD i 0 ≤ max_cubie then
    (s.1 + cnk i (s.2.1 + 1), s.2.1 + 1, s.2.2.set s.2.1 (cubies.getD i 0))
  else s

/-- The step `getPosRightStep` without the conversion of `val`. -/
def getPosRightStepZ (cubies : List Int) (len len1 : Nat) (min_cubie max_cubie : Int)
    (s : Int × Int × List Int) (i : Nat) : Int × Int × List Int :=
  if min_cubie ≤ cubies.getD i 0 ∧ cubies.getD i 0 ≤ max_cubie then
    (s.1 + cnk (len - 1 - i) (s.2.1 + 1).toNat, s.2.1 - 1,
      s.2.2.set ((len1 : Int) - 1 - s.2.1).toNat (cubies.getD i 0))
  else s

/-- The function `getPosPart` without the conversion of `val`. -/
def getPosPartZ (cubies : List Int) (len : Nat) (min_cubie max_cubie : Int) (from_left : Bool) :
    Int × List Int :=
  let len1 := (max_cubie - min_cubie + 1).toNat
  let cubies1 := List.replicate len1 (0 : Int)
  if from_left then
    let s := (List.range len).foldl (getPosLeftStepZ cubies min_cubie max_cubie) (0, 0, cubies1)
    (s.1, s.2.2)
  else
    let s := (List.range len).foldl (getPosRightStepZ cubies len len1 min_cubie max_cubie)
      (0, (len1 : Int) - 1, cubies1)
    (s.1, s.2.2)

/-- The function `getPosPermCoord` without the conversions. -/
def getPosPermCoordZ (fuel : Nat) (cubies : List Int) (len : Nat) (min_cubie max_cubie : Int)
    (from_left : Bool) : Option Int :=
  let len1 := (max_cubie - min_cubie + 1).toNat
  let p := getPosPartZ cubies len min_cubie max_cubie from_left
  match getPermCoordZ fuel p.2 len1 max_cubie with
  | none => none
  | some r => some (fac len1 * p.1 + r)

/-- The step `setPosLeftStep` without the conversion of `val`. -/
def setPosLeftStepZ (cubies1 : List Int) (i : Nat) (s : Int × Int × List Int) :
    Int × Int × List Int :=
  let tmp := cnk i (s.2.1 + 1).toNat
  if s.1 - tmp ≥ 0 then
    (s.1 - tmp, s.2.1 - 1, s.2.2.set i (cubies1.getD s.2.1.toNat 0))
  else
    (s.1, s.2.1, s.2.2.set i (-1))

/-- The step `setPosRightStep` without the conversion of `val`. -/
def setPosRightStepZ (cubies1 : List Int) (len len1 : Nat) (s : Int × Int × List Int) (i : Nat) :
    Int × Int × List Int :=
  let tmp := cnk (len - 1 - i) (s.2.1 + 1).toNat
  if s.1 - tmp ≥ 0 then
    (s.1 - tmp, s.2.1 - 1, s.2.2.set i (cubies1.getD ((len1 : Int) - 1 - s.2.1).toNat 0))
  else
    (s.1, s.2.1, s.2.2.set i (-1))

/-- The function `setPosPermCoord` without the conversions of `val`. -/
def setPosPermCoordZ (val : Int) (len : Nat) (min_cubie max_cubie : Int) (from_left : Bool) :
    List Int :=
  let len1 := (max_cubie - min_cubie + 1).toNat
  let cubies1 := setPermCoord (Int.tmod val (fac len1)) len1 max_cubie
  let val1 := Int.tdiv val (fac len1)
  let j : Int := (len1 : Int) - 1
  let cubies := List.replicate len (0 : Int)
  let placed :=
    if from_left then
      ((List.range len).foldr (setPosLeftStepZ cubies1) (val1, j, cubies)).2.2
    else
      ((List.range len).foldl (setPosRightStepZ cubies1 len len1) (val1, j, cubies)).2.2
  ((List.range len).foldl (fillStep min_cubie max_cubie) (0, placed)).2

/-! ## Auxiliary functions of the proofs

The loops of `getPosPermCoord` and `setPosPermCoord` are compared with the following functions
on lists; none of them is part of the embedding. -/

/-- The position value of a mask (`true` marks a cell that holds a label of the window), scanned
from the first cell: a marked cell followed by `n` cells, `r` of them marked, adds
`binomial(n, r + 1)`. -/
def posRank : List Bool → Nat
  | [] => 0
  | b :: m => (if b then Nat.choose m.length (m.count true + 1) else 0) + posRank m

/-- The mask of `n` cells with `r` marks that the placement loops of `setPosPermCoord` rebuild from
a position value. -/
def posUnrank : Nat → Nat → Nat → List Bool
  | 0, _, _ => []
  | n + 1, r, val =>
    if Nat.choose n r ≤ val then true :: posUnrank n (r - 1) (val - Nat.choose n r)
    else false :: posUnrank n r val

/-- The cells after the placement loop: the marked cells take the labels of `xs` in order, the
others hold `-1`. -/
def place : List Bool → List Int → List Int
  | [], _ => []
  | true :: m, xs => xs.headD 0 :: place m xs.tail
  | false :: m, xs => -1 :: place m xs

/-- The last loop of `setPosPermCoord` as a function on the list of cells, entered with
`cubie = c`. -/
def fillAbs (min_cubie max_cubie : Int) : Int → List Int → List Int
  | _, [] => []
  | c, x :: y =>
    let c1 := if c = min_cubie then max_cubie + 1 else c
    if x = -1 then c1 :: fillAbs min_cubie max_cubie (c1 + 1) y
    else x :: fillAbs min_cubie max_cubie c1 y

/-- The first `u` labels that the last loop of `setPosPermCoord` hands out when entered with
`cubie = c`. -/
def fillLabelsFrom (min_cubie max_cubie : Int) : Int → Nat → List Int
  | _, 0 => []
  | c, u + 1 =>
    let c1 := if c = min_cubie then max_cubie + 1 else c
    c1 :: fillLabelsFrom min_cubie max_cubie (c1 + 1) u

/-- A cell after the placement loop, for a cell that held `x` before ranking: the label itself
when it lies in the window, the marker `-1` otherwise. -/
def markOutside (min_cubie max_cubie : Int) (x : Int) : Int :=
  if inWindow min_cubie max_cubie x then x else -1

/-! ## The slice coordinate (`getSlice`, `setSlice`) -/

/-- The body of the loop of `getSlice` at counter `i`, on the state `(val, j)`. -/
def getSliceStep (ep : List Int) (s : Int × Int) (i : Nat) : Int × Int :=
  if FR ≤ ep.getD i 0 ∧ ep.getD i 0 ≤ BR then
    (toCoord (s.1 + cnk (N_EDGES - 1 - i) (s.2 + 1).toNat), s.2 - 1)
  else s

/-- `getSlice(cube)`. -/
def getSlice (cube : CubieCube) : Int :=
  ((List.range N_EDGES).foldl (getSliceStep cube.ep) (0, 3)).1

/-- The body of the loop of `setSlice` at counter `i`, on the state `(slice, j, ep)`. -/
def setSliceStep (s : Int × Int × List Int) (i : Nat) : Int × Int × List Int :=
  let tmp := cnk (N_EDGES - 1 - i) (s.2.1 + 1).toNat
  if s.1 - tmp ≥ 0 then
    (toCoord (s.1 - tmp), s.2.1 - 1, s.2.2.set i (FR + s.2.1))
  else
    (s.1, s.2.1, s.2.2.set i ((i : Int) - (3 - s.2.1)))

/-- `setSlice(cube, slice)`: the call writes all the cells of `cube.ep`, which start here as
zeros; the parameter `slice` is a `Coord`. -/
def setSlice (cube : CubieCube) (slice : Int) : CubieCube :=
  { cube with
    ep := ((List.range N_EDGES).foldl setSliceStep
      (toCoord slice, 3, List.replicate N_EDGES 0)).2.2 }

/-! ## The merge table of the U and D edges (`setUDEdges`, `initMergeUDEdges`) -/

/-- Modelled from the spec: `N_UDEDGES2` of `coord.h` (not among the sources), `8!`. -/
def N_UDEDGES2 : Nat := 40320

/-- Modelled from the spec: `N_4EDGES2` of `coord.h` (not among the sources), the number of rows
of `merge_udedges`, `choose(8,4) * 4!`. -/
def N_4EDGES2 : Nat := 1680

/-- `setUDEdges(cube, udedges)`: `setPermCoord` writes the cells `0..7` of `cube.ep` and the loop
writes the cells `8..11`, so all the cells are written; the last four start here as zeros.  The
parameter `udedges` is a `Coord`. -/
def setUDEdges (cube : CubieCube) (udedges : Int) : CubieCube :=
  { cube with
    ep := (List.range' (N_EDGES - 4) 4).foldl (fun ep i => ep.set i (i : Int))
      (setPermCoord (toCoord udedges) (N_EDGES - 4) DB ++ List.replicate 4 0) }

/-- The body of the loop `for (int i = 0; i < 8; i++)` of `initMergeUDEdges` at counter `i`, on
the state `(j, dedges)`. -/
def mergeDedgesStep (ep : List Int) (s : Nat × List Int) (i : Nat) : Nat × List Int :=
  if DR ≤ ep.getD i 0 ∧ ep.getD i 0 ≤ DB then (s.1 + 1, s.2.set s.1 (ep.getD i 0)) else s

/-- One pass of the loop over `c` of `initMergeUDEdges`: the cube after `setUDEdges(cube, c)` and
the two indices `getUEdges(cube)`, `getPermCoord(dedges, 4, DB)` of the cell that is written.
The local array `dedges` has four cells, which start here as zeros. -/
def mergeIndex (fuel : Nat) (cube : CubieCube) (c : Int) : CubieCube × Option Int × Option Int :=
  let cube1 := setUDEdges cube c
  let dedges := ((List.range 8).foldl (mergeDedgesStep cube1.ep) (0, List.replicate 4 0)).2
  (cube1, getUEdges fuel cube1, getPermCoord fuel dedges 4 DB)

/-- The body of the loop over `c` of `initMergeUDEdges`, on the state `(cube, writes)`: the write
`merge_udedges[row][column] = c` is recorded as `(row, column, c)`. -/
def mergeStep (fuel : Nat) (s : CubieCube × List (Option Int × Option Int × Int)) (c : Nat) :
    CubieCube × List (Option Int × Option Int × Int) :=
  let r := mergeIndex fuel s.1 (c : Int)
  (r.1, s.2 ++ [(r.2.1, r.2.2, (c : Int))])

/-- `initMergeUDEdges()`: the writes `merge_udedges[row][column] = c` in the order in which the
loop performs them.  The local `cube` is not initialised in the source and is a parameter
here. -/
def initMergeUDEdges (fuel : Nat) (cube : CubieCube) : List (Option Int × Option Int × Int) :=
  ((List.range N_UDEDGES2).foldl (mergeStep fuel) (cube, [])).2

/-! ## The symmetries (`initSym`)

`sym.cc` composes cubes with `mul` of `cubie.h` and starts from the cubes `kLR2Cube`, `kF2Cube`,
`kU4Cube`, `kURF3Cube`; none of them is among the sources, so the composition and the four
generators are parameters, over any type `α` of cubes (`α` is `CubieCube` in the source).  A call
`mul(a, b, tmp); std::swap(tmp, cube);` leaves the product of `a` and `b` in `cube`. -/

/-- Modelled from the spec: `N_SYMS` of `sym.h` (not among the sources), the 48 symmetries. -/
def N_SYMS : Nat := 48

/-- The body of the first loop of `initSym` at counter `i`, on the state `(cube, sym_cubes)`;
`sym_cubes[i] = cube` appends to the cells written so far. -/
def symCubesStep {α : Type} (mul : α → α → α) (lr2 f2 u4 urf3 : α) (s : α × List α) (i : Nat) :
    α × List α :=
  let cube := mul s.1 lr2
  let cube := if i % 2 = 1 then mul cube f2 else cube
  let cube := if i % 4 = 3 then mul cube u4 else cube
  let cube := if i % 16 = 15 then mul cube urf3 else cube
  (cube, s.2 ++ [s.1])

/-- The first loop of `initSym`: the cells `sym_cubes[0..N_SYMS-1]`, with `solved` for
`kSolvedCube` and `lr2`, `f2`, `u4`, `urf3` for the four generators. -/
def initSymCubes {α : Type} (mul : α → α → α) (solved lr2 f2 u4 urf3 : α) : List α :=
  ((List.range N_SYMS).foldl (symCubesStep mul lr2 f2 u4 urf3) (solved, [])).2

/-- The loop `for (int conj = 0; conj < N_MOVES; conj++) if (cube == move_cubes[conj]) { ...;
break; }` of `initSym`, entered at counter `conj` with `n` passes left: the index at which the
loop breaks, if it does. -/
def findConj {α : Type} [DecidableEq α] (move_cubes : Nat → α) (cube : α) : Nat → Nat → Option Nat
  | 0, _ => none
  | n + 1, conj =>
    if cube = move_cubes conj then some conj else findConj move_cubes cube n (conj + 1)

/-- The write `conj_move[m][s] = conj` on the table `int conj_move[N_MOVES][N_SYMS]`, a list of
rows.  A write outside the declared cells is undefined in the source; here it leaves the table
as it is. -/
def writeCell (table : List (List Int)) (m s : Nat) (conj : Int) : List (List Int) :=
  table.set m ((table.getD m []).set s conj)

/-- The body of the loop over `s` in the third block of `initSym` at counters `m` and `s`, on the
table `conj_move`.  The tables `sym_cubes`, `inv_sym` (as the earlier blocks left them) and
`move_cubes` are parameters, each a function of the index. -/
def conjMoveStep {α : Type} [DecidableEq α] (mul : α → α → α) (sym_cubes : Nat → α)
    (inv_sym : Nat → Nat) (move_cubes : Nat → α) (m : Nat) (table : List (List Int)) (s : Nat) :
    List (List Int) :=
  let tmp := mul (sym_cubes s) (move_cubes m)
  let cube := mul tmp (sym_cubes (inv_sym s))
  match findConj move_cubes cube N_MOVES 0 with
  | some conj => writeCell table m s (conj : Int)
  | none => table

/-- The third block of `initSym`: the table `conj_move` after the loops.  The table is a global
array and starts as zeros; `N_DOUBLE2` (not among the sources) is a parameter. -/
def initConjMove {α : Type} [DecidableEq α] (N_DOUBLE2 : Nat) (mul : α → α → α)
    (sym_cubes : Nat → α) (inv_sym : Nat → Nat) (move_cubes : Nat → α) : List (List Int) :=
  (List.range (N_MOVES + N_DOUBLE2)).foldl
    (fun table m =>
      (List.range N_SYMS).foldl (conjMoveStep mul sym_cubes inv_sym move_cubes m) table)
    (List.replicate N_MOVES (List.replicate N_SYMS 0))

/-! ## The symmetry classes (`initCPermTables`, `initFSliceTables`)

The two functions use constants, macros and functions of `sym.h`, `coord.h` and `cubie.h` that
are not among the sources; they are the fields of `SymEnv`.  A call `mulCorners(a, b, out)` or
`mulEdges(a, b, out)` is modelled by the function that gives the cube which `getCPerm` or
`getFSlice` reads from `out` afterwards.  The tables `cperm_sym`, `cperm_raw`, `cperm_selfs`
(and the three of the other function) are allocated with `new`; a table is modelled by the
function from the index to the cell, a write with `writeAt`. -/

/-- `EMPTY` of `sym.cc`, `~uint32_t(0)`. -/
def EMPTY : Nat := 4294967295

/-- Modelled from the spec: the macro `SYMCOORD(cls, s)` of `sym.h` (not among the sources),
`class * K + symmetry` with `K = N_SYMS_SUB`. -/
def SYMCOORD (N_SYMS_SUB cls s : Nat) : Nat := cls * N_SYMS_SUB + s

/-- The parts of `sym.h`, `coord.h` and `cubie.h` that `initCPermTables` and `initFSliceTables`
use and that are not among the sources; `sym_cubes` and `inv_sym` are the tables that `initSym`
has filled. -/
structure SymEnv where
  N_SYMS_SUB : Nat
  sym_cubes : Nat → CubieCube
  inv_sym : Nat → Nat
  mulCorners : CubieCube → CubieCube → CubieCube
  mulEdges : CubieCube → CubieCube → CubieCube
  N_CPERM : Nat
  setCPerm : CubieCube → Nat → CubieCube
  getCPerm : CubieCube → Nat
  N_SLICE : Nat
  N_FLIP : Nat
  FSLICE : Nat → Nat → Nat
  getFSlice : CubieCube → Nat

/-- The tables `*_sym`, `*_raw`, `*_selfs` and the counter `cls`. -/
structure SymTables where
  sym : Nat → Nat
  raw : Nat → Nat
  selfs : Nat → Nat
  cls : Nat

/-- The write `table[i] = v`. -/
def writeAt (table : Nat → Nat) (i v : Nat) : Nat → Nat :=
  fun j => if j = i then v else table j

/-- The conjugate raw coordinate that the loop over `s` computes from `cube1`:
`mul(sym_cubes[inv_sym[s]], cube1, tmp); mul(tmp, sym_cubes[s], cube2); getCoord(cube2)`. -/
def conjRaw (mul : CubieCube → CubieCube → CubieCube) (sym_cubes : Nat → CubieCube)
    (inv_sym : Nat → Nat) (getCoord : CubieCube → Nat) (cube1 : CubieCube) (s : Nat) : Nat :=
  let tmp := mul (sym_cubes (inv_sym s)) cube1
  let cube2 := mul tmp (sym_cubes s)
  getCoord cube2

/-- The body of the loop `for (int s = 1; s < N_SYMS_SUB; s++)` at counter `s`, for the raw
coordinate `c` of the new class, with `conj_c s` the conjugate that the pass computes.  The cells
of `*_sym` are `uint32_t` and those of `*_selfs` are `uint16_t`. -/
def classInnerStep (N_SYMS_SUB : Nat) (c : Nat) (conj_c : Nat → Nat) (t : SymTables) (s : Nat) :
    SymTables :=
  let c1 := conj_c s
  if t.sym c1 = EMPTY then
    { t with sym := writeAt t.sym c1 (SYMCOORD N_SYMS_SUB t.cls s % 2 ^ 32) }
  else if c1 = c then
    { t with selfs := writeAt t.selfs t.cls ((t.selfs t.cls ||| (1 <<< s)) % 2 ^ 16) }
  else t

/-- One pass of the loop over the raw coordinates, from the test `if (*_sym[c] != EMPTY)
continue;` on; the cells of `*_raw` have `w` bits. -/
def classStep (N_SYMS_SUB w : Nat) (t : SymTables) (c : Nat) (conj_c : Nat → Nat) : SymTables :=
  if t.sym c ≠ EMPTY then t
  else
    let t1 : SymTables :=
      { sym := writeAt t.sym c (SYMCOORD N_SYMS_SUB t.cls 0 % 2 ^ 32),
        raw := writeAt t.raw t.cls (c % 2 ^ w),
        selfs := writeAt t.selfs t.cls 1,
        cls := t.cls }
    let t2 := (List.range' 1 (N_SYMS_SUB - 1)).foldl (classInnerStep N_SYMS_SUB c conj_c) t1
    { t2 with cls := t2.cls + 1 }

/-- The tables at the start of the loops: `*_sym` filled with `EMPTY`, the other two as
allocated, `cls = 0`. -/
def emptyTables (raw0 selfs0 : Nat → Nat) : SymTables :=
  { sym := fun _ => EMPTY, raw := raw0, selfs := selfs0, cls := 0 }

/-- The body of the loop of `initCPermTables` at counter `cperm`, on the state
`(cube1, tables)`. -/
def cpermStep (env : SymEnv) (st : CubieCube × SymTables) (cperm : Nat) : CubieCube × SymTables :=
  let cube1 := env.setCPerm st.1 cperm
  (cube1, classStep env.N_SYMS_SUB 16 st.2 cperm
    (conjRaw env.mulCorners env.sym_cubes env.inv_sym env.getCPerm cube1))

/-- `initCPermTables()`: the tables `cperm_sym`, `cperm_raw`, `cperm_selfs` and the counter `cls`
after the loop; `raw0` and `selfs0` are the contents of the two arrays as allocated. -/
def initCPermTables (env : SymEnv) (raw0 selfs0 : Nat → Nat) : SymTables :=
  ((List.range env.N_CPERM).foldl (cpermStep env) (kSolvedCube, emptyTables raw0 selfs0)).2

/-- The body of the loop over `flip` of `initFSliceTables` at counters `slice` and `flip`, on the
state `(cube1, tables)`. -/
def fsliceStep (env : SymEnv) (slice : Nat) (st : CubieCube × SymTables) (flip : Nat) :
    CubieCube × SymTables :=
  let cube1 := setFlip st.1 (flip : Int)
  let fslice := env.FSLICE flip slice
  (cube1, classStep env.N_SYMS_SUB 32 st.2 fslice
    (conjRaw env.mulEdges env.sym_cubes env.inv_sym env.getFSlice cube1))

/-- The body of the loop over `slice` of `initFSliceTables` at counter `slice`. -/
def fsliceRow (env : SymEnv) (st : CubieCube × SymTables) (slice : Nat) : CubieCube × SymTables :=
  (List.range env.N_FLIP).foldl (fsliceStep env slice) (setSlice st.1 (slice : Int), st.2)

/-- `initFSliceTables()`: the tables `fslice_sym`, `fslice_raw`, `fslice_selfs` and the counter
`cls` after the loops. -/
def initFSliceTables (env : SymEnv) (raw0 selfs0 : Nat → Nat) : SymTables :=
  ((List.range env.N_SLICE).foldl (fsliceRow env) (kSolvedCube, emptyTables raw0 selfs0)).2

/-! ## Auxiliary functions of the proofs on the slice coordinate -/

/-- The cells that `setSlice` writes along a mask, entered with `q` unmarked cells written before
and `r` marks still to come: a marked cell takes the slice label `FR + (r - 1)`, an unmarked one
the next label `q` that is not a slice label. -/
def sliceCells : List Bool → Nat → Nat → List Int
  | [], _, _ => []
  | true :: m, q, r => (FR + ((r : Int) - 1)) :: sliceCells m q (r - 1)
  | false :: m, q, r => (q : Int) :: sliceCells m (q + 1) r

/-! ## Vocabulary of the statements on the symmetries -/

/-- The power `x * x * ... * x` with `n` factors under a composition `mul` with identity `e`,
multiplied up from the left. -/
def cubePow {α : Type} (mul : α → α → α) (e x : α) : Nat → α
  | 0 => e
  | n + 1 => mul (cubePow mul e x n) x

/-- The cell `table[m][s]` of a table given as a list of rows, if the table has this cell. -/
def cellAt (table : List (List Int)) (m s : Nat) : Option Int :=
  (table[m]?).bind (fun row => row[s]?)

/-- The cube `cube1` of `initCPermTables` when the loop is at counter `c`: the calls
`setCPerm(cube1, 0), ..., setCPerm(cube1, c)` applied to `kSolvedCube`. -/
def cpermCube (env : SymEnv) (c : Nat) : CubieCube :=
  (List.range (c + 1)).foldl env.setCPerm kSolvedCube

/-- The conjugation of the raw coordinate `c` by the symmetry `s` as `initCPermTables` computes
it, `getCPerm(S_s^-1 * cube1 * S_s)`. -/
def cpermConj (env : SymEnv) (s c : Nat) : Nat :=
  conjRaw env.mulCorners env.sym_cubes env.inv_sym env.getCPerm (cpermCube env c) s

/-- The conjugation of the pair `(slice, flip)` by the symmetry `s` as `initFSliceTables`
computes it, `getFSlice(S_s^-1 * cube1 * S_s)`; the cube `cube1` has the edges of
`setSlice(cube1, slice)` and `setFlip(cube1, flip)` and the corners of `kSolvedCube`. -/
def fsliceConj (env : SymEnv) (s slice flip : Nat) : Nat :=
  conjRaw env.mulEdges env.sym_cubes env.inv_sym env.getFSlice
    (setFlip (setSlice kSolvedCube (slice : Int)) (flip : Int)) s

/-- An action of the first `K` symmetries on `[0, R)`: every `conj s` maps `[0, R)` into itself,
`conj 0` is the identity, and the maps are closed under composition and inverses. -/
def GroupAction (K R : Nat) (conj : Nat → Nat → Nat) : Prop :=
  (∀ s : Nat, s < K → ∀ r : Nat, r < R → conj s r < R) ∧
  (∀ r : Nat, r < R → conj 0 r = r) ∧
  (∀ s : Nat, s < K → ∀ t : Nat, t < K → ∃ u : Nat, u < K ∧
    ∀ r : Nat, r < R → conj t (conj s r) = conj u r) ∧
  (∀ s : Nat, s < K → ∃ t : Nat, t < K ∧ ∀ r : Nat, r < R → conj t (conj s r) = r)

instance (K R : Nat) (conj : Nat → Nat → Nat) : Decidable (GroupAction K R conj) := by
  unfold GroupAction
  infer_instance

/-- The statement that the packed entries partition `[0, R)` into the orbits of `conj`: every
raw coordinate holds one entry `(class, symmetry)` that is not `EMPTY`, with the class below the
class count `t.cls` and the symmetry below `K`; two raw coordinates have the same class (the
entry divided by `K`) exactly when some symmetry below `K` conjugates one into the other; and
the numbers of raw coordinates of the classes sum to `R`. -/
def ClassesPartition (K R : Nat) (conj : Nat → Nat → Nat) (t : SymTables) : Prop :=
  (∀ r : Nat, r < R → t.sym r ≠ EMPTY ∧
    ∃ cls s : Nat, cls < t.cls ∧ s < K ∧ t.sym r = SYMCOORD K cls s ∧
      ∀ cls1 s1 : Nat, s1 < K → t.sym r = SYMCOORD K cls1 s1 → cls1 = cls ∧ s1 = s) ∧
  (∀ r1 : Nat, r1 < R → ∀ r2 : Nat, r2 < R →
    (t.sym r1 / K = t.sym r2 / K ↔ ∃ s : Nat, s < K ∧ conj s r1 = r2)) ∧
  Finset.sum (Finset.range t.cls)
    (fun cls => ((Finset.range R).filter (fun r => t.sym r / K = cls)).card) = R

/-- The statement that the bitmask of every class marks the self-symmetries of its
representative: bit `s` of `selfs[cls]` is set exactly when `conj s` fixes `raw[cls]`, and bit 0
is set. -/
def SelfsMarkStabilizers (K : Nat) (conj : Nat → Nat → Nat) (t : SymTables) : Prop :=
  ∀ cls : Nat, cls < t.cls →
    (t.selfs cls).testBit 0 = true ∧
    ∀ s : Nat, s < K → ((t.selfs cls).testBit s = true ↔ conj s (t.raw cls) = t.raw cls)

/-- The statement that every packed entry reconstructs its raw coordinate: when the cell of `r`
holds the entry `(cls, s)`, then `r` is the representative `raw[cls]` for `s = 0` and the
conjugate of the representative by `s` otherwise; and it is the conjugate by `s` in both cases
when `conj 0` is the identity on `[0, R)`. -/
def EntriesReconstruct (K R : Nat) (conj : Nat → Nat → Nat) (t : SymTables) : Prop :=
  ∀ r : Nat, r < R → t.sym r ≠ EMPTY ∧
    ∀ cls s : Nat, s < K → t.sym r = SYMCOORD K cls s →
      cls < t.cls ∧ (s = 0 → t.raw cls = r) ∧ (s ≠ 0 → conj s (t.raw cls) = r) ∧
      ((∀ x : Nat, x < R → conj 0 x = x) → conj s (t.raw cls) = r)

/-- The sizes under which no cell of `initCPermTables` overflows: there is a symmetry, no packed
entry `SYMCOORD(cls, s)` reaches `EMPTY`, and every raw coordinate fits the 16 bits of a cell of
`cperm_raw`. -/
def CPermFits (env : SymEnv) : Prop :=
  1 ≤ env.N_SYMS_SUB ∧ env.N_SYMS_SUB * env.N_CPERM ≤ EMPTY ∧ env.N_CPERM ≤ 2 ^ 16

instance (env : SymEnv) : Decidable (CPermFits env) := by
  unfold CPermFits
  infer_instance

/-- The conditions on the absent parts that `initFSliceTables` relies on: there is a symmetry, no
packed entry reaches `EMPTY`, the macro `FSLICE` maps the pairs `(flip, slice)` onto
`[0, N_SLICE * N_FLIP)`, and the conjugate computed in the loop is the function `conj` of the
raw coordinate `FSLICE(flip, slice)`. -/
def FSliceFits (env : SymEnv) (conj : Nat → Nat → Nat) : Prop :=
  1 ≤ env.N_SYMS_SUB ∧ env.N_SYMS_SUB * (env.N_SLICE * env.N_FLIP) ≤ EMPTY ∧
  (∀ slice : Nat, slice < env.N_SLICE → ∀ flip : Nat, flip < env.N_FLIP →
    env.FSLICE flip slice < env.N_SLICE * env.N_FLIP) ∧
  (∀ r : Nat, r < env.N_SLICE * env.N_FLIP →
    ∃ slice : Nat, slice < env.N_SLICE ∧ ∃ flip : Nat, flip < env.N_FLIP ∧
      env.FSLICE flip slice = r) ∧
  (∀ slice : Nat, slice < env.N_SLICE → ∀ flip : Nat, flip < env.N_FLIP →
    ∀ s : Nat, s < env.N_SYMS_SUB →
      fsliceConj env s slice flip = conj s (env.FSLICE flip slice))

instance (env : SymEnv) (conj : Nat → Nat → Nat) : Decidable (FSliceFits env conj) := by
  unfold FSliceFits
  infer_instance

/-- A composition for `exampleEnv`: a cube with twelve edge orientations takes the tag of the
right factor into its corner orientations, any other left factor gives way to the right one. -/
def exampleMul (a b : CubieCube) : CubieCube :=
  if a.eo.length = 12 then { a with co := b.eo } else b

/-- A small instance of the absent parts, with two symmetries: the cube of the symmetry `s` is
only the tag `s`, a corner coordinate is kept in the first cell of `cp`, and a conjugation by the
symmetry `s` flips the lowest bit of the coordinate when `s = 1`. -/
def exampleEnv : SymEnv :=
  { N_SYMS_SUB := 2
    sym_cubes := fun s => { cp := [], ep := [], co := [], eo := [(s : Int)] }
    inv_sym := fun s => s
    mulCorners := exampleMul
    mulEdges := exampleMul
    N_CPERM := 4
    setCPerm := fun cube c => { cube with cp := [(c : Int)] }
    getCPerm := fun cube => (cube.cp.getD 0 0).toNat ^^^ (cube.co.getD 0 0).toNat
    N_SLICE := 2
    N_FLIP := 2
    FSLICE := fun flip slice => 2 * slice + flip
    getFSlice := fun cube =>
      2 * (getSlice cube).toNat + ((getFlip cube).toNat ^^^ (cube.co.getD 0 0).toNat) }

/-- The raw coordinates in the order in which `initFSliceTables` visits them. -/
def fsliceOrder (env : SymEnv) : List Nat → List Nat
  | [] => []
  | slice :: slices =>
    (List.range env.N_FLIP).map (fun flip => env.FSLICE flip slice) ++ fsliceOrder env slices

/-! ## Auxiliary notions of the proofs on the symmetry classes -/

/-- The state of the tables between two passes of the loop over the raw coordinates, for a
conjugation `conj` on `[0, R)`. -/
structure ClassInv (K R : Nat) (conj : Nat → Nat → Nat) (t : SymTables) : Prop where
  inrange : ∀ r : Nat, t.sym r ≠ EMPTY → r < R
  entry : ∀ r : Nat, t.sym r ≠ EMPTY → ∃ cls s : Nat, cls < t.cls ∧ s < K ∧
    t.sym r = SYMCOORD K cls s ∧ (if s = 0 then t.raw cls else conj s (t.raw cls)) = r
  rep : ∀ cls : Nat, cls < t.cls → t.sym (t.raw cls) = SYMCOORD K cls 0
  conjs : ∀ cls s : Nat, cls < t.cls → 1 ≤ s → s < K → t.sym (conj s (t.raw cls)) ≠ EMPTY
  fresh : ∀ c1 c2 s : Nat, c1 < c2 → c2 < t.cls → s < K →
    (if s = 0 then t.raw c1 else conj s (t.raw c1)) ≠ t.raw c2
  bits : ∀ cls s : Nat, cls < t.cls → s < K → s < 16 →
    ((t.selfs cls).testBit s = true ↔ (s = 0 ∨ conj s (t.raw cls) = t.raw cls))

/-- The state of the tables in the loop over `s` before the pass at counter `j`, for the new
class `cls` of the raw coordinate `c`; `sym1`, `raw1`, `selfs1` are the tables at the entry of
the loop. -/
structure InnerInv (K c : Nat) (conj_c : Nat → Nat) (sym1 raw1 selfs1 : Nat → Nat) (cls j : Nat)
    (t : SymTables) : Prop where
  cls_eq : t.cls = cls
  raw_eq : t.raw = raw1
  keep : ∀ r : Nat, sym1 r ≠ EMPTY → t.sym r = sym1 r
  fresh : ∀ r : Nat, sym1 r = EMPTY → t.sym r ≠ EMPTY →
    ∃ s : Nat, 1 ≤ s ∧ s < j ∧ t.sym r = SYMCOORD K cls s ∧ conj_c s = r
  conjs : ∀ s : Nat, 1 ≤ s → s < j → t.sym (conj_c s) ≠ EMPTY
  selfs_other : ∀ c1 : Nat, c1 ≠ cls → t.selfs c1 = selfs1 c1
  bits : ∀ b : Nat, b < 16 →
    ((t.selfs cls).testBit b = true ↔ (b = 0 ∨ (1 ≤ b ∧ b < j ∧ conj_c b = c)))

/-! ## Rotations of the first cells -/

theorem shiftUp_length (j : Nat) (a : List Int) : (shiftUp j a).length = a.length := by
  induction j generalizing a with
  | zero => rfl
  | succ j ih => simp [shiftUp, ih]

theorem shiftDown_length (n j : Nat) (a : List Int) : (shiftDown n j a).length = a.length := by
  induction n generalizing j a with
  | zero => rfl
  | succ n ih => simp [shiftDown, ih]

theorem some_getD (a : List Int) (i : Nat) (h : i < a.length) : some (a.getD i 0) = a[i]? := by
  simp [List.getD_eq_getElem?_getD, List.getElem?_eq_getElem h]

theorem getD_append_mid (q s : List Int) (x : Int) : (q ++ x :: s).getD q.length 0 = x := by
  rw [List.getD_eq_getElem?_getD, List.getElem?_append_right (le_refl _)]
  simp

theorem getElem?_append_mid (q s : List Int) (x : Int) : (q ++ x :: s)[q.length]? = some x := by
  rw [List.getElem?_append_right (le_refl _)]
  simp

theorem shiftUp_getElem? (j : Nat) (a : List Int) (k : Nat) (h : j < a.length) :
    (shiftUp j a)[k]? = if 1 ≤ k ∧ k ≤ j then a[k - 1]? else a[k]? := by
  induction j generalizing a with
  | zero =>
    have : ¬ (1 ≤ k ∧ k ≤ 0) := by omega
    rw [if_neg this, shiftUp]
  | succ j ih =>
    rw [shiftUp, ih _ (by simp; omega)]
    simp only [List.getElem?_set]
    by_cases h1 : 1 ≤ k ∧ k ≤ j
    · have h2 : 1 ≤ k ∧ k ≤ j + 1 := by omega
      have h3 : ¬ (j + 1 = k - 1) := by omega
      rw [if_pos h1, if_pos h2, if_neg h3]
    · by_cases h4 : k = j + 1
      · subst h4
        rw [if_neg h1, if_pos rfl, if_pos h, if_pos ⟨by omega, le_refl _⟩, some_getD a j (by omega)]
        simp
      · have h2 : ¬ (1 ≤ k ∧ k ≤ j + 1) := by omega
        have h3 : ¬ (j + 1 = k) := by omega
        rw [if_neg h1, if_neg h2, if_neg h3]

theorem shiftDown_getElem? (n j : Nat) (a : List Int) (k : Nat) (h : j + n < a.length) :
    (shiftDown n j a)[k]? = if j ≤ k ∧ k < j + n then a[k + 1]? else a[k]? := by
  induction n generalizing j a with
  | zero =>
    have : ¬ (j ≤ k ∧ k < j + 0) := by omega
    rw [if_neg this, shiftDown]
  | succ n ih =>
    rw [shiftDown, ih _ _ (by simp; omega)]
    simp only [List.getElem?_set]
    by_cases h1 : j + 1 ≤ k ∧ k < j + 1 + n
    · have h2 : j ≤ k ∧ k < j + (n + 1) := by omega
      have h3 : ¬ (j = k + 1) := by omega
      rw [if_pos h1, if_pos h2, if_neg h3]
    · by_cases h4 : k = j
      · subst h4
        have h5 : k < a.length := by omega
        rw [if_neg h1, if_pos rfl, if_pos h5, if_pos ⟨le_refl _, by omega⟩,
          some_getD a (k + 1) (by omega)]
      · have h2 : ¬ (j ≤ k ∧ k < j + (n + 1)) := by omega
        have h3 : ¬ (j = k) := by omega
        rw [if_neg h1, if_neg h2, if_neg h3]

/-- closed form of one right rotation of the first cells -/
theorem rotRight_append (q s : List Int) (x : Int) :
    rotRight (q ++ x :: s) q.length = x :: q ++ s := by
  apply List.ext_getElem?
  intro k
  have hl : q.length < (q ++ x :: s).length := by simp
  unfold rotRight
  simp only [List.getElem?_set, shiftUp_length]
  by_cases hk : k = 0
  · subst hk
    have : 0 < (q ++ x :: s).length := by omega
    rw [if_pos rfl, if_pos this, getD_append_mid]
    simp
  · have h0 : ¬ (0 = k) := by omega
    rw [if_neg h0, shiftUp_getElem? _ _ _ hl]
    obtain ⟨k, rfl⟩ := Nat.exists_eq_succ_of_ne_zero hk
    by_cases h1 : k + 1 ≤ q.length
    · have : 1 ≤ k + 1 ∧ k + 1 ≤ q.length := by omega
      rw [if_pos this]
      simp only [Nat.add_sub_cancel, List.cons_append, List.getElem?_cons_succ, Nat.succ_eq_add_one]
      rw [List.getElem?_append_left (by omega), List.getElem?_append_left (by omega)]
    · have : ¬ (1 ≤ k + 1 ∧ k + 1 ≤ q.length) := by omega
      rw [if_neg this]
      simp only [List.cons_append, List.getElem?_cons_succ, Nat.succ_eq_add_one]
      rw [List.getElem?_append_right (by omega), List.getElem?_append_right (by omega)]
      obtain ⟨m, hm⟩ : ∃ m, k + 1 - q.length = m + 1 := ⟨k - q.length, by omega⟩
      have hm2 : k - q.length = m := by omega
      rw [hm, hm2]; simp

/-- closed form of one left rotation of the first cells -/
theorem rotLeft_append (q s : List Int) (x : Int) :
    rotLeft (x :: q ++ s) q.length = q ++ x :: s := by
  apply List.ext_getElem?
  intro k
  have hl : 0 + q.length < (x :: q ++ s).length := by simp; omega
  unfold rotLeft
  simp only [List.getElem?_set, shiftDown_length]
  by_cases hk : q.length = k
  · subst hk
    have : q.length < (x :: q ++ s).length := by omega
    rw [if_pos rfl, if_pos this, getElem?_append_mid]
    simp
  · rw [if_neg hk, shiftDown_getElem? _ _ _ _ hl]
    by_cases h1 : k < q.length
    · have : 0 ≤ k ∧ k < 0 + q.length := by omega
      rw [if_pos this]
      simp only [List.cons_append, List.getElem?_cons_succ]
      rw [List.getElem?_append_left (by omega), List.getElem?_append_left (by omega)]
    · have : ¬ (0 ≤ k ∧ k < 0 + q.length) := by omega
      rw [if_neg this]
      simp only [List.cons_append]
      obtain ⟨k, rfl⟩ : ∃ m, k = m + 1 := ⟨k - 1, by omega⟩
      rw [List.getElem?_cons_succ]
      rw [List.getElem?_append_right (by omega), List.getElem?_append_right (by omega)]
      obtain ⟨m, hm⟩ : ∃ m, k + 1 - q.length = m + 1 := ⟨k - q.length, by omega⟩
      have hm2 : k - q.length = m := by omega
      rw [hm, hm2]; simp

theorem rotRight_iterate (i : Nat) (v u s : List Int) (h : u.length + v.length = i + 1) :
    Nat.iterate (fun b => rotRight b i) v.length (u ++ v ++ s) = v ++ u ++ s := by
  induction v using List.reverseRecOn generalizing u with
  | nil => simp
  | append_singleton v x ih =>
    have hi : i = (u ++ v).length := by simp at h ⊢; omega
    have h1 : rotRight (u ++ (v ++ [x]) ++ s) i = (x :: u) ++ v ++ s := by
      have := rotRight_append (u ++ v) s x
      rw [← hi] at this
      simpa using this
    rw [List.length_append, List.length_singleton, Function.iterate_succ_apply, h1,
      ih (x :: u) (by simp at h ⊢; omega)]
    simp

theorem rotateUntil_found (fuel : Nat) (v s : List Int) (m k : Int) :
    rotateUntil (fuel + 1) (v ++ m :: s) v.length m k = some (v ++ m :: s, k) := by
  rw [rotateUntil, if_neg (by rw [getD_append_mid]; simp)]

theorem rotateUntil_append (fuel : Nat) (v u s : List Int) (m k : Int) (i : Nat)
    (hi : i = v.length + u.length) (hu : u ≠ []) (hmu : m ∉ u) (hmv : m ∉ v)
    (hf : v.length + 2 ≤ fuel) :
    rotateUntil fuel (v ++ m :: u ++ s) i m k
      = some (u ++ v ++ m :: s, k + (v.length : Int) + 1) := by
  induction v generalizing u fuel k with
  | nil =>
    obtain ⟨fuel, rfl⟩ : ∃ f, fuel = f + 2 := ⟨fuel - 2, by simp at hf; omega⟩
    obtain ⟨u1, y, rfl⟩ : ∃ u1 y, u = u1 ++ [y] := by
      rcases List.eq_nil_or_concat u with h | ⟨u1, y, h⟩
      · exact absurd h hu
      · exact ⟨u1, y, by simpa using h⟩
    have hy : y ≠ m := by
      intro h; apply hmu; simp [h]
    have hget : ([] ++ m :: (u1 ++ [y]) ++ s).getD i 0 = y := by
      have := getD_append_mid (m :: u1) s y
      have hi2 : i = (m :: u1).length := by simp at hi ⊢; omega
      rw [hi2]
      simpa using this
    have hrot : rotLeft ([] ++ m :: (u1 ++ [y]) ++ s) i = (u1 ++ [y]) ++ m :: s := by
      have := rotLeft_append (u1 ++ [y]) s m
      have hi2 : i = (u1 ++ [y]).length := by simpa using hi
      rw [hi2]
      simpa using this
    rw [rotateUntil, if_pos (by rw [hget]; exact hy), hrot]
    have hi2 : i = (u1 ++ [y]).length := by simpa using hi
    rw [hi2, rotateUntil_found]
    simp
  | cons x v ih =>
    obtain ⟨fuel, rfl⟩ : ∃ f, fuel = f + 1 := ⟨fuel - 1, by simp at hf; omega⟩
    obtain ⟨u1, y, rfl⟩ : ∃ u1 y, u = u1 ++ [y] := by
      rcases List.eq_nil_or_concat u with h | ⟨u1, y, h⟩
      · exact absurd h hu
      · exact ⟨u1, y, by simpa using h⟩
    have hy : y ≠ m := by
      intro h; apply hmu; simp [h]
    have hxm : x ≠ m := by
      intro h; apply hmv; simp [h]
    have hget : (x :: v ++ m :: (u1 ++ [y]) ++ s).getD i 0 = y := by
      have := getD_append_mid (x :: v ++ m :: u1) s y
      have hi2 : i = (x :: v ++ m :: u1).length := by simp at hi ⊢; omega
      rw [hi2]
      simpa using this
    have hrot : rotLeft (x :: v ++ m :: (u1 ++ [y]) ++ s) i
        = v ++ m :: (u1 ++ [y] ++ [x]) ++ s := by
      have := rotLeft_append (v ++ m :: (u1 ++ [y])) s x
      have hi2 : i = (v ++ m :: (u1 ++ [y])).length := by simp at hi ⊢; omega
      rw [hi2]
      simpa using this
    rw [rotateUntil, if_pos (by rw [hget]; exact hy), hrot,
      ih fuel (u1 ++ [y] ++ [x]) (k + 1) (by simp at hi ⊢; omega) (by simp)
        (by
          intro h
          simp only [List.mem_append, List.mem_singleton] at h
          rcases h with h | h
          · exact hmu (by simpa using h)
          · exact hxm h.symm)
        (fun h => hmv (List.mem_cons_of_mem _ h)) (by simp at hf; omega)]
    simp
    omega

/-! ## The label range and the first loop of `setPermCoord` -/

theorem labelRange_length (n : Nat) (m : Int) : (labelRange n m).length = n := by
  simp [labelRange]

theorem labelRange_succ (n : Nat) (m : Int) :
    labelRange (n + 1) m = labelRange n (m - 1) ++ [m] := by
  simp only [labelRange, List.range_succ, List.map_append, List.map_cons, List.map_nil]
  congr 1
  · apply List.map_congr_left
    intro t _
    push_cast
    ring
  · simp
    ring

theorem mem_labelRange (n : Nat) (m x : Int) :
    x ∈ labelRange n m ↔ m - (n : Int) < x ∧ x ≤ m := by
  simp only [labelRange, List.mem_map, List.mem_range]
  constructor
  · rintro ⟨t, ht, rfl⟩
    omega
  · rintro ⟨h1, h2⟩
    refine ⟨(x - (m - (n : Int) + 1)).toNat, ?_, ?_⟩ <;> omega

theorem labelRange_nodup (n : Nat) (m : Int) : (labelRange n m).Nodup := by
  induction n generalizing m with
  | zero => simp [labelRange]
  | succ n ih =>
    rw [labelRange_succ]
    refine List.Nodup.append (ih _) (List.nodup_singleton _) ?_
    intro x hx hx2
    rw [mem_labelRange] at hx
    simp only [List.mem_singleton] at hx2
    omega

theorem fillLabels_eq (n : Nat) (m : Int) (a s : List Int) (h : a.length = n) :
    fillLabels n m (a ++ s) = labelRange n m ++ s := by
  induction n generalizing m a s with
  | zero =>
    have : a = [] := List.length_eq_zero.mp h
    subst this
    simp [fillLabels, labelRange]
  | succ n ih =>
    obtain ⟨a1, z, rfl⟩ : ∃ a1 z, a = a1 ++ [z] := by
      rcases List.eq_nil_or_concat a with h0 | ⟨a1, z, h0⟩
      · subst h0; simp at h
      · exact ⟨a1, z, by simpa using h0⟩
    have hl : a1.length = n := by simpa using h
    have hset : (a1 ++ [z] ++ s).set n m = a1 ++ m :: s := by
      rw [← hl]
      simp
    rw [fillLabels, hset, ih _ _ _ hl, labelRange_succ]
    simp

theorem fillLabels_replicate (n : Nat) (m : Int) :
    fillLabels n m (List.replicate n 0) = labelRange n m := by
  have := fillLabels_eq n m (List.replicate n 0) [] (by simp)
  simpa using this

/-! ## The rotation loop of `setPermCoord` -/

theorem exists_split (p : List Int) (i : Nat) (h : i < p.length) :
    ∃ q x t, p = q ++ x :: t ∧ q.length = i := by
  refine ⟨p.take i, p[i], p.drop (i + 1), ?_, ?_⟩
  · rw [← List.drop_eq_getElem_cons h, List.take_append_drop]
  · simp; omega

theorem rotRight_length (a : List Int) (i : Nat) : (rotRight a i).length = a.length := by
  simp [rotRight, shiftUp_length]

theorem rotRight_prefix (p s : List Int) (i : Nat) (h : i < p.length) :
    rotRight (p ++ s) i = rotRight p i ++ s := by
  obtain ⟨q, x, t, rfl, rfl⟩ := exists_split p i h
  have h1 := rotRight_append q (t ++ s) x
  have h2 := rotRight_append q t x
  simp only [List.append_assoc, List.cons_append] at h1 h2 ⊢
  rw [h1, h2]
  simp

theorem rotRight_iter_length (n : Nat) (a : List Int) (i : Nat) :
    (Nat.iterate (fun b => rotRight b i) n a).length = a.length := by
  induction n generalizing a with
  | zero => rfl
  | succ n ih => rw [Function.iterate_succ_apply, ih, rotRight_length]

theorem rotRight_iter_prefix (n : Nat) (p s : List Int) (i : Nat) (h : i < p.length) :
    Nat.iterate (fun b => rotRight b i) n (p ++ s)
      = Nat.iterate (fun b => rotRight b i) n p ++ s := by
  induction n generalizing p with
  | zero => rfl
  | succ n ih =>
    rw [Function.iterate_succ_apply, Function.iterate_succ_apply, rotRight_prefix _ _ _ h,
      ih _ (by rw [rotRight_length]; exact h)]

theorem rotRightTimes_length (k : Int) (a : List Int) (i : Nat) :
    (rotRightTimes k a i).length = a.length :=
  rotRight_iter_length _ _ _

theorem rotRightTimes_prefix (k : Int) (p s : List Int) (i : Nat) (h : i < p.length) :
    rotRightTimes k (p ++ s) i = rotRightTimes k p i ++ s :=
  rotRight_iter_prefix _ _ _ _ h

theorem setPermFold_length (l : List Nat) (s : Int × List Int) :
    (l.foldl setPermStep s).2.length = s.2.length := by
  induction l generalizing s with
  | nil => rfl
  | cons i l ih => rw [List.foldl_cons, ih]; simp [setPermStep, rotRightTimes_length]

theorem setPermFold_prefix (l : List Nat) (v : Int) (p s : List Int)
    (h : ∀ i ∈ l, i < p.length) :
    l.foldl setPermStep (v, p ++ s)
      = ((l.foldl setPermStep (v, p)).1, (l.foldl setPermStep (v, p)).2 ++ s) := by
  induction l generalizing v p with
  | nil => rfl
  | cons i l ih =>
    have hi : i < p.length := h i (List.mem_cons_self _ _)
    simp only [List.foldl_cons]
    have : setPermStep (v, p ++ s) i
        = ((setPermStep (v, p) i).1, (setPermStep (v, p) i).2 ++ s) := by
      simp [setPermStep, rotRightTimes_prefix _ _ _ _ hi]
    rw [this, ih]
    intro j hj
    simp only [setPermStep, rotRightTimes_length]
    exact h j (List.mem_cons_of_mem _ hj)

theorem setPermFold_val (n : Nat) (c : Nat) (a : List Int) :
    ((List.range' 1 n).foldl setPermStep ((c : Int), a)).1 = ((c / (n + 1).factorial : Nat) : Int) := by
  induction n with
  | zero => simp
  | succ n ih =>
    rw [List.range'_concat, List.foldl_append, List.foldl_cons, List.foldl_nil]
    simp only [setPermStep]
    rw [ih, ← Int.ofNat_tdiv, Nat.div_div_eq_div_mul]
    congr 2
    rw [Nat.factorial_succ (n + 1)]
    ring

theorem setPermCoord_length (c : Int) (n : Nat) (m : Int) : (setPermCoord c n m).length = n := by
  simp [setPermCoord, setPermFold_length, fillLabels_replicate, labelRange_length]

/-- the last iteration of the rotation loop of `setPermCoord`, peeled off -/
theorem setPermCoord_succ (c : Nat) (n : Nat) (m : Int) :
    setPermCoord (c : Int) (n + 2) m
      = rotRightTimes (((c / (n + 1).factorial) % (n + 2) : Nat) : Int)
          (setPermCoord (c : Int) (n + 1) (m - 1) ++ [m]) (n + 1) := by
  have h1 : n + 2 - 1 = n + 1 := rfl
  have h2 : n + 1 - 1 = n := rfl
  rw [setPermCoord, setPermCoord, h1, h2, fillLabels_replicate, fillLabels_replicate,
    labelRange_succ, List.range'_concat, List.foldl_append, List.foldl_cons, List.foldl_nil,
    setPermFold_prefix]
  · simp only [setPermStep]
    rw [setPermFold_val, ← Int.ofNat_tmod]
    have e1 : 1 + 1 * n + 1 = n + 2 := by omega
    have e2 : 1 + 1 * n = n + 1 := by omega
    rw [e1, e2]
  · intro i hi
    rw [labelRange_length]
    simp [List.mem_range'] at hi
    omega

/-! ## Permutation rank and unrank undo each other -/

theorem rotRight_perm (a : List Int) (i : Nat) (h : i < a.length) : (rotRight a i).Perm a := by
  obtain ⟨q, x, t, rfl, rfl⟩ := exists_split a i h
  rw [rotRight_append]
  exact (List.perm_middle).symm

theorem rotRightTimes_perm (k : Int) (a : List Int) (i : Nat) (h : i < a.length) :
    (rotRightTimes k a i).Perm a := by
  unfold rotRightTimes
  generalize k.toNat = n
  induction n generalizing a with
  | zero => exact List.Perm.refl _
  | succ n ih =>
    rw [Function.iterate_succ_apply]
    exact (ih _ (by rw [rotRight_length]; exact h)).trans (rotRight_perm a i h)

theorem setPermCoord_zero (c : Int) (m : Int) : setPermCoord c 0 m = [] := by
  simp [setPermCoord, fillLabels]

theorem setPermCoord_one (c : Int) (m : Int) : setPermCoord c 1 m = [m] := by
  simp [setPermCoord, fillLabels]

theorem setPermCoord_perm (c : Nat) (n : Nat) (m : Int) :
    (setPermCoord (c : Int) n m).Perm (labelRange n m) := by
  induction n generalizing m with
  | zero => rw [setPermCoord_zero]; simp [labelRange]
  | succ n ih =>
    cases n with
    | zero => rw [setPermCoord_one, labelRange_succ]; simp [labelRange]
    | succ n =>
      rw [setPermCoord_succ, labelRange_succ]
      refine (rotRightTimes_perm _ _ _ ?_).trans ?_
      · simp [setPermCoord_length]
      · exact List.Perm.append_right _ (ih (m - 1))

theorem setPermCoord_mod (c : Nat) (n : Nat) (m : Int) :
    setPermCoord ((c % n.factorial : Nat) : Int) n m = setPermCoord (c : Int) n m := by
  induction n generalizing m c with
  | zero => rw [setPermCoord_zero, setPermCoord_zero]
  | succ n ih =>
    cases n with
    | zero => rw [setPermCoord_one, setPermCoord_one]
    | succ n =>
      rw [setPermCoord_succ, setPermCoord_succ c]
      have h1 : c % (n + 1 + 1).factorial / (n + 1).factorial % (n + 2)
          = c / (n + 1).factorial % (n + 2) := by
        rw [Nat.factorial_succ (n + 1), Nat.mul_comm (n + 1 + 1), Nat.mod_mul_right_div_self,
          Nat.mod_mod]
      have h2 : setPermCoord ((c % (n + 1 + 1).factorial : Nat) : Int) (n + 1) (m - 1)
          = setPermCoord (c : Int) (n + 1) (m - 1) := by
        rw [← ih (c % (n + 1 + 1).factorial), ← ih c,
          Nat.mod_mod_of_dvd _ (Nat.factorial_dvd_factorial (Nat.le_succ (n + 1)))]
      rw [h1, h2]

theorem rotateUntil_rotRightTimes (fuel : Nat) (n : Nat) (w s : List Int) (m k : Int) (i : Nat)
    (hi : i = w.length) (hn : n ≤ i) (hm : m ∉ w) (hf : i + 1 ≤ fuel) :
    rotateUntil fuel (rotRightTimes (n : Int) (w ++ m :: s) i) i m k
      = some (w ++ m :: s, k + (n : Int)) := by
  cases n with
  | zero =>
    obtain ⟨fuel, rfl⟩ : ∃ f, fuel = f + 1 := ⟨fuel - 1, by omega⟩
    simp only [rotRightTimes, Int.toNat_ofNat, Function.iterate_zero, id_eq, Nat.cast_zero,
      add_zero, CharP.cast_eq_zero, Int.toNat_zero]
    rw [hi, rotateUntil_found]
  | succ n =>
    have hsplit : w = w.take (i - n) ++ w.drop (i - n) := (List.take_append_drop _ _).symm
    have hb : (w.drop (i - n)).length = n := by simp; omega
    have ha : (w.take (i - n)).length = i - n := by simp; omega
    generalize w.take (i - n) = a at hsplit ha
    generalize w.drop (i - n) = b at hsplit hb
    subst hsplit
    have hrot : rotRightTimes ((n + 1 : Nat) : Int) (a ++ b ++ m :: s) i
        = (b ++ [m]) ++ a ++ s := by
      have := rotRight_iterate i (b ++ [m]) a s (by simp; omega)
      simp only [rotRightTimes, Int.toNat_ofNat]
      rw [← hb]
      simpa using this
    rw [hrot]
    have := rotateUntil_append fuel b a s m k i (by omega)
      (by intro h; subst h; simp at ha; omega)
      (fun h => hm (List.mem_append_left _ h)) (fun h => hm (List.mem_append_right _ h))
      (by omega)
    simp only [List.append_assoc, List.singleton_append, List.cons_append,
      List.nil_append] at this ⊢
    rw [this, hb]
    push_cast
    ring_nf

theorem not_mem_of_perm_labelRange (w : List Int) (n : Nat) (m : Int)
    (h : w.Perm (labelRange n (m - 1))) : m ∉ w := by
  intro hm
  have := (mem_labelRange n (m - 1) m).mp (h.subset hm)
  omega

/-- rank after unrank, with the accumulator and the cells behind the prefix made explicit -/
theorem getPermLoop_setPermCoord (i : Nat) (c : Nat) (m : Int) (s : List Int) (val : Int)
    (fuel : Nat) (hf : i + 1 ≤ fuel) :
    getPermLoopZ fuel i (setPermCoord (c : Int) (i + 1) m ++ s) m val
      = some (val * (i.factorial : Int) + ((c % (i + 1).factorial : Nat) : Int)) := by
  induction i generalizing m s val with
  | zero => simp [getPermLoopZ, Nat.mod_one]
  | succ i ih =>
    have hw := setPermCoord_perm c (i + 1) (m - 1)
    have hm := not_mem_of_perm_labelRange _ _ _ hw
    have hlen := setPermCoord_length (c : Int) (i + 1) (m - 1)
    rw [setPermCoord_succ, ← rotRightTimes_prefix _ _ _ _ (by simp [hlen]), getPermLoopZ]
    simp only [List.append_assoc, List.singleton_append]
    rw [rotateUntil_rotRightTimes fuel _ _ s m 0 (i + 1) hlen.symm
      (Nat.le_of_lt_succ (Nat.mod_lt _ (by omega))) hm hf]
    simp only
    rw [ih (m - 1) (m :: s) _ (by omega)]
    congr 1
    have hmod : c % (i + 1 + 1).factorial
        = c % (i + 1).factorial + (i + 1).factorial * (c / (i + 1).factorial % (i + 2)) := by
      rw [Nat.factorial_succ (i + 1), Nat.mul_comm (i + 1 + 1), Nat.mod_mul]
    rw [hmod, Nat.factorial_succ i]
    push_cast
    ring_nf

theorem rotateUntil_perm (fuel : Nat) (v u s : List Int) (m k : Int) (i : Nat)
    (hi : v.length + u.length = i) (hmu : m ∉ u) (hmv : m ∉ v) (hf : i + 1 ≤ fuel) :
    ∃ n : Nat, n ≤ i ∧
      rotateUntil fuel (v ++ m :: u ++ s) i m k = some (u ++ v ++ m :: s, k + (n : Int)) ∧
      rotRightTimes (n : Int) (u ++ v ++ [m]) i = v ++ m :: u := by
  rcases List.eq_nil_or_concat u with h | ⟨u1, y, h⟩
  · subst h
    obtain ⟨fuel, rfl⟩ : ∃ f, fuel = f + 1 := ⟨fuel - 1, by omega⟩
    refine ⟨0, Nat.zero_le _, ?_, ?_⟩
    · have hi2 : i = v.length := by simpa using hi.symm
      rw [hi2]
      simpa using rotateUntil_found fuel v s m k
    · simp [rotRightTimes]
  · have hu : u ≠ [] := by rw [h]; simp
    have hul : 1 ≤ u.length := by rw [h]; simp
    refine ⟨v.length + 1, by omega, ?_, ?_⟩
    · rw [rotateUntil_append fuel v u s m k i hi.symm hu hmu hmv (by omega)]
      push_cast
      rw [add_assoc]
    · have := rotRight_iterate i (v ++ [m]) u [] (by simp; omega)
      simp only [rotRightTimes, Int.toNat_ofNat]
      simpa using this

/-- unrank after rank, together with the range of the rank, with the accumulator and the cells
behind the prefix made explicit -/
theorem getPermLoop_perm (i : Nat) (p : List Int) (m : Int) (s : List Int) (val : Int)
    (fuel : Nat) (hp : p.Perm (labelRange (i + 1) m)) (hf : i + 1 ≤ fuel) :
    ∃ r : Nat, r < (i + 1).factorial ∧
      getPermLoopZ fuel i (p ++ s) m val = some (val * (i.factorial : Int) + (r : Int)) ∧
      setPermCoord (r : Int) (i + 1) m = p := by
  induction i generalizing p m s val with
  | zero =>
    have hp1 : p = [m] := by
      have : labelRange 1 m = [m] := by rw [labelRange_succ]; simp [labelRange]
      rw [this] at hp
      exact List.perm_singleton.mp hp
    subst hp1
    exact ⟨0, by simp, by simp [getPermLoopZ], by simp [setPermCoord_one]⟩
  | succ i ih =>
    rw [labelRange_succ] at hp
    have hmem : m ∈ p := hp.symm.subset (by simp)
    obtain ⟨v, u, rfl⟩ := List.append_of_mem hmem
    have hw : (u ++ v).Perm (labelRange (i + 1) (m - 1)) := by
      have h1 : (m :: (v ++ u)).Perm (m :: labelRange (i + 1) (m - 1)) :=
        (List.perm_middle).symm.trans (hp.trans (List.perm_append_singleton _ _))
      exact (List.perm_append_comm).trans (List.Perm.cons_inv h1)
    have hm := not_mem_of_perm_labelRange _ _ _ hw
    have hlen : v.length + u.length = i + 1 := by
      have := hw.length_eq
      rw [labelRange_length] at this
      simp at this
      omega
    obtain ⟨n, hn, hrot, hback⟩ := rotateUntil_perm fuel v u s m 0 (i + 1) hlen
      (fun h => hm (List.mem_append_left _ h)) (fun h => hm (List.mem_append_right _ h)) hf
    obtain ⟨r, hr, hget, hset⟩ := ih (u ++ v) (m - 1) (m :: s)
      ((val + (0 + (n : Int))) * ((i + 1 : Nat) : Int)) hw (by omega)
    refine ⟨n * (i + 1).factorial + r, ?_, ?_, ?_⟩
    · rw [Nat.factorial_succ (i + 1)]
      calc n * (i + 1).factorial + r < n * (i + 1).factorial + (i + 1).factorial := by omega
        _ = (n + 1) * (i + 1).factorial := by ring
        _ ≤ (i + 1 + 1) * (i + 1).factorial := Nat.mul_le_mul_right _ (by omega)
    · rw [getPermLoopZ]
      simp only [List.append_assoc, List.cons_append] at hrot hget ⊢
      rw [hrot]
      simp only
      rw [hget, Nat.factorial_succ i]
      push_cast
      ring_nf
    · rw [setPermCoord_succ]
      have h1 : (n * (i + 1).factorial + r) / (i + 1).factorial % (i + 2) = n := by
        rw [Nat.add_comm, Nat.add_mul_div_right _ _ (Nat.factorial_pos _),
          Nat.div_eq_of_lt hr, Nat.zero_add, Nat.mod_eq_of_lt (by omega)]
      have h2 : setPermCoord ((n * (i + 1).factorial + r : Nat) : Int) (i + 1) (m - 1) = u ++ v := by
        rw [← setPermCoord_mod, Nat.add_comm, Nat.add_mul_mod_self_right, Nat.mod_eq_of_lt hr,
          hset]
      rw [h1, h2, hback]

/-! ## Claims on the permutation coordinate -/

theorem int_eq_natCast (c : Int) (h : 0 ≤ c) : ∃ n : Nat, c = (n : Int) :=
  ⟨c.toNat, (Int.toNat_of_nonneg h).symm⟩

theorem getPermCoord_perm (L : Nat) (v : List Int) (m : Int) (fuel : Nat)
    (hv : v.Perm (labelRange L m)) (hf : L ≤ fuel) :
    ∃ r : Nat, r < L.factorial ∧ getPermCoordZ fuel v L m = some (r : Int) ∧
      setPermCoord (r : Int) L m = v := by
  have hlen : v.length = L := by rw [hv.length_eq, labelRange_length]
  cases L with
  | zero =>
    have : v = [] := List.length_eq_zero.mp hlen
    subst this
    exact ⟨0, by simp, by simp [getPermCoordZ, getPermLoopZ], by simp [setPermCoord_zero]⟩
  | succ i =>
    obtain ⟨r, hr, hget, hset⟩ := getPermLoop_perm i v m [] 0 fuel hv hf
    refine ⟨r, hr, ?_, hset⟩
    rw [getPermCoordZ, ← hlen, List.take_length, hlen]
    simpa using hget

theorem getPermCoord_setPermCoord_of_lt (L : Nat) (max_label : Int) (c : Int) (fuel : Nat)
    (hL : 1 ≤ L) (hc0 : 0 ≤ c) (hc : c < fac L) (hf : L ≤ fuel) :
    getPermCoordZ fuel (setPermCoord c L max_label) L max_label = some c := by
  obtain ⟨n, rfl⟩ := int_eq_natCast c hc0
  obtain ⟨i, rfl⟩ : ∃ i, L = i + 1 := ⟨L - 1, by omega⟩
  have hn : n < (i + 1).factorial := by
    unfold fac at hc
    exact_mod_cast hc
  have := getPermLoop_setPermCoord i n max_label [] 0 fuel hf
  rw [getPermCoordZ]
  have hlen := setPermCoord_length (n : Int) (i + 1) max_label
  rw [List.take_of_length_le (by omega)]
  simp only [List.append_nil, zero_mul, zero_add, Nat.mod_eq_of_lt hn] at this
  simpa using this


/-! ## The conversion to `Coord` -/

theorem toCoord_nonneg (x : Int) : 0 ≤ toCoord x := by
  unfold toCoord
  omega

theorem toCoord_lt (x : Int) : toCoord x < 65536 := by
  unfold toCoord
  omega

theorem toCoord_of_lt (x : Int) (h0 : 0 ≤ x) (h : x < 65536) : toCoord x = x := by
  unfold toCoord
  omega

theorem toCoord_toCoord (x : Int) : toCoord (toCoord x) = toCoord x := by
  unfold toCoord
  omega

theorem toCoord_le (x : Int) (h0 : 0 ≤ x) : toCoord x ≤ x := by
  unfold toCoord
  omega

theorem toCoord_eq_of_modEq {a b : Int} (h : a ≡ b [ZMOD 65536]) : toCoord a = toCoord b := h

theorem toCoord_modEq (a : Int) : toCoord a ≡ a [ZMOD 65536] := Int.mod_modEq a 65536

/-- the loop of `getPermCoord` returns the conversion of what it returns without conversions -/
theorem getPermLoop_toCoord (fuel i : Nat) (c : List Int) (m v : Int) :
    getPermLoop fuel i c m (toCoord v) = (getPermLoopZ fuel i c m v).map toCoord := by
  induction i generalizing c m v with
  | zero => simp [getPermLoop, getPermLoopZ]
  | succ i ih =>
    rw [getPermLoop, getPermLoopZ]
    cases h : rotateUntil fuel c (i + 1) m 0 with
    | none => rfl
    | some p =>
      obtain ⟨c2, n⟩ := p
      simp only
      rw [← ih]
      congr 1
      exact toCoord_eq_of_modEq (((toCoord_modEq v).add_right n).mul_right _)

theorem getPermCoord_toCoord (fuel : Nat) (cubies : List Int) (len : Nat) (m : Int) :
    getPermCoord fuel cubies len m = (getPermCoordZ fuel cubies len m).map toCoord := by
  rw [getPermCoord, getPermCoordZ, ← getPermLoop_toCoord]
  rfl

theorem factorial_le_of_le_eight (L : Nat) (h : L ≤ 8) : fac L ≤ 40320 := by
  unfold fac
  have := Nat.factorial_le h
  have h8 : Nat.factorial 8 = 40320 := rfl
  rw [h8] at this
  exact_mod_cast this

/-- Claim C1, as worded it fails: `L = 9`, `max_label = 8` and `c = 100000 < 9!` meet its
hypotheses, and `getPermCoord` returns `34464`, the conversion of `100000` to `Coord`. -/
theorem perm_rank_unrank_wraps :
    ¬ ((1 : Nat) ≤ 9 → (0 : Int) ≤ 100000 → (100000 : Int) < fac 9 →
      getPermCoord 9 (setPermCoord 100000 9 8) 9 8 = some 100000) := by
  intro h
  have h1 := h (by decide) (by decide) (by decide)
  have h2 : getPermCoord 9 (setPermCoord 100000 9 8) 9 8 = some 34464 := by decide!
  rw [h2] at h1
  exact absurd h1 (by decide)

/-- Claim C1, amended: for every length `L >= 1`, every `max_label` and every rank `c` with
`0 <= c < L!` that is a value of `Coord`, `c < 65536` (every rank when `L <= 8`), `getPermCoord`
applied to the sequence written by `setPermCoord(c, L, max_label)` returns exactly `c` (as soon as
the fuel of the `while` loop is at least `L`). -/
theorem perm_rank_unrank_roundtrip (L : Nat) (max_label : Int) (c : Int) (fuel : Nat)
    (hL : 1 ≤ L) (hc0 : 0 ≤ c) (hc : c < fac L) (h16 : c < 65536) (hf : L ≤ fuel) :
    getPermCoord fuel (setPermCoord c L max_label) L max_label = some c := by
  rw [getPermCoord_toCoord, getPermCoord_setPermCoord_of_lt L max_label c fuel hL hc0 hc hf,
    Option.map_some', toCoord_of_lt c hc0 h16]

/-- The instances of the amended C1 at `L = 4`, `max_label = 3`, `c = 17`, and at `L = 9`,
`max_label = 8`, `c = 65535`. -/
theorem perm_rank_unrank_roundtrip_witness :
    getPermCoord 4 (setPermCoord 17 4 3) 4 3 = some 17 ∧
      getPermCoord 9 (setPermCoord 65535 9 8) 9 8 = some 65535 :=
  ⟨perm_rank_unrank_roundtrip 4 3 17 4 (by decide) (by decide) (by decide) (by decide)
      (by decide),
    perm_rank_unrank_roundtrip 9 8 65535 9 (by decide) (by decide) (by decide) (by decide)
      (by decide)⟩

/-- Claim C2, as worded it fails: `[6, 8, 0, 3, 7, 1, 2, 5, 4]` is a permutation of the labels
`0..8`; its rank is `100000` before the conversion to `Coord`, `getPermCoord` returns `34464`,
and `setPermCoord` of that rank writes another sequence. -/
theorem perm_unrank_rank_wraps :
    ¬ (List.Perm [6, 8, 0, 3, 7, 1, 2, 5, 4] (labelRange 9 8) →
      (getPermCoord 9 [6, 8, 0, 3, 7, 1, 2, 5, 4] 9 8).map (fun r => setPermCoord r 9 8)
        = some [6, 8, 0, 3, 7, 1, 2, 5, 4]) := by
  intro h
  have h1 := h (by decide)
  have h2 : getPermCoord 9 [6, 8, 0, 3, 7, 1, 2, 5, 4] 9 8 = some 34464 := by decide
  rw [h2] at h1
  exact absurd h1 (by decide)

/-- Claim C2, amended: for every length `L <= 8` and every sequence `v` that is a permutation of
the contiguous range `max_label-L+1 .. max_label`, `getPermCoord` returns a rank (as soon as the
fuel of the `while` loop is at least `L`), and `setPermCoord` of that rank writes a sequence
equal to `v`. -/
theorem perm_unrank_rank_roundtrip (L : Nat) (max_label : Int) (v : List Int) (fuel : Nat)
    (hL8 : L ≤ 8) (hv : v.Perm (labelRange L max_label)) (hf : L ≤ fuel) :
    (getPermCoord fuel v L max_label).map (fun r => setPermCoord r L max_label) = some v := by
  obtain ⟨r, hr, hget, hset⟩ := getPermCoord_perm L v max_label fuel hv hf
  have h8 := factorial_le_of_le_eight L hL8
  have hr2 : (r : Int) < fac L := by
    unfold fac
    exact_mod_cast hr
  rw [getPermCoord_toCoord, hget, Option.map_some', Option.map_some',
    toCoord_of_lt _ (Int.natCast_nonneg r) (by omega), hset]

/-- The instance of C2 named in the claim: the full reversal of 8 labels is reproduced. -/
theorem perm_unrank_rank_roundtrip_witness :
    (getPermCoord 8 [7, 6, 5, 4, 3, 2, 1, 0] 8 7).map (fun r => setPermCoord r 8 7)
      = some [7, 6, 5, 4, 3, 2, 1, 0] :=
  perm_unrank_rank_roundtrip 8 7 [7, 6, 5, 4, 3, 2, 1, 0] 8 (by decide) (by decide) (by decide)

/-- Claim C8, as worded it fails: at `L = 9`, `max_label = 8`, the two different permutations
`[0, 1, 2, 3, 4, 5, 6, 7, 8]` and `[8, 2, 4, 5, 6, 7, 0, 3, 1]` of the labels `0..8` get the
same rank `0`; the rank of the second is `65536` before the conversion to `Coord`. -/
theorem perm_rank_not_injective :
    ¬ (∀ v1 v2 : List Int, v1.Perm (labelRange 9 8) → v2.Perm (labelRange 9 8) →
        getPermCoord 9 v1 9 8 = getPermCoord 9 v2 9 8 → v1 = v2) := by
  intro h
  have h1 := h [0, 1, 2, 3, 4, 5, 6, 7, 8] [8, 2, 4, 5, 6, 7, 0, 3, 1] (by decide) (by decide)
    (by decide)
  exact absurd h1 (by decide)

/-- Claim C8, amended: for every `L` with `1 <= L <= 8` and every `max_label`, `getPermCoord`
maps every permutation of the labels `max_label-L+1 .. max_label` to an integer `r` with
`0 <= r < L!`, two different permutations never get the same rank, and every integer in
`[0, L!)` is the rank of some permutation. -/
theorem perm_rank_bijective (L : Nat) (max_label : Int) (fuel : Nat) (hL : 1 ≤ L)
    (hL8 : L ≤ 8) (hf : L ≤ fuel) :
    (∀ v : List Int, v.Perm (labelRange L max_label) →
        ∃ r : Int, getPermCoord fuel v L max_label = some r ∧ 0 ≤ r ∧ r < fac L) ∧
    (∀ v1 v2 : List Int, v1.Perm (labelRange L max_label) → v2.Perm (labelRange L max_label) →
        getPermCoord fuel v1 L max_label = getPermCoord fuel v2 L max_label → v1 = v2) ∧
    (∀ r : Int, 0 ≤ r → r < fac L →
        ∃ v : List Int, v.Perm (labelRange L max_label) ∧
          getPermCoord fuel v L max_label = some r) := by
  have h8 := factorial_le_of_le_eight L hL8
  have key : ∀ v : List Int, v.Perm (labelRange L max_label) →
      ∃ r : Nat, (r : Int) < fac L ∧ getPermCoord fuel v L max_label = some (r : Int) ∧
        setPermCoord (r : Int) L max_label = v := by
    intro v hv
    obtain ⟨r, hr, hget, hset⟩ := getPermCoord_perm L v max_label fuel hv hf
    have hr2 : (r : Int) < fac L := by
      unfold fac
      exact_mod_cast hr
    refine ⟨r, hr2, ?_, hset⟩
    rw [getPermCoord_toCoord, hget, Option.map_some',
      toCoord_of_lt _ (Int.natCast_nonneg r) (by omega)]
  refine ⟨?_, ?_, ?_⟩
  · intro v hv
    obtain ⟨r, hr, hget, _⟩ := key v hv
    exact ⟨r, hget, Int.natCast_nonneg r, hr⟩
  · intro v1 v2 h1 h2 heq
    obtain ⟨r1, _, hget1, hset1⟩ := key v1 h1
    obtain ⟨r2, _, hget2, hset2⟩ := key v2 h2
    rw [hget1, hget2] at heq
    have : (r1 : Int) = r2 := Option.some.inj heq
    rw [← hset1, ← hset2, this]
  · intro r hr0 hr
    obtain ⟨n, rfl⟩ := int_eq_natCast r hr0
    refine ⟨setPermCoord (n : Int) L max_label, setPermCoord_perm n L max_label, ?_⟩
    rw [getPermCoord_toCoord, getPermCoord_setPermCoord_of_lt L max_label n fuel hL hr0 hr hf,
      Option.map_some', toCoord_of_lt _ hr0 (by omega)]

/-- The instance of the amended C8 at `L = 3`, `max_label = 2`. -/
theorem perm_rank_bijective_witness :
    (∀ v : List Int, v.Perm (labelRange 3 2) →
        ∃ r : Int, getPermCoord 3 v 3 2 = some r ∧ 0 ≤ r ∧ r < fac 3) ∧
    (∀ v1 v2 : List Int, v1.Perm (labelRange 3 2) → v2.Perm (labelRange 3 2) →
        getPermCoord 3 v1 3 2 = getPermCoord 3 v2 3 2 → v1 = v2) ∧
    (∀ r : Int, 0 ≤ r → r < fac 3 →
        ∃ v : List Int, v.Perm (labelRange 3 2) ∧ getPermCoord 3 v 3 2 = some r) :=
  perm_rank_bijective 3 2 3 (by decide) (by decide) (by decide)

/-! ## Orientation rank and unrank -/

/-- the accumulation of `getOriCoordZ` over a list of digits -/
theorem getOri_fold (n : Nat) (B : Int) (d t : List Int) (h : d.length = n) :
    (List.range n).foldl (fun val i => B * val + (d ++ t).getD i 0) 0
      = d.foldl (fun val x => B * val + x) 0 := by
  induction n generalizing d t with
  | zero =>
    have : d = [] := List.length_eq_zero.mp h
    subst this
    rfl
  | succ n ih =>
    obtain ⟨d1, x, rfl⟩ : ∃ d1 x, d = d1 ++ [x] := by
      rcases List.eq_nil_or_concat d with h0 | ⟨d1, x, h0⟩
      · subst h0; simp at h
      · exact ⟨d1, x, by simpa using h0⟩
    have hl : d1.length = n := by simpa using h
    rw [List.range_succ, List.foldl_append, List.foldl_append]
    simp only [List.foldl_cons, List.foldl_nil]
    have h1 := ih d1 (x :: t) hl
    have h2 : (d1 ++ [x] ++ t).getD n 0 = x := by
      have := getD_append_mid d1 t x
      rw [hl] at this
      simpa using this
    simp only [List.append_assoc, List.singleton_append] at h1 h2 ⊢
    rw [h1, h2]

theorem setOriStep_snoc (b : Nat) (c : Nat) (a t : List Int) (z par : Int) :
    setOriStepZ (b : Int) a.length ((c : Int), a ++ z :: t, par)
      = (((c / b : Nat) : Int), a ++ ((c % b : Nat) : Int) :: t, par + ((c % b : Nat) : Int)) := by
  simp only [setOriStepZ, ← Int.ofNat_tdiv, ← Int.ofNat_tmod]
  have h1 : (a ++ z :: t).set a.length ((c % b : Nat) : Int) = a ++ ((c % b : Nat) : Int) :: t := by
    simp
  rw [h1, getD_append_mid]

/-- the loop of `setOriCoordZ` on a non-negative value: it writes digits below the base whose
accumulation is the value modulo `B ^ n`, and `parity` grows by their sum -/
theorem setOri_fold (n : Nat) (b : Nat) (hb : 1 ≤ b) (c : Nat) (a t : List Int) (par : Int)
    (h : a.length = n) :
    ∃ d : List Int, d.length = n ∧ (∀ x ∈ d, 0 ≤ x ∧ x < (b : Int)) ∧
      (List.range n).foldr (setOriStepZ (b : Int)) ((c : Int), a ++ t, par)
        = (((c / b ^ n : Nat) : Int), d ++ t, par + d.sum) ∧
      d.foldl (fun val x => (b : Int) * val + x) 0 = ((c % b ^ n : Nat) : Int) := by
  induction n generalizing c a t par with
  | zero =>
    have : a = [] := List.length_eq_zero.mp h
    subst this
    exact ⟨[], rfl, by simp, by simp, by simp [Nat.mod_one]⟩
  | succ n ih =>
    obtain ⟨a1, z, rfl⟩ : ∃ a1 z, a = a1 ++ [z] := by
      rcases List.eq_nil_or_concat a with h0 | ⟨a1, z, h0⟩
      · subst h0; simp at h
      · exact ⟨a1, z, by simpa using h0⟩
    have hl : a1.length = n := by simpa using h
    obtain ⟨d, hd, hrange, hfold, hval⟩ :=
      ih (c / b) a1 (((c % b : Nat) : Int) :: t) (par + ((c % b : Nat) : Int)) hl
    refine ⟨d ++ [((c % b : Nat) : Int)], by simp [hd], ?_, ?_, ?_⟩
    · intro x hx
      simp only [List.mem_append, List.mem_singleton] at hx
      rcases hx with hx | hx
      · exact hrange x hx
      · subst hx
        exact ⟨Int.natCast_nonneg _, by exact_mod_cast Nat.mod_lt _ (by omega)⟩
    · rw [List.range_succ, List.foldr_append]
      simp only [List.foldr_cons, List.foldr_nil]
      have := setOriStep_snoc b c a1 t z par
      rw [hl] at this
      simp only [List.append_assoc, List.singleton_append]
      rw [this, hfold, Nat.div_div_eq_div_mul, pow_succ']
      simp only [List.sum_append, List.sum_singleton, List.sum_cons, List.sum_nil]
      congr 2
      ring
    · rw [List.foldl_append]
      simp only [List.foldl_cons, List.foldl_nil]
      rw [hval, pow_succ', Nat.mod_mul]
      push_cast
      ring

/-- the loop of `setOriCoordZ` on the accumulation of a list of digits writes these digits -/
theorem setOri_fold_digits (n : Nat) (b : Nat) (d a t : List Int) (par : Int)
    (hd : d.length = n) (ha : a.length = n) (hr : ∀ x ∈ d, 0 ≤ x ∧ x < (b : Int)) :
    ∃ c : Nat, (c : Int) = d.foldl (fun val x => (b : Int) * val + x) 0 ∧
      (List.range n).foldr (setOriStepZ (b : Int)) ((c : Int), a ++ t, par)
        = (0, d ++ t, par + d.sum) := by
  induction n generalizing d a t par with
  | zero =>
    have h1 : a = [] := List.length_eq_zero.mp ha
    have h2 : d = [] := List.length_eq_zero.mp hd
    subst h1 h2
    exact ⟨0, by simp, by simp⟩
  | succ n ih =>
    obtain ⟨a1, z, rfl⟩ : ∃ a1 z, a = a1 ++ [z] := by
      rcases List.eq_nil_or_concat a with h0 | ⟨a1, z, h0⟩
      · subst h0; simp at ha
      · exact ⟨a1, z, by simpa using h0⟩
    obtain ⟨d1, x, rfl⟩ : ∃ d1 x, d = d1 ++ [x] := by
      rcases List.eq_nil_or_concat d with h0 | ⟨d1, x, h0⟩
      · subst h0; simp at hd
      · exact ⟨d1, x, by simpa using h0⟩
    have hal : a1.length = n := by simpa using ha
    have hdl : d1.length = n := by simpa using hd
    have hx := hr x (by simp)
    obtain ⟨x1, rfl⟩ := int_eq_natCast x hx.1
    have hx1 : x1 < b := by exact_mod_cast hx.2
    obtain ⟨c1, hc1, hfold⟩ := ih d1 a1 ((x1 : Int) :: t) (par + (x1 : Int)) hdl hal
      (fun y hy => hr y (List.mem_append_left _ hy))
    refine ⟨b * c1 + x1, ?_, ?_⟩
    · rw [List.foldl_append]
      simp only [List.foldl_cons, List.foldl_nil]
      rw [← hc1]
      push_cast
      ring
    · rw [List.range_succ, List.foldr_append]
      simp only [List.foldr_cons, List.foldr_nil]
      have := setOriStep_snoc b (b * c1 + x1) a1 t z par
      rw [hal] at this
      have hdiv : (b * c1 + x1) / b = c1 := by
        rw [Nat.add_comm, Nat.add_mul_div_left _ _ (by omega), Nat.div_eq_of_lt hx1, Nat.zero_add]
      have hmod : (b * c1 + x1) % b = x1 := by
        rw [Nat.add_comm, Nat.add_mul_mod_self_left, Nat.mod_eq_of_lt hx1]
      rw [hdiv, hmod] at this
      simp only [List.append_assoc, List.singleton_append]
      rw [this, hfold]
      simp only [List.sum_append, List.sum_singleton, List.sum_cons, List.sum_nil]
      congr 2
      ring

theorem sum_nonneg_of_digits (d : List Int) (B : Int) (hr : ∀ x ∈ d, 0 ≤ x ∧ x < B) :
    0 ≤ d.sum :=
  List.sum_nonneg (fun x hx => (hr x hx).1)

theorem last_ori_tmod (B s : Int) (hB : 1 ≤ B) (hs : 0 ≤ s) :
    Int.tmod (B - Int.tmod s B) B = (B - s % B) % B := by
  have h1 : Int.tmod s B = s % B := Int.tmod_eq_emod hs (by omega)
  have h2 : s % B < B := Int.emod_lt_of_pos s (by omega)
  rw [h1, Int.tmod_eq_emod (by omega) (by omega)]

theorem last_ori_sum (B s : Int) : (s + (B - s % B) % B) % B = 0 := by
  rw [Int.add_emod_emod]
  have : s + (B - s % B) = B * (s / B) + B := by
    have := Int.emod_add_ediv s B
    omega
  rw [this, Int.add_emod_self, Int.mul_emod_right]

theorem last_ori_eq (B s x : Int) (hx : 0 ≤ x) (hxB : x < B) (hsum : (s + x) % B = 0) :
    (B - s % B) % B = x := by
  have hB : 0 < B := by omega
  have hr0 : 0 ≤ s % B := Int.emod_nonneg s (by omega)
  have hrB : s % B < B := Int.emod_lt_of_pos s hB
  have hdvd : B ∣ s % B + x := by
    apply Int.dvd_of_emod_eq_zero
    rw [Int.emod_add_emod]
    exact hsum
  obtain ⟨k, hk⟩ := hdvd
  have hk0 : 0 ≤ k := by
    by_contra hneg
    have : B * k ≤ B * (-1) := Int.mul_le_mul_of_nonneg_left (by omega) (by omega)
    omega
  have hk2 : k < 2 := by
    by_contra hge
    have : B * 2 ≤ B * k := Int.mul_le_mul_of_nonneg_left (by omega) (by omega)
    omega
  have hk01 : k = 0 ∨ k = 1 := by omega
  rcases hk01 with rfl | rfl
  · have h1 : s % B = 0 := by omega
    have h2 : x = 0 := by omega
    rw [h1, h2]
    simp
  · have h1 : B - s % B = x := by omega
    rw [h1]
    exact Int.emod_eq_of_lt hx hxB

/-- the shape of the sequence written by `setOriCoordZ` for a non-negative value -/
theorem setOriCoord_shape (n : Nat) (b : Nat) (hb : 1 ≤ b) (c : Nat) :
    ∃ d : List Int, d.length = n ∧ (∀ x ∈ d, 0 ≤ x ∧ x < (b : Int)) ∧
      setOriCoordZ (c : Int) (n + 1) (b : Int) = d ++ [((b : Int) - d.sum % (b : Int)) % (b : Int)] ∧
      d.foldl (fun val x => (b : Int) * val + x) 0 = ((c % b ^ n : Nat) : Int) := by
  obtain ⟨d, hd, hr, hfold, hval⟩ :=
    setOri_fold n b hb c (List.replicate n 0) [0] 0 (by simp)
  refine ⟨d, hd, hr, ?_, hval⟩
  have hrep : List.replicate (n + 1) (0 : Int) = List.replicate n 0 ++ [0] :=
    List.replicate_succ' n 0
  have h1 : n + 1 - 1 = n := rfl
  rw [setOriCoordZ, h1, hrep, hfold]
  simp only [zero_add]
  rw [last_ori_tmod _ _ (by exact_mod_cast hb) (sum_nonneg_of_digits d _ hr), ← hd]
  simp

/-! ## Claims on the orientation coordinate -/

theorem getOriCoord_setOriCoord_of_lt (L : Nat) (B : Int) (c : Int) (hL : 1 ≤ L) (hB : 1 ≤ B)
    (hc0 : 0 ≤ c) (hc : c < B ^ (L - 1)) :
    getOriCoordZ (setOriCoordZ c L B) L B = c := by
  obtain ⟨n, rfl⟩ : ∃ n, L = n + 1 := ⟨L - 1, by omega⟩
  obtain ⟨b, rfl⟩ := int_eq_natCast B (by omega)
  obtain ⟨c1, rfl⟩ := int_eq_natCast c hc0
  have hb : 1 ≤ b := by exact_mod_cast hB
  have hc1 : c1 < b ^ n := by
    have h1 : n + 1 - 1 = n := rfl
    rw [h1] at hc
    exact_mod_cast hc
  obtain ⟨d, hd, _, hset, hval⟩ := setOriCoord_shape n b hb c1
  have h1 : n + 1 - 1 = n := rfl
  rw [hset, getOriCoordZ, h1, getOri_fold n _ d _ hd, hval, Nat.mod_eq_of_lt hc1]

theorem setOriCoord_getOriCoord_of_valid (L : Nat) (B : Int) (v : List Int) (hlen : v.length = L)
    (hr : ∀ x ∈ v, 0 ≤ x ∧ x < B) (hsum : v.sum % B = 0) :
    setOriCoordZ (getOriCoordZ v L B) L B = v := by
  cases L with
  | zero =>
    have : v = [] := List.length_eq_zero.mp hlen
    subst this
    simp [setOriCoordZ]
  | succ n =>
    obtain ⟨d, x, rfl⟩ : ∃ d x, v = d ++ [x] := by
      rcases List.eq_nil_or_concat v with h0 | ⟨d, x, h0⟩
      · subst h0; simp at hlen
      · exact ⟨d, x, by simpa using h0⟩
    have hd : d.length = n := by simpa using hlen
    have hx := hr x (by simp)
    obtain ⟨b, rfl⟩ := int_eq_natCast B (by omega)
    have hrd : ∀ y ∈ d, 0 ≤ y ∧ y < (b : Int) := fun y hy => hr y (List.mem_append_left _ hy)
    obtain ⟨c, hc, hfold⟩ := setOri_fold_digits n b d (List.replicate n 0) [0] 0 hd (by simp) hrd
    have h1 : n + 1 - 1 = n := rfl
    have hrep : List.replicate (n + 1) (0 : Int) = List.replicate n 0 ++ [0] :=
      List.replicate_succ' n 0
    rw [getOriCoordZ, h1, getOri_fold n _ d _ hd, ← hc, setOriCoordZ, h1, hrep, hfold]
    simp only [zero_add]
    rw [last_ori_tmod _ _ (by omega) (sum_nonneg_of_digits d _ hrd),
      last_ori_eq _ _ x hx.1 hx.2 (by simpa using hsum), ← hd]
    simp

theorem setOriCoord_valid (L : Nat) (B : Int) (r : Int) (hL : 1 ≤ L) (hB : 1 ≤ B)
    (hr0 : 0 ≤ r) (hr : r < B ^ (L - 1)) :
    (setOriCoordZ r L B).length = L ∧ (∀ x ∈ setOriCoordZ r L B, 0 ≤ x ∧ x < B) ∧
      (setOriCoordZ r L B).sum % B = 0 := by
  obtain ⟨n, rfl⟩ : ∃ n, L = n + 1 := ⟨L - 1, by omega⟩
  obtain ⟨b, rfl⟩ := int_eq_natCast B (by omega)
  obtain ⟨c1, rfl⟩ := int_eq_natCast r hr0
  have hb : 1 ≤ b := by exact_mod_cast hB
  obtain ⟨d, hd, hrange, hset, _⟩ := setOriCoord_shape n b hb c1
  rw [hset]
  refine ⟨by simp [hd], ?_, ?_⟩
  · intro x hx
    simp only [List.mem_append, List.mem_singleton] at hx
    rcases hx with hx | hx
    · exact hrange x hx
    · subst hx
      exact ⟨Int.emod_nonneg _ (by omega), Int.emod_lt_of_pos _ (by omega)⟩
  · rw [List.sum_append, List.sum_singleton]
    exact last_ori_sum _ _

theorem horner_range (b : Nat) (d : List Int) (hd : ∀ x ∈ d, 0 ≤ x ∧ x < (b : Int)) :
    ∃ r : Nat, d.foldl (fun val x => (b : Int) * val + x) 0 = (r : Int) ∧ r < b ^ d.length := by
  induction d using List.reverseRecOn with
  | nil => exact ⟨0, rfl, by simp⟩
  | append_singleton d x ih =>
    obtain ⟨r, hr, hlt⟩ := ih (fun y hy => hd y (List.mem_append_left _ hy))
    have hx := hd x (by simp)
    obtain ⟨x1, rfl⟩ := int_eq_natCast x hx.1
    have hx1 : x1 < b := by exact_mod_cast hx.2
    refine ⟨b * r + x1, ?_, ?_⟩
    · rw [List.foldl_append]
      simp only [List.foldl_cons, List.foldl_nil]
      rw [hr]
      push_cast
      rfl
    · rw [List.length_append, List.length_singleton, pow_succ]
      calc b * r + x1 < b * r + b := by omega
        _ = b * (r + 1) := by ring
        _ ≤ b * b ^ d.length := Nat.mul_le_mul_left _ hlt
        _ = b ^ d.length * b := by ring

/-- the rank of a sequence of digits below the base, without conversions, lies below
`B ^ (L - 1)` -/
theorem getOriCoordZ_range (L : Nat) (B : Int) (v : List Int) (hlen : v.length = L)
    (hr : ∀ x ∈ v, 0 ≤ x ∧ x < B) :
    0 ≤ getOriCoordZ v L B ∧ getOriCoordZ v L B < B ^ (L - 1) := by
  cases L with
  | zero =>
    have : v = [] := List.length_eq_zero.mp hlen
    subst this
    simp [getOriCoordZ]
  | succ n =>
    obtain ⟨d, x, rfl⟩ : ∃ d x, v = d ++ [x] := by
      rcases List.eq_nil_or_concat v with h0 | ⟨d, x, h0⟩
      · subst h0; simp at hlen
      · exact ⟨d, x, by simpa using h0⟩
    have hd : d.length = n := by simpa using hlen
    have hx := hr x (by simp)
    obtain ⟨b, rfl⟩ := int_eq_natCast B (by omega)
    obtain ⟨r, hr1, hlt⟩ := horner_range b d (fun z hz => hr z (List.mem_append_left _ hz))
    have h1 : n + 1 - 1 = n := rfl
    rw [getOriCoordZ, h1, getOri_fold n _ d _ hd, hr1]
    rw [hd] at hlt
    exact ⟨Int.natCast_nonneg r, by exact_mod_cast hlt⟩

/-- the loop of `getOriCoord` returns the conversion of what it returns without conversions -/
theorem getOri_foldl_toCoord (B : Int) (oris : List Int) (l : List Nat) (v : Int) :
    l.foldl (fun val i => toCoord (B * val + oris.getD i 0)) (toCoord v)
      = toCoord (l.foldl (fun val i => B * val + oris.getD i 0) v) := by
  induction l generalizing v with
  | nil => rfl
  | cons a l ih =>
    simp only [List.foldl_cons]
    rw [← ih]
    congr 1
    exact toCoord_eq_of_modEq (((toCoord_modEq v).mul_left B).add_right _)

theorem getOriCoord_toCoord (oris : List Int) (len : Nat) (B : Int) :
    getOriCoord oris len B = toCoord (getOriCoordZ oris len B) := by
  rw [getOriCoord, getOriCoordZ, ← getOri_foldl_toCoord]
  rfl

/-- on a value of `Coord` and a base `B >= 1`, the conversion in the body of the loop of
`setOriCoord` changes nothing -/
theorem setOriStep_eq (B : Int) (hB : 1 ≤ B) (i : Nat) (s : Int × List Int × Int)
    (h0 : 0 ≤ s.1) (h : s.1 < 65536) :
    setOriStep B i s = setOriStepZ B i s ∧ 0 ≤ (setOriStepZ B i s).1 ∧
      (setOriStepZ B i s).1 < 65536 := by
  have h1 : Int.tdiv s.1 B = s.1 / B := Int.tdiv_eq_ediv h0 (by omega)
  have h2 : 0 ≤ s.1 / B := Int.ediv_nonneg h0 (by omega)
  have h3 : s.1 / B ≤ s.1 := Int.ediv_le_self _ h0
  simp only [setOriStep, setOriStepZ, h1]
  refine ⟨?_, h2, by omega⟩
  rw [toCoord_of_lt _ h2 (by omega)]

theorem setOri_foldr_eq (B : Int) (hB : 1 ≤ B) (l : List Nat) (s : Int × List Int × Int)
    (h0 : 0 ≤ s.1) (h : s.1 < 65536) :
    l.foldr (setOriStep B) s = l.foldr (setOriStepZ B) s ∧ 0 ≤ (l.foldr (setOriStepZ B) s).1 ∧
      (l.foldr (setOriStepZ B) s).1 < 65536 := by
  induction l with
  | nil => exact ⟨rfl, h0, h⟩
  | cons a l ih =>
    obtain ⟨h1, h2, h3⟩ := ih
    simp only [List.foldr_cons]
    rw [h1]
    exact setOriStep_eq B hB a _ h2 h3

theorem setOriCoord_toCoord (val : Int) (len : Nat) (B : Int) (hB : 1 ≤ B) :
    setOriCoord val len B = setOriCoordZ (toCoord val) len B := by
  have h := (setOri_foldr_eq B hB (List.range (len - 1)) (toCoord val, List.replicate len 0, 0)
    (toCoord_nonneg val) (toCoord_lt val)).1
  simp only [setOriCoord, setOriCoordZ, h]

/-- Claim C5: for every length `L >= 1`, every base `B >= 1` and every `c` with
`0 <= c < B^(L-1)`, `getOriCoord` applied to the sequence written by `setOriCoord(c, L, B)`
returns `c`.  The rank `c` is the parameter `val` of `setOriCoord`, of type `Coord`: it is a
value of that type, `c < 65536`. -/
theorem ori_rank_unrank_roundtrip (L : Nat) (B : Int) (c : Int) (hL : 1 ≤ L) (hB : 1 ≤ B)
    (hc0 : 0 ≤ c) (hc : c < B ^ (L - 1)) (h16 : c < 65536) :
    getOriCoord (setOriCoord c L B) L B = c := by
  rw [setOriCoord_toCoord c L B hB, toCoord_of_lt c hc0 h16, getOriCoord_toCoord,
    getOriCoord_setOriCoord_of_lt L B c hL hB hc0 hc, toCoord_of_lt c hc0 h16]

/-- The instances of C5 named in the claim, at one value each: twist (`L = 8`, `B = 3`,
`c = 2186`) and flip (`L = 12`, `B = 2`, `c = 2047`). -/
theorem ori_rank_unrank_roundtrip_witness :
    getOriCoord (setOriCoord 2186 8 3) 8 3 = 2186 ∧
      getOriCoord (setOriCoord 2047 12 2) 12 2 = 2047 :=
  ⟨ori_rank_unrank_roundtrip 8 3 2186 (by decide) (by decide) (by decide) (by decide)
      (by decide),
    ori_rank_unrank_roundtrip 12 2 2047 (by decide) (by decide) (by decide) (by decide)
      (by decide)⟩

/-- Claim C6, as worded it fails: the sequence of twelve `2`s with `B = 3` has its elements in
`[0,3)` and the sum `24`; its rank is `177146` before the conversion to `Coord`, `getOriCoord`
returns `46074`, and `setOriCoord` of that rank writes another sequence. -/
theorem ori_unrank_rank_wraps :
    ¬ (([2, 2, 2, 2, 2, 2, 2, 2, 2, 2, 2, 2] : List Int).length = 12 →
      (∀ x ∈ ([2, 2, 2, 2, 2, 2, 2, 2, 2, 2, 2, 2] : List Int), 0 ≤ x ∧ x < 3) →
      ([2, 2, 2, 2, 2, 2, 2, 2, 2, 2, 2, 2] : List Int).sum % 3 = 0 →
      setOriCoord (getOriCoord [2, 2, 2, 2, 2, 2, 2, 2, 2, 2, 2, 2] 12 3) 12 3
        = [2, 2, 2, 2, 2, 2, 2, 2, 2, 2, 2, 2]) := by
  intro h
  have h1 := h (by decide) (by decide) (by decide)
  have h2 : getOriCoord [2, 2, 2, 2, 2, 2, 2, 2, 2, 2, 2, 2] 12 3 = 46074 := by decide!
  rw [h2] at h1
  exact absurd h1 (by decide!)

/-- Claim C6, amended: for every length `L` and base `B` with `B^(L-1) <= 65536`, and every
sequence `v` of length `L` whose elements all lie in `[0,B)` and whose element sum is `0` modulo
`B`, `setOriCoord(getOriCoord(v, L, B), L, B)` writes a sequence equal to `v`, the dependent last
element included. -/
theorem ori_unrank_rank_roundtrip (L : Nat) (B : Int) (v : List Int) (hlen : v.length = L)
    (hr : ∀ x ∈ v, 0 ≤ x ∧ x < B) (hsum : v.sum % B = 0) (h16 : B ^ (L - 1) ≤ 65536) :
    setOriCoord (getOriCoord v L B) L B = v := by
  cases L with
  | zero =>
    have : v = [] := List.length_eq_zero.mp hlen
    subst this
    simp [setOriCoord]
  | succ n =>
    have hB : 1 ≤ B := by
      cases v with
      | nil => simp at hlen
      | cons x t =>
        have := hr x (by simp)
        omega
    obtain ⟨hz0, hz⟩ := getOriCoordZ_range (n + 1) B v hlen hr
    rw [getOriCoord_toCoord, setOriCoord_toCoord _ _ _ hB, toCoord_toCoord,
      toCoord_of_lt _ hz0 (by omega)]
    exact setOriCoord_getOriCoord_of_valid (n + 1) B v hlen hr hsum

/-- The instance of C6 named in the claim: the all-zero corner orientation of length 8 with
`B = 3` ranks to `0`, and unranking gives eight zeros. -/
theorem ori_unrank_rank_roundtrip_witness :
    getOriCoord [0, 0, 0, 0, 0, 0, 0, 0] 8 3 = 0 ∧
      setOriCoord (getOriCoord [0, 0, 0, 0, 0, 0, 0, 0] 8 3) 8 3 = [0, 0, 0, 0, 0, 0, 0, 0] :=
  ⟨by decide,
    ori_unrank_rank_roundtrip 8 3 [0, 0, 0, 0, 0, 0, 0, 0] (by decide) (by decide) (by decide)
      (by decide)⟩

/-- Claim C7: for every `L >= 1`, base `B >= 1` and rank `r` with `0 <= r < B^(L-1)`, the
sequence written by `setOriCoord(r, L, B)` has `L` elements, every element lies in `[0,B)` and
the sum of all `L` elements is congruent to `0` modulo `B`. -/
theorem ori_unrank_sum_invariant (L : Nat) (B : Int) (r : Int) (hL : 1 ≤ L) (hB : 1 ≤ B)
    (hr0 : 0 ≤ r) (hr : r < B ^ (L - 1)) :
    (setOriCoord r L B).length = L ∧ (∀ x ∈ setOriCoord r L B, 0 ≤ x ∧ x < B) ∧
      (setOriCoord r L B).sum % B = 0 := by
  rw [setOriCoord_toCoord r L B hB]
  exact setOriCoord_valid L B (toCoord r) hL hB (toCoord_nonneg r)
    (lt_of_le_of_lt (toCoord_le r hr0) hr)

/-- The instance of C7 at the twist coordinate, `L = 8`, `B = 3`, `r = 1000`. -/
theorem ori_unrank_sum_invariant_witness :
    (setOriCoord 1000 8 3).length = 8 ∧ (∀ x ∈ setOriCoord 1000 8 3, 0 ≤ x ∧ x < 3) ∧
      (setOriCoord 1000 8 3).sum % 3 = 0 :=
  ori_unrank_sum_invariant 8 3 1000 (by decide) (by decide) (by decide) (by decide)

/-! ## Position values of masks -/

theorem posUnrank_length (n r v : Nat) : (posUnrank n r v).length = n := by
  induction n generalizing r v with
  | zero => rfl
  | succ n ih =>
    rw [posUnrank]
    split <;> simp [ih]

theorem posUnrank_count (n r v : Nat) (h : v < Nat.choose n r) :
    (posUnrank n r v).count true = r := by
  induction n generalizing r v with
  | zero =>
    cases r with
    | zero => rfl
    | succ r => simp at h
  | succ n ih =>
    rw [posUnrank]
    cases r with
    | zero =>
      have hv : v = 0 := by simpa using h
      subst hv
      have : ¬ (Nat.choose n 0 ≤ 0) := by simp
      rw [if_neg this, List.count_cons_of_ne (by simp)]
      exact ih 0 0 (by simp)
    | succ r =>
      rw [Nat.choose_succ_succ'] at h
      by_cases hc : Nat.choose n (r + 1) ≤ v
      · rw [if_pos hc, List.count_cons_self, Nat.add_sub_cancel, ih r _ (by omega)]
      · rw [if_neg hc, List.count_cons_of_ne (by simp)]
        exact ih (r + 1) v (by omega)

theorem posRank_posUnrank (n r v : Nat) (h : v < Nat.choose n r) :
    posRank (posUnrank n r v) = v := by
  induction n generalizing r v with
  | zero => 
    cases r with
    | zero => simp at h; subst h; rfl
    | succ r => simp at h
  | succ n ih =>
    rw [posUnrank]
    cases r with
    | zero =>
      have hv : v = 0 := by simpa using h
      subst hv
      have : ¬ (Nat.choose n 0 ≤ 0) := by simp
      rw [if_neg this, posRank]
      simp only [Bool.false_eq_true, if_false, Nat.zero_add]
      exact ih 0 0 (by simp)
    | succ r =>
      rw [Nat.choose_succ_succ'] at h
      by_cases hc : Nat.choose n (r + 1) ≤ v
      · rw [if_pos hc, posRank, Nat.add_sub_cancel, posUnrank_length,
          posUnrank_count n r _ (by omega), ih r _ (by omega)]
        simp only [if_true]
        omega
      · rw [if_neg hc, posRank]
        simp only [Bool.false_eq_true, if_false, Nat.zero_add]
        exact ih (r + 1) v (by omega)

theorem posRank_lt (m : List Bool) : posRank m < Nat.choose m.length (m.count true) := by
  induction m with
  | nil => simp [posRank]
  | cons b m ih =>
    cases b with
    | true =>
      rw [posRank, List.count_cons_self, List.length_cons, Nat.choose_succ_succ']
      simp only [if_true]
      omega
    | false =>
      rw [posRank, List.count_cons_of_ne (by simp), List.length_cons]
      simp only [Bool.false_eq_true, if_false, Nat.zero_add]
      have : Nat.choose m.length (List.count true m)
          ≤ Nat.choose (m.length + 1) (List.count true m) :=
        Nat.choose_le_succ _ _
      omega

theorem posUnrank_posRank (m : List Bool) :
    posUnrank m.length (m.count true) (posRank m) = m := by
  induction m with
  | nil => rfl
  | cons b m ih =>
    have hlt := posRank_lt m
    cases b with
    | true =>
      rw [posRank, List.count_cons_self, List.length_cons, posUnrank]
      simp only [if_true]
      rw [if_pos (by omega), Nat.add_sub_cancel, Nat.add_sub_cancel_left, ih]
    | false =>
      rw [posRank, List.count_cons_of_ne (by simp), List.length_cons, posUnrank]
      simp only [Bool.false_eq_true, if_false, Nat.zero_add]
      rw [if_neg (by omega), ih]

/-! ## The scanning loops of `getPosPermCoordZ` -/

theorem exists_snoc (a : List Int) (n : Nat) (h : a.length = n + 1) :
    ∃ a1 z, a = a1 ++ [z] ∧ a1.length = n := by
  rcases List.eq_nil_or_concat a with h0 | ⟨a1, z, h0⟩
  · subst h0; simp at h
  · refine ⟨a1, z, by simpa using h0, ?_⟩
    subst h0
    simpa using h

theorem inWindow_iff (lo hi x : Int) : inWindow lo hi x = true ↔ lo ≤ x ∧ x ≤ hi := by
  simp [inWindow]

theorem count_mask (lo hi : Int) (p : List Int) :
    (p.map (inWindow lo hi)).count true = (p.filter (inWindow lo hi)).length := by
  induction p with
  | nil => rfl
  | cons x p ih =>
    cases hx : inWindow lo hi x <;> simp [List.filter_cons, hx, ih]

theorem getPosLeft_fold (lo hi : Int) (k n : Nat) (p t : List Int) (hp : p.length = n)
    (hk : (p.map (inWindow lo hi)).count true ≤ k) :
    (List.range n).foldl (getPosLeftStepZ (p ++ t) lo hi) (0, 0, List.replicate k 0)
      = ((posRank (p.map (inWindow lo hi)).reverse : Int), (p.map (inWindow lo hi)).count true,
          p.filter (inWindow lo hi)
            ++ List.replicate (k - (p.map (inWindow lo hi)).count true) 0) := by
  induction n generalizing p t with
  | zero =>
    have : p = [] := List.length_eq_zero.mp hp
    subst this
    simp [posRank]
  | succ n ih =>
    obtain ⟨p1, x, rfl, hl⟩ := exists_snoc p n hp
    have hget : (p1 ++ [x] ++ t).getD n 0 = x := by
      have := getD_append_mid p1 t x
      rw [hl] at this
      simpa using this
    have hcount1 : (p1.map (inWindow lo hi)).count true
        ≤ ((p1 ++ [x]).map (inWindow lo hi)).count true := by
      simp [List.count_append]
    have h1 := ih p1 (x :: t) hl (by omega)
    simp only [List.append_assoc, List.singleton_append] at hget
    rw [List.range_succ, List.foldl_append]
    simp only [List.foldl_cons, List.foldl_nil, List.append_assoc, List.singleton_append]
    rw [h1]
    simp only [getPosLeftStepZ, hget]
    cases hx : inWindow lo hi x
    · have hnot : ¬ (lo ≤ x ∧ x ≤ hi) := by
        rw [← inWindow_iff]; simp [hx]
      rw [if_neg hnot]
      simp [List.count_append, hx, posRank, List.filter_append, List.filter_cons]
    · have hyes : lo ≤ x ∧ x ≤ hi := (inWindow_iff lo hi x).mp hx
      rw [if_pos hyes]
      have hcnt : ((p1 ++ [x]).map (inWindow lo hi)).count true
          = (p1.map (inWindow lo hi)).count true + 1 := by
        simp [List.count_append, hx]
      have hflen := count_mask lo hi p1
      obtain ⟨e, he⟩ : ∃ e, k - (p1.map (inWindow lo hi)).count true = e + 1 :=
        ⟨k - (p1.map (inWindow lo hi)).count true - 1, by omega⟩
      have hset : (p1.filter (inWindow lo hi) ++ List.replicate (e + 1) 0).set
          ((p1.map (inWindow lo hi)).count true) x
          = p1.filter (inWindow lo hi) ++ x :: List.replicate e 0 := by
        rw [hflen, List.replicate_succ]
        simp
      rw [hcnt, he, hset]
      have he2 : k - ((p1.map (inWindow lo hi)).count true + 1) = e := by omega
      rw [he2]
      simp only [List.map_append, List.map_cons, List.map_nil, hx, List.reverse_append,
        List.reverse_cons, List.reverse_nil, List.nil_append, List.singleton_append,
        List.filter_append, List.filter_cons, List.filter_nil, if_true, posRank,
        List.length_reverse, List.length_map, List.count_reverse, hl, cnk]
      refine Prod.ext ?_ (Prod.ext rfl (by simp))
      simp only
      push_cast
      ring

theorem getPosRight_fold (lo hi : Int) (L k : Nat) (m pre : List Int) (i : Nat)
    (hpre : pre.length = i) (hL : i + m.length = L) (val : Int) (f z : List Int)
    (hf : f.length + (m.map (inWindow lo hi)).count true = k)
    (hz : z.length = (m.map (inWindow lo hi)).count true) :
    (List.range' i m.length).foldl (getPosRightStepZ (pre ++ m) L k lo hi)
        (val, ((m.map (inWindow lo hi)).count true : Int) - 1, f ++ z)
      = (val + (posRank (m.map (inWindow lo hi)) : Int), -1, f ++ m.filter (inWindow lo hi)) := by
  induction m generalizing pre i val f z with
  | nil =>
    have : z = [] := List.length_eq_zero.mp (by simpa using hz)
    subst this
    simp [posRank]
  | cons x m ih =>
    have hget : (pre ++ x :: m).getD i 0 = x := by
      rw [← hpre]; exact getD_append_mid pre m x
    rw [List.length_cons, List.range'_succ, List.foldl_cons]
    have hassoc : pre ++ x :: m = (pre ++ [x]) ++ m := by simp
    cases hx : inWindow lo hi x
    · have hnot : ¬ (lo ≤ x ∧ x ≤ hi) := by
        rw [← inWindow_iff]; simp [hx]
      have hstep : getPosRightStepZ (pre ++ x :: m) L k lo hi
          (val, (((x :: m).map (inWindow lo hi)).count true : Int) - 1, f ++ z) i
          = (val, ((m.map (inWindow lo hi)).count true : Int) - 1, f ++ z) := by
        simp only [getPosRightStepZ, hget]
        rw [if_neg hnot]
        simp [hx]
      rw [hstep, hassoc, ih (pre ++ [x]) (i + 1) (by simp [hpre]) (by simp at hL ⊢; omega) val f z
        (by simpa [hx] using hf) (by simpa [hx] using hz)]
      simp [posRank, hx, List.filter_cons]
    · have hyes : lo ≤ x ∧ x ≤ hi := (inWindow_iff lo hi x).mp hx
      have hcnt : ((x :: m).map (inWindow lo hi)).count true
          = (m.map (inWindow lo hi)).count true + 1 := by
        simp [hx]
      rw [hcnt] at hf hz
      obtain ⟨z0, z1, rfl⟩ : ∃ z0 z1, z = z0 :: z1 := by
        cases z with
        | nil => simp at hz
        | cons z0 z1 => exact ⟨z0, z1, rfl⟩
      have hstep : getPosRightStepZ (pre ++ x :: m) L k lo hi
          (val, (((x :: m).map (inWindow lo hi)).count true : Int) - 1, f ++ z0 :: z1) i
          = (val + cnk m.length ((m.map (inWindow lo hi)).count true + 1),
              ((m.map (inWindow lo hi)).count true : Int) - 1, (f ++ [x]) ++ z1) := by
        simp only [getPosRightStepZ, hget]
        rw [if_pos hyes, hcnt]
        have e1 : L - 1 - i = m.length := by simp at hL; omega
        have e2 : ((((m.map (inWindow lo hi)).count true + 1 : Nat) : Int) - 1 + 1).toNat
            = (m.map (inWindow lo hi)).count true + 1 := by omega
        have e3 : ((k : Int) - 1 - ((((m.map (inWindow lo hi)).count true + 1 : Nat) : Int) - 1)).toNat
            = f.length := by omega
        rw [e1, e2, e3]
        refine Prod.ext rfl (Prod.ext ?_ ?_)
        · simp
        · simp
      rw [hstep, hassoc, ih (pre ++ [x]) (i + 1) (by simp [hpre]) (by simp at hL ⊢; omega) _
        (f ++ [x]) z1 (by simp; omega) (by simpa using hz)]
      simp only [posRank, List.map_cons, hx, if_true, List.length_map, List.filter_cons,
        List.append_assoc, List.singleton_append, cnk]
      refine Prod.ext ?_ rfl
      simp only
      push_cast
      ring

/-! ## The loops of `setPosPermCoordZ` -/

theorem headD_drop (c1 : List Int) (t : Nat) : (c1.drop t).headD 0 = c1.getD t 0 := by
  induction c1 generalizing t with
  | nil => simp
  | cons x c1 ih =>
    cases t with
    | zero => simp
    | succ t => simp

theorem set_append_mid (pre suf : List Int) (z x : Int) (n : Nat) (h : pre.length = n) :
    (pre ++ z :: suf).set n x = pre ++ x :: suf := by
  subst h
  simp

theorem choose_zero_not_le (n v : Nat) (hv : v < Nat.choose (n + 1) 0) :
    ¬ (Nat.choose n 0 ≤ v) := by
  simp at hv
  simp [hv]

theorem setPosRight_fold (c1 : List Int) (L k : Nat) (n i : Nat)
    (hL : i + n = L) (v r : Nat) (hv : v < Nat.choose n r) (hr : r ≤ k) (pre suf : List Int)
    (hpre : pre.length = i) (hsuf : suf.length = n) :
    ((List.range' i n).foldl (setPosRightStepZ c1 L k) ((v : Int), (r : Int) - 1, pre ++ suf)).2.2
      = pre ++ place (posUnrank n r v) (c1.drop (k - r)) := by
  induction n generalizing i v r pre suf with
  | zero =>
    have : suf = [] := List.length_eq_zero.mp hsuf
    subst this
    simp [posUnrank, place]
  | succ n ih =>
    obtain ⟨s0, suf1, rfl⟩ : ∃ s0 suf1, suf = s0 :: suf1 := by
      cases suf with
      | nil => simp at hsuf
      | cons s0 suf1 => exact ⟨s0, suf1, rfl⟩
    have hsuf1 : suf1.length = n := by simpa using hsuf
    have e1 : L - 1 - i = n := by omega
    have e2 : ((r : Int) - 1 + 1).toNat = r := by omega
    rw [List.range'_succ, List.foldl_cons, posUnrank]
    by_cases hc : Nat.choose n r ≤ v
    · have hr1 : 1 ≤ r := by
        by_contra h0
        have : r = 0 := by omega
        subst this
        exact choose_zero_not_le n v hv hc
      obtain ⟨r1, rfl⟩ : ∃ r1, r = r1 + 1 := ⟨r - 1, by omega⟩
      rw [Nat.choose_succ_succ'] at hv
      have hstep : setPosRightStepZ c1 L k ((v : Int), ((r1 + 1 : Nat) : Int) - 1, pre ++ s0 :: suf1) i
          = (((v - Nat.choose n (r1 + 1) : Nat) : Int), (r1 : Int) - 1,
              (pre ++ [c1.getD (k - (r1 + 1)) 0]) ++ suf1) := by
        simp only [setPosRightStepZ, e1, e2, cnk]
        have hge : (v : Int) - (Nat.choose n (r1 + 1) : Int) ≥ 0 := by
          have : (Nat.choose n (r1 + 1) : Int) ≤ (v : Int) := by exact_mod_cast hc
          omega
        rw [if_pos hge]
        have e3 : ((k : Int) - 1 - (((r1 + 1 : Nat) : Int) - 1)).toNat = k - (r1 + 1) := by omega
        rw [e3, set_append_mid _ _ _ _ _ hpre]
        refine Prod.ext ?_ (Prod.ext ?_ ?_)
        · simp only
          rw [Nat.cast_sub hc]
        · simp
        · simp
      rw [hstep, ih (i + 1) (by omega) _ r1 (by omega) (by omega) _ suf1 (by simp [hpre]) hsuf1,
        if_pos hc, place, headD_drop, Nat.add_sub_cancel, List.tail_drop]
      have e4 : k - (r1 + 1) + 1 = k - r1 := by omega
      rw [e4]
      simp
    · have hstep : setPosRightStepZ c1 L k ((v : Int), (r : Int) - 1, pre ++ s0 :: suf1) i
          = ((v : Int), (r : Int) - 1, (pre ++ [-1]) ++ suf1) := by
        simp only [setPosRightStepZ, e1, e2, cnk]
        have hlt : ¬ ((v : Int) - (Nat.choose n r : Int) ≥ 0) := by
          have : (v : Int) < (Nat.choose n r : Int) := by exact_mod_cast Nat.lt_of_not_le hc
          omega
        rw [if_neg hlt, set_append_mid _ _ _ _ _ hpre]
        simp
      rw [hstep, ih (i + 1) (by omega) v r (by omega) hr _ suf1 (by simp [hpre]) hsuf1,
        if_neg hc, place]
      simp

theorem setPosLeft_fold (c1 : List Int) (k : Nat) (hk : c1.length = k) (n : Nat)
    (v r : Nat) (hv : v < Nat.choose n r) (hr : r ≤ k) (pre suf : List Int)
    (hpre : pre.length = n) :
    ((List.range n).foldr (setPosLeftStepZ c1) ((v : Int), (r : Int) - 1, pre ++ suf)).2.2
      = (place (posUnrank n r v) (c1.take r).reverse).reverse ++ suf := by
  induction n generalizing v r pre suf with
  | zero =>
    have : pre = [] := List.length_eq_zero.mp hpre
    subst this
    simp [posUnrank, place]
  | succ n ih =>
    obtain ⟨pre1, z, rfl, hl⟩ := exists_snoc pre n hpre
    have e2 : ((r : Int) - 1 + 1).toNat = r := by omega
    rw [List.range_succ, List.foldr_append, posUnrank]
    simp only [List.foldr_cons, List.foldr_nil, List.append_assoc, List.singleton_append]
    by_cases hc : Nat.choose n r ≤ v
    · have hr1 : 1 ≤ r := by
        by_contra h0
        have : r = 0 := by omega
        subst this
        exact choose_zero_not_le n v hv hc
      obtain ⟨r1, rfl⟩ : ∃ r1, r = r1 + 1 := ⟨r - 1, by omega⟩
      rw [Nat.choose_succ_succ'] at hv
      have hstep : setPosLeftStepZ c1 n ((v : Int), ((r1 + 1 : Nat) : Int) - 1, pre1 ++ z :: suf)
          = (((v - Nat.choose n (r1 + 1) : Nat) : Int), (r1 : Int) - 1,
              pre1 ++ (c1.getD r1 0 :: suf)) := by
        simp only [setPosLeftStepZ, e2, cnk]
        have hge : (v : Int) - (Nat.choose n (r1 + 1) : Int) ≥ 0 := by
          have : (Nat.choose n (r1 + 1) : Int) ≤ (v : Int) := by exact_mod_cast hc
          omega
        rw [if_pos hge]
        have e3 : (((r1 + 1 : Nat) : Int) - 1).toNat = r1 := by omega
        rw [e3, set_append_mid _ _ _ _ _ hl]
        refine Prod.ext ?_ (Prod.ext ?_ rfl)
        · simp only
          rw [Nat.cast_sub hc]
        · simp
      have htake : c1.take (r1 + 1) = c1.take r1 ++ [c1.getD r1 0] := by
        have hlt : r1 < c1.length := by omega
        rw [List.take_succ, List.getD_eq_getElem?_getD, List.getElem?_eq_getElem hlt]
        simp
      rw [hstep, ih _ r1 (by omega) (by omega) pre1 _ hl, if_pos hc, Nat.add_sub_cancel, htake]
      simp [place]
    · have hstep : setPosLeftStepZ c1 n ((v : Int), (r : Int) - 1, pre1 ++ z :: suf)
          = ((v : Int), (r : Int) - 1, pre1 ++ (-1 :: suf)) := by
        simp only [setPosLeftStepZ, e2, cnk]
        have hlt : ¬ ((v : Int) - (Nat.choose n r : Int) ≥ 0) := by
          have : (v : Int) < (Nat.choose n r : Int) := by exact_mod_cast Nat.lt_of_not_le hc
          omega
        rw [if_neg hlt, set_append_mid _ _ _ _ _ hl]
      rw [hstep, ih v r (by omega) hr pre1 _ hl, if_neg hc]
      simp [place]

theorem fill_fold (lo hi : Int) (y pre : List Int) (i : Nat) (hpre : pre.length = i) (c : Int) :
    ((List.range' i y.length).foldl (fillStep lo hi) (c, pre ++ y)).2
      = pre ++ fillAbs lo hi c y := by
  induction y generalizing pre i c with
  | nil => simp [fillAbs]
  | cons x y ih =>
    have hget : (pre ++ x :: y).getD i 0 = x := by
      rw [← hpre]; exact getD_append_mid pre y x
    rw [List.length_cons, List.range'_succ, List.foldl_cons, fillAbs]
    by_cases hx : x = -1
    · have hstep : fillStep lo hi (c, pre ++ x :: y) i
          = ((if c = lo then hi + 1 else c) + 1, (pre ++ [if c = lo then hi + 1 else c]) ++ y) := by
        simp only [fillStep, hget]
        rw [if_pos hx, set_append_mid _ _ _ _ _ hpre]
        simp
      rw [hstep, ih _ (i + 1) (by simp [hpre])]
      simp [hx]
    · have hstep : fillStep lo hi (c, pre ++ x :: y) i
          = ((if c = lo then hi + 1 else c), (pre ++ [x]) ++ y) := by
        simp only [fillStep, hget]
        rw [if_neg hx]
        simp
      rw [hstep, ih _ (i + 1) (by simp [hpre])]
      simp [hx]

/-! ## Masks, placed labels and the filling loop -/

theorem place_length (m : List Bool) (xs : List Int) : (place m xs).length = m.length := by
  induction m generalizing xs with
  | nil => rfl
  | cons b m ih => cases b <;> simp [place, ih]

theorem inWindow_neg_one (lo hi : Int) (hlo : 0 ≤ lo) : inWindow lo hi (-1) = false := by
  simp [inWindow]
  omega

theorem mask_place (lo hi : Int) (hlo : 0 ≤ lo) (m : List Bool) (xs : List Int)
    (hxs : ∀ x ∈ xs, inWindow lo hi x = true) (hc : m.count true = xs.length) :
    (place m xs).map (inWindow lo hi) = m := by
  induction m generalizing xs with
  | nil => rfl
  | cons b m ih =>
    cases b with
    | false =>
      rw [List.count_cons_of_ne (by simp)] at hc
      simp [place, inWindow_neg_one lo hi hlo, ih xs hxs hc]
    | true =>
      rw [List.count_cons_self] at hc
      cases xs with
      | nil => simp at hc
      | cons x xs =>
        simp only [place, List.headD_cons, List.tail_cons, List.map_cons]
        rw [hxs x (by simp), ih xs (fun y hy => hxs y (List.mem_cons_of_mem _ hy))
          (by simpa using hc)]

theorem filter_place (lo hi : Int) (hlo : 0 ≤ lo) (m : List Bool) (xs : List Int)
    (hxs : ∀ x ∈ xs, inWindow lo hi x = true) (hc : m.count true = xs.length) :
    (place m xs).filter (inWindow lo hi) = xs := by
  induction m generalizing xs with
  | nil =>
    have : xs = [] := List.length_eq_zero.mp (by simpa using hc.symm)
    subst this
    rfl
  | cons b m ih =>
    cases b with
    | false =>
      rw [List.count_cons_of_ne (by simp)] at hc
      simp [place, List.filter_cons, inWindow_neg_one lo hi hlo, ih xs hxs hc]
    | true =>
      rw [List.count_cons_self] at hc
      cases xs with
      | nil => simp at hc
      | cons x xs =>
        simp only [place, List.headD_cons, List.tail_cons, List.filter_cons]
        rw [hxs x (by simp), ih xs (fun y hy => hxs y (List.mem_cons_of_mem _ hy))
          (by simpa using hc)]
        simp

theorem fillAbs_length (lo hi c : Int) (y : List Int) : (fillAbs lo hi c y).length = y.length := by
  induction y generalizing c with
  | nil => rfl
  | cons x y ih =>
    rw [fillAbs]
    by_cases hx : x = -1 <;> simp [hx, ih]

theorem skip_not_inWindow (lo hi c : Int) (hc : c ≤ lo ∨ hi < c) :
    inWindow lo hi (if c = lo then hi + 1 else c) = false := by
  by_cases h : c = lo
  · rw [if_pos h]
    simp [inWindow]
  · rw [if_neg h]
    simp [inWindow]
    omega

theorem mask_fillAbs (lo hi : Int) (hlo : 0 ≤ lo) (c : Int)
    (hc : c ≤ lo ∨ hi < c) (y : List Int) :
    (fillAbs lo hi c y).map (inWindow lo hi) = y.map (inWindow lo hi) := by
  induction y generalizing c with
  | nil => rfl
  | cons x y ih =>
    have hskip := skip_not_inWindow lo hi c hc
    have hnext : ∀ d : Int, d = (if c = lo then hi + 1 else c) →
        (d ≤ lo ∨ hi < d) ∧ (d + 1 ≤ lo ∨ hi < d + 1) := by
      intro d hd
      by_cases h : c = lo
      · rw [if_pos h] at hd; omega
      · rw [if_neg h] at hd; omega
    rw [fillAbs]
    by_cases hx : x = -1
    · simp only [hx, if_true, List.map_cons]
      rw [hskip, inWindow_neg_one lo hi hlo, ih _ (hnext _ rfl).2]
    · simp only [hx, if_false, List.map_cons]
      rw [ih _ (hnext _ rfl).1]

theorem filter_fillAbs (lo hi : Int) (hlo : 0 ≤ lo) (c : Int)
    (hc : c ≤ lo ∨ hi < c) (y : List Int) :
    (fillAbs lo hi c y).filter (inWindow lo hi) = y.filter (inWindow lo hi) := by
  induction y generalizing c with
  | nil => rfl
  | cons x y ih =>
    have hskip := skip_not_inWindow lo hi c hc
    have hnext : ∀ d : Int, d = (if c = lo then hi + 1 else c) →
        (d ≤ lo ∨ hi < d) ∧ (d + 1 ≤ lo ∨ hi < d + 1) := by
      intro d hd
      by_cases h : c = lo
      · rw [if_pos h] at hd; omega
      · rw [if_neg h] at hd; omega
    rw [fillAbs]
    by_cases hx : x = -1
    · simp only [hx, if_true, List.filter_cons]
      rw [hskip, inWindow_neg_one lo hi hlo, ih _ (hnext _ rfl).2]
      simp
    · simp only [hx, if_false, List.filter_cons]
      rw [ih _ (hnext _ rfl).1]

/-! ## The shape of `setPosPermCoordZ` and of `getPosPermCoordZ` -/

theorem window_toNat (lo hi : Int) (hle : lo ≤ hi) :
    1 ≤ (hi - lo + 1).toNat ∧ ((hi - lo + 1).toNat : Int) = hi - lo + 1 := by
  omega

theorem setPosPermCoord_right (c L : Nat) (lo hi : Int)
    (hc : c / (hi - lo + 1).toNat.factorial < Nat.choose L (hi - lo + 1).toNat) :
    setPosPermCoordZ (c : Int) L lo hi false
      = fillAbs lo hi 0 (place (posUnrank L (hi - lo + 1).toNat (c / (hi - lo + 1).toNat.factorial))
          (setPermCoord ((c % (hi - lo + 1).toNat.factorial : Nat) : Int) (hi - lo + 1).toNat hi)) := by
  generalize hk : (hi - lo + 1).toNat = k at hc
  simp only [setPosPermCoordZ, hk, fac, ← Int.ofNat_tmod, ← Int.ofNat_tdiv, Bool.false_eq_true,
    if_false]
  have h1 := setPosRight_fold (setPermCoord ((c % k.factorial : Nat) : Int) k hi) L k L 0
    (by omega) (c / k.factorial) k hc (le_refl _) [] (List.replicate L 0) rfl (by simp)
  simp only [List.nil_append, Nat.sub_self, List.drop_zero, ← List.range_eq_range'] at h1
  rw [h1]
  have h2 := fill_fold lo hi
    (place (posUnrank L k (c / k.factorial)) (setPermCoord ((c % k.factorial : Nat) : Int) k hi))
    [] 0 rfl 0
  simp only [List.nil_append, place_length, posUnrank_length, ← List.range_eq_range'] at h2
  exact h2

theorem setPosPermCoord_left (c L : Nat) (lo hi : Int)
    (hc : c / (hi - lo + 1).toNat.factorial < Nat.choose L (hi - lo + 1).toNat) :
    setPosPermCoordZ (c : Int) L lo hi true
      = fillAbs lo hi 0 (place (posUnrank L (hi - lo + 1).toNat (c / (hi - lo + 1).toNat.factorial))
          (setPermCoord ((c % (hi - lo + 1).toNat.factorial : Nat) : Int)
            (hi - lo + 1).toNat hi).reverse).reverse := by
  generalize hk : (hi - lo + 1).toNat = k at hc
  simp only [setPosPermCoordZ, hk, fac, ← Int.ofNat_tmod, ← Int.ofNat_tdiv, if_true]
  have hlen := setPermCoord_length ((c % k.factorial : Nat) : Int) k hi
  have h1 := setPosLeft_fold (setPermCoord ((c % k.factorial : Nat) : Int) k hi) k hlen L
    (c / k.factorial) k hc (le_refl _) (List.replicate L 0) [] (by simp)
  simp only [List.append_nil] at h1
  rw [List.take_of_length_le (by omega)] at h1
  rw [h1]
  have h2 := fill_fold lo hi
    (place (posUnrank L k (c / k.factorial))
      (setPermCoord ((c % k.factorial : Nat) : Int) k hi).reverse).reverse
    [] 0 rfl 0
  simp only [List.nil_append, List.length_reverse, place_length, posUnrank_length,
    ← List.range_eq_range'] at h2
  exact h2

theorem getPosPart_right (v : List Int) (L : Nat) (lo hi : Int) (hlen : v.length = L)
    (hcount : (v.map (inWindow lo hi)).count true = (hi - lo + 1).toNat) :
    getPosPartZ v L lo hi false
      = ((posRank (v.map (inWindow lo hi)) : Int), v.filter (inWindow lo hi)) := by
  generalize hk : (hi - lo + 1).toNat = k at hcount
  simp only [getPosPartZ, hk, Bool.false_eq_true, if_false]
  have h1 := getPosRight_fold lo hi L k v [] 0 rfl (by omega) 0 [] (List.replicate k 0)
    (by simp [hcount]) (by simp [hcount])
  simp only [List.nil_append, hlen, hcount, ← List.range_eq_range', zero_add] at h1
  rw [h1]

theorem getPosPart_left (v : List Int) (L : Nat) (lo hi : Int) (hlen : v.length = L)
    (hcount : (v.map (inWindow lo hi)).count true = (hi - lo + 1).toNat) :
    getPosPartZ v L lo hi true
      = ((posRank (v.map (inWindow lo hi)).reverse : Int), v.filter (inWindow lo hi)) := by
  generalize hk : (hi - lo + 1).toNat = k at hcount
  simp only [getPosPartZ, hk, if_true]
  have h1 := getPosLeft_fold lo hi k L v [] hlen (by omega)
  simp only [List.append_nil, hcount, Nat.sub_self, List.replicate_zero] at h1
  rw [h1]

/-! ## The position and permutation coordinate and the conversion to `Coord` -/

theorem getPosLeft_foldl_toCoord (cubies : List Int) (lo hi : Int) (l : List Nat)
    (v : Int) (j : Nat) (c1 : List Int) :
    l.foldl (getPosLeftStep cubies lo hi) (toCoord v, j, c1)
      = (toCoord (l.foldl (getPosLeftStepZ cubies lo hi) (v, j, c1)).1,
        (l.foldl (getPosLeftStepZ cubies lo hi) (v, j, c1)).2) := by
  induction l generalizing v j c1 with
  | nil => rfl
  | cons a l ih =>
    simp only [List.foldl_cons]
    by_cases h : lo ≤ cubies.getD a 0 ∧ cubies.getD a 0 ≤ hi
    · have e1 : getPosLeftStep cubies lo hi (toCoord v, j, c1) a
          = (toCoord (v + cnk a (j + 1)), j + 1, c1.set j (cubies.getD a 0)) := by
        simp only [getPosLeftStep, if_pos h]
        congr 1
        exact toCoord_eq_of_modEq ((toCoord_modEq v).add_right _)
      have e2 : getPosLeftStepZ cubies lo hi (v, j, c1) a
          = (v + cnk a (j + 1), j + 1, c1.set j (cubies.getD a 0)) := by
        simp only [getPosLeftStepZ, if_pos h]
      rw [e1, e2, ih]
    · have e1 : getPosLeftStep cubies lo hi (toCoord v, j, c1) a = (toCoord v, j, c1) := by
        simp only [getPosLeftStep, if_neg h]
      have e2 : getPosLeftStepZ cubies lo hi (v, j, c1) a = (v, j, c1) := by
        simp only [getPosLeftStepZ, if_neg h]
      rw [e1, e2, ih]

theorem getPosRight_foldl_toCoord (cubies : List Int) (len len1 : Nat) (lo hi : Int)
    (l : List Nat) (v : Int) (j : Int) (c1 : List Int) :
    l.foldl (getPosRightStep cubies len len1 lo hi) (toCoord v, j, c1)
      = (toCoord (l.foldl (getPosRightStepZ cubies len len1 lo hi) (v, j, c1)).1,
        (l.foldl (getPosRightStepZ cubies len len1 lo hi) (v, j, c1)).2) := by
  induction l generalizing v j c1 with
  | nil => rfl
  | cons a l ih =>
    simp only [List.foldl_cons]
    by_cases h : lo ≤ cubies.getD a 0 ∧ cubies.getD a 0 ≤ hi
    · have e1 : getPosRightStep cubies len len1 lo hi (toCoord v, j, c1) a
          = (toCoord (v + cnk (len - 1 - a) (j + 1).toNat), j - 1,
            c1.set ((len1 : Int) - 1 - j).toNat (cubies.getD a 0)) := by
        simp only [getPosRightStep, if_pos h]
        congr 1
        exact toCoord_eq_of_modEq ((toCoord_modEq v).add_right _)
      have e2 : getPosRightStepZ cubies len len1 lo hi (v, j, c1) a
          = (v + cnk (len - 1 - a) (j + 1).toNat, j - 1,
            c1.set ((len1 : Int) - 1 - j).toNat (cubies.getD a 0)) := by
        simp only [getPosRightStepZ, if_pos h]
      rw [e1, e2, ih]
    · have e1 : getPosRightStep cubies len len1 lo hi (toCoord v, j, c1) a
          = (toCoord v, j, c1) := by
        simp only [getPosRightStep, if_neg h]
      have e2 : getPosRightStepZ cubies len len1 lo hi (v, j, c1) a = (v, j, c1) := by
        simp only [getPosRightStepZ, if_neg h]
      rw [e1, e2, ih]

theorem getPosPart_toCoord (cubies : List Int) (len : Nat) (lo hi : Int) (from_left : Bool) :
    getPosPart cubies len lo hi from_left
      = (toCoord (getPosPartZ cubies len lo hi from_left).1,
        (getPosPartZ cubies len lo hi from_left).2) := by
  have h0 : (0 : Int) = toCoord 0 := rfl
  cases from_left with
  | false =>
    simp only [getPosPart, getPosPartZ, Bool.false_eq_true, if_false]
    rw [h0, getPosRight_foldl_toCoord]
    rfl
  | true =>
    simp only [getPosPart, getPosPartZ, if_true]
    rw [h0, getPosLeft_foldl_toCoord]
    rfl

/-- the value returned by `getPosPermCoord` is the conversion of what it returns without
conversions -/
theorem getPosPermCoord_toCoord (fuel : Nat) (cubies : List Int) (len : Nat) (lo hi : Int)
    (from_left : Bool) :
    getPosPermCoord fuel cubies len lo hi from_left
      = (getPosPermCoordZ fuel cubies len lo hi from_left).map toCoord := by
  simp only [getPosPermCoord, getPosPermCoordZ]
  rw [getPosPart_toCoord, getPermCoord_toCoord]
  cases getPermCoordZ fuel (getPosPartZ cubies len lo hi from_left).2 (hi - lo + 1).toNat hi with
  | none => rfl
  | some r =>
    simp only [Option.map_some']
    congr 1
    exact toCoord_eq_of_modEq (((toCoord_modEq _).mul_left _).add (toCoord_modEq r))

theorem cnk_nonneg (n r : Nat) : 0 ≤ cnk n r := by
  unfold cnk
  exact Int.natCast_nonneg _

theorem setPosLeftStep_eq (c1 : List Int) (i : Nat) (s : Int × Int × List Int)
    (h0 : 0 ≤ s.1) (h : s.1 < 65536) :
    setPosLeftStep c1 i s = setPosLeftStepZ c1 i s ∧ 0 ≤ (setPosLeftStepZ c1 i s).1 ∧
      (setPosLeftStepZ c1 i s).1 < 65536 := by
  have hc := cnk_nonneg i (s.2.1 + 1).toNat
  by_cases hge : s.1 - cnk i (s.2.1 + 1).toNat ≥ 0
  · simp only [setPosLeftStep, setPosLeftStepZ, if_pos hge]
    refine ⟨?_, hge, by omega⟩
    rw [toCoord_of_lt _ hge (by omega)]
  · simp only [setPosLeftStep, setPosLeftStepZ, if_neg hge]
    exact ⟨trivial, h0, h⟩

theorem setPosRightStep_eq (c1 : List Int) (len len1 : Nat) (i : Nat)
    (s : Int × Int × List Int) (h0 : 0 ≤ s.1) (h : s.1 < 65536) :
    setPosRightStep c1 len len1 s i = setPosRightStepZ c1 len len1 s i ∧
      0 ≤ (setPosRightStepZ c1 len len1 s i).1 ∧ (setPosRightStepZ c1 len len1 s i).1 < 65536 := by
  have hc := cnk_nonneg (len - 1 - i) (s.2.1 + 1).toNat
  by_cases hge : s.1 - cnk (len - 1 - i) (s.2.1 + 1).toNat ≥ 0
  · simp only [setPosRightStep, setPosRightStepZ, if_pos hge]
    refine ⟨?_, hge, by omega⟩
    rw [toCoord_of_lt _ hge (by omega)]
  · simp only [setPosRightStep, setPosRightStepZ, if_neg hge]
    exact ⟨trivial, h0, h⟩

theorem setPosLeft_foldr_eq (c1 : List Int) (l : List Nat) (s : Int × Int × List Int)
    (h0 : 0 ≤ s.1) (h : s.1 < 65536) :
    l.foldr (setPosLeftStep c1) s = l.foldr (setPosLeftStepZ c1) s ∧
      0 ≤ (l.foldr (setPosLeftStepZ c1) s).1 ∧ (l.foldr (setPosLeftStepZ c1) s).1 < 65536 := by
  induction l with
  | nil => exact ⟨rfl, h0, h⟩
  | cons a l ih =>
    obtain ⟨h1, h2, h3⟩ := ih
    simp only [List.foldr_cons]
    rw [h1]
    exact setPosLeftStep_eq c1 a _ h2 h3

theorem setPosRight_foldl_eq (c1 : List Int) (len len1 : Nat) (l : List Nat)
    (s : Int × Int × List Int) (h0 : 0 ≤ s.1) (h : s.1 < 65536) :
    l.foldl (setPosRightStep c1 len len1) s = l.foldl (setPosRightStepZ c1 len len1) s := by
  induction l generalizing s with
  | nil => rfl
  | cons a l ih =>
    obtain ⟨h1, h2, h3⟩ := setPosRightStep_eq c1 len len1 a s h0 h
    simp only [List.foldl_cons]
    rw [h1]
    exact ih _ h2 h3

/-- the parameter `val` of `setPosPermCoord` is converted at the call, and no later conversion
changes a value -/
theorem setPosPermCoord_toCoord (val : Int) (len : Nat) (lo hi : Int) (from_left : Bool) :
    setPosPermCoord val len lo hi from_left
      = setPosPermCoordZ (toCoord val) len lo hi from_left := by
  have hv0 := toCoord_nonneg val
  have hv1 := toCoord_lt val
  have hfac : (1 : Int) ≤ fac (hi - lo + 1).toNat := by
    unfold fac
    exact_mod_cast Nat.factorial_pos _
  have h1 : Int.tdiv (toCoord val) (fac (hi - lo + 1).toNat)
      = toCoord val / fac (hi - lo + 1).toNat := Int.tdiv_eq_ediv hv0 (by omega)
  have h2 : 0 ≤ toCoord val / fac (hi - lo + 1).toNat := Int.ediv_nonneg hv0 (by omega)
  have h3 : toCoord val / fac (hi - lo + 1).toNat ≤ toCoord val := Int.ediv_le_self _ hv0
  have h4 : toCoord (Int.tdiv (toCoord val) (fac (hi - lo + 1).toNat))
      = Int.tdiv (toCoord val) (fac (hi - lo + 1).toNat) := by
    rw [h1]
    exact toCoord_of_lt _ h2 (by omega)
  have h5 : 0 ≤ Int.tdiv (toCoord val) (fac (hi - lo + 1).toNat) := by
    rw [h1]
    exact h2
  have h6 : Int.tdiv (toCoord val) (fac (hi - lo + 1).toNat) < 65536 := by
    rw [h1]
    omega
  cases from_left with
  | false =>
    simp only [setPosPermCoord, setPosPermCoordZ, Bool.false_eq_true, if_false, h4]
    rw [setPosRight_foldl_eq _ _ _ _ _ h5 h6]
  | true =>
    simp only [setPosPermCoord, setPosPermCoordZ, if_true, h4]
    rw [(setPosLeft_foldr_eq _ _ _ h5 h6).1]

/-! ## Claim on the position and permutation coordinate: rank after unrank -/

theorem setPermCoord_inWindow (n : Nat) (lo hi : Int) (hle : lo ≤ hi) :
    ∀ x ∈ setPermCoord (n : Int) (hi - lo + 1).toNat hi, inWindow lo hi x = true := by
  intro x hx
  have := (mem_labelRange _ _ _).mp ((setPermCoord_perm n _ hi).subset hx)
  rw [inWindow_iff]
  omega

theorem getPosPermCoord_setPosPermCoord_nat (L : Nat) (lo hi : Int) (from_left : Bool)
    (n : Nat) (fuel : Nat) (hlo : 0 ≤ lo) (hle : lo ≤ hi)
    (hn : n < Nat.choose L (hi - lo + 1).toNat * (hi - lo + 1).toNat.factorial)
    (hf : (hi - lo + 1).toNat ≤ fuel) :
    getPosPermCoordZ fuel (setPosPermCoordZ (n : Int) L lo hi from_left) L lo hi from_left
      = some (n : Int) := by
  have hwin := setPermCoord_inWindow (n % (hi - lo + 1).toNat.factorial) lo hi hle
  have hk1 := (window_toNat lo hi hle).1
  generalize hk : (hi - lo + 1).toNat = k at hn hf hwin hk1
  have hdiv : n / k.factorial < Nat.choose L k :=
    Nat.div_lt_of_lt_mul (by rw [Nat.mul_comm]; exact hn)
  have hmod : n % k.factorial < k.factorial := Nat.mod_lt _ (Nat.factorial_pos k)
  have hUc := posUnrank_count L k _ hdiv
  have hUl := posUnrank_length L k (n / k.factorial)
  have hlen := setPermCoord_length ((n % k.factorial : Nat) : Int) k hi
  have hperm : getPermCoordZ fuel (setPermCoord ((n % k.factorial : Nat) : Int) k hi) k hi
      = some ((n % k.factorial : Nat) : Int) :=
    getPermCoord_setPermCoord_of_lt k hi _ fuel hk1 (Int.natCast_nonneg _)
      (by unfold fac; exact_mod_cast hmod) hf
  have hfinal : fac k * ((n / k.factorial : Nat) : Int) + ((n % k.factorial : Nat) : Int)
      = (n : Int) := by
    unfold fac
    exact_mod_cast Nat.div_add_mod n k.factorial
  cases from_left with
  | false =>
    have hshape := setPosPermCoord_right n L lo hi (by rw [hk]; exact hdiv)
    rw [hk] at hshape
    have hmask : (setPosPermCoordZ (n : Int) L lo hi false).map (inWindow lo hi)
        = posUnrank L k (n / k.factorial) := by
      rw [hshape, mask_fillAbs lo hi hlo 0 (Or.inl hlo),
        mask_place lo hi hlo _ _ hwin (by rw [hUc, hlen])]
    have hfilter : (setPosPermCoordZ (n : Int) L lo hi false).filter (inWindow lo hi)
        = setPermCoord ((n % k.factorial : Nat) : Int) k hi := by
      rw [hshape, filter_fillAbs lo hi hlo 0 (Or.inl hlo),
        filter_place lo hi hlo _ _ hwin (by rw [hUc, hlen])]
    have hwlen : (setPosPermCoordZ (n : Int) L lo hi false).length = L := by
      rw [hshape, fillAbs_length, place_length, hUl]
    rw [getPosPermCoordZ, getPosPart_right _ L lo hi hwlen (by rw [hmask, hUc, hk]), hk]
    simp only
    rw [hfilter, hperm, hmask, posRank_posUnrank L k _ hdiv]
    simp only
    rw [hfinal]
  | true =>
    have hshape := setPosPermCoord_left n L lo hi (by rw [hk]; exact hdiv)
    rw [hk] at hshape
    have hwinr : ∀ x ∈ (setPermCoord ((n % k.factorial : Nat) : Int) k hi).reverse,
        inWindow lo hi x = true := fun x hx => hwin x (List.mem_reverse.mp hx)
    have hmask : (setPosPermCoordZ (n : Int) L lo hi true).map (inWindow lo hi)
        = (posUnrank L k (n / k.factorial)).reverse := by
      rw [hshape, mask_fillAbs lo hi hlo 0 (Or.inl hlo), List.map_reverse,
        mask_place lo hi hlo _ _ hwinr (by rw [hUc, List.length_reverse, hlen])]
    have hfilter : (setPosPermCoordZ (n : Int) L lo hi true).filter (inWindow lo hi)
        = setPermCoord ((n % k.factorial : Nat) : Int) k hi := by
      rw [hshape, filter_fillAbs lo hi hlo 0 (Or.inl hlo), List.filter_reverse,
        filter_place lo hi hlo _ _ hwinr (by rw [hUc, List.length_reverse, hlen]),
        List.reverse_reverse]
    have hwlen : (setPosPermCoordZ (n : Int) L lo hi true).length = L := by
      rw [hshape, fillAbs_length, List.length_reverse, place_length, hUl]
    rw [getPosPermCoordZ, getPosPart_left _ L lo hi hwlen
      (by rw [hmask, List.count_reverse, hUc, hk]), hk]
    simp only
    rw [hfilter, hperm, hmask, List.reverse_reverse, posRank_posUnrank L k _ hdiv]
    simp only
    rw [hfinal]

/-- Claim C3: for every length `L`, every label window `min_cubie..max_cubie` with
`0 <= min_cubie <= max_cubie < L` (`k = max_cubie-min_cubie+1` labels), each value of the
`from_left` flag and every `c` with `0 <= c < choose(L,k) * k!`, `getPosPermCoord` applied to the
sequence written by `setPosPermCoord(c, L, min_cubie, max_cubie, from_left)` returns `c` (as soon
as the fuel of the `while` loop is at least `k`).  The rank `c` is the parameter `val` of
`setPosPermCoord`, of type `Coord`: it is a value of that type, `c < 65536`. -/
theorem posperm_rank_unrank_roundtrip (L : Nat) (min_cubie max_cubie : Int) (from_left : Bool)
    (c : Int) (fuel : Nat) (hmin : 0 ≤ min_cubie) (hle : min_cubie ≤ max_cubie)
    (hmax : max_cubie < (L : Int)) (hc0 : 0 ≤ c)
    (hc : c < cnk L (max_cubie - min_cubie + 1).toNat * fac (max_cubie - min_cubie + 1).toNat)
    (h16 : c < 65536) (hf : (max_cubie - min_cubie + 1).toNat ≤ fuel) :
    getPosPermCoord fuel (setPosPermCoord c L min_cubie max_cubie from_left) L min_cubie max_cubie
      from_left = some c := by
  rw [setPosPermCoord_toCoord, getPosPermCoord_toCoord, toCoord_of_lt c hc0 h16]
  obtain ⟨n, rfl⟩ := int_eq_natCast c hc0
  have _ := hmax
  rw [getPosPermCoord_setPosPermCoord_nat L min_cubie max_cubie from_left n fuel hmin hle ?_ hf,
    Option.map_some', toCoord_of_lt _ hc0 h16]
  unfold cnk fac at hc
  exact_mod_cast hc

/-- The three uses of C3 with `L = 12`, at one value each: labels `8..11` scanned from the right
(SSLICE), labels `0..3` and labels `4..7` scanned from the left (UEDGES, DEDGES). -/
theorem posperm_rank_unrank_roundtrip_witness :
    getPosPermCoord 4 (setPosPermCoord 11879 12 8 11 false) 12 8 11 false = some 11879 ∧
      getPosPermCoord 4 (setPosPermCoord 7000 12 0 3 true) 12 0 3 true = some 7000 ∧
      getPosPermCoord 4 (setPosPermCoord 1234 12 4 7 true) 12 4 7 true = some 1234 :=
  ⟨posperm_rank_unrank_roundtrip 12 8 11 false 11879 4 (by decide) (by decide) (by decide)
      (by decide) (by decide) (by decide) (by decide),
    posperm_rank_unrank_roundtrip 12 0 3 true 7000 4 (by decide) (by decide) (by decide)
      (by decide) (by decide) (by decide) (by decide),
    posperm_rank_unrank_roundtrip 12 4 7 true 1234 4 (by decide) (by decide) (by decide)
      (by decide) (by decide) (by decide) (by decide)⟩

/-! ## The labels handed out by the filling loop -/

theorem labelRange_cons (n : Nat) (m : Int) :
    labelRange (n + 1) m = (m - (n : Int)) :: labelRange n m := by
  simp only [labelRange, List.range_succ_eq_map, List.map_cons, List.map_map]
  congr 1
  · push_cast; ring
  · apply List.map_congr_left
    intro t _
    simp only [Function.comp]
    push_cast
    ring

theorem labelRange_append (n1 n2 : Nat) (m : Int) :
    labelRange (n1 + n2) m = labelRange n1 (m - (n2 : Int)) ++ labelRange n2 m := by
  induction n2 generalizing m with
  | zero => simp [labelRange]
  | succ n2 ih =>
    rw [← Nat.add_assoc, labelRange_succ, ih, labelRange_succ, List.append_assoc]
    congr 2
    push_cast
    ring

theorem fillLabelsFrom_above (lo hi : Int) (hle : lo ≤ hi) (u : Nat) (c : Int) (hc : hi < c) :
    fillLabelsFrom lo hi c u = labelRange u (c + (u : Int) - 1) := by
  induction u generalizing c with
  | zero => simp [fillLabelsFrom, labelRange]
  | succ u ih =>
    have hne : ¬ (c = lo) := by omega
    rw [fillLabelsFrom]
    simp only [hne, if_false]
    rw [ih (c + 1) (by omega), labelRange_cons]
    congr 1
    · push_cast; ring
    · congr 1
      push_cast
      ring

theorem fillLabelsFrom_below (lo hi : Int) (hle : lo ≤ hi) (u1 e : Nat) (c : Int)
    (hc : c + (u1 : Int) = lo) :
    fillLabelsFrom lo hi c (u1 + e) = labelRange u1 (lo - 1) ++ labelRange e (hi + (e : Int)) := by
  induction u1 generalizing c with
  | zero =>
    have hc0 : c = lo := by simpa using hc
    subst hc0
    cases e with
    | zero => simp [fillLabelsFrom, labelRange]
    | succ e =>
      rw [Nat.zero_add, fillLabelsFrom]
      simp only [if_true]
      rw [fillLabelsFrom_above c hi hle e _ (by omega), labelRange_cons]
      simp only [labelRange, List.range_zero, List.map_nil, List.nil_append]
      congr 1
      · push_cast; ring
      · congr 1
        push_cast
        ring_nf
  | succ u1 ih =>
    have hne : ¬ (c = lo) := by push_cast at hc; omega
    have e1 : u1 + 1 + e = (u1 + e) + 1 := by omega
    rw [e1, fillLabelsFrom]
    simp only [hne, if_false]
    rw [ih (c + 1) (by push_cast at hc; omega), labelRange_cons, List.cons_append]
    congr 1
    push_cast at hc
    omega

theorem fillLabelsFrom_skip (lo hi : Int) (hle : lo ≤ hi) (c : Int) (u : Nat) :
    fillLabelsFrom lo hi (if c = lo then hi + 1 else c) u = fillLabelsFrom lo hi c u := by
  cases u with
  | zero => rfl
  | succ u =>
    rw [fillLabelsFrom, fillLabelsFrom]
    by_cases h : c = lo
    · have : ¬ (hi + 1 = lo) := by omega
      simp [h, this]
    · simp [h]

/-! ## The cells of a ranked sequence after unranking -/

theorem inWindow_ne_neg_one (lo hi x : Int) (hlo : 0 ≤ lo) (hx : inWindow lo hi x = true) :
    x ≠ -1 := by
  rw [inWindow_iff] at hx
  omega

theorem place_mask_filter (lo hi : Int) (x : List Int) :
    place (x.map (inWindow lo hi)) (x.filter (inWindow lo hi)) = x.map (markOutside lo hi) := by
  induction x with
  | nil => rfl
  | cons a x ih =>
    cases ha : inWindow lo hi a
    · simp [place, List.filter_cons, ha, markOutside, ih]
    · simp [place, List.filter_cons, ha, markOutside, ih]

theorem filter_mark (lo hi : Int) (hlo : 0 ≤ lo) (x : List Int) :
    (x.map (markOutside lo hi)).filter (inWindow lo hi) = x.filter (inWindow lo hi) := by
  induction x with
  | nil => rfl
  | cons a x ih =>
    cases ha : inWindow lo hi a
    · simp [List.filter_cons, ha, markOutside, ih, inWindow_neg_one lo hi hlo]
    · simp [List.filter_cons, ha, markOutside, ih]

theorem getD_fillAbs_mark (lo hi : Int) (hlo : 0 ≤ lo) (v : List Int) (c : Int) (i : Nat)
    (hi1 : i < v.length) (hw : inWindow lo hi (v.getD i 0) = true) :
    (fillAbs lo hi c (v.map (markOutside lo hi))).getD i 0 = v.getD i 0 := by
  induction v generalizing c i with
  | nil => simp at hi1
  | cons a v ih =>
    rw [List.map_cons, fillAbs]
    cases i with
    | zero =>
      have ha : inWindow lo hi a = true := by simpa using hw
      have hne : markOutside lo hi a ≠ -1 := by
        simp only [markOutside, ha, if_true]
        exact inWindow_ne_neg_one lo hi a hlo ha
      simp only [hne, if_false]
      simp [markOutside, ha]
    | succ i =>
      have hi2 : i < v.length := by simpa using hi1
      have hw2 : inWindow lo hi (v.getD i 0) = true := by simpa using hw
      by_cases hx : markOutside lo hi a = -1
      · simp only [hx, if_true]
        simpa using ih _ i hi2 hw2
      · simp only [hx, if_false]
        simpa using ih _ i hi2 hw2

theorem filter_not_fillAbs_mark (lo hi : Int) (hlo : 0 ≤ lo) (hle : lo ≤ hi) (v : List Int)
    (c : Int) (hc : c ≤ lo ∨ hi < c) :
    (fillAbs lo hi c (v.map (markOutside lo hi))).filter (fun x => !inWindow lo hi x)
      = fillLabelsFrom lo hi c (v.filter (fun x => !inWindow lo hi x)).length := by
  induction v generalizing c with
  | nil => rfl
  | cons a v ih =>
    have hskip := skip_not_inWindow lo hi c hc
    have hnext : ∀ d : Int, d = (if c = lo then hi + 1 else c) →
        (d ≤ lo ∨ hi < d) ∧ (d + 1 ≤ lo ∨ hi < d + 1) := by
      intro d hd
      by_cases h : c = lo
      · rw [if_pos h] at hd; omega
      · rw [if_neg h] at hd; omega
    rw [List.map_cons, fillAbs]
    cases ha : inWindow lo hi a
    · have hm : markOutside lo hi a = -1 := by simp [markOutside, ha]
      simp only [hm, if_true, List.filter_cons, hskip, ha, Bool.not_false, List.length_cons]
      rw [ih _ (hnext _ rfl).2, fillLabelsFrom]
    · have hm : markOutside lo hi a = a := by simp [markOutside, ha]
      have hne : a ≠ -1 := inWindow_ne_neg_one lo hi a hlo ha
      simp only [hm, hne, if_false, List.filter_cons, ha, Bool.not_true, Bool.false_eq_true]
      rw [ih _ (hnext _ rfl).1, fillLabelsFrom_skip lo hi hle]

/-! ## Claim on the position and permutation coordinate: unrank after rank -/

theorem filter_eq_self_of_forall (p : Int → Bool) (l : List Int) (h : ∀ x ∈ l, p x = true) :
    l.filter p = l :=
  List.filter_eq_self.mpr h

theorem filter_eq_nil_of_forall (p : Int → Bool) (l : List Int) (h : ∀ x ∈ l, p x = false) :
    l.filter p = [] := by
  rw [List.filter_eq_nil_iff]
  intro x hx
  simp [h x hx]

/-- the labels `0..L-1` split into those below the window, the window and those above it -/
theorem labelRange_split (L : Nat) (lo hi : Int) (hlo : 0 ≤ lo) (hle : lo ≤ hi)
    (hhi : hi < (L : Int)) :
    labelRange L ((L : Int) - 1)
      = labelRange lo.toNat (lo - 1) ++ labelRange (hi - lo + 1).toNat hi
          ++ labelRange ((L : Int) - 1 - hi).toNat ((L : Int) - 1) := by
  have hL : L = (lo.toNat + (hi - lo + 1).toNat) + ((L : Int) - 1 - hi).toNat := by omega
  have e1 : (L : Int) - 1 - ((((L : Int) - 1 - hi).toNat : Nat) : Int) = hi := by omega
  have e2 : hi - (((hi - lo + 1).toNat : Nat) : Int) = lo - 1 := by omega
  have h0 : labelRange L ((L : Int) - 1)
      = labelRange ((lo.toNat + (hi - lo + 1).toNat) + ((L : Int) - 1 - hi).toNat)
          ((L : Int) - 1) := by
    rw [← hL]
  rw [h0, labelRange_append, labelRange_append, e1, e2]

theorem filter_window_labelRange (L : Nat) (lo hi : Int) (hlo : 0 ≤ lo) (hle : lo ≤ hi)
    (hhi : hi < (L : Int)) :
    (labelRange L ((L : Int) - 1)).filter (inWindow lo hi) = labelRange (hi - lo + 1).toNat hi := by
  rw [labelRange_split L lo hi hlo hle hhi, List.filter_append, List.filter_append,
    filter_eq_nil_of_forall, filter_eq_self_of_forall, filter_eq_nil_of_forall]
  · simp
  · intro x hx
    rw [mem_labelRange] at hx
    simp only [inWindow, decide_eq_false_iff_not]
    omega
  · intro x hx
    rw [mem_labelRange] at hx
    rw [inWindow_iff]
    omega
  · intro x hx
    rw [mem_labelRange] at hx
    simp only [inWindow, decide_eq_false_iff_not]
    omega

theorem filter_not_window_labelRange (L : Nat) (lo hi : Int) (hlo : 0 ≤ lo) (hle : lo ≤ hi)
    (hhi : hi < (L : Int)) :
    (labelRange L ((L : Int) - 1)).filter (fun x => !inWindow lo hi x)
      = fillLabelsFrom lo hi 0 (lo.toNat + ((L : Int) - 1 - hi).toNat) := by
  rw [labelRange_split L lo hi hlo hle hhi, List.filter_append, List.filter_append,
    filter_eq_self_of_forall, filter_eq_nil_of_forall, filter_eq_self_of_forall,
    fillLabelsFrom_below lo hi hle _ _ 0 (by omega)]
  · have e : hi + ((((L : Int) - 1 - hi).toNat : Nat) : Int) = (L : Int) - 1 := by omega
    rw [e]
    simp
  · intro x hx
    rw [mem_labelRange] at hx
    simp only [inWindow, Bool.not_eq_true', decide_eq_false_iff_not]
    omega
  · intro x hx
    rw [mem_labelRange] at hx
    simp only [inWindow, Bool.not_eq_false', decide_eq_true_eq]
    omega
  · intro x hx
    rw [mem_labelRange] at hx
    simp only [inWindow, Bool.not_eq_true', decide_eq_false_iff_not]
    omega

/-- what `setPosPermCoordZ` writes for the rank of a permutation `v` of `0..L-1`, and that rank -/
theorem setPosPermCoord_getPosPermCoord_shape (L : Nat) (lo hi : Int) (from_left : Bool)
    (v : List Int) (fuel : Nat) (hv : v.Perm (labelRange L ((L : Int) - 1))) (hlo : 0 ≤ lo)
    (hle : lo ≤ hi) (hhi : hi < (L : Int)) (hf : (hi - lo + 1).toNat ≤ fuel) :
    ∃ r : Nat, r < Nat.choose L (hi - lo + 1).toNat * (hi - lo + 1).toNat.factorial ∧
      getPosPermCoordZ fuel v L lo hi from_left = some (r : Int) ∧
      setPosPermCoordZ (r : Int) L lo hi from_left
        = fillAbs lo hi 0 (v.map (markOutside lo hi)) := by
  have hlen : v.length = L := by rw [hv.length_eq, labelRange_length]
  have hfw : (v.filter (inWindow lo hi)).Perm (labelRange (hi - lo + 1).toNat hi) := by
    rw [← filter_window_labelRange L lo hi hlo hle hhi]
    exact hv.filter _
  have hcount : (v.map (inWindow lo hi)).count true = (hi - lo + 1).toNat := by
    rw [count_mask, hfw.length_eq, labelRange_length]
  obtain ⟨r1, hr1, hget, hset⟩ := getPermCoord_perm _ _ hi fuel hfw hf
  generalize hk : (hi - lo + 1).toNat = k at hcount hr1 hget hset hf
  have hdivmod : ∀ q : Nat, (k.factorial * q + r1) / k.factorial = q ∧
      (k.factorial * q + r1) % k.factorial = r1 := by
    intro q
    constructor
    · rw [Nat.add_comm, Nat.add_mul_div_left _ _ (Nat.factorial_pos k), Nat.div_eq_of_lt hr1,
        Nat.zero_add]
    · rw [Nat.add_comm, Nat.add_mul_mod_self_left, Nat.mod_eq_of_lt hr1]
  have hbound : ∀ q : Nat, q < Nat.choose L k → k.factorial * q + r1 < Nat.choose L k * k.factorial := by
    intro q hq
    calc k.factorial * q + r1 < k.factorial * q + k.factorial := by omega
      _ = (q + 1) * k.factorial := by ring
      _ ≤ Nat.choose L k * k.factorial := Nat.mul_le_mul_right _ hq
  cases from_left with
  | false =>
    have hlt0 := posRank_lt (v.map (inWindow lo hi))
    rw [List.length_map, hlen, hcount] at hlt0
    refine ⟨k.factorial * posRank (v.map (inWindow lo hi)) + r1, hbound _ hlt0, ?_, ?_⟩
    · rw [getPosPermCoordZ, getPosPart_right v L lo hi hlen (by rw [hcount, hk]), hk]
      simp only
      rw [hget]
      simp only [fac]
      push_cast
      rfl
    · have hlt := posRank_lt (v.map (inWindow lo hi))
      rw [List.length_map, hlen, hcount] at hlt
      have hd := hdivmod (posRank (v.map (inWindow lo hi)))
      rw [setPosPermCoord_right _ L lo hi (by rw [hk, hd.1]; exact hlt), hk, hd.1, hd.2, hset]
      have hU := posUnrank_posRank (v.map (inWindow lo hi))
      rw [List.length_map, hlen, hcount] at hU
      rw [hU, place_mask_filter]
  | true =>
    have hlt0 := posRank_lt (v.map (inWindow lo hi)).reverse
    rw [List.length_reverse, List.count_reverse, List.length_map, hlen, hcount] at hlt0
    refine ⟨k.factorial * posRank (v.map (inWindow lo hi)).reverse + r1, hbound _ hlt0, ?_, ?_⟩
    · rw [getPosPermCoordZ, getPosPart_left v L lo hi hlen (by rw [hcount, hk]), hk]
      simp only
      rw [hget]
      simp only [fac]
      push_cast
      rfl
    · have hlt := posRank_lt (v.map (inWindow lo hi)).reverse
      rw [List.length_reverse, List.count_reverse, List.length_map, hlen, hcount] at hlt
      have hd := hdivmod (posRank (v.map (inWindow lo hi)).reverse)
      rw [setPosPermCoord_left _ L lo hi (by rw [hk, hd.1]; exact hlt), hk, hd.1, hd.2, hset]
      have hU := posUnrank_posRank (v.map (inWindow lo hi)).reverse
      rw [List.length_reverse, List.count_reverse, List.length_map, hlen, hcount] at hU
      rw [hU, ← List.map_reverse, ← List.filter_reverse, place_mask_filter, List.map_reverse,
        List.reverse_reverse]

/-- Claim C4, as worded it fails: `[0, 1, .., 11]` is a permutation of `0..11` and `0..4` is a
window inside `0..11`; scanned from the right its rank is `94920` before the conversion to
`Coord`, `getPosPermCoord` returns `29384`, and `setPosPermCoord` of that rank writes
`[5, 6, 2, 0, 1, 7, 4, 8, 3, 9, 10, 11]`, where the label `0` of the window does not sit at the
index `0`. -/
theorem posperm_unrank_rank_wraps :
    ¬ (List.Perm [0, 1, 2, 3, 4, 5, 6, 7, 8, 9, 10, 11] (labelRange 12 ((12 : Nat) - 1 : Int)) →
      ∃ r : Int, getPosPermCoord 5 [0, 1, 2, 3, 4, 5, 6, 7, 8, 9, 10, 11] 12 0 4 false = some r ∧
        ∀ i : Nat, i < 12 →
          inWindow 0 4 (([0, 1, 2, 3, 4, 5, 6, 7, 8, 9, 10, 11] : List Int).getD i 0) = true →
          (setPosPermCoord r 12 0 4 false).getD i 0
            = ([0, 1, 2, 3, 4, 5, 6, 7, 8, 9, 10, 11] : List Int).getD i 0) := by
  intro h
  obtain ⟨r, hget, hcells⟩ := h (by decide)
  have h2 : getPosPermCoord 5 [0, 1, 2, 3, 4, 5, 6, 7, 8, 9, 10, 11] 12 0 4 false
      = some 29384 := by decide!
  rw [h2] at hget
  have hr : r = 29384 := (Option.some.inj hget).symm
  subst hr
  have h3 := hcells 0 (by decide) (by decide)
  have h4 : (setPosPermCoord 29384 12 0 4 false).getD 0 0 = 5 := by decide!
  rw [h4] at h3
  exact absurd h3 (by decide)

/-- Claim C4, amended: for every length `L` and every label window `min_cubie..max_cubie` of `k`
labels inside `0..L-1` with `choose(L,k) * k! <= 65536`, every permutation `v` of `0..L-1` and
each value of `from_left`, `getPosPermCoord` returns a rank (as soon as the fuel of the `while`
loop is at least the number of window labels), and the sequence written by `setPosPermCoord` for
that rank is a permutation of `0..L-1` in which every label of the window sits at the same index
as in `v`, and the cells that hold no window label hold the remaining labels in ascending order
from left to right. -/
theorem posperm_unrank_rank_projection (L : Nat) (min_cubie max_cubie : Int) (from_left : Bool)
    (v : List Int) (fuel : Nat) (hv : v.Perm (labelRange L ((L : Int) - 1)))
    (hmin : 0 ≤ min_cubie) (hle : min_cubie ≤ max_cubie) (hmax : max_cubie < (L : Int))
    (h16 : cnk L (max_cubie - min_cubie + 1).toNat * fac (max_cubie - min_cubie + 1).toNat
      ≤ 65536)
    (hf : (max_cubie - min_cubie + 1).toNat ≤ fuel) :
    ∃ r : Int, getPosPermCoord fuel v L min_cubie max_cubie from_left = some r ∧
      (setPosPermCoord r L min_cubie max_cubie from_left).Perm (labelRange L ((L : Int) - 1)) ∧
      (∀ i : Nat, i < L → inWindow min_cubie max_cubie (v.getD i 0) = true →
        (setPosPermCoord r L min_cubie max_cubie from_left).getD i 0 = v.getD i 0) ∧
      (setPosPermCoord r L min_cubie max_cubie from_left).filter
          (fun x => !inWindow min_cubie max_cubie x)
        = (labelRange L ((L : Int) - 1)).filter (fun x => !inWindow min_cubie max_cubie x) := by
  obtain ⟨r, hr, hgetZ, hsetZ⟩ := setPosPermCoord_getPosPermCoord_shape L min_cubie max_cubie
    from_left v fuel hv hmin hle hmax hf
  have hr16 : (r : Int) < 65536 := by
    have : (r : Int) < cnk L (max_cubie - min_cubie + 1).toNat
        * fac (max_cubie - min_cubie + 1).toNat := by
      unfold cnk fac
      exact_mod_cast hr
    omega
  have hr1 : toCoord (r : Int) = (r : Int) := toCoord_of_lt _ (Int.natCast_nonneg r) hr16
  have hget : getPosPermCoord fuel v L min_cubie max_cubie from_left = some (r : Int) := by
    rw [getPosPermCoord_toCoord, hgetZ, Option.map_some', hr1]
  have hset : setPosPermCoord (r : Int) L min_cubie max_cubie from_left
      = fillAbs min_cubie max_cubie 0 (v.map (markOutside min_cubie max_cubie)) := by
    rw [setPosPermCoord_toCoord, hr1, hsetZ]
  have hlen : v.length = L := by rw [hv.length_eq, labelRange_length]
  have hrest : (fillAbs min_cubie max_cubie 0 (v.map (markOutside min_cubie max_cubie))).filter
      (fun x => !inWindow min_cubie max_cubie x)
      = (labelRange L ((L : Int) - 1)).filter (fun x => !inWindow min_cubie max_cubie x) := by
    rw [filter_not_fillAbs_mark min_cubie max_cubie hmin hle v 0 (Or.inl hmin),
      filter_not_window_labelRange L min_cubie max_cubie hmin hle hmax]
    congr 1
    have := (hv.filter (fun x => !inWindow min_cubie max_cubie x)).length_eq
    rw [this, filter_not_window_labelRange L min_cubie max_cubie hmin hle hmax,
      fillLabelsFrom_below min_cubie max_cubie hle _ _ 0 (by omega)]
    simp [labelRange_length]
  refine ⟨(r : Int), hget, ?_, ?_, ?_⟩
  · rw [hset]
    have h1 := (List.filter_append_perm (inWindow min_cubie max_cubie)
      (fillAbs min_cubie max_cubie 0 (v.map (markOutside min_cubie max_cubie)))).symm
    have h2 := List.filter_append_perm (inWindow min_cubie max_cubie)
      (labelRange L ((L : Int) - 1))
    rw [hrest, filter_fillAbs min_cubie max_cubie hmin 0 (Or.inl hmin),
      filter_mark min_cubie max_cubie hmin] at h1
    exact h1.trans ((List.Perm.append_right _ (hv.filter _)).trans h2)
  · intro i hi hw
    rw [hset]
    exact getD_fillAbs_mark min_cubie max_cubie hmin v 0 i (by omega) hw
  · rw [hset]
    exact hrest

/-- The instance of the amended C4 at the sorted-slice window of a scrambled edge permutation,
scanned from the right. -/
theorem posperm_unrank_rank_projection_witness :
    ∃ r : Int, getPosPermCoord 4 [11, 3, 8, 0, 5, 10, 1, 7, 2, 9, 6, 4] 12 8 11 false = some r ∧
      (setPosPermCoord r 12 8 11 false).Perm (labelRange 12 ((12 : Nat) - 1 : Int)) ∧
      (∀ i : Nat, i < 12 →
        inWindow 8 11 (([11, 3, 8, 0, 5, 10, 1, 7, 2, 9, 6, 4] : List Int).getD i 0) = true →
        (setPosPermCoord r 12 8 11 false).getD i 0
          = ([11, 3, 8, 0, 5, 10, 1, 7, 2, 9, 6, 4] : List Int).getD i 0) ∧
      (setPosPermCoord r 12 8 11 false).filter (fun x => !inWindow 8 11 x)
        = (labelRange 12 ((12 : Nat) - 1 : Int)).filter (fun x => !inWindow 8 11 x) :=
  posperm_unrank_rank_projection 12 8 11 false [11, 3, 8, 0, 5, 10, 1, 7, 2, 9, 6, 4] 4
    (by decide) (by decide) (by decide) (by decide) (by decide) (by decide)

/-! ## Claim on malformed input: the `while` loop of `getPermCoord` -/

theorem rotLeft_perm (a : List Int) (i : Nat) (h : i < a.length) : (rotLeft a i).Perm a := by
  cases a with
  | nil => simp at h
  | cons x rest =>
    have hi : i ≤ rest.length := by simp at h; omega
    have hsplit : rest = rest.take i ++ rest.drop i := (List.take_append_drop _ _).symm
    have hq : (rest.take i).length = i := by simp; omega
    generalize rest.take i = q at hsplit hq
    generalize rest.drop i = s at hsplit
    subst hsplit
    have := rotLeft_append q s x
    rw [hq] at this
    have e : x :: (q ++ s) = x :: q ++ s := rfl
    rw [e, this]
    exact List.perm_middle

theorem rotLeft_length (a : List Int) (i : Nat) : (rotLeft a i).length = a.length := by
  simp [rotLeft, shiftDown_length]

theorem rotateUntil_none (fuel : Nat) (a : List Int) (i : Nat) (m n : Int) (hi : i < a.length)
    (hm : m ∉ a) : rotateUntil fuel a i m n = none := by
  induction fuel generalizing a n with
  | zero => rfl
  | succ fuel ih =>
    have hne : a.getD i 0 ≠ m := by
      intro h
      apply hm
      rw [← h, List.getD_eq_getElem?_getD, List.getElem?_eq_getElem hi]
      exact List.getElem_mem hi
    rw [rotateUntil, if_pos hne]
    exact ih _ _ (by rw [rotLeft_length]; exact hi)
      (fun h => hm ((rotLeft_perm a i hi).subset h))

/-- on a sequence of at least two cells that does not hold `max_cubie`, `getPermCoordZ` never
leaves its first `while` loop -/
theorem getPermCoord_none (L : Nat) (v : List Int) (m : Int) (fuel : Nat) (hL : 2 ≤ L)
    (hlen : v.length = L) (hm : m ∉ v) : getPermCoordZ fuel v L m = none := by
  obtain ⟨i, rfl⟩ : ∃ i, L = i + 2 := ⟨L - 2, by omega⟩
  have h1 : i + 2 - 1 = i + 1 := rfl
  rw [getPermCoordZ, h1, List.take_of_length_le (by omega), getPermLoopZ,
    rotateUntil_none fuel v (i + 1) m 0 (by omega) hm]

/-- the rank of a permutation of the label range does not depend on the fuel -/
theorem getPermCoord_perm_all_fuel (L : Nat) (v : List Int) (m : Int)
    (hv : v.Perm (labelRange L m)) :
    ∃ r : Nat, r < L.factorial ∧ ∀ fuel : Nat, L ≤ fuel → getPermCoordZ fuel v L m = some (r : Int) := by
  obtain ⟨r, hr, _, hset⟩ := getPermCoord_perm L v m L hv (le_refl _)
  refine ⟨r, hr, ?_⟩
  intro fuel hf
  cases L with
  | zero =>
    obtain ⟨r1, hr1, hget1, _⟩ := getPermCoord_perm 0 v m fuel hv hf
    have e1 : r = 0 := by simpa using hr
    have e2 : r1 = 0 := by simpa using hr1
    rw [hget1, e1, e2]
  | succ i =>
    rw [← hset]
    exact getPermCoord_setPermCoord_of_lt (i + 1) m r fuel (by omega) (Int.natCast_nonneg _)
      (by unfold fac; exact_mod_cast hr) hf

theorem getPosPermCoord_perm_all_fuel (L : Nat) (lo hi : Int) (from_left : Bool)
    (v : List Int) (hv : v.Perm (labelRange L ((L : Int) - 1))) (hlo : 0 ≤ lo)
    (hle : lo ≤ hi) (hhi : hi < (L : Int)) :
    ∃ r : Int, ∀ fuel : Nat, (hi - lo + 1).toNat ≤ fuel →
      getPosPermCoordZ fuel v L lo hi from_left = some r := by
  have hfw : (v.filter (inWindow lo hi)).Perm (labelRange (hi - lo + 1).toNat hi) := by
    rw [← filter_window_labelRange L lo hi hlo hle hhi]
    exact hv.filter _
  have hlen : v.length = L := by rw [hv.length_eq, labelRange_length]
  have hcount : (v.map (inWindow lo hi)).count true = (hi - lo + 1).toNat := by
    rw [count_mask, hfw.length_eq, labelRange_length]
  obtain ⟨r1, _, hget⟩ := getPermCoord_perm_all_fuel _ _ hi hfw
  cases from_left with
  | false =>
    refine ⟨fac (hi - lo + 1).toNat * (posRank (v.map (inWindow lo hi)) : Int) + (r1 : Int), ?_⟩
    intro fuel hf
    rw [getPosPermCoordZ, getPosPart_right v L lo hi hlen hcount]
    simp only
    rw [hget fuel hf]
  | true =>
    refine ⟨fac (hi - lo + 1).toNat * (posRank (v.map (inWindow lo hi)).reverse : Int)
      + (r1 : Int), ?_⟩
    intro fuel hf
    rw [getPosPermCoordZ, getPosPart_left v L lo hi hlen hcount]
    simp only
    rw [hget fuel hf]

/-- Claim C9, counterexample: on the sequence `[0, 0]` with `len = 2` and `max_cubie = 1`, which
does not hold `max_cubie` and repeats a label, `getPermCoord` returns no coordinate, whatever the
fuel of its `while` loop. -/
theorem getPermCoord_malformed_no_result :
    ¬ ∃ (fuel : Nat) (r : Int), getPermCoord fuel [0, 0] 2 1 = some r := by
  rintro ⟨fuel, r, h⟩
  rw [getPermCoord_toCoord,
    getPermCoord_none 2 [0, 0] 1 fuel (by decide) (by decide) (by decide)] at h
  exact Option.noConfusion h

/-- Claim C9, amended: `getOriCoord` returns on every sequence; `getPermCoord` returns a
coordinate that depends only on its arguments on every permutation of the labels
`max_label-L+1 .. max_label`, and `getPosPermCoord` on every permutation of `0..L-1` with the
window inside `0..L-1`; on a sequence of `L >= 2` cells that does not hold `max_label`,
`getPermCoord` returns nothing, whatever the fuel. -/
theorem rank_returns_on_permutations (L : Nat) (max_label min_cubie max_cubie n_oris : Int)
    (from_left : Bool) (v : List Int) :
    (∃ r : Int, getOriCoord v L n_oris = r) ∧
    (v.Perm (labelRange L max_label) →
      ∃ r : Int, ∀ fuel : Nat, L ≤ fuel → getPermCoord fuel v L max_label = some r) ∧
    (v.Perm (labelRange L ((L : Int) - 1)) → 0 ≤ min_cubie → min_cubie ≤ max_cubie →
      max_cubie < (L : Int) →
      ∃ r : Int, ∀ fuel : Nat, (max_cubie - min_cubie + 1).toNat ≤ fuel →
        getPosPermCoord fuel v L min_cubie max_cubie from_left = some r) ∧
    (2 ≤ L → v.length = L → max_label ∉ v →
      ∀ fuel : Nat, getPermCoord fuel v L max_label = none) := by
  refine ⟨⟨_, rfl⟩, ?_, ?_, ?_⟩
  · intro hv
    obtain ⟨r, _, hr⟩ := getPermCoord_perm_all_fuel L v max_label hv
    refine ⟨toCoord r, ?_⟩
    intro fuel hf
    rw [getPermCoord_toCoord, hr fuel hf]
    rfl
  · intro hv hlo hle hhi
    obtain ⟨r, hr⟩ :=
      getPosPermCoord_perm_all_fuel L min_cubie max_cubie from_left v hv hlo hle hhi
    refine ⟨toCoord r, ?_⟩
    intro fuel hf
    rw [getPosPermCoord_toCoord, hr fuel hf]
    rfl
  · intro hL hlen hm fuel
    rw [getPermCoord_toCoord, getPermCoord_none L v max_label fuel hL hlen hm]
    rfl

/-- The instances of the amended C9 at the permutation `[2, 0, 1]` of `0..2`, with the window
`1..2`, and at the sequence `[0, 1, 2]` that does not hold the label `3`. -/
theorem rank_returns_on_permutations_witness :
    (∃ r : Int, ∀ fuel : Nat, 3 ≤ fuel → getPermCoord fuel [2, 0, 1] 3 2 = some r) ∧
    (∃ r : Int, ∀ fuel : Nat, 2 ≤ fuel → getPosPermCoord fuel [2, 0, 1] 3 1 2 true = some r) ∧
    (∀ fuel : Nat, getPermCoord fuel [0, 1, 2] 3 3 = none) :=
  ⟨(rank_returns_on_permutations 3 2 1 2 3 true [2, 0, 1]).2.1 (by decide),
    (rank_returns_on_permutations 3 2 1 2 3 true [2, 0, 1]).2.2.1 (by decide) (by decide)
      (by decide) (by decide),
    (rank_returns_on_permutations 3 3 1 2 3 true [0, 1, 2]).2.2.2 (by decide) (by decide)
      (by decide)⟩

/-! ## Cell-wise composition of permutations -/

theorem map_getD_range (x : List Int) (n : Nat) (h : x.length = n) :
    (List.range n).map (fun i => x.getD i 0) = x := by
  apply List.ext_getElem
  · simp [h]
  · intro i h1 h2
    simp [List.getD_eq_getElem?_getD, List.getElem?_eq_getElem h2]

theorem getD_map_range (f : Nat → Int) (n i : Nat) (h : i < n) :
    ((List.range n).map f).getD i 0 = f i := by
  simp [List.getD_eq_getElem?_getD, h]

theorem labelRange_zero_based (n : Nat) :
    labelRange n ((n : Int) - 1) = (List.range n).map (fun (t : Nat) => (t : Int)) := by
  unfold labelRange
  apply List.map_congr_left
  intro t _
  ring

theorem composePerm_length (a b : List Int) (n : Nat) : (composePerm a b n).length = n := by
  simp [composePerm]

theorem composePerm_eq_map (a b : List Int) (n : Nat) (hb : b.length = n) :
    composePerm a b n = b.map (fun j => a.getD j.toNat 0) := by
  unfold composePerm
  conv_rhs => rw [← map_getD_range b n hb]
  rw [List.map_map]
  rfl

theorem composePerm_id (a : List Int) (n : Nat) (ha : a.length = n) :
    composePerm a (labelRange n ((n : Int) - 1)) n = a := by
  rw [composePerm_eq_map _ _ _ (labelRange_length _ _), labelRange_zero_based, List.map_map]
  simpa [Function.comp] using map_getD_range a n ha

theorem composePerm_perm (a b : List Int) (n : Nat)
    (ha : a.Perm (labelRange n ((n : Int) - 1))) (hb : b.Perm (labelRange n ((n : Int) - 1))) :
    (composePerm a b n).Perm (labelRange n ((n : Int) - 1)) := by
  have hal : a.length = n := by rw [ha.length_eq, labelRange_length]
  have hbl : b.length = n := by rw [hb.length_eq, labelRange_length]
  rw [composePerm_eq_map _ _ _ hbl]
  refine ((hb.map _).trans ?_).trans ha
  rw [← composePerm_eq_map _ _ _ (labelRange_length _ _), composePerm_id a n hal]

theorem getD_mem_range (b : List Int) (n i : Nat)
    (hb : b.Perm (labelRange n ((n : Int) - 1))) (hi : i < n) :
    0 ≤ b.getD i 0 ∧ (b.getD i 0).toNat < n := by
  have hbl : b.length = n := by rw [hb.length_eq, labelRange_length]
  have hmem : b.getD i 0 ∈ b := by
    rw [List.getD_eq_getElem?_getD, List.getElem?_eq_getElem (by omega)]
    exact List.getElem_mem _
  have := (mem_labelRange _ _ _).mp (hb.subset hmem)
  omega

theorem composePerm_assoc (a b c : List Int) (n : Nat)
    (hc : c.Perm (labelRange n ((n : Int) - 1))) :
    composePerm (composePerm a b n) c n = composePerm a (composePerm b c n) n := by
  unfold composePerm
  apply List.map_congr_left
  intro i hi
  have hi' : i < n := List.mem_range.mp hi
  have hci := getD_mem_range c n i hc hi'
  rw [getD_map_range _ _ _ hci.2, getD_map_range _ _ _ hi']

/-! ## The move table of the corner permutation -/

theorem permMove_inverse (n : Nat) (s t : List Int) (c : Nat) (fuel : Nat) (hn : 1 ≤ n)
    (hs : s.Perm (labelRange n ((n : Int) - 1))) (ht : t.Perm (labelRange n ((n : Int) - 1)))
    (hinv : composePerm s t n = labelRange n ((n : Int) - 1)) (hc : c < n.factorial)
    (hf : n ≤ fuel) :
    ∃ r : Nat, getPermCoordZ fuel (composePerm (setPermCoord (c : Int) n ((n : Int) - 1)) s n) n
        ((n : Int) - 1) = some (r : Int) ∧ r < n.factorial ∧
      getPermCoordZ fuel (composePerm (setPermCoord (r : Int) n ((n : Int) - 1)) t n) n
        ((n : Int) - 1) = some (c : Int) := by
  have hx := setPermCoord_perm c n ((n : Int) - 1)
  have hy := composePerm_perm _ s n hx hs
  obtain ⟨r, hr, hget, hset⟩ := getPermCoord_perm n _ ((n : Int) - 1) fuel hy hf
  refine ⟨r, hget, hr, ?_⟩
  rw [hset, composePerm_assoc _ _ _ _ ht, hinv, composePerm_id _ _ (setPermCoord_length _ _ _)]
  exact getPermCoord_setPermCoord_of_lt n _ c fuel hn (Int.natCast_nonneg _)
    (by unfold fac; exact_mod_cast hc) hf

/-! ## The move tables of the position and permutation coordinates -/

theorem count_true_add_count_false (m : List Bool) :
    m.count true + m.count false = m.length := by
  induction m with
  | nil => rfl
  | cons b m ih => cases b <;> simp <;> omega

theorem place_entries (lo hi : Int) (m : List Bool) (xs : List Int)
    (hxs : ∀ x ∈ xs, inWindow lo hi x = true) (hc : m.count true = xs.length) :
    ∀ x ∈ place m xs, x = -1 ∨ inWindow lo hi x = true := by
  induction m generalizing xs with
  | nil => intro x hx; simp [place] at hx
  | cons b m ih =>
    cases b with
    | false =>
      rw [List.count_cons_of_ne (by simp)] at hc
      intro x hx
      simp only [place, List.mem_cons] at hx
      rcases hx with hx | hx
      · exact Or.inl hx
      · exact ih xs hxs hc x hx
    | true =>
      rw [List.count_cons_self] at hc
      cases xs with
      | nil => simp at hc
      | cons a xs =>
        intro x hx
        simp only [place, List.headD_cons, List.tail_cons, List.mem_cons] at hx
        rcases hx with hx | hx
        · exact Or.inr (hx ▸ hxs a (by simp))
        · exact ih xs (fun y hy => hxs y (List.mem_cons_of_mem _ hy)) (by simpa using hc) x hx

theorem count_neg_one_place (lo hi : Int) (hlo : 0 ≤ lo) (m : List Bool) (xs : List Int)
    (hxs : ∀ x ∈ xs, inWindow lo hi x = true) (hc : m.count true = xs.length) :
    (place m xs).count (-1) = m.count false := by
  induction m generalizing xs with
  | nil => rfl
  | cons b m ih =>
    cases b with
    | false =>
      rw [List.count_cons_of_ne (by simp)] at hc
      simp [place, ih xs hxs hc]
    | true =>
      rw [List.count_cons_self] at hc
      cases xs with
      | nil => simp at hc
      | cons a xs =>
        have ha : a ≠ -1 := inWindow_ne_neg_one lo hi a hlo (hxs a (by simp))
        simp only [place, List.headD_cons, List.tail_cons]
        rw [List.count_cons_of_ne (Ne.symm ha), List.count_cons_of_ne (by simp),
          ih xs (fun y hy => hxs y (List.mem_cons_of_mem _ hy)) (by simpa using hc)]

theorem filter_not_fillAbs (lo hi : Int) (hle : lo ≤ hi) (y : List Int)
    (hy : ∀ x ∈ y, x = -1 ∨ inWindow lo hi x = true) (c : Int) (hc : c ≤ lo ∨ hi < c) :
    (fillAbs lo hi c y).filter (fun x => !inWindow lo hi x)
      = fillLabelsFrom lo hi c (y.count (-1)) := by
  induction y generalizing c with
  | nil => rfl
  | cons a y ih =>
    have hskip := skip_not_inWindow lo hi c hc
    have hnext : ∀ d : Int, d = (if c = lo then hi + 1 else c) →
        (d ≤ lo ∨ hi < d) ∧ (d + 1 ≤ lo ∨ hi < d + 1) := by
      intro d hd
      by_cases h : c = lo
      · rw [if_pos h] at hd; omega
      · rw [if_neg h] at hd; omega
    have hy' : ∀ x ∈ y, x = -1 ∨ inWindow lo hi x = true :=
      fun x hx => hy x (List.mem_cons_of_mem _ hx)
    rw [fillAbs]
    by_cases ha : a = -1
    · subst ha
      simp only [if_true, List.filter_cons, hskip, Bool.not_false, List.count_cons_self]
      rw [ih hy' _ (hnext _ rfl).2, fillLabelsFrom]
    · have haw : inWindow lo hi a = true := by
        rcases hy a (by simp) with h | h
        · exact absurd h ha
        · exact h
      simp only [ha, if_false, List.filter_cons, haw, Bool.not_true, Bool.false_eq_true]
      rw [ih hy' _ (hnext _ rfl).1, fillLabelsFrom_skip lo hi hle,
        List.count_cons_of_ne (Ne.symm ha)]

/-- the sequence written by `setPosPermCoordZ` for a value in range is a permutation of
`0..L-1` -/
theorem setPosPermCoord_perm (L : Nat) (lo hi : Int) (from_left : Bool) (n : Nat)
    (hlo : 0 ≤ lo) (hle : lo ≤ hi) (hhi : hi < (L : Int))
    (hn : n < Nat.choose L (hi - lo + 1).toNat * (hi - lo + 1).toNat.factorial) :
    (setPosPermCoordZ (n : Int) L lo hi from_left).Perm (labelRange L ((L : Int) - 1)) := by
  have hwin := setPermCoord_inWindow (n % (hi - lo + 1).toNat.factorial) lo hi hle
  have hc1perm := setPermCoord_perm (n % (hi - lo + 1).toNat.factorial) (hi - lo + 1).toNat hi
  have hfLR := filter_window_labelRange L lo hi hlo hle hhi
  have hnLR := filter_not_window_labelRange L lo hi hlo hle hhi
  have hkL : lo.toNat + (hi - lo + 1).toNat + ((L : Int) - 1 - hi).toNat = L := by omega
  generalize hk : (hi - lo + 1).toNat = k at hn hwin hc1perm hfLR hkL
  have hdiv : n / k.factorial < Nat.choose L k :=
    Nat.div_lt_of_lt_mul (by rw [Nat.mul_comm]; exact hn)
  have hUc := posUnrank_count L k _ hdiv
  have hUl := posUnrank_length L k (n / k.factorial)
  have hUf : (posUnrank L k (n / k.factorial)).count false
      = lo.toNat + ((L : Int) - 1 - hi).toNat := by
    have := count_true_add_count_false (posUnrank L k (n / k.factorial))
    omega
  have hlen := setPermCoord_length ((n % k.factorial : Nat) : Int) k hi
  have key : ∀ y : List Int, (∀ x ∈ y, x = -1 ∨ inWindow lo hi x = true) →
      y.count (-1) = lo.toNat + ((L : Int) - 1 - hi).toNat →
      y.filter (inWindow lo hi) = setPermCoord ((n % k.factorial : Nat) : Int) k hi →
      (fillAbs lo hi 0 y).Perm (labelRange L ((L : Int) - 1)) := by
    intro y hy hcnt hfil
    have h1 := (List.filter_append_perm (inWindow lo hi) (fillAbs lo hi 0 y)).symm
    have h2 := List.filter_append_perm (inWindow lo hi) (labelRange L ((L : Int) - 1))
    rw [filter_not_fillAbs lo hi hle y hy 0 (Or.inl hlo), hcnt, ← hnLR,
      filter_fillAbs lo hi hlo 0 (Or.inl hlo), hfil] at h1
    rw [hfLR] at h2
    exact h1.trans ((List.Perm.append_right _ hc1perm).trans h2)
  cases from_left with
  | false =>
    rw [setPosPermCoord_right n L lo hi (by rw [hk]; exact hdiv), hk]
    refine key _ (place_entries lo hi _ _ hwin (by rw [hUc, hlen])) ?_ ?_
    · rw [count_neg_one_place lo hi hlo _ _ hwin (by rw [hUc, hlen]), hUf]
    · exact filter_place lo hi hlo _ _ hwin (by rw [hUc, hlen])
  | true =>
    have hwinr : ∀ x ∈ (setPermCoord ((n % k.factorial : Nat) : Int) k hi).reverse,
        inWindow lo hi x = true := fun x hx => hwin x (List.mem_reverse.mp hx)
    rw [setPosPermCoord_left n L lo hi (by rw [hk]; exact hdiv), hk]
    refine key _ ?_ ?_ ?_
    · intro x hx
      exact place_entries lo hi _ _ hwinr (by rw [hUc, List.length_reverse, hlen]) x
        (List.mem_reverse.mp hx)
    · rw [List.count_reverse,
        count_neg_one_place lo hi hlo _ _ hwinr (by rw [hUc, List.length_reverse, hlen]), hUf]
    · rw [List.filter_reverse,
        filter_place lo hi hlo _ _ hwinr (by rw [hUc, List.length_reverse, hlen]),
        List.reverse_reverse]

theorem inWindow_markOutside (lo hi : Int) (hlo : 0 ≤ lo) (a : Int) :
    inWindow lo hi (markOutside lo hi a) = inWindow lo hi a := by
  cases ha : inWindow lo hi a
  · simp [markOutside, ha, inWindow_neg_one lo hi hlo]
  · simp [markOutside, ha]

theorem mask_mark (lo hi : Int) (hlo : 0 ≤ lo) (v : List Int) :
    (v.map (markOutside lo hi)).map (inWindow lo hi) = v.map (inWindow lo hi) := by
  rw [List.map_map]
  apply List.map_congr_left
  intro a _
  exact inWindow_markOutside lo hi hlo a

theorem markOutside_of_not (lo hi a : Int) (h : inWindow lo hi a = false) :
    markOutside lo hi a = -1 := by
  simp [markOutside, h]

theorem mark_fillAbs (lo hi : Int) (hlo : 0 ≤ lo) (v : List Int) (c : Int)
    (hc : c ≤ lo ∨ hi < c) :
    (fillAbs lo hi c (v.map (markOutside lo hi))).map (markOutside lo hi)
      = v.map (markOutside lo hi) := by
  induction v generalizing c with
  | nil => rfl
  | cons a v ih =>
    have hskip := skip_not_inWindow lo hi c hc
    have hnext : ∀ d : Int, d = (if c = lo then hi + 1 else c) →
        (d ≤ lo ∨ hi < d) ∧ (d + 1 ≤ lo ∨ hi < d + 1) := by
      intro d hd
      by_cases h : c = lo
      · rw [if_pos h] at hd; omega
      · rw [if_neg h] at hd; omega
    rw [List.map_cons, fillAbs]
    cases ha : inWindow lo hi a
    · have hm : markOutside lo hi a = -1 := markOutside_of_not lo hi a ha
      simp only [hm, if_true, List.map_cons]
      rw [markOutside_of_not lo hi _ hskip, ih _ (hnext _ rfl).2]
    · have hm : markOutside lo hi a = a := by simp [markOutside, ha]
      have hne : a ≠ -1 := inWindow_ne_neg_one lo hi a hlo ha
      simp only [hm, hne, if_false, List.map_cons]
      rw [ih _ (hnext _ rfl).1]

/-- on permutations of `0..L-1`, `getPosPermCoordZ` reads only the marked cells -/
theorem getPosPermCoord_congr_mark (L : Nat) (lo hi : Int) (from_left : Bool) (u v : List Int)
    (fuel : Nat) (hlo : 0 ≤ lo) (hle : lo ≤ hi) (hhi : hi < (L : Int))
    (hu : u.Perm (labelRange L ((L : Int) - 1))) (hv : v.Perm (labelRange L ((L : Int) - 1)))
    (h : u.map (markOutside lo hi) = v.map (markOutside lo hi)) :
    getPosPermCoordZ fuel u L lo hi from_left = getPosPermCoordZ fuel v L lo hi from_left := by
  have hcount : ∀ w : List Int, w.Perm (labelRange L ((L : Int) - 1)) →
      w.length = L ∧ (w.map (inWindow lo hi)).count true = (hi - lo + 1).toNat := by
    intro w hw
    refine ⟨by rw [hw.length_eq, labelRange_length], ?_⟩
    rw [count_mask, (hw.filter _).length_eq, filter_window_labelRange L lo hi hlo hle hhi,
      labelRange_length]
  have hmask : u.map (inWindow lo hi) = v.map (inWindow lo hi) := by
    rw [← mask_mark lo hi hlo u, ← mask_mark lo hi hlo v, h]
  have hfilter : u.filter (inWindow lo hi) = v.filter (inWindow lo hi) := by
    rw [← filter_mark lo hi hlo u, ← filter_mark lo hi hlo v, h]
  cases from_left with
  | false =>
    rw [getPosPermCoordZ, getPosPermCoordZ, getPosPart_right u L lo hi (hcount u hu).1 (hcount u hu).2,
      getPosPart_right v L lo hi (hcount v hv).1 (hcount v hv).2, hmask, hfilter]
  | true =>
    rw [getPosPermCoordZ, getPosPermCoordZ, getPosPart_left u L lo hi (hcount u hu).1 (hcount u hu).2,
      getPosPart_left v L lo hi (hcount v hv).1 (hcount v hv).2, hmask, hfilter]

theorem composePerm_map_mark (lo hi : Int) (z y t : List Int) (n : Nat)
    (h : z.map (markOutside lo hi) = y.map (markOutside lo hi)) :
    (composePerm z t n).map (markOutside lo hi) = (composePerm y t n).map (markOutside lo hi) := by
  unfold composePerm
  rw [List.map_map, List.map_map]
  apply List.map_congr_left
  intro i _
  simp only [Function.comp]
  have e1 := List.getD_map (markOutside lo hi) (l := z) (n := (t.getD i 0).toNat) (d := 0)
  have e2 := List.getD_map (markOutside lo hi) (l := y) (n := (t.getD i 0).toNat) (d := 0)
  rw [← e1, ← e2, h]

theorem posPermMove_inverse (L : Nat) (lo hi : Int) (from_left : Bool) (s t : List Int)
    (c : Nat) (fuel : Nat) (hlo : 0 ≤ lo) (hle : lo ≤ hi) (hhi : hi < (L : Int))
    (hs : s.Perm (labelRange L ((L : Int) - 1))) (ht : t.Perm (labelRange L ((L : Int) - 1)))
    (hinv : composePerm s t L = labelRange L ((L : Int) - 1))
    (hc : c < Nat.choose L (hi - lo + 1).toNat * (hi - lo + 1).toNat.factorial)
    (hf : (hi - lo + 1).toNat ≤ fuel) :
    ∃ r : Nat,
      getPosPermCoordZ fuel (composePerm (setPosPermCoordZ (c : Int) L lo hi from_left) s L) L lo hi
        from_left = some (r : Int) ∧
      r < Nat.choose L (hi - lo + 1).toNat * (hi - lo + 1).toNat.factorial ∧
      getPosPermCoordZ fuel (composePerm (setPosPermCoordZ (r : Int) L lo hi from_left) t L) L lo hi
        from_left = some (c : Int) := by
  have hx := setPosPermCoord_perm L lo hi from_left c hlo hle hhi hc
  have hxl : (setPosPermCoordZ (c : Int) L lo hi from_left).length = L := by
    rw [hx.length_eq, labelRange_length]
  have hy := composePerm_perm _ s L hx hs
  obtain ⟨r, hr, hget, hset⟩ :=
    setPosPermCoord_getPosPermCoord_shape L lo hi from_left _ fuel hy hlo hle hhi hf
  refine ⟨r, hget, hr, ?_⟩
  have hz := setPosPermCoord_perm L lo hi from_left r hlo hle hhi hr
  have hmark : (setPosPermCoordZ (r : Int) L lo hi from_left).map (markOutside lo hi)
      = (composePerm (setPosPermCoordZ (c : Int) L lo hi from_left) s L).map
          (markOutside lo hi) := by
    rw [hset, mark_fillAbs lo hi hlo _ 0 (Or.inl hlo)]
  rw [getPosPermCoord_congr_mark L lo hi from_left _ _ fuel hlo hle hhi
    (composePerm_perm _ t L hz ht) (composePerm_perm _ t L hy ht)
    (composePerm_map_mark lo hi _ _ t L hmark),
    composePerm_assoc _ _ _ _ ht, hinv, composePerm_id _ _ hxl]
  exact getPosPermCoord_setPosPermCoord_nat L lo hi from_left c fuel hlo hle hc hf

/-! ## The move tables of the orientation coordinates -/

theorem composePerm_perm_left (a b : List Int) (n : Nat) (ha : a.length = n)
    (hb : b.Perm (labelRange n ((n : Int) - 1))) : (composePerm a b n).Perm a := by
  have hbl : b.length = n := by rw [hb.length_eq, labelRange_length]
  rw [composePerm_eq_map _ _ _ hbl]
  refine (hb.map _).trans ?_
  rw [← composePerm_eq_map _ _ _ (labelRange_length _ _), composePerm_id a n ha]

theorem getD_nonneg_lt (x : List Int) (b : Int) (hb : 1 ≤ b) (hx : ∀ d ∈ x, 0 ≤ d ∧ d < b)
    (j : Nat) : 0 ≤ x.getD j 0 ∧ x.getD j 0 < b := by
  by_cases hj : j < x.length
  · have hmem : x.getD j 0 ∈ x := by
      rw [List.getD_eq_getElem?_getD, List.getElem?_eq_getElem hj]
      exact List.getElem_mem _
    exact hx _ hmem
  · have : x.getD j 0 = 0 := by
      rw [List.getD_eq_getElem?_getD, List.getElem?_eq_none (by omega)]
      rfl
    rw [this]
    omega

theorem composeOri_eq_emod (x s o : List Int) (n : Nat) (b : Int) (hb : 1 ≤ b)
    (hx : ∀ d ∈ x, 0 ≤ d ∧ d < b) (ho : ∀ d ∈ o, 0 ≤ d ∧ d < b) :
    composeOri x s o n b
      = (List.range n).map (fun i => (x.getD (s.getD i 0).toNat 0 + o.getD i 0) % b) := by
  unfold composeOri
  apply List.map_congr_left
  intro i _
  have h1 := getD_nonneg_lt x b hb hx (s.getD i 0).toNat
  have h2 := getD_nonneg_lt o b hb ho i
  exact Int.tmod_eq_emod (by omega) (by omega)

theorem sum_map_emod (l : List Nat) (f : Nat → Int) (b : Int) :
    (l.map (fun i => f i % b)).sum % b = (l.map f).sum % b := by
  induction l with
  | nil => rfl
  | cons a l ih =>
    simp only [List.map_cons, List.sum_cons]
    rw [Int.add_emod, ih, Int.emod_emod, ← Int.add_emod]

theorem sum_map_add (l : List Nat) (f g : Nat → Int) :
    (l.map (fun i => f i + g i)).sum = (l.map f).sum + (l.map g).sum := by
  induction l with
  | nil => rfl
  | cons a l ih =>
    simp only [List.map_cons, List.sum_cons, ih]
    ring

theorem composeOri_valid (x s o : List Int) (n : Nat) (b : Int) (hb : 1 ≤ b)
    (hx : OriValid x n b) (hs : s.Perm (labelRange n ((n : Int) - 1))) (ho : OriValid o n b) :
    OriValid (composeOri x s o n b) n b := by
  obtain ⟨hxl, hxd, hxs⟩ := hx
  obtain ⟨hol, hod, hos⟩ := ho
  rw [composeOri_eq_emod x s o n b hb hxd hod]
  refine ⟨by simp, ?_, ?_⟩
  · intro d hd
    simp only [List.mem_map, List.mem_range] at hd
    obtain ⟨i, _, rfl⟩ := hd
    exact ⟨Int.emod_nonneg _ (by omega), Int.emod_lt_of_pos _ (by omega)⟩
  · rw [sum_map_emod, sum_map_add]
    have h1 : ((List.range n).map (fun i => x.getD (s.getD i 0).toNat 0)).sum = x.sum :=
      (composePerm_perm_left x s n hxl hs).sum_eq
    have h2 : ((List.range n).map (fun i => o.getD i 0)).sum = o.sum := by
      rw [map_getD_range o n hol]
    rw [h1, h2, Int.add_emod, hxs, hos]
    simp

theorem composeOri_inverse (x s o t p : List Int) (n : Nat) (b : Int) (hb : 1 ≤ b)
    (hx : OriValid x n b) (ht : t.Perm (labelRange n ((n : Int) - 1)))
    (ho : OriValid o n b) (hp : OriValid p n b)
    (hinvp : composePerm s t n = labelRange n ((n : Int) - 1))
    (hinvo : composeOri o t p n b = List.replicate n 0) :
    composeOri (composeOri x s o n b) t p n b = x := by
  obtain ⟨hxl, hxd, _⟩ := hx
  obtain ⟨_, hod, _⟩ := ho
  obtain ⟨_, hpd, _⟩ := hp
  have hyd : ∀ d ∈ composeOri x s o n b, 0 ≤ d ∧ d < b := by
    intro d hd
    rw [composeOri_eq_emod x s o n b hb hxd hod] at hd
    simp only [List.mem_map, List.mem_range] at hd
    obtain ⟨i, _, rfl⟩ := hd
    exact ⟨Int.emod_nonneg _ (by omega), Int.emod_lt_of_pos _ (by omega)⟩
  rw [composeOri_eq_emod _ t p n b hb hyd hpd]
  conv_rhs => rw [← map_getD_range x n hxl]
  apply List.map_congr_left
  intro i hi
  have hi' : i < n := List.mem_range.mp hi
  have htj := getD_mem_range t n i ht hi'
  have hs1 : s.getD (t.getD i 0).toNat 0 = (i : Int) := by
    have h1 : (composePerm s t n).getD i 0 = (labelRange n ((n : Int) - 1)).getD i 0 := by
      rw [hinvp]
    rw [labelRange_zero_based] at h1
    unfold composePerm at h1
    rw [getD_map_range _ _ _ hi', getD_map_range _ _ _ hi'] at h1
    exact h1
  have ho1 : (o.getD (t.getD i 0).toNat 0 + p.getD i 0) % b = 0 := by
    have h1 : (composeOri o t p n b).getD i 0 = (List.replicate n (0 : Int)).getD i 0 := by
      rw [hinvo]
    rw [composeOri_eq_emod o t p n b hb hod hpd, getD_map_range _ _ _ hi'] at h1
    rw [h1]
    simp [List.getD_eq_getElem?_getD]
  rw [composeOri_eq_emod x s o n b hb hxd hod, getD_map_range _ _ _ htj.2, hs1]
  have hxi := getD_nonneg_lt x b hb hxd i
  simp only [Int.toNat_ofNat]
  rw [Int.emod_add_emod, add_assoc, Int.add_emod, ho1, add_zero, Int.emod_emod,
    Int.emod_eq_of_lt hxi.1 hxi.2]

theorem getOriCoord_range (n : Nat) (b : Nat) (y : List Int) (hy : OriValid y (n + 1) (b : Int)) :
    ∃ r : Nat, getOriCoordZ y (n + 1) (b : Int) = (r : Int) ∧ r < b ^ n := by
  obtain ⟨hyl, hyd, _⟩ := hy
  obtain ⟨d, x, rfl, hdl⟩ := exists_snoc y n hyl
  obtain ⟨r, hr, hlt⟩ := horner_range b d (fun z hz => hyd z (List.mem_append_left _ hz))
  refine ⟨r, ?_, by rw [hdl] at hlt; exact hlt⟩
  have h1 : n + 1 - 1 = n := rfl
  rw [getOriCoordZ, h1, getOri_fold n _ d _ hdl, hr]

theorem oriMove_inverse (n : Nat) (b : Nat) (s o t p : List Int) (c : Nat) (hb : 1 ≤ b)
    (hs : s.Perm (labelRange (n + 1) (((n + 1 : Nat) : Int) - 1)))
    (ht : t.Perm (labelRange (n + 1) (((n + 1 : Nat) : Int) - 1)))
    (ho : OriValid o (n + 1) (b : Int)) (hp : OriValid p (n + 1) (b : Int))
    (hinvp : composePerm s t (n + 1) = labelRange (n + 1) (((n + 1 : Nat) : Int) - 1))
    (hinvo : composeOri o t p (n + 1) (b : Int) = List.replicate (n + 1) 0)
    (hc : c < b ^ n) :
    ∃ r : Nat,
      getOriCoordZ (composeOri (setOriCoordZ (c : Int) (n + 1) (b : Int)) s o (n + 1) (b : Int))
        (n + 1) (b : Int) = (r : Int) ∧ r < b ^ n ∧
      getOriCoordZ (composeOri (setOriCoordZ (r : Int) (n + 1) (b : Int)) t p (n + 1) (b : Int))
        (n + 1) (b : Int) = (c : Int) := by
  have hbI : (1 : Int) ≤ (b : Int) := by exact_mod_cast hb
  have hcI : (c : Int) < (b : Int) ^ (n + 1 - 1) := by
    have h1 : n + 1 - 1 = n := rfl
    rw [h1]
    exact_mod_cast hc
  have hx : OriValid (setOriCoordZ (c : Int) (n + 1) (b : Int)) (n + 1) (b : Int) :=
    setOriCoord_valid (n + 1) b c (by omega) hbI (Int.natCast_nonneg _) hcI
  have hy := composeOri_valid _ s o (n + 1) b hbI hx hs ho
  obtain ⟨r, hr, hlt⟩ := getOriCoord_range n b _ hy
  refine ⟨r, hr, hlt, ?_⟩
  rw [← hr, setOriCoord_getOriCoord_of_valid (n + 1) b _ hy.1 hy.2.1 hy.2.2,
    composeOri_inverse _ s o t p (n + 1) b hbI hx ht ho hp hinvp hinvo]
  exact getOriCoord_setOriCoord_of_lt (n + 1) b c (by omega) hbI (Int.natCast_nonneg _) hcI

/-! ## The move tables and the conversion to `Coord` -/

theorem permMove_inverse_coord (n : Nat) (s t : List Int) (c : Nat) (fuel : Nat) (hn : 1 ≤ n)
    (hs : s.Perm (labelRange n ((n : Int) - 1))) (ht : t.Perm (labelRange n ((n : Int) - 1)))
    (hinv : composePerm s t n = labelRange n ((n : Int) - 1)) (hc : c < n.factorial)
    (hf : n ≤ fuel) (h16 : n.factorial ≤ 65536) :
    ∃ r : Nat,
      getPermCoord fuel (composePerm (setPermCoord (toCoord (c : Int)) n ((n : Int) - 1)) s n) n
        ((n : Int) - 1) = some (r : Int) ∧ r < n.factorial ∧
      getPermCoord fuel (composePerm (setPermCoord (toCoord (r : Int)) n ((n : Int) - 1)) t n) n
        ((n : Int) - 1) = some (c : Int) := by
  obtain ⟨r, hr, hlt, hback⟩ := permMove_inverse n s t c fuel hn hs ht hinv hc hf
  have hc1 : toCoord (c : Int) = (c : Int) :=
    toCoord_of_lt _ (Int.natCast_nonneg c) (by exact_mod_cast lt_of_lt_of_le hc h16)
  have hr1 : toCoord (r : Int) = (r : Int) :=
    toCoord_of_lt _ (Int.natCast_nonneg r) (by exact_mod_cast lt_of_lt_of_le hlt h16)
  refine ⟨r, ?_, hlt, ?_⟩
  · rw [hc1, getPermCoord_toCoord, hr, Option.map_some', hr1]
  · rw [hr1, getPermCoord_toCoord, hback, Option.map_some', hc1]

theorem posPermMove_inverse_coord (L : Nat) (lo hi : Int) (from_left : Bool) (s t : List Int)
    (c : Nat) (fuel : Nat) (hlo : 0 ≤ lo) (hle : lo ≤ hi) (hhi : hi < (L : Int))
    (hs : s.Perm (labelRange L ((L : Int) - 1))) (ht : t.Perm (labelRange L ((L : Int) - 1)))
    (hinv : composePerm s t L = labelRange L ((L : Int) - 1))
    (hc : c < Nat.choose L (hi - lo + 1).toNat * (hi - lo + 1).toNat.factorial)
    (hf : (hi - lo + 1).toNat ≤ fuel)
    (h16 : Nat.choose L (hi - lo + 1).toNat * (hi - lo + 1).toNat.factorial ≤ 65536) :
    ∃ r : Nat,
      getPosPermCoord fuel (composePerm (setPosPermCoord (c : Int) L lo hi from_left) s L) L lo hi
        from_left = some (r : Int) ∧
      r < Nat.choose L (hi - lo + 1).toNat * (hi - lo + 1).toNat.factorial ∧
      getPosPermCoord fuel (composePerm (setPosPermCoord (r : Int) L lo hi from_left) t L) L lo hi
        from_left = some (c : Int) := by
  obtain ⟨r, hr, hlt, hback⟩ :=
    posPermMove_inverse L lo hi from_left s t c fuel hlo hle hhi hs ht hinv hc hf
  have hc1 : toCoord (c : Int) = (c : Int) :=
    toCoord_of_lt _ (Int.natCast_nonneg c) (by exact_mod_cast lt_of_lt_of_le hc h16)
  have hr1 : toCoord (r : Int) = (r : Int) :=
    toCoord_of_lt _ (Int.natCast_nonneg r) (by exact_mod_cast lt_of_lt_of_le hlt h16)
  refine ⟨r, ?_, hlt, ?_⟩
  · rw [setPosPermCoord_toCoord, hc1, getPosPermCoord_toCoord, hr, Option.map_some', hr1]
  · rw [setPosPermCoord_toCoord, hr1, getPosPermCoord_toCoord, hback, Option.map_some', hc1]

theorem oriMove_inverse_coord (n : Nat) (b : Nat) (s o t p : List Int) (c : Nat) (hb : 1 ≤ b)
    (hs : s.Perm (labelRange (n + 1) (((n + 1 : Nat) : Int) - 1)))
    (ht : t.Perm (labelRange (n + 1) (((n + 1 : Nat) : Int) - 1)))
    (ho : OriValid o (n + 1) (b : Int)) (hp : OriValid p (n + 1) (b : Int))
    (hinvp : composePerm s t (n + 1) = labelRange (n + 1) (((n + 1 : Nat) : Int) - 1))
    (hinvo : composeOri o t p (n + 1) (b : Int) = List.replicate (n + 1) 0)
    (hc : c < b ^ n) (h16 : b ^ n ≤ 65536) :
    ∃ r : Nat,
      getOriCoord (composeOri (setOriCoord (c : Int) (n + 1) (b : Int)) s o (n + 1) (b : Int))
        (n + 1) (b : Int) = (r : Int) ∧ r < b ^ n ∧
      getOriCoord (composeOri (setOriCoord (r : Int) (n + 1) (b : Int)) t p (n + 1) (b : Int))
        (n + 1) (b : Int) = (c : Int) := by
  obtain ⟨r, hr, hlt, hback⟩ := oriMove_inverse n b s o t p c hb hs ht ho hp hinvp hinvo hc
  have hbI : (1 : Int) ≤ (b : Int) := by exact_mod_cast hb
  have hc1 : toCoord (c : Int) = (c : Int) :=
    toCoord_of_lt _ (Int.natCast_nonneg c) (by exact_mod_cast lt_of_lt_of_le hc h16)
  have hr1 : toCoord (r : Int) = (r : Int) :=
    toCoord_of_lt _ (Int.natCast_nonneg r) (by exact_mod_cast lt_of_lt_of_le hlt h16)
  refine ⟨r, ?_, hlt, ?_⟩
  · rw [setOriCoord_toCoord _ _ _ hbI, hc1, getOriCoord_toCoord, hr, hr1]
  · rw [setOriCoord_toCoord _ _ _ hbI, hr1, getOriCoord_toCoord, hback, hc1]

/-! ## The cells of a table built by `initMoveCoord` -/

theorem moveRow_fold (getCoord : CubieCube → Option Int)
    (mul : CubieCube → CubieCube → CubieCube → CubieCube) (move_cubes : Nat → CubieCube)
    (cube1 cube2 : CubieCube) (n : Nat) :
    ((List.range n).foldl (moveRowStep getCoord mul move_cubes cube1) (cube2, [])).2.length = n ∧
    ∀ m : Nat, m < n → ∃ old : CubieCube,
      ((List.range n).foldl (moveRowStep getCoord mul move_cubes cube1) (cube2, [])).2.getD m none
        = getCoord (mul cube1 (move_cubes m) old) := by
  induction n with
  | zero => exact ⟨rfl, fun m hm => absurd hm (Nat.not_lt_zero m)⟩
  | succ n ih =>
    obtain ⟨hlen, hcell⟩ := ih
    rw [List.range_succ, List.foldl_append]
    generalize (List.range n).foldl (moveRowStep getCoord mul move_cubes cube1) (cube2, []) = S
      at hlen hcell
    simp only [List.foldl_cons, List.foldl_nil, moveRowStep]
    refine ⟨by simp [hlen], ?_⟩
    intro m hm
    by_cases hmn : m < n
    · obtain ⟨old, hold⟩ := hcell m hmn
      refine ⟨old, ?_⟩
      rw [← hold, List.getD_eq_getElem?_getD, List.getD_eq_getElem?_getD,
        List.getElem?_append_left (by omega)]
    · have hmeq : m = n := by omega
      subst hmeq
      refine ⟨S.1, ?_⟩
      rw [List.getD_eq_getElem?_getD, List.getElem?_append_right (by omega), hlen]
      simp

theorem moveTable_fold (getCoord : CubieCube → Option Int)
    (setCoord : CubieCube → Int → CubieCube)
    (mul : CubieCube → CubieCube → CubieCube → CubieCube) (move_cubes : Nat → CubieCube)
    (cube1 cube2 : CubieCube) (n : Nat) :
    ((List.range n).foldl (moveTableStep getCoord setCoord mul move_cubes)
        (cube1, cube2, [])).2.2.length = n ∧
    ∀ c m : Nat, c < n → m < N_MOVES → ∃ prev old : CubieCube,
      (((List.range n).foldl (moveTableStep getCoord setCoord mul move_cubes)
          (cube1, cube2, [])).2.2.getD c []).getD m none
        = getCoord (mul (setCoord prev (c : Int)) (move_cubes m) old) := by
  induction n with
  | zero => exact ⟨rfl, fun c m hc _ => absurd hc (Nat.not_lt_zero c)⟩
  | succ n ih =>
    obtain ⟨hlen, hcell⟩ := ih
    rw [List.range_succ, List.foldl_append]
    generalize (List.range n).foldl (moveTableStep getCoord setCoord mul move_cubes)
      (cube1, cube2, []) = S at hlen hcell
    simp only [List.foldl_cons, List.foldl_nil, moveTableStep]
    refine ⟨by simp [hlen], ?_⟩
    intro c m hc hm
    have hlast : ∀ (rows : List (List (Option Int))) (row : List (Option Int)),
        rows.length = c → (rows ++ [row]).getD c [] = row := by
      intro rows row h
      rw [List.getD_eq_getElem?_getD, List.getElem?_append_right (by omega), h]
      simp
    have hinit : ∀ (rows : List (List (Option Int))) (row : List (Option Int)),
        c < rows.length → (rows ++ [row]).getD c [] = rows.getD c [] := by
      intro rows row h
      rw [List.getD_eq_getElem?_getD, List.getD_eq_getElem?_getD,
        List.getElem?_append_left h]
    by_cases hcn : c < n
    · obtain ⟨prev, old, hold⟩ := hcell c m hcn hm
      refine ⟨prev, old, ?_⟩
      rw [hinit _ _ (by omega)]
      exact hold
    · have hceq : c = n := by omega
      subst hceq
      obtain ⟨_, hrow⟩ := moveRow_fold getCoord mul move_cubes (setCoord S.1 (c : Int)) S.2.1
        N_MOVES
      obtain ⟨old, hold⟩ := hrow m hm
      refine ⟨S.1, old, ?_⟩
      rw [hlast _ _ hlen]
      exact hold

theorem initMoveCoord_entry (n_coords : Nat) (getCoord : CubieCube → Option Int)
    (setCoord : CubieCube → Int → CubieCube)
    (mul : CubieCube → CubieCube → CubieCube → CubieCube) (move_cubes : Nat → CubieCube)
    (cube2 : CubieCube) (c m : Nat) (hc : c < n_coords) (hm : m < N_MOVES) :
    ∃ prev old : CubieCube,
      tableEntry (initMoveCoord n_coords getCoord setCoord mul move_cubes cube2) (c : Int) m
        = getCoord (mul (setCoord prev (c : Int)) (move_cubes m) old) := by
  obtain ⟨_, hcell⟩ := moveTable_fold getCoord setCoord mul move_cubes kSolvedCube cube2 n_coords
  obtain ⟨prev, old, h⟩ := hcell c m hc hm
  exact ⟨prev, old, by simpa [tableEntry, initMoveCoord] using h⟩

/-! ## Claim on the move tables: a move and its inverse move -/

theorem kInvMove_lt (m : Nat) (hm : m < N_MOVES) : kInvMove.getD m 0 < N_MOVES := by
  have h : ∀ k, k < 18 → kInvMove.getD k 0 < 18 := by decide
  exact h m hm

/-- a table whose cells have the form `E m c`, with `E` undone by the inverse move, sends a
coordinate back to itself along a move and its inverse move -/
theorem table_inverse_of_form (N : Nat) (getCoord : CubieCube → Option Int)
    (setCoord : CubieCube → Int → CubieCube)
    (mul : CubieCube → CubieCube → CubieCube → CubieCube) (move_cubes : Nat → CubieCube)
    (cube2 : CubieCube) (E : Nat → Nat → Option Int)
    (hE : ∀ (prev old : CubieCube) (c m : Nat), c < N → m < N_MOVES →
      getCoord (mul (setCoord prev (c : Int)) (move_cubes m) old) = E m c)
    (hinvE : ∀ c m : Nat, c < N → m < N_MOVES →
      ∃ r : Nat, E m c = some (r : Int) ∧ r < N ∧ E (kInvMove.getD m 0) r = some (c : Int))
    (c m : Nat) (hc : c < N) (hm : m < N_MOVES) :
    ∃ t : Int, tableEntry (initMoveCoord N getCoord setCoord mul move_cubes cube2) (c : Int) m
        = some t ∧ 0 ≤ t ∧ t < (N : Int) ∧
      tableEntry (initMoveCoord N getCoord setCoord mul move_cubes cube2) t (kInvMove.getD m 0)
        = some (c : Int) := by
  obtain ⟨r, hr, hrN, hback⟩ := hinvE c m hc hm
  obtain ⟨prev, old, h1⟩ := initMoveCoord_entry N getCoord setCoord mul move_cubes cube2 c m hc hm
  obtain ⟨prev2, old2, h2⟩ := initMoveCoord_entry N getCoord setCoord mul move_cubes cube2 r
    (kInvMove.getD m 0) hrN (kInvMove_lt m hm)
  refine ⟨(r : Int), ?_, Int.natCast_nonneg _, by exact_mod_cast hrN, ?_⟩
  · rw [h1, hE prev old c m hc hm, hr]
  · rw [h2, hE prev2 old2 r _ hrN (kInvMove_lt m hm), hback]

theorem labelRange_corners :
    labelRange N_CORNERS ((N_CORNERS : Int) - 1) = labelRange (7 + 1) (((7 + 1 : Nat) : Int) - 1) :=
  rfl

theorem labelRange_edges :
    labelRange N_EDGES ((N_EDGES : Int) - 1) = labelRange (11 + 1) (((11 + 1 : Nat) : Int) - 1) :=
  rfl

/-- Claim C10: for each of the six tables built by `initMoveCoord` (twist, flip, sslice, uedges,
dedges, corners), every `c` in `[0,N)` and every move `m` in `[0,18)`, the cell `table[c][m]`
holds a coordinate `t` in `[0,N)` and `table[t][kInvMove[m]] = c`.  The multiplications and the
table `move_cubes` are parameters: the multiplications write the cell-wise product of their
factors, the 18 move cubes are valid cubes, and `move_cubes[m]` composed with
`move_cubes[kInvMove[m]]` is the solved cube; the fuel of the `while` loop of `getPermCoord` is at
least 8. -/
theorem move_table_inverse
    (mulCorners mulEdges : CubieCube → CubieCube → CubieCube → CubieCube)
    (move_cubes : Nat → CubieCube) (cube2 : CubieCube) (fuel : Nat) (c m : Nat)
    (hmulC : ∀ a b old : CubieCube, (mulCorners a b old).cp = (composeCube a b).cp ∧
      (mulCorners a b old).co = (composeCube a b).co)
    (hmulE : ∀ a b old : CubieCube, (mulEdges a b old).ep = (composeCube a b).ep ∧
      (mulEdges a b old).eo = (composeCube a b).eo)
    (hvalid : ∀ k : Nat, k < N_MOVES → ValidCube (move_cubes k))
    (hinv : ∀ k : Nat, k < N_MOVES →
      composeCube (move_cubes k) (move_cubes (kInvMove.getD k 0)) = kSolvedCube)
    (hf : 8 ≤ fuel) (hm : m < N_MOVES) :
    (c < N_TWIST → ∃ t : Int,
      tableEntry (initTwistMove mulCorners move_cubes cube2) (c : Int) m = some t ∧ 0 ≤ t ∧
        t < (N_TWIST : Int) ∧
        tableEntry (initTwistMove mulCorners move_cubes cube2) t (kInvMove.getD m 0)
          = some (c : Int)) ∧
    (c < N_FLIP → ∃ t : Int,
      tableEntry (initFlipMove mulEdges move_cubes cube2) (c : Int) m = some t ∧ 0 ≤ t ∧
        t < (N_FLIP : Int) ∧
        tableEntry (initFlipMove mulEdges move_cubes cube2) t (kInvMove.getD m 0)
          = some (c : Int)) ∧
    (c < N_SSLICE → ∃ t : Int,
      tableEntry (initSSliceMove fuel mulEdges move_cubes cube2) (c : Int) m = some t ∧ 0 ≤ t ∧
        t < (N_SSLICE : Int) ∧
        tableEntry (initSSliceMove fuel mulEdges move_cubes cube2) t (kInvMove.getD m 0)
          = some (c : Int)) ∧
    (c < N_UEDGES → ∃ t : Int,
      tableEntry (initUEdgesMove fuel mulEdges move_cubes cube2) (c : Int) m = some t ∧ 0 ≤ t ∧
        t < (N_UEDGES : Int) ∧
        tableEntry (initUEdgesMove fuel mulEdges move_cubes cube2) t (kInvMove.getD m 0)
          = some (c : Int)) ∧
    (c < N_DEDGES → ∃ t : Int,
      tableEntry (initDEdgesMove fuel mulEdges move_cubes cube2) (c : Int) m = some t ∧ 0 ≤ t ∧
        t < (N_DEDGES : Int) ∧
        tableEntry (initDEdgesMove fuel mulEdges move_cubes cube2) t (kInvMove.getD m 0)
          = some (c : Int)) ∧
    (c < N_CORNERS_C → ∃ t : Int,
      tableEntry (initCornersMove fuel mulCorners move_cubes cube2) (c : Int) m = some t ∧ 0 ≤ t ∧
        t < (N_CORNERS_C : Int) ∧
        tableEntry (initCornersMove fuel mulCorners move_cubes cube2) t (kInvMove.getD m 0)
          = some (c : Int)) := by
  have hinvCp : ∀ k, k < N_MOVES →
      composePerm (move_cubes k).cp (move_cubes (kInvMove.getD k 0)).cp N_CORNERS
        = labelRange N_CORNERS ((N_CORNERS : Int) - 1) := by
    intro k hk
    have := congrArg CubieCube.cp (hinv k hk)
    simpa [composeCube, kSolvedCube, labelRange, N_CORNERS] using this
  have hinvEp : ∀ k, k < N_MOVES →
      composePerm (move_cubes k).ep (move_cubes (kInvMove.getD k 0)).ep N_EDGES
        = labelRange N_EDGES ((N_EDGES : Int) - 1) := by
    intro k hk
    have := congrArg CubieCube.ep (hinv k hk)
    simpa [composeCube, kSolvedCube, labelRange, N_EDGES] using this
  have hinvCo : ∀ k, k < N_MOVES →
      composeOri (move_cubes k).co (move_cubes (kInvMove.getD k 0)).cp
        (move_cubes (kInvMove.getD k 0)).co N_CORNERS 3 = List.replicate N_CORNERS 0 := by
    intro k hk
    have := congrArg CubieCube.co (hinv k hk)
    simpa [composeCube, kSolvedCube, N_CORNERS] using this
  have hinvEo : ∀ k, k < N_MOVES →
      composeOri (move_cubes k).eo (move_cubes (kInvMove.getD k 0)).ep
        (move_cubes (kInvMove.getD k 0)).eo N_EDGES 2 = List.replicate N_EDGES 0 := by
    intro k hk
    have := congrArg CubieCube.eo (hinv k hk)
    simpa [composeCube, kSolvedCube, N_EDGES] using this
  refine ⟨?_, ?_, ?_, ?_, ?_, ?_⟩
  · intro hc
    refine table_inverse_of_form N_TWIST _ setTwist mulCorners move_cubes cube2
      (fun k x => some (getOriCoord (composeOri (setOriCoord (x : Int) N_CORNERS 3)
        (move_cubes k).cp (move_cubes k).co N_CORNERS 3) N_CORNERS 3)) ?_ ?_ c m hc hm
    · intro prev old x k _ _
      simp only [getTwist, (hmulC _ _ _).2, composeCube, setTwist]
    · intro x k hx hk
      have hk' := kInvMove_lt k hk
      obtain ⟨r, hr, hlt, hback⟩ := oriMove_inverse_coord 7 3 (move_cubes k).cp
        (move_cubes k).co (move_cubes (kInvMove.getD k 0)).cp
        (move_cubes (kInvMove.getD k 0)).co x (by omega)
        (hvalid k hk).1 (hvalid _ hk').1 (hvalid k hk).2.2.1 (hvalid _ hk').2.2.1
        (hinvCp k hk) (hinvCo k hk) hx (by decide)
      exact ⟨r, congrArg some hr, hlt, congrArg some hback⟩
  · intro hc
    refine table_inverse_of_form N_FLIP _ setFlip mulEdges move_cubes cube2
      (fun k x => some (getOriCoord (composeOri (setOriCoord (x : Int) N_EDGES 2)
        (move_cubes k).ep (move_cubes k).eo N_EDGES 2) N_EDGES 2)) ?_ ?_ c m hc hm
    · intro prev old x k _ _
      simp only [getFlip, (hmulE _ _ _).2, composeCube, setFlip]
    · intro x k hx hk
      have hk' := kInvMove_lt k hk
      obtain ⟨r, hr, hlt, hback⟩ := oriMove_inverse_coord 11 2 (move_cubes k).ep
        (move_cubes k).eo (move_cubes (kInvMove.getD k 0)).ep
        (move_cubes (kInvMove.getD k 0)).eo x (by omega)
        (hvalid k hk).2.1 (hvalid _ hk').2.1 (hvalid k hk).2.2.2 (hvalid _ hk').2.2.2
        (hinvEp k hk) (hinvEo k hk) hx (by decide)
      exact ⟨r, congrArg some hr, hlt, congrArg some hback⟩
  · intro hc
    refine table_inverse_of_form N_SSLICE _ setSSlice mulEdges move_cubes cube2
      (fun k x => getPosPermCoord fuel (composePerm (setPosPermCoord (x : Int) N_EDGES FR BR false)
        (move_cubes k).ep N_EDGES) N_EDGES FR BR false) ?_ ?_ c m hc hm
    · intro prev old x k _ _
      simp only [getSSlice, (hmulE _ _ _).1, composeCube, setSSlice]
    · intro x k hx hk
      have hk' := kInvMove_lt k hk
      exact posPermMove_inverse_coord N_EDGES FR BR false (move_cubes k).ep
        (move_cubes (kInvMove.getD k 0)).ep x fuel (by decide) (by decide) (by decide)
        (hvalid k hk).2.1 (hvalid _ hk').2.1 (hinvEp k hk) hx (le_trans (by decide) hf)
        (by decide)
  · intro hc
    refine table_inverse_of_form N_UEDGES _ setUEdges mulEdges move_cubes cube2
      (fun k x => getPosPermCoord fuel (composePerm (setPosPermCoord (x : Int) N_EDGES UR UB true)
        (move_cubes k).ep N_EDGES) N_EDGES UR UB true) ?_ ?_ c m hc hm
    · intro prev old x k _ _
      simp only [getUEdges, (hmulE _ _ _).1, composeCube, setUEdges]
    · intro x k hx hk
      have hk' := kInvMove_lt k hk
      exact posPermMove_inverse_coord N_EDGES UR UB true (move_cubes k).ep
        (move_cubes (kInvMove.getD k 0)).ep x fuel (by decide) (by decide) (by decide)
        (hvalid k hk).2.1 (hvalid _ hk').2.1 (hinvEp k hk) hx (le_trans (by decide) hf)
        (by decide)
  · intro hc
    refine table_inverse_of_form N_DEDGES _ setDEdges mulEdges move_cubes cube2
      (fun k x => getPosPermCoord fuel (composePerm (setPosPermCoord (x : Int) N_EDGES DR DB true)
        (move_cubes k).ep N_EDGES) N_EDGES DR DB true) ?_ ?_ c m hc hm
    · intro prev old x k _ _
      simp only [getDEdges, (hmulE _ _ _).1, composeCube, setDEdges]
    · intro x k hx hk
      have hk' := kInvMove_lt k hk
      exact posPermMove_inverse_coord N_EDGES DR DB true (move_cubes k).ep
        (move_cubes (kInvMove.getD k 0)).ep x fuel (by decide) (by decide) (by decide)
        (hvalid k hk).2.1 (hvalid _ hk').2.1 (hinvEp k hk) hx (le_trans (by decide) hf)
        (by decide)
  · intro hc
    refine table_inverse_of_form N_CORNERS_C _ setCorners mulCorners move_cubes cube2
      (fun k x => getPermCoord fuel (composePerm (setPermCoord (toCoord (x : Int)) N_CORNERS
        ((N_CORNERS : Int) - 1)) (move_cubes k).cp N_CORNERS) N_CORNERS ((N_CORNERS : Int) - 1))
      ?_ ?_ c m hc hm
    · intro prev old x k _ _
      simp only [getCorners, (hmulC _ _ _).1, composeCube, setCorners]
    · intro x k hx hk
      have hk' := kInvMove_lt k hk
      exact permMove_inverse_coord N_CORNERS (move_cubes k).cp
        (move_cubes (kInvMove.getD k 0)).cp x fuel (by decide) (hvalid k hk).1 (hvalid _ hk').1
        (hinvCp k hk) hx hf (by decide)

/-- The instance of C10 at the coordinate `1000` and the move `R1`, for the cell-wise
multiplication and the 18 powers of the six cubes of `moves.h`. -/
theorem move_table_inverse_witness :
    (∃ t : Int,
      tableEntry (initTwistMove cellwiseMulCorners powerMoves kSolvedCube) ((1000 : Nat) : Int) 3
        = some t ∧ 0 ≤ t ∧ t < (N_TWIST : Int) ∧
        tableEntry (initTwistMove cellwiseMulCorners powerMoves kSolvedCube) t
          (kInvMove.getD 3 0) = some ((1000 : Nat) : Int)) ∧
    (∃ t : Int,
      tableEntry (initFlipMove cellwiseMulEdges powerMoves kSolvedCube) ((1000 : Nat) : Int) 3
        = some t ∧ 0 ≤ t ∧ t < (N_FLIP : Int) ∧
        tableEntry (initFlipMove cellwiseMulEdges powerMoves kSolvedCube) t
          (kInvMove.getD 3 0) = some ((1000 : Nat) : Int)) ∧
    (∃ t : Int,
      tableEntry (initSSliceMove 8 cellwiseMulEdges powerMoves kSolvedCube) ((1000 : Nat) : Int) 3
        = some t ∧ 0 ≤ t ∧ t < (N_SSLICE : Int) ∧
        tableEntry (initSSliceMove 8 cellwiseMulEdges powerMoves kSolvedCube) t
          (kInvMove.getD 3 0) = some ((1000 : Nat) : Int)) ∧
    (∃ t : Int,
      tableEntry (initUEdgesMove 8 cellwiseMulEdges powerMoves kSolvedCube) ((1000 : Nat) : Int) 3
        = some t ∧ 0 ≤ t ∧ t < (N_UEDGES : Int) ∧
        tableEntry (initUEdgesMove 8 cellwiseMulEdges powerMoves kSolvedCube) t
          (kInvMove.getD 3 0) = some ((1000 : Nat) : Int)) ∧
    (∃ t : Int,
      tableEntry (initDEdgesMove 8 cellwiseMulEdges powerMoves kSolvedCube) ((1000 : Nat) : Int) 3
        = some t ∧ 0 ≤ t ∧ t < (N_DEDGES : Int) ∧
        tableEntry (initDEdgesMove 8 cellwiseMulEdges powerMoves kSolvedCube) t
          (kInvMove.getD 3 0) = some ((1000 : Nat) : Int)) ∧
    (∃ t : Int,
      tableEntry (initCornersMove 8 cellwiseMulCorners powerMoves kSolvedCube)
        ((1000 : Nat) : Int) 3 = some t ∧ 0 ≤ t ∧ t < (N_CORNERS_C : Int) ∧
        tableEntry (initCornersMove 8 cellwiseMulCorners powerMoves kSolvedCube) t
          (kInvMove.getD 3 0) = some ((1000 : Nat) : Int)) :=
  ⟨(move_table_inverse cellwiseMulCorners cellwiseMulEdges powerMoves kSolvedCube 8 1000 3
      (fun _ _ _ => ⟨rfl, rfl⟩) (fun _ _ _ => ⟨rfl, rfl⟩) (by decide) (by decide) (by decide)
      (by decide)).1 (by decide),
    (move_table_inverse cellwiseMulCorners cellwiseMulEdges powerMoves kSolvedCube 8 1000 3
      (fun _ _ _ => ⟨rfl, rfl⟩) (fun _ _ _ => ⟨rfl, rfl⟩) (by decide) (by decide) (by decide)
      (by decide)).2.1 (by decide),
    (move_table_inverse cellwiseMulCorners cellwiseMulEdges powerMoves kSolvedCube 8 1000 3
      (fun _ _ _ => ⟨rfl, rfl⟩) (fun _ _ _ => ⟨rfl, rfl⟩) (by decide) (by decide) (by decide)
      (by decide)).2.2.1 (by decide),
    (move_table_inverse cellwiseMulCorners cellwiseMulEdges powerMoves kSolvedCube 8 1000 3
      (fun _ _ _ => ⟨rfl, rfl⟩) (fun _ _ _ => ⟨rfl, rfl⟩) (by decide) (by decide) (by decide)
      (by decide)).2.2.2.1 (by decide),
    (move_table_inverse cellwiseMulCorners cellwiseMulEdges powerMoves kSolvedCube 8 1000 3
      (fun _ _ _ => ⟨rfl, rfl⟩) (fun _ _ _ => ⟨rfl, rfl⟩) (by decide) (by decide) (by decide)
      (by decide)).2.2.2.2.1 (by decide),
    (move_table_inverse cellwiseMulCorners cellwiseMulEdges powerMoves kSolvedCube 8 1000 3
      (fun _ _ _ => ⟨rfl, rfl⟩) (fun _ _ _ => ⟨rfl, rfl⟩) (by decide) (by decide) (by decide)
      (by decide)).2.2.2.2.2 (by decide)⟩

/-! ## Claim on the start of the permutation unrank: the labels at rank 0 -/

theorem setPermStep_zero (a : List Int) (i : Nat) : setPermStep (0, a) i = (0, a) := by
  simp [setPermStep, rotRightTimes]

theorem setPermFold_zero (l : List Nat) (a : List Int) :
    l.foldl setPermStep (0, a) = (0, a) := by
  induction l with
  | nil => rfl
  | cons i l ih => rw [List.foldl_cons, setPermStep_zero, ih]

theorem setPermCoord_rank_zero (L : Nat) (max_label : Int) :
    setPermCoord 0 L max_label = labelRange L max_label := by
  rw [setPermCoord, setPermFold_zero, fillLabels_replicate]

theorem getD_labelRange (L : Nat) (m : Int) (i : Nat) (h : i < L) :
    (labelRange L m).getD i 0 = m - (L : Int) + 1 + (i : Int) := by
  rw [List.getD_eq_getElem?_getD, labelRange, List.getElem?_map,
    List.getElem?_range h]
  rfl

/-- C16 (amended): the first loop of `setPermCoord` leaves the labels in ascending order, and so
does the whole call for rank 0: the cells are `max_label - L + 1, ..., max_label`, that is, index
`i` holds `max_label - L + 1 + i`; index 0 holds the smallest label and index `L - 1` holds
`max_label`. -/
theorem unrank_zero_ascending (L : Nat) (max_label : Int) :
    fillLabels L max_label (List.replicate L 0) = labelRange L max_label ∧
    setPermCoord 0 L max_label = labelRange L max_label ∧
    ∀ i : Nat, i < L →
      (setPermCoord 0 L max_label).getD i 0 = max_label - (L : Int) + 1 + (i : Int) := by
  refine ⟨fillLabels_replicate L max_label, setPermCoord_rank_zero L max_label, ?_⟩
  intro i hi
  rw [setPermCoord_rank_zero, getD_labelRange L max_label i hi]

theorem unrank_zero_ascending_witness :
    setPermCoord 0 8 7 = labelRange 8 7 ∧ (setPermCoord 0 8 7).getD 0 0 = 0 :=
  ⟨(unrank_zero_ascending 8 7).2.1, by
    have h := (unrank_zero_ascending 8 7).2.2 0 (by decide)
    simpa using h⟩

/-- C16 as worded fails: for the eight corners (`L = 8`, `max_label = 7`) the cells at rank 0 do
not run from `max_label` at index 0 down to `max_label - L + 1` at index `L - 1`. -/
theorem unrank_zero_not_descending :
    ¬ (∀ i : Nat, i < 8 → (setPermCoord 0 8 7).getD i 0 = 7 - (i : Int)) := by
  intro h
  have h0 := h 0 (by decide)
  rw [setPermCoord_rank_zero, getD_labelRange 8 7 0 (by decide)] at h0
  omega

/-! ## Claim on the two scan directions of the position rank -/

/-- the value of `getPosPermCoordZ` on a permutation of `0..L-1`: the position value of the mask
of the window, scaled, plus the rank of the labels of the window -/
theorem getPosPermCoord_decomp (L : Nat) (lo hi : Int) (from_left : Bool)
    (v : List Int) (fuel : Nat) (hv : v.Perm (labelRange L ((L : Int) - 1))) (hlo : 0 ≤ lo)
    (hle : lo ≤ hi) (hhi : hi < (L : Int)) (hf : (hi - lo + 1).toNat ≤ fuel) :
    ∃ r1 : Nat, r1 < (hi - lo + 1).toNat.factorial ∧
      getPermCoordZ fuel (v.filter (inWindow lo hi)) (hi - lo + 1).toNat hi = some (r1 : Int) ∧
      getPosPermCoordZ fuel v L lo hi from_left
        = some ((((hi - lo + 1).toNat.factorial *
            posRank (if from_left then (v.map (inWindow lo hi)).reverse
              else v.map (inWindow lo hi)) + r1 : Nat) : Int)) := by
  have hlen : v.length = L := by rw [hv.length_eq, labelRange_length]
  have hfw : (v.filter (inWindow lo hi)).Perm (labelRange (hi - lo + 1).toNat hi) := by
    rw [← filter_window_labelRange L lo hi hlo hle hhi]
    exact hv.filter _
  have hcount : (v.map (inWindow lo hi)).count true = (hi - lo + 1).toNat := by
    rw [count_mask, hfw.length_eq, labelRange_length]
  obtain ⟨r1, hr1, hget, -⟩ := getPermCoord_perm _ _ hi fuel hfw hf
  refine ⟨r1, hr1, hget, ?_⟩
  cases from_left with
  | false =>
    rw [getPosPermCoordZ, getPosPart_right v L lo hi hlen hcount]
    simp only
    rw [hget]
    simp only [fac, Bool.false_eq_true, if_false]
    push_cast
    rfl
  | true =>
    rw [getPosPermCoordZ, getPosPart_left v L lo hi hlen hcount]
    simp only
    rw [hget]
    simp only [fac, if_true]
    push_cast
    rfl

theorem mul_add_div_factorial (k q r : Nat) (hr : r < k.factorial) :
    (((k.factorial * q + r : Nat) : Int)).tdiv (fac k) = (q : Int) := by
  rw [fac, ← Int.ofNat_tdiv, Nat.add_comm, Nat.add_mul_div_left _ _ (Nat.factorial_pos k),
    Nat.div_eq_of_lt hr, Nat.zero_add]

/-- Claim C20, as worded it fails: `[0, 1, .., 11]` is a permutation of `0..11` and `0..4` is a
window of `5` labels inside `0..11`; the right-to-left scan returns `29384` and the left-to-right
scan of the reversed sequence returns `29417` (`94920` and `94953` before the conversion to
`Coord`), and the quotients by `5! = 120` are `244` and `245`. -/
theorem scan_directions_wrap :
    ¬ (List.Perm [0, 1, 2, 3, 4, 5, 6, 7, 8, 9, 10, 11] (labelRange 12 ((12 : Nat) - 1 : Int)) →
      ∃ a b : Int,
        getPosPermCoord 5 [0, 1, 2, 3, 4, 5, 6, 7, 8, 9, 10, 11] 12 0 4 false = some a ∧
        getPosPermCoord 5 [0, 1, 2, 3, 4, 5, 6, 7, 8, 9, 10, 11].reverse 12 0 4 true = some b ∧
        a.tdiv (fac 5) = b.tdiv (fac 5)) := by
  intro h
  obtain ⟨a, b, ha, hb, hab⟩ := h (by decide)
  have h1 : getPosPermCoord 5 [0, 1, 2, 3, 4, 5, 6, 7, 8, 9, 10, 11] 12 0 4 false
      = some 29384 := by decide!
  have h2 : getPosPermCoord 5 [0, 1, 2, 3, 4, 5, 6, 7, 8, 9, 10, 11].reverse 12 0 4 true
      = some 29417 := by decide!
  rw [h1] at ha
  rw [h2] at hb
  have ea : a = 29384 := (Option.some.inj ha).symm
  have eb : b = 29417 := (Option.some.inj hb).symm
  subst ea
  subst eb
  exact absurd hab (by decide)

/-- Claim C20, amended: on a permutation `v` of `0..L-1` and a window `min_cubie..max_cubie` of
`k` labels inside `0..L-1` with `choose(L,k) * k! <= 65536`, both scans return, and the position
part (the value divided by `k!`) of the right-to-left scan of `v` equals the position part of the
left-to-right scan of the reversed sequence; both are the position value of the mask of the
window in `v`. -/
theorem scan_directions_mirror (L : Nat) (min_cubie max_cubie : Int) (v : List Int) (fuel : Nat)
    (hv : v.Perm (labelRange L ((L : Int) - 1))) (hlo : 0 ≤ min_cubie)
    (hle : min_cubie ≤ max_cubie) (hhi : max_cubie < (L : Int))
    (h16 : cnk L (max_cubie - min_cubie + 1).toNat * fac (max_cubie - min_cubie + 1).toNat
      ≤ 65536)
    (hf : (max_cubie - min_cubie + 1).toNat ≤ fuel) :
    ∃ a b : Int,
      getPosPermCoord fuel v L min_cubie max_cubie false = some a ∧
      getPosPermCoord fuel v.reverse L min_cubie max_cubie true = some b ∧
      a.tdiv (fac (max_cubie - min_cubie + 1).toNat)
        = b.tdiv (fac (max_cubie - min_cubie + 1).toNat) ∧
      a.tdiv (fac (max_cubie - min_cubie + 1).toNat)
        = (posRank (v.map (inWindow min_cubie max_cubie)) : Int) := by
  have hvr : v.reverse.Perm (labelRange L ((L : Int) - 1)) := (List.reverse_perm v).trans hv
  obtain ⟨r1, hr1, -, h1⟩ :=
    getPosPermCoord_decomp L min_cubie max_cubie false v fuel hv hlo hle hhi hf
  obtain ⟨r2, hr2, -, h2⟩ :=
    getPosPermCoord_decomp L min_cubie max_cubie true v.reverse fuel hvr hlo hle hhi hf
  obtain ⟨ra, hra, hga, -⟩ :=
    setPosPermCoord_getPosPermCoord_shape L min_cubie max_cubie false v fuel hv hlo hle hhi hf
  obtain ⟨rb, hrb, hgb, -⟩ :=
    setPosPermCoord_getPosPermCoord_shape L min_cubie max_cubie true v.reverse fuel hvr hlo hle
      hhi hf
  have h16n : Nat.choose L (max_cubie - min_cubie + 1).toNat
      * (max_cubie - min_cubie + 1).toNat.factorial ≤ 65536 := by
    unfold cnk fac at h16
    exact_mod_cast h16
  have ea : toCoord (ra : Int) = (ra : Int) :=
    toCoord_of_lt _ (Int.natCast_nonneg ra) (by exact_mod_cast lt_of_lt_of_le hra h16n)
  have eb : toCoord (rb : Int) = (rb : Int) :=
    toCoord_of_lt _ (Int.natCast_nonneg rb) (by exact_mod_cast lt_of_lt_of_le hrb h16n)
  have ha : getPosPermCoord fuel v L min_cubie max_cubie false = some (ra : Int) := by
    rw [getPosPermCoord_toCoord, hga, Option.map_some', ea]
  have hb : getPosPermCoord fuel v.reverse L min_cubie max_cubie true = some (rb : Int) := by
    rw [getPosPermCoord_toCoord, hgb, Option.map_some', eb]
  rw [hga] at h1
  rw [hgb] at h2
  rw [ha, hb, Option.some.inj h1, Option.some.inj h2]
  refine ⟨_, _, rfl, rfl, ?_, ?_⟩
  · rw [mul_add_div_factorial _ _ _ hr1, mul_add_div_factorial _ _ _ hr2]
    simp
  · rw [mul_add_div_factorial _ _ _ hr1]
    simp

/-- The instance of the amended C20 at the sorted-slice window of a scrambled edge
permutation. -/
theorem scan_directions_mirror_witness :
    ∃ a b : Int,
      getPosPermCoord 4 [3, 8, 0, 11, 5, 9, 1, 10, 2, 4, 6, 7] 12 8 11 false = some a ∧
      getPosPermCoord 4 [3, 8, 0, 11, 5, 9, 1, 10, 2, 4, 6, 7].reverse 12 8 11 true = some b ∧
      a.tdiv (fac (11 - 8 + 1 : Int).toNat) = b.tdiv (fac (11 - 8 + 1 : Int).toNat) ∧
      a.tdiv (fac (11 - 8 + 1 : Int).toNat)
        = (posRank ([3, 8, 0, 11, 5, 9, 1, 10, 2, 4, 6, 7].map (inWindow 8 11)) : Int) :=
  scan_directions_mirror 12 8 11 [3, 8, 0, 11, 5, 9, 1, 10, 2, 4, 6, 7] 4 (by decide)
    (by decide) (by decide) (by decide) (by decide) (by decide)

/-! ## The loops of `getSlice` and `setSlice` -/

/-- the loop of `getSlice` is the scanning loop of `getSSlice` without the extracted labels -/
theorem getSlice_fold (ep : List Int) (k : Nat) (l : List Nat) (val j : Int) (c1 : List Int) :
    l.foldl (getSliceStep ep) (val, j)
      = ((l.foldl (getPosRightStep ep N_EDGES k FR BR) (val, j, c1)).1,
          (l.foldl (getPosRightStep ep N_EDGES k FR BR) (val, j, c1)).2.1) := by
  induction l generalizing val j c1 with
  | nil => rfl
  | cons i l ih =>
    rw [List.foldl_cons, List.foldl_cons]
    by_cases h : FR ≤ ep.getD i 0 ∧ ep.getD i 0 ≤ BR
    · have h1 : getSliceStep ep (val, j) i
          = (toCoord (val + cnk (N_EDGES - 1 - i) (j + 1).toNat), j - 1) := by
        simp only [getSliceStep]
        rw [if_pos h]
      have h2 : getPosRightStep ep N_EDGES k FR BR (val, j, c1) i
          = (toCoord (val + cnk (N_EDGES - 1 - i) (j + 1).toNat), j - 1,
              c1.set ((k : Int) - 1 - j).toNat (ep.getD i 0)) := by
        simp only [getPosRightStep]
        rw [if_pos h]
      rw [h1, h2]
      exact ih _ _ _
    · have h1 : getSliceStep ep (val, j) i = (val, j) := by
        simp only [getSliceStep]
        rw [if_neg h]
      have h2 : getPosRightStep ep N_EDGES k FR BR (val, j, c1) i = (val, j, c1) := by
        simp only [getPosRightStep]
        rw [if_neg h]
      rw [h1, h2]
      exact ih _ _ _

theorem getSlice_eq_getPosPart (cube : CubieCube) :
    getSlice cube = (getPosPart cube.ep N_EDGES FR BR false).1 := by
  rw [getSlice, getSlice_fold cube.ep 4 _ 0 3 (List.replicate 4 0)]
  rfl

/-- the value of `getSlice` on an arrangement with four slice labels -/
theorem getSlice_eq_posRank (cube : CubieCube) (hlen : cube.ep.length = N_EDGES)
    (hcount : (cube.ep.map (inWindow FR BR)).count true = 4) :
    getSlice cube = (posRank (cube.ep.map (inWindow FR BR)) : Int) := by
  have hlt := posRank_lt (cube.ep.map (inWindow FR BR))
  rw [List.length_map, hlen, hcount] at hlt
  have h495 : Nat.choose N_EDGES 4 = 495 := by decide
  rw [h495] at hlt
  rw [getSlice_eq_getPosPart, getPosPart_toCoord,
    getPosPart_right cube.ep N_EDGES FR BR hlen hcount]
  exact toCoord_of_lt _ (Int.natCast_nonneg _) (by omega)

theorem setSlice_fold (n i : Nat) (hL : i + n = N_EDGES) (v r q : Nat)
    (hv : v < Nat.choose n r) (hv16 : v < 65536) (hq : i + r = q + 4) (pre suf : List Int)
    (hpre : pre.length = i) (hsuf : suf.length = n) :
    ((List.range' i n).foldl setSliceStep ((v : Int), (r : Int) - 1, pre ++ suf)).2.2
      = pre ++ sliceCells (posUnrank n r v) q r := by
  induction n generalizing i v r q pre suf with
  | zero =>
    have : suf = [] := List.length_eq_zero.mp hsuf
    subst this
    simp [posUnrank, sliceCells]
  | succ n ih =>
    obtain ⟨s0, suf1, rfl⟩ : ∃ s0 suf1, suf = s0 :: suf1 := by
      cases suf with
      | nil => simp at hsuf
      | cons s0 suf1 => exact ⟨s0, suf1, rfl⟩
    have hsuf1 : suf1.length = n := by simpa using hsuf
    have e1 : N_EDGES - 1 - i = n := by omega
    have e2 : ((r : Int) - 1 + 1).toNat = r := by omega
    rw [List.range'_succ, List.foldl_cons, posUnrank]
    by_cases hc : Nat.choose n r ≤ v
    · have hr1 : 1 ≤ r := by
        by_contra h0
        have : r = 0 := by omega
        subst this
        exact choose_zero_not_le n v hv hc
      obtain ⟨r1, rfl⟩ : ∃ r1, r = r1 + 1 := ⟨r - 1, by omega⟩
      rw [Nat.choose_succ_succ'] at hv
      have hstep : setSliceStep ((v : Int), ((r1 + 1 : Nat) : Int) - 1, pre ++ s0 :: suf1) i
          = (((v - Nat.choose n (r1 + 1) : Nat) : Int), (r1 : Int) - 1,
              (pre ++ [FR + (((r1 + 1 : Nat) : Int) - 1)]) ++ suf1) := by
        simp only [setSliceStep, e1, e2, cnk]
        have hge : (v : Int) - (Nat.choose n (r1 + 1) : Int) ≥ 0 := by
          have : (Nat.choose n (r1 + 1) : Int) ≤ (v : Int) := by exact_mod_cast hc
          omega
        rw [if_pos hge, set_append_mid _ _ _ _ _ hpre]
        refine Prod.ext ?_ (Prod.ext ?_ ?_)
        · simp only
          rw [Nat.cast_sub hc, toCoord_of_lt _ hge (by omega)]
        · simp
        · simp
      rw [hstep, ih (i + 1) (by omega) _ r1 q (by omega) (by omega) (by omega) _ suf1
        (by simp [hpre]) hsuf1, if_pos hc, sliceCells, Nat.add_sub_cancel]
      simp
    · have hstep : setSliceStep ((v : Int), (r : Int) - 1, pre ++ s0 :: suf1) i
          = ((v : Int), (r : Int) - 1, (pre ++ [(q : Int)]) ++ suf1) := by
        simp only [setSliceStep, e1, e2, cnk]
        have hlt : ¬ ((v : Int) - (Nat.choose n r : Int) ≥ 0) := by
          have : (v : Int) < (Nat.choose n r : Int) := by exact_mod_cast Nat.lt_of_not_le hc
          omega
        rw [if_neg hlt, set_append_mid _ _ _ _ _ hpre]
        have e3 : (i : Int) - (3 - ((r : Int) - 1)) = (q : Int) := by omega
        rw [e3]
        simp
      have hv1 : v < Nat.choose n r := Nat.lt_of_not_le hc
      rw [hstep, ih (i + 1) (by omega) v r (q + 1) hv1 hv16 (by omega) _ suf1 (by simp [hpre])
        hsuf1, if_neg hc, sliceCells]
      simp

/-- the cells that `setSlice` writes for a value below `choose(12,4)` -/
theorem setSlice_ep (cube : CubieCube) (s : Nat) (hs : s < 495) :
    (setSlice cube (s : Int)).ep = sliceCells (posUnrank 12 4 s) 0 4 := by
  have h := setSlice_fold 12 0 (by decide) s 4 0 (by simpa using hs) (by omega) (by decide) []
    (List.replicate N_EDGES 0) rfl (by simp [N_EDGES])
  simp only [List.nil_append, ← List.range_eq_range'] at h
  simp only [setSlice]
  rw [toCoord_of_lt _ (Int.natCast_nonneg s) (by omega)]
  exact h

theorem sliceCells_length (m : List Bool) (q r : Nat) : (sliceCells m q r).length = m.length := by
  induction m generalizing q r with
  | nil => rfl
  | cons b m ih => cases b <;> simp [sliceCells, ih]

theorem sliceCells_mask (m : List Bool) (q r : Nat) (hr : m.count true = r) (hr4 : r ≤ 4)
    (hq : q + m.count false ≤ 8) :
    (sliceCells m q r).map (inWindow FR BR) = m := by
  induction m generalizing q r with
  | nil => rfl
  | cons b m ih =>
    cases b with
    | true =>
      simp only [List.count_cons_self] at hr
      simp only [List.count_cons, Bool.true_eq_false, beq_iff_eq, if_false, add_zero] at hq
      rw [sliceCells, List.map_cons, ih q (r - 1) (by omega) (by omega) hq]
      have : inWindow FR BR (FR + ((r : Int) - 1)) = true := by
        rw [inWindow_iff]
        simp only [FR, BR]
        omega
      rw [this]
    | false =>
      simp only [List.count_cons, Bool.false_eq_true, beq_iff_eq, if_false, add_zero] at hr
      simp only [List.count_cons_self] at hq
      rw [sliceCells, List.map_cons, ih (q + 1) r hr hr4 (by omega)]
      have : inWindow FR BR (q : Int) = false := by
        simp only [inWindow, FR, BR, decide_eq_false_iff_not]
        omega
      rw [this]

theorem sliceCells_filter (m : List Bool) (q r : Nat) (hr : m.count true = r) (hr4 : r ≤ 4)
    (hq : q + m.count false ≤ 8) :
    (sliceCells m q r).filter (inWindow FR BR) = (labelRange r (FR + (r : Int) - 1)).reverse := by
  induction m generalizing q r with
  | nil =>
    simp only [List.count_nil] at hr
    subst hr
    rfl
  | cons b m ih =>
    cases b with
    | true =>
      simp only [List.count_cons_self] at hr
      simp only [List.count_cons, Bool.true_eq_false, beq_iff_eq, if_false, add_zero] at hq
      obtain ⟨r1, rfl⟩ : ∃ r1, r = r1 + 1 := ⟨r - 1, by omega⟩
      have hw : inWindow FR BR (FR + (((r1 + 1 : Nat) : Int) - 1)) = true := by
        rw [inWindow_iff]
        simp only [FR, BR]
        omega
      rw [sliceCells, List.filter_cons, hw, if_pos rfl, Nat.add_sub_cancel,
        ih q r1 (by omega) (by omega) hq, labelRange_succ, List.reverse_append]
      have e : FR + (((r1 + 1 : Nat) : Int)) - 1 - 1 = FR + (r1 : Int) - 1 := by
        push_cast
        ring
      have e2 : FR + (((r1 + 1 : Nat) : Int) - 1) = FR + (((r1 + 1 : Nat) : Int)) - 1 := by ring
      rw [e, e2]
      rfl
    | false =>
      simp only [List.count_cons, Bool.false_eq_true, beq_iff_eq, if_false, add_zero] at hr
      simp only [List.count_cons_self] at hq
      have hw : inWindow FR BR (q : Int) = false := by
        simp only [inWindow, FR, BR, decide_eq_false_iff_not]
        omega
      rw [sliceCells, List.filter_cons, hw, ih (q + 1) r hr hr4 (by omega)]
      simp

theorem sliceCells_filter_not (m : List Bool) (q r : Nat) (hr : m.count true = r) (hr4 : r ≤ 4)
    (hq : q + m.count false ≤ 8) :
    (sliceCells m q r).filter (fun x => !inWindow FR BR x)
      = labelRange (m.count false) ((q : Int) + (m.count false : Int) - 1) := by
  induction m generalizing q r with
  | nil => rfl
  | cons b m ih =>
    cases b with
    | true =>
      simp only [List.count_cons_self] at hr
      simp only [List.count_cons, Bool.true_eq_false, beq_iff_eq, if_false, add_zero] at hq ⊢
      have hw : inWindow FR BR (FR + ((r : Int) - 1)) = true := by
        rw [inWindow_iff]
        simp only [FR, BR]
        omega
      rw [sliceCells, List.filter_cons, hw, ih q (r - 1) (by omega) (by omega) hq]
      simp
    | false =>
      simp only [List.count_cons, Bool.false_eq_true, beq_iff_eq, if_false, add_zero] at hr
      simp only [List.count_cons_self] at hq ⊢
      have hw : inWindow FR BR (q : Int) = false := by
        simp only [inWindow, FR, BR, decide_eq_false_iff_not]
        omega
      rw [sliceCells, List.filter_cons, hw, ih (q + 1) r hr hr4 (by omega), labelRange_cons]
      simp only [Bool.not_false, if_true]
      congr 1
      · push_cast
        ring
      · congr 1
        push_cast
        ring

/-- the cells written along a mask of twelve cells with four marks are a bijection on `0..11` -/
theorem sliceCells_perm (m : List Bool) (hlen : m.length = 12) (hr : m.count true = 4) :
    (sliceCells m 0 4).Perm (labelRange 12 11) := by
  have hf : m.count false = 8 := by
    have := count_true_add_count_false m
    omega
  have h1 := sliceCells_filter m 0 4 hr (le_refl _) (by omega)
  have h2 := sliceCells_filter_not m 0 4 hr (le_refl _) (by omega)
  have h3 := List.filter_append_perm (inWindow FR BR) (sliceCells m 0 4)
  rw [h1, h2, hf] at h3
  refine h3.symm.trans ?_
  have h4 : labelRange 12 11 = labelRange 8 7 ++ labelRange 4 11 := by
    have := labelRange_append 8 4 11
    simpa using this
  rw [h4]
  refine List.perm_append_comm.trans (List.Perm.append ?_ ?_)
  · simp [FR]
  · exact (List.reverse_perm _).trans (by simp [FR])

/-! ## Claims on the slice coordinate -/

theorem setSlice_shape (cube : CubieCube) (s : Nat) (hs : s < 495) :
    (setSlice cube (s : Int)).ep.Perm (labelRange N_EDGES ((N_EDGES : Int) - 1)) ∧
    (setSlice cube (s : Int)).ep.filter (inWindow FR BR) = [11, 10, 9, 8] ∧
    (setSlice cube (s : Int)).ep.map (inWindow FR BR) = posUnrank 12 4 s := by
  have hc : s < Nat.choose 12 4 := by simpa using hs
  have hcount := posUnrank_count 12 4 s hc
  have hlen := posUnrank_length 12 4 s
  have hf : (posUnrank 12 4 s).count false = 8 := by
    have := count_true_add_count_false (posUnrank 12 4 s)
    omega
  rw [setSlice_ep cube s hs]
  refine ⟨sliceCells_perm _ hlen hcount, ?_, ?_⟩
  · rw [sliceCells_filter _ 0 4 hcount (le_refl _) (by omega)]
    decide
  · exact sliceCells_mask _ 0 4 hcount (le_refl _) (by omega)

/-- C17: for every `s` with `0 <= s < 495`, `setSlice(cube, s)` writes an edge permutation that is
a bijection on the labels `0..11`, the slice labels in it are exactly the four labels
`11, 10, 9, 8` (in this order from the first cell), and `getSlice` of that cube returns `s`. -/
theorem slice_roundtrip (cube : CubieCube) (s : Int) (h0 : 0 ≤ s) (h1 : s < 495) :
    (setSlice cube s).ep.Perm (labelRange N_EDGES ((N_EDGES : Int) - 1)) ∧
    (setSlice cube s).ep.filter (inWindow FR BR) = [11, 10, 9, 8] ∧
    getSlice (setSlice cube s) = s := by
  obtain ⟨n, rfl⟩ := int_eq_natCast s h0
  have hn : n < 495 := by exact_mod_cast h1
  obtain ⟨hperm, hfilter, hmask⟩ := setSlice_shape cube n hn
  refine ⟨hperm, hfilter, ?_⟩
  have hlen : (setSlice cube (n : Int)).ep.length = N_EDGES := by
    rw [hperm.length_eq, labelRange_length]
  have hcount : ((setSlice cube (n : Int)).ep.map (inWindow FR BR)).count true = 4 := by
    rw [count_mask, hfilter]
    rfl
  rw [getSlice_eq_posRank _ hlen hcount, hmask, posRank_posUnrank 12 4 n (by simpa using hn)]

theorem slice_roundtrip_witness :
    (setSlice kSolvedCube 100).ep.Perm (labelRange N_EDGES ((N_EDGES : Int) - 1)) ∧
    (setSlice kSolvedCube 100).ep.filter (inWindow FR BR) = [11, 10, 9, 8] ∧
    getSlice (setSlice kSolvedCube 100) = 100 :=
  slice_roundtrip kSolvedCube 100 (by decide) (by decide)

/-- C18: for every cube whose edge permutation is a bijection on the labels `0..11`, `getSSlice`
returns `24 * getSlice(cube) + p`, where `p` with `0 <= p < 24` is the permutation rank of the
four slice edges read from the first cell on; hence `getSlice(cube)` is `getSSlice(cube)` divided
by 24. -/
theorem slice_is_position_part (cube : CubieCube) (fuel : Nat)
    (hep : cube.ep.Perm (labelRange N_EDGES ((N_EDGES : Int) - 1))) (hf : 4 ≤ fuel) :
    ∃ p : Int, 0 ≤ p ∧ p < 24 ∧
      getPermCoord fuel (cube.ep.filter (inWindow FR BR)) 4 BR = some p ∧
      getSSlice fuel cube = some (24 * getSlice cube + p) ∧
      (24 * getSlice cube + p).tdiv 24 = getSlice cube := by
  obtain ⟨r1, hr1, hget, hpos⟩ :=
    getPosPermCoord_decomp N_EDGES FR BR false cube.ep fuel hep (by decide) (by decide)
      (by decide) hf
  have hlen : cube.ep.length = N_EDGES := by rw [hep.length_eq, labelRange_length]
  have hfw : (cube.ep.filter (inWindow FR BR)).Perm (labelRange 4 BR) := by
    have := filter_window_labelRange N_EDGES FR BR (by decide) (by decide) (by decide)
    have h2 := hep.filter (inWindow FR BR)
    rw [this] at h2
    exact h2
  have hcount : (cube.ep.map (inWindow FR BR)).count true = 4 := by
    rw [count_mask, hfw.length_eq, labelRange_length]
  have hk : (BR - FR + 1).toNat = 4 := by decide
  rw [hk] at hr1 hget hpos
  have hr24 : r1 < 24 := by simpa [Nat.factorial] using hr1
  have hs := getSlice_eq_posRank cube hlen hcount
  have hlt := posRank_lt (cube.ep.map (inWindow FR BR))
  rw [List.length_map, hlen, hcount] at hlt
  have h495 : Nat.choose N_EDGES 4 = 495 := by decide
  rw [h495] at hlt
  have h24 : Nat.factorial 4 = 24 := rfl
  simp only [Bool.false_eq_true, if_false, h24] at hpos
  have hget1 : getPermCoord fuel (cube.ep.filter (inWindow FR BR)) 4 BR = some (r1 : Int) := by
    rw [getPermCoord_toCoord, hget, Option.map_some',
      toCoord_of_lt _ (Int.natCast_nonneg r1) (by omega)]
  refine ⟨(r1 : Int), by omega, by omega, hget1, ?_, ?_⟩
  · rw [getSSlice, getPosPermCoord_toCoord, hpos, Option.map_some',
      toCoord_of_lt _ (Int.natCast_nonneg _) (by omega), hs]
    congr 1
  · rw [hs, Int.tdiv_eq_ediv (by omega) (by omega)]
    omega

theorem slice_is_position_part_witness :
    ∃ p : Int, 0 ≤ p ∧ p < 24 ∧
      getPermCoord 4 (kUCube.ep.filter (inWindow FR BR)) 4 BR = some p ∧
      getSSlice 4 kUCube = some (24 * getSlice kUCube + p) ∧
      (24 * getSlice kUCube + p).tdiv 24 = getSlice kUCube :=
  slice_is_position_part kUCube 4 (by decide) (by decide)

/-! ## The loops of `setUDEdges` and `initMergeUDEdges` -/

theorem setUDEdges_ep (cube : CubieCube) (c : Int) :
    (setUDEdges cube c).ep = setPermCoord (toCoord c) 8 7 ++ [8, 9, 10, 11] := by
  have hlen := setPermCoord_length (toCoord c) 8 7
  simp only [setUDEdges, N_EDGES, DB]
  simp [List.range', List.set_append, hlen, List.replicate]

/-- the loop that extracts `dedges` is the scanning loop of `getDEdges` without the value -/
theorem mergeDedges_fold (ep : List Int) (l : List Nat) (val : Int) (j : Nat) (d : List Int) :
    l.foldl (mergeDedgesStep ep) (j, d) = (l.foldl (getPosLeftStepZ ep DR DB) (val, j, d)).2 := by
  induction l generalizing val j d with
  | nil => rfl
  | cons i l ih =>
    rw [List.foldl_cons, List.foldl_cons]
    by_cases h : DR ≤ ep.getD i 0 ∧ ep.getD i 0 ≤ DB
    · have h1 : mergeDedgesStep ep (j, d) i = (j + 1, d.set j (ep.getD i 0)) := by
        simp only [mergeDedgesStep]
        rw [if_pos h]
      have h2 : getPosLeftStepZ ep DR DB (val, j, d) i
          = (val + cnk i (j + 1), j + 1, d.set j (ep.getD i 0)) := by
        simp only [getPosLeftStepZ]
        rw [if_pos h]
      rw [h1, h2]
      exact ih _ _ _
    · have h1 : mergeDedgesStep ep (j, d) i = (j, d) := by
        simp only [mergeDedgesStep]
        rw [if_neg h]
      have h2 : getPosLeftStepZ ep DR DB (val, j, d) i = (val, j, d) := by
        simp only [getPosLeftStepZ]
        rw [if_neg h]
      rw [h1, h2]
      exact ih _ _ _

theorem mergeDedges_eq_filter (x t : List Int) (hx : x.Perm (labelRange 8 7)) :
    ((List.range 8).foldl (mergeDedgesStep (x ++ t)) (0, List.replicate 4 0)).2
      = x.filter (inWindow DR DB) := by
  have hlen : x.length = 8 := by rw [hx.length_eq, labelRange_length]
  have hfw : (x.filter (inWindow DR DB)).Perm (labelRange 4 7) := by
    have h2 := hx.filter (inWindow DR DB)
    have := filter_window_labelRange 8 DR DB (by decide) (by decide) (by decide)
    rw [show ((8 : Nat) : Int) - 1 = 7 from rfl] at this
    rw [this] at h2
    exact h2
  have hcount : (x.map (inWindow DR DB)).count true = 4 := by
    rw [count_mask, hfw.length_eq, labelRange_length]
  rw [mergeDedges_fold (x ++ t) _ 0 0 _, getPosLeft_fold DR DB 4 8 x t hlen (by omega), hcount]
  simp

/-! ## Arrangements of the U and D edges in the first eight cells -/

theorem posRank_false_append (n : Nat) (m : List Bool) :
    posRank (List.replicate n false ++ m) = posRank m := by
  induction n with
  | zero => rfl
  | succ n ih =>
    rw [List.replicate_succ, List.cons_append, posRank, ih]
    simp

/-- a list is determined by the mask of a predicate and by its two filtered parts -/
theorem eq_of_mask_filter (p : Int → Bool) (x y : List Int) (hm : x.map p = y.map p)
    (h1 : x.filter p = y.filter p) (h2 : x.filter (fun a => !p a) = y.filter (fun a => !p a)) :
    x = y := by
  induction x generalizing y with
  | nil =>
    cases y with
    | nil => rfl
    | cons b y => simp at hm
  | cons a x ih =>
    cases y with
    | nil => simp at hm
    | cons b y =>
      simp only [List.map_cons, List.cons.injEq] at hm
      obtain ⟨hab, hm1⟩ := hm
      cases ha : p a with
      | true =>
        have hb : p b = true := by rw [← hab, ha]
        simp only [List.filter_cons, ha, hb, if_true, List.cons.injEq, Bool.not_true,
          Bool.false_eq_true, if_false] at h1 h2
        rw [h1.1, ih y hm1 h1.2 h2]
      | false =>
        have hb : p b = false := by rw [← hab, ha]
        simp only [List.filter_cons, ha, hb, if_true, List.cons.injEq, Bool.not_false,
          Bool.false_eq_true, if_false] at h1 h2
        rw [h2.1, ih y hm1 h1 h2.2]

theorem filter_DR_DB_eq (x : List Int) (hx : x.Perm (labelRange 8 7)) :
    x.filter (inWindow DR DB) = x.filter (fun a => !inWindow UR UB a) := by
  apply List.filter_congr
  intro a ha
  have := (mem_labelRange 8 7 a).mp (hx.subset ha)
  simp only [inWindow, DR, DB, UR, UB]
  by_cases h : a ≤ 3
  · have h1 : ¬ (4 ≤ a ∧ a ≤ 7) := by omega
    have h2 : (0 ≤ a ∧ a ≤ 3) := by omega
    simp [h1, h2]
  · have h1 : (4 ≤ a ∧ a ≤ 7) := by omega
    have h2 : ¬ (0 ≤ a ∧ a ≤ 3) := by omega
    simp [h1, h2]

theorem udedges_perm (x : List Int) (hx : x.Perm (labelRange 8 7)) :
    (x ++ [8, 9, 10, 11]).Perm (labelRange N_EDGES ((N_EDGES : Int) - 1)) := by
  have h4 : labelRange 12 11 = labelRange 8 7 ++ labelRange 4 11 := by
    have := labelRange_append 8 4 11
    simpa using this
  have h5 : labelRange 4 11 = [8, 9, 10, 11] := by decide
  show (x ++ [8, 9, 10, 11]).Perm (labelRange 12 11)
  rw [h4, h5]
  exact List.Perm.append_right _ hx

/-- the two indices computed from a permutation `x` of `0..7` in the first eight cells -/
theorem mergeIndices_of_perm (fuel : Nat) (hf : 4 ≤ fuel) (x : List Int)
    (hx : x.Perm (labelRange 8 7)) :
    ∃ r1 r2 : Nat, r1 < 24 ∧ r2 < 24 ∧
      setPermCoord (r1 : Int) 4 UB = x.filter (inWindow UR UB) ∧
      setPermCoord (r2 : Int) 4 DB = x.filter (inWindow DR DB) ∧
      getPermCoordZ fuel (x.filter (inWindow DR DB)) 4 DB = some (r2 : Int) ∧
      getPosPermCoordZ fuel (x ++ [8, 9, 10, 11]) N_EDGES UR UB true
        = some (((24 * posRank (x.map (inWindow UR UB)).reverse + r1 : Nat) : Int)) := by
  have hlen : x.length = 8 := by rw [hx.length_eq, labelRange_length]
  have hfd : (x.filter (inWindow DR DB)).Perm (labelRange 4 DB) := by
    have h2 := hx.filter (inWindow DR DB)
    have := filter_window_labelRange 8 DR DB (by decide) (by decide) (by decide)
    rw [show ((8 : Nat) : Int) - 1 = 7 from rfl] at this
    rw [this] at h2
    exact h2
  obtain ⟨r2, hr2, hget2, hset2⟩ := getPermCoord_perm 4 _ DB fuel hfd hf
  obtain ⟨r1, hr1, hget1, hpos⟩ :=
    getPosPermCoord_decomp N_EDGES UR UB true (x ++ [8, 9, 10, 11]) fuel (udedges_perm x hx)
      (by decide) (by decide) (by decide) hf
  have hk : (UB - UR + 1).toNat = 4 := by decide
  rw [hk] at hr1 hget1 hpos
  have hfu : (x ++ [8, 9, 10, 11]).filter (inWindow UR UB) = x.filter (inWindow UR UB) := by
    rw [List.filter_append]
    have : List.filter (inWindow UR UB) [8, 9, 10, 11] = [] := by decide
    rw [this, List.append_nil]
  have hfu2 : (x.filter (inWindow UR UB)).Perm (labelRange 4 UB) := by
    have h2 := hx.filter (inWindow UR UB)
    have := filter_window_labelRange 8 UR UB (by decide) (by decide) (by decide)
    rw [show ((8 : Nat) : Int) - 1 = 7 from rfl, hk] at this
    rw [this] at h2
    exact h2
  obtain ⟨r1', hr1', hget1', hset1⟩ := getPermCoord_perm 4 _ UB fuel hfu2 hf
  rw [hfu, hget1'] at hget1
  have hr : r1' = r1 := by
    have := Option.some.inj hget1
    exact_mod_cast this
  subst hr
  have hmask : ((x ++ [8, 9, 10, 11]).map (inWindow UR UB)).reverse
      = List.replicate 4 false ++ (x.map (inWindow UR UB)).reverse := by
    rw [List.map_append, List.reverse_append]
    have : (List.map (inWindow UR UB) [8, 9, 10, 11]).reverse = List.replicate 4 false := by
      decide
    rw [this]
  refine ⟨r1', r2, by simpa [Nat.factorial] using hr1', by simpa [Nat.factorial] using hr2,
    hset1, hset2, hget2, ?_⟩
  rw [hpos]
  simp only [if_true]
  rw [hmask, posRank_false_append]
  rfl

theorem mask_U_count (x : List Int) (hx : x.Perm (labelRange 8 7)) :
    (x.map (inWindow UR UB)).length = 8 ∧ (x.map (inWindow UR UB)).count true = 4 := by
  have hlen : x.length = 8 := by rw [hx.length_eq, labelRange_length]
  have h2 := hx.filter (inWindow UR UB)
  have := filter_window_labelRange 8 UR UB (by decide) (by decide) (by decide)
  rw [show ((8 : Nat) : Int) - 1 = 7 from rfl] at this
  rw [this] at h2
  refine ⟨by simpa using hlen, ?_⟩
  rw [count_mask, h2.length_eq, labelRange_length]
  rfl

/-! ## Claim on the merge table -/

theorem mergeIndex_indep (fuel : Nat) (cube1 cube2 : CubieCube) (c : Int) :
    (mergeIndex fuel cube1 c).2 = (mergeIndex fuel cube2 c).2 := by
  simp only [mergeIndex, getUEdges, setUDEdges_ep]

/-- what one pass of the loop of `initMergeUDEdges` computes for `c` below `8!` -/
theorem mergeIndex_spec (fuel : Nat) (hf : 4 ≤ fuel) (cube : CubieCube) (c : Nat)
    (hc : c < 65536) :
    ∃ r1 r2 : Nat, r1 < 24 ∧ r2 < 24 ∧
      setPermCoord (r1 : Int) 4 UB = (setPermCoord (c : Int) 8 7).filter (inWindow UR UB) ∧
      setPermCoord (r2 : Int) 4 DB = (setPermCoord (c : Int) 8 7).filter (inWindow DR DB) ∧
      (mergeIndex fuel cube (c : Int)).2
        = (some (((24 * posRank ((setPermCoord (c : Int) 8 7).map (inWindow UR UB)).reverse
            + r1 : Nat) : Int)), some (r2 : Int)) := by
  have hx := setPermCoord_perm c 8 7
  obtain ⟨r1, r2, hr1, hr2, hs1, hs2, hg2, hg1⟩ := mergeIndices_of_perm fuel hf _ hx
  refine ⟨r1, r2, hr1, hr2, hs1, hs2, ?_⟩
  have hm := mask_U_count _ hx
  have hlt := posRank_lt ((setPermCoord (c : Int) 8 7).map (inWindow UR UB)).reverse
  rw [List.length_reverse, List.count_reverse, hm.1, hm.2] at hlt
  have h70 : Nat.choose 8 4 = 70 := by decide
  rw [h70] at hlt
  simp only [mergeIndex, getUEdges, setUDEdges_ep]
  rw [toCoord_of_lt _ (Int.natCast_nonneg c) (by omega), mergeDedges_eq_filter _ _ hx,
    getPermCoord_toCoord, getPosPermCoord_toCoord, hg2, hg1, Option.map_some', Option.map_some',
    toCoord_of_lt _ (Int.natCast_nonneg r2) (by omega),
    toCoord_of_lt _ (Int.natCast_nonneg _) (by omega)]

theorem mergeIndex_bounds (fuel : Nat) (hf : 4 ≤ fuel) (cube : CubieCube) (c : Nat)
    (hc : c < 65536) :
    ∃ u d : Nat, u < 1680 ∧ d < 24 ∧
      (mergeIndex fuel cube (c : Int)).2 = (some (u : Int), some (d : Int)) := by
  obtain ⟨r1, r2, hr1, hr2, -, -, h⟩ := mergeIndex_spec fuel hf cube c hc
  have hm := mask_U_count _ (setPermCoord_perm c 8 7)
  have hlt := posRank_lt ((setPermCoord (c : Int) 8 7).map (inWindow UR UB)).reverse
  rw [List.length_reverse, List.count_reverse, hm.1, hm.2] at hlt
  have h70 : Nat.choose 8 4 = 70 := by decide
  rw [h70] at hlt
  exact ⟨_, r2, by omega, hr2, h⟩

theorem mergeIndex_injective (fuel : Nat) (hf : 4 ≤ fuel) (cube1 cube2 : CubieCube)
    (c1 c2 : Nat) (h1 : c1 < 40320) (h2 : c2 < 40320)
    (h : (mergeIndex fuel cube1 (c1 : Int)).2 = (mergeIndex fuel cube2 (c2 : Int)).2) :
    c1 = c2 := by
  obtain ⟨r1, r2, hr1, hr2, hu1, hd1, e1⟩ := mergeIndex_spec fuel hf cube1 c1 (by omega)
  obtain ⟨s1, s2, hs1, hs2, hu2, hd2, e2⟩ := mergeIndex_spec fuel hf cube2 c2 (by omega)
  rw [e1, e2] at h
  simp only [Prod.mk.injEq, Option.some.injEq] at h
  obtain ⟨ha, hb⟩ := h
  have ha1 : 24 * posRank ((setPermCoord (c1 : Int) 8 7).map (inWindow UR UB)).reverse + r1
      = 24 * posRank ((setPermCoord (c2 : Int) 8 7).map (inWindow UR UB)).reverse + s1 := by
    exact_mod_cast ha
  have hb1 : r2 = s2 := by exact_mod_cast hb
  have hq : posRank ((setPermCoord (c1 : Int) 8 7).map (inWindow UR UB)).reverse
      = posRank ((setPermCoord (c2 : Int) 8 7).map (inWindow UR UB)).reverse := by omega
  have hr : r1 = s1 := by omega
  have hx1 := setPermCoord_perm c1 8 7
  have hx2 := setPermCoord_perm c2 8 7
  have hm1 := mask_U_count _ hx1
  have hm2 := mask_U_count _ hx2
  have hmask : (setPermCoord (c1 : Int) 8 7).map (inWindow UR UB)
      = (setPermCoord (c2 : Int) 8 7).map (inWindow UR UB) := by
    have p1 := posUnrank_posRank ((setPermCoord (c1 : Int) 8 7).map (inWindow UR UB)).reverse
    have p2 := posUnrank_posRank ((setPermCoord (c2 : Int) 8 7).map (inWindow UR UB)).reverse
    rw [List.length_reverse, List.count_reverse, hm1.1, hm1.2] at p1
    rw [List.length_reverse, List.count_reverse, hm2.1, hm2.2] at p2
    rw [hq, p2] at p1
    exact List.reverse_injective p1.symm
  have hfu : (setPermCoord (c1 : Int) 8 7).filter (inWindow UR UB)
      = (setPermCoord (c2 : Int) 8 7).filter (inWindow UR UB) := by
    rw [← hu1, ← hu2, hr]
  have hfd : (setPermCoord (c1 : Int) 8 7).filter (fun a => !inWindow UR UB a)
      = (setPermCoord (c2 : Int) 8 7).filter (fun a => !inWindow UR UB a) := by
    rw [← filter_DR_DB_eq _ hx1, ← filter_DR_DB_eq _ hx2, ← hd1, ← hd2, hb1]
  have hx := eq_of_mask_filter (inWindow UR UB) _ _ hmask hfu hfd
  have g1 := getPermCoord_setPermCoord_of_lt 8 7 (c1 : Int) 8 (by decide) (by omega)
    (by
      have : fac 8 = 40320 := by decide
      rw [this]
      exact_mod_cast h1) (le_refl _)
  have g2 := getPermCoord_setPermCoord_of_lt 8 7 (c2 : Int) 8 (by decide) (by omega)
    (by
      have : fac 8 = 40320 := by decide
      rw [this]
      exact_mod_cast h2) (le_refl _)
  rw [hx, g2] at g1
  have := Option.some.inj g1
  exact_mod_cast this.symm

/-- the writes of `initMergeUDEdges`, one per value of `c` -/
theorem initMerge_fold (fuel : Nat) (l : List Nat) (cube : CubieCube)
    (log : List (Option Int × Option Int × Int)) :
    (l.foldl (mergeStep fuel) (cube, log)).2
      = log ++ l.map (fun (c : Nat) => ((mergeIndex fuel kSolvedCube (c : Int)).2.1,
          (mergeIndex fuel kSolvedCube (c : Int)).2.2, (c : Int))) := by
  induction l generalizing cube log with
  | nil => simp
  | cons c l ih =>
    rw [List.foldl_cons, mergeStep, ih, List.map_cons, mergeIndex_indep fuel cube kSolvedCube]
    simp

theorem initMergeUDEdges_eq (fuel : Nat) (cube : CubieCube) :
    initMergeUDEdges fuel cube
      = (List.range N_UDEDGES2).map (fun (c : Nat) => ((mergeIndex fuel kSolvedCube (c : Int)).2.1,
          (mergeIndex fuel kSolvedCube (c : Int)).2.2, (c : Int))) := by
  rw [initMergeUDEdges, initMerge_fold, List.nil_append]

theorem initMerge_cells (fuel : Nat) (cube : CubieCube) :
    (initMergeUDEdges fuel cube).map (fun w => (w.1, w.2.1))
      = (List.range N_UDEDGES2).map (fun (c : Nat) => (mergeIndex fuel kSolvedCube (c : Int)).2) := by
  rw [initMergeUDEdges_eq, List.map_map]
  rfl

theorem N_UDEDGES2_eq : N_UDEDGES2 = 40320 := rfl

theorem initMerge_cells_nodup (fuel : Nat) (hf : 4 ≤ fuel) (cube : CubieCube) :
    ((initMergeUDEdges fuel cube).map (fun w => (w.1, w.2.1))).Nodup := by
  rw [initMerge_cells]
  refine List.Nodup.map_on ?_ (List.nodup_range _)
  intro a ha b hb h
  have ha1 := List.mem_range.mp ha
  have hb1 := List.mem_range.mp hb
  rw [N_UDEDGES2_eq] at ha1 hb1
  exact mergeIndex_injective fuel hf _ _ a b ha1 hb1 h

/-- distinct cells, as many as the table has, fill the table -/
theorem cells_cover_of_nodup (A B : Nat) (P : List (Option Int × Option Int)) (hnd : P.Nodup)
    (hlen : P.length = A * B)
    (hmem : ∀ w ∈ P, ∃ u d : Nat, u < A ∧ d < B ∧ w = (some (u : Int), some (d : Int)))
    (u d : Nat) (hu : u < A) (hd : d < B) : (some (u : Int), some (d : Int)) ∈ P := by
  have hsub : P.toFinset ⊆ (Finset.range A ×ˢ Finset.range B).image
      (fun p => (some (p.1 : Int), some (p.2 : Int))) := by
    intro w hw
    rw [List.mem_toFinset] at hw
    obtain ⟨u1, d1, hu1, hd1, hw1⟩ := hmem w hw
    rw [hw1]
    exact Finset.mem_image.mpr ⟨(u1, d1), by simp [hu1, hd1], rfl⟩
  have hcardT : ((Finset.range A ×ˢ Finset.range B).image
      (fun p => (some (p.1 : Int), some (p.2 : Int)))).card ≤ A * B := by
    refine le_trans Finset.card_image_le ?_
    rw [Finset.card_product, Finset.card_range, Finset.card_range]
  have hcardP : P.toFinset.card = A * B := by
    rw [List.toFinset_card_of_nodup hnd, hlen]
  have heq := Finset.eq_of_subset_of_card_le hsub (by omega)
  have : (some (u : Int), some (d : Int)) ∈ (Finset.range A ×ˢ Finset.range B).image
      (fun p => (some (p.1 : Int), some (p.2 : Int))) :=
    Finset.mem_image.mpr ⟨(u, d), by simp [hu, hd], rfl⟩
  rw [← heq, List.mem_toFinset] at this
  exact this

/-- every cell of the table is among the written cells: the written cells are `40320` distinct
cells of a table that has `1680 * 24 = 40320` cells -/
theorem initMerge_cells_cover (fuel : Nat) (hf : 4 ≤ fuel) (cube : CubieCube) (u d : Nat)
    (hu : u < 1680) (hd : d < 24) :
    (some (u : Int), some (d : Int)) ∈ (initMergeUDEdges fuel cube).map (fun w => (w.1, w.2.1)) := by
  have hnd := initMerge_cells_nodup fuel hf cube
  have hPlen : ((initMergeUDEdges fuel cube).map (fun w => (w.1, w.2.1))).length = 1680 * 24 := by
    rw [initMerge_cells, List.length_map, List.length_range, N_UDEDGES2_eq]
  have hPmem : ∀ w ∈ (initMergeUDEdges fuel cube).map (fun w => (w.1, w.2.1)),
      ∃ u d : Nat, u < 1680 ∧ d < 24 ∧ w = (some (u : Int), some (d : Int)) := by
    intro w hw
    rw [initMerge_cells, List.mem_map] at hw
    obtain ⟨c, hcm, hc⟩ := hw
    have hc1 := List.mem_range.mp hcm
    rw [N_UDEDGES2_eq] at hc1
    rw [← hc]
    exact mergeIndex_bounds fuel hf kSolvedCube c (by omega)
  exact cells_cover_of_nodup 1680 24 _ hnd hPlen hPmem u d hu hd

/-- C19: in `initMergeUDEdges`, for every `c` in `[0, 40320)` the two indices are computed
(`getUEdges` and `getPermCoord` return) and satisfy `0 <= getUEdges(cube) < 1680` and
`0 <= getPermCoord(dedges, 4, DB) < 24`; the map from `c` to the pair of indices is injective;
and the loop performs `40320` writes, each inside the table, no two of them to the same cell, and
every one of the `1680 x 24` cells is among the written cells: each cell is written exactly
once. -/
theorem merge_table_bijection (fuel : Nat) (cube : CubieCube) (hf : 4 ≤ fuel) :
    (∀ c : Int, 0 ≤ c → c < 40320 →
      ∃ u d : Int, (mergeIndex fuel cube c).2 = (some u, some d) ∧
        0 ≤ u ∧ u < 1680 ∧ 0 ≤ d ∧ d < 24) ∧
    (∀ (cube1 cube2 : CubieCube) (c1 c2 : Int), 0 ≤ c1 → c1 < 40320 → 0 ≤ c2 → c2 < 40320 →
      (mergeIndex fuel cube1 c1).2 = (mergeIndex fuel cube2 c2).2 → c1 = c2) ∧
    (initMergeUDEdges fuel cube).length = 40320 ∧
    (∀ w ∈ initMergeUDEdges fuel cube, ∃ u d : Int, w.1 = some u ∧ w.2.1 = some d ∧
        0 ≤ u ∧ u < 1680 ∧ 0 ≤ d ∧ d < 24 ∧ 0 ≤ w.2.2 ∧ w.2.2 < 40320 ∧
        (mergeIndex fuel cube w.2.2).2 = (w.1, w.2.1)) ∧
    ((initMergeUDEdges fuel cube).map (fun w => (w.1, w.2.1))).Nodup ∧
    (∀ u d : Int, 0 ≤ u → u < 1680 → 0 ≤ d → d < 24 →
      (some u, some d) ∈ (initMergeUDEdges fuel cube).map (fun w => (w.1, w.2.1))) := by
  refine ⟨?_, ?_, ?_, ?_, initMerge_cells_nodup fuel hf cube, ?_⟩
  · intro c h0 h1
    obtain ⟨n, rfl⟩ := int_eq_natCast c h0
    obtain ⟨u, d, hu, hd, h⟩ := mergeIndex_bounds fuel hf cube n (by omega)
    exact ⟨u, d, h, by omega, by omega, by omega, by omega⟩
  · intro cube1 cube2 c1 c2 h10 h11 h20 h21 h
    obtain ⟨n1, rfl⟩ := int_eq_natCast c1 h10
    obtain ⟨n2, rfl⟩ := int_eq_natCast c2 h20
    have := mergeIndex_injective fuel hf cube1 cube2 n1 n2 (by omega) (by omega) h
    rw [this]
  · rw [initMergeUDEdges_eq, List.length_map, List.length_range, N_UDEDGES2_eq]
  · intro w hw
    rw [initMergeUDEdges_eq, List.mem_map] at hw
    obtain ⟨c, hc, rfl⟩ := hw
    have hc1 := List.mem_range.mp hc
    rw [N_UDEDGES2_eq] at hc1
    obtain ⟨u, d, hu, hd, h⟩ := mergeIndex_bounds fuel hf kSolvedCube c (by omega)
    dsimp only
    refine ⟨u, d, ?_, ?_, by omega, by omega, by omega, by omega, by omega, by omega, ?_⟩
    · rw [h]
    · rw [h]
    · rw [mergeIndex_indep fuel cube kSolvedCube]
  · intro u d hu0 hu hd0 hd
    obtain ⟨n, rfl⟩ := int_eq_natCast u hu0
    obtain ⟨k, rfl⟩ := int_eq_natCast d hd0
    exact initMerge_cells_cover fuel hf cube n k (by omega) (by omega)

theorem merge_table_bijection_witness :
    ∃ u d : Int, (mergeIndex 4 kSolvedCube 12345).2 = (some u, some d) ∧
      0 ≤ u ∧ u < 1680 ∧ 0 ≤ d ∧ d < 24 :=
  (merge_table_bijection 4 kSolvedCube (by decide)).1 12345 (by decide) (by decide)

/-! ## Claim on the generator schedule of `initSym` -/

/-- one pass of the first loop of `initSym`, entered with the product for `n` in `cube` -/
theorem symCubesStep_schedule {α : Type} (mul : α → α → α) (e M F U T : α)
    (hassoc : ∀ a b c : α, mul (mul a b) c = mul a (mul b c))
    (hleft : ∀ a : α, mul e a = a) (hright : ∀ a : α, mul a e = a)
    (hM : mul M M = e) (hF : mul F F = e) (hU : mul (mul (mul U U) U) U = e)
    (n : Nat) (cells : List α) :
    symCubesStep mul M F U T
        (mul (mul (mul (cubePow mul e T (n / 16)) (cubePow mul e U (n / 4 % 4)))
          (cubePow mul e F (n / 2 % 2))) (cubePow mul e M (n % 2)), cells) n
      = (mul (mul (mul (cubePow mul e T ((n + 1) / 16)) (cubePow mul e U ((n + 1) / 4 % 4)))
          (cubePow mul e F ((n + 1) / 2 % 2))) (cubePow mul e M ((n + 1) % 2)),
        cells ++ [mul (mul (mul (cubePow mul e T (n / 16)) (cubePow mul e U (n / 4 % 4)))
          (cubePow mul e F (n / 2 % 2))) (cubePow mul e M (n % 2))]) := by
  have hM2 : ∀ x : α, mul M (mul M x) = x := by
    intro x
    rw [← hassoc, hM, hleft]
  have hF2 : ∀ x : α, mul F (mul F x) = x := by
    intro x
    rw [← hassoc, hF, hleft]
  have hU4 : mul U (mul U (mul U U)) = e := by
    rw [← hU, hassoc, hassoc]
  have hU5 : ∀ x : α, mul U (mul U (mul U (mul U x))) = x := by
    intro x
    have h := congrArg (fun y => mul y x) hU4
    simp only [hassoc, hleft] at h
    exact h
  simp only [symCubesStep]
  refine Prod.ext ?_ rfl
  simp only
  rcases Nat.mod_two_eq_zero_or_one n with hd | hd
  · -- `n` is even: only the mirror is applied
    have c1 : ¬ (n % 2 = 1) := by omega
    have c2 : ¬ (n % 4 = 3) := by omega
    have c3 : ¬ (n % 16 = 15) := by omega
    have e1 : (n + 1) / 16 = n / 16 := by omega
    have e2 : (n + 1) / 4 % 4 = n / 4 % 4 := by omega
    have e3 : (n + 1) / 2 % 2 = n / 2 % 2 := by omega
    have e4 : (n + 1) % 2 = 1 := by omega
    rw [if_neg c1, if_neg c2, if_neg c3, e1, e2, e3, e4, hd]
    simp only [cubePow, hleft, hright]
  · rcases Nat.mod_two_eq_zero_or_one (n / 2) with hc | hc
    · -- `n % 4 = 1`
      have c1 : n % 2 = 1 := hd
      have c2 : ¬ (n % 4 = 3) := by omega
      have c3 : ¬ (n % 16 = 15) := by omega
      have e1 : (n + 1) / 16 = n / 16 := by omega
      have e2 : (n + 1) / 4 % 4 = n / 4 % 4 := by omega
      have e3 : (n + 1) / 2 % 2 = 1 := by omega
      have e4 : (n + 1) % 2 = 0 := by omega
      rw [if_pos c1, if_neg c2, if_neg c3, e1, e2, e3, e4, hd, hc]
      simp only [cubePow, hleft, hright, hassoc, hM2]
    · by_cases hb : n / 4 % 4 = 3
      · -- `n % 16 = 15`
        have c1 : n % 2 = 1 := hd
        have c2 : n % 4 = 3 := by omega
        have c3 : n % 16 = 15 := by omega
        have e1 : (n + 1) / 16 = n / 16 + 1 := by omega
        have e2 : (n + 1) / 4 % 4 = 0 := by omega
        have e3 : (n + 1) / 2 % 2 = 0 := by omega
        have e4 : (n + 1) % 2 = 0 := by omega
        rw [if_pos c1, if_pos c2, if_pos c3, e1, e2, e3, e4, hd, hc, hb]
        simp only [cubePow, hleft, hright, hassoc, hM2, hF2, hU5]
      · -- `n % 4 = 3` and `n % 16 ≠ 15`
        have c1 : n % 2 = 1 := hd
        have c2 : n % 4 = 3 := by omega
        have c3 : ¬ (n % 16 = 15) := by omega
        have e1 : (n + 1) / 16 = n / 16 := by omega
        have e2 : (n + 1) / 4 % 4 = n / 4 % 4 + 1 := by omega
        have e3 : (n + 1) / 2 % 2 = 0 := by omega
        have e4 : (n + 1) % 2 = 0 := by omega
        rw [if_pos c1, if_pos c2, if_neg c3, e1, e2, e3, e4, hd, hc]
        simp only [cubePow, hleft, hright, hassoc, hM2, hF2]

theorem symCubes_fold {α : Type} (mul : α → α → α) (e M F U T : α)
    (hassoc : ∀ a b c : α, mul (mul a b) c = mul a (mul b c))
    (hleft : ∀ a : α, mul e a = a) (hright : ∀ a : α, mul a e = a)
    (hM : mul M M = e) (hF : mul F F = e) (hU : mul (mul (mul U U) U) U = e) (n : Nat) :
    (List.range n).foldl (symCubesStep mul M F U T) (e, [])
      = (mul (mul (mul (cubePow mul e T (n / 16)) (cubePow mul e U (n / 4 % 4)))
          (cubePow mul e F (n / 2 % 2))) (cubePow mul e M (n % 2)),
        (List.range n).map (fun i =>
          mul (mul (mul (cubePow mul e T (i / 16)) (cubePow mul e U (i / 4 % 4)))
            (cubePow mul e F (i / 2 % 2))) (cubePow mul e M (i % 2)))) := by
  induction n with
  | zero => simp [cubePow, hleft]
  | succ n ih =>
    rw [List.range_succ, List.foldl_append, ih, List.foldl_cons, List.foldl_nil,
      symCubesStep_schedule mul e M F U T hassoc hleft hright hM hF hU, List.map_append]
    rfl

/-- C15: over any composition `mul` that is associative and has the identity `e`, with generators
that satisfy `M * M = e`, `F * F = e` and `U * U * U * U = e`, the first loop of `initSym`
stores 48 elements, and for every `i` in `[0, 48)` the stored `sym_cubes[i]` equals
`T^(i div 16) * U^((i div 4) mod 4) * F^((i div 2) mod 2) * M^(i mod 2)`; in particular
`sym_cubes[0]` is the identity. -/
theorem sym_schedule {α : Type} (mul : α → α → α) (e M F U T : α)
    (hassoc : ∀ a b c : α, mul (mul a b) c = mul a (mul b c))
    (hleft : ∀ a : α, mul e a = a) (hright : ∀ a : α, mul a e = a)
    (hM : mul M M = e) (hF : mul F F = e) (hU : mul (mul (mul U U) U) U = e) :
    (initSymCubes mul e M F U T).length = 48 ∧
    (∀ i : Nat, i < 48 →
      (initSymCubes mul e M F U T)[i]?
        = some (mul (mul (mul (cubePow mul e T (i / 16)) (cubePow mul e U (i / 4 % 4)))
            (cubePow mul e F (i / 2 % 2))) (cubePow mul e M (i % 2)))) ∧
    (initSymCubes mul e M F U T)[0]? = some e := by
  have h := symCubes_fold mul e M F U T hassoc hleft hright hM hF hU N_SYMS
  have hcells : initSymCubes mul e M F U T
      = (List.range N_SYMS).map (fun i =>
          mul (mul (mul (cubePow mul e T (i / 16)) (cubePow mul e U (i / 4 % 4)))
            (cubePow mul e F (i / 2 % 2))) (cubePow mul e M (i % 2))) := by
    rw [initSymCubes, h]
  have hi : ∀ i : Nat, i < 48 →
      (initSymCubes mul e M F U T)[i]?
        = some (mul (mul (mul (cubePow mul e T (i / 16)) (cubePow mul e U (i / 4 % 4)))
            (cubePow mul e F (i / 2 % 2))) (cubePow mul e M (i % 2))) := by
    intro i hi
    rw [hcells, List.getElem?_map, List.getElem?_range (by simpa [N_SYMS] using hi)]
    rfl
  refine ⟨by rw [hcells]; simp [N_SYMS], hi, ?_⟩
  rw [hi 0 (by decide)]
  simp [cubePow, hleft]

theorem sym_schedule_witness :
    (initSymCubes (fun (a b : Equiv.Perm (Fin 4)) => a * b) 1 (Equiv.swap 0 1) (Equiv.swap 2 3)
        (Equiv.swap 0 2 * Equiv.swap 1 3 * Equiv.swap 0 1) (Equiv.swap 0 1 * Equiv.swap 1 2))[0]?
      = some 1 :=
  (sym_schedule (fun (a b : Equiv.Perm (Fin 4)) => a * b) 1 (Equiv.swap 0 1) (Equiv.swap 2 3)
    (Equiv.swap 0 2 * Equiv.swap 1 3 * Equiv.swap 0 1) (Equiv.swap 0 1 * Equiv.swap 1 2)
    (fun a b c => mul_assoc a b c) (fun a => one_mul a) (fun a => mul_one a)
    (by decide) (by decide) (by decide)).2.2

/-! ## The matching loop and the table writes of `initSym` -/

theorem findConj_of_unique {α : Type} [DecidableEq α] (move_cubes : Nat → α) (cube : α)
    (n c0 conj : Nat) (h0 : c0 ≤ conj) (h1 : conj < c0 + n) (heq : cube = move_cubes conj)
    (huniq : ∀ c : Nat, c0 ≤ c → c < c0 + n → cube = move_cubes c → c = conj) :
    findConj move_cubes cube n c0 = some conj := by
  induction n generalizing c0 with
  | zero => omega
  | succ n ih =>
    rw [findConj]
    by_cases h : cube = move_cubes c0
    · rw [if_pos h, huniq c0 (le_refl _) (by omega) h]
    · rw [if_neg h]
      have hne : c0 ≠ conj := by
        intro hc
        rw [hc] at h
        exact h heq
      exact ih (c0 + 1) (by omega) (by omega)
        (fun c hc1 hc2 hc3 => huniq c (by omega) (by omega) hc3)

theorem findConj_some {α : Type} [DecidableEq α] (move_cubes : Nat → α) (cube : α)
    (n c0 conj : Nat) (h : findConj move_cubes cube n c0 = some conj) :
    c0 ≤ conj ∧ conj < c0 + n ∧ cube = move_cubes conj := by
  induction n generalizing c0 with
  | zero => simp [findConj] at h
  | succ n ih =>
    rw [findConj] at h
    by_cases hc : cube = move_cubes c0
    · rw [if_pos hc] at h
      have := Option.some.inj h
      subst this
      exact ⟨le_refl _, by omega, hc⟩
    · rw [if_neg hc] at h
      have := ih (c0 + 1) h
      exact ⟨by omega, by omega, this.2.2⟩

theorem cellAt_writeCell_same (t : List (List Int)) (m s : Nat) (v : Int)
    (h : (cellAt t m s).isSome = true) : cellAt (writeCell t m s v) m s = some v := by
  simp only [cellAt, writeCell] at h ⊢
  by_cases hm : m < t.length
  · rw [List.getElem?_eq_getElem hm] at h
    simp only [Option.some_bind] at h
    by_cases hs : s < t[m].length
    · simp [List.getElem?_set, hm, List.getD_eq_getElem?_getD, List.getElem?_eq_getElem hm, hs]
    · rw [List.getElem?_eq_none (by omega)] at h
      simp at h
  · rw [List.getElem?_eq_none (by omega)] at h
    simp at h

theorem cellAt_writeCell_other (t : List (List Int)) (m s : Nat) (v : Int) (m1 s1 : Nat)
    (h : ¬ (m1 = m ∧ s1 = s)) : cellAt (writeCell t m s v) m1 s1 = cellAt t m1 s1 := by
  simp only [cellAt, writeCell]
  by_cases hm : m1 = m
  · subst hm
    have hs : ¬ (s1 = s) := fun hs => h ⟨rfl, hs⟩
    by_cases hl : m1 < t.length
    · simp [List.getElem?_set, hl, List.getD_eq_getElem?_getD, List.getElem?_eq_getElem hl,
        Ne.symm hs]
    · rw [List.getElem?_eq_none (by rw [List.length_set]; omega),
        List.getElem?_eq_none (by omega)]
  · rw [List.getElem?_set_ne (Ne.symm hm)]

theorem conjMoveStep_other {α : Type} [DecidableEq α] (mul : α → α → α) (sym_cubes : Nat → α)
    (inv_sym : Nat → Nat) (move_cubes : Nat → α) (m s : Nat) (t : List (List Int))
    (m1 s1 : Nat) (h : ¬ (m1 = m ∧ s1 = s)) :
    cellAt (conjMoveStep mul sym_cubes inv_sym move_cubes m t s) m1 s1 = cellAt t m1 s1 := by
  simp only [conjMoveStep]
  split
  · exact cellAt_writeCell_other t m s _ m1 s1 h
  · rfl

theorem conjMoveStep_same {α : Type} [DecidableEq α] (mul : α → α → α) (sym_cubes : Nat → α)
    (inv_sym : Nat → Nat) (move_cubes : Nat → α) (m s : Nat) (t : List (List Int)) (conj : Nat)
    (h : (cellAt t m s).isSome = true)
    (hfind : findConj move_cubes (mul (mul (sym_cubes s) (move_cubes m)) (sym_cubes (inv_sym s)))
      N_MOVES 0 = some conj) :
    cellAt (conjMoveStep mul sym_cubes inv_sym move_cubes m t s) m s = some (conj : Int) := by
  simp only [conjMoveStep, hfind]
  exact cellAt_writeCell_same t m s _ h

theorem conjMoveRow_other {α : Type} [DecidableEq α] (mul : α → α → α) (sym_cubes : Nat → α)
    (inv_sym : Nat → Nat) (move_cubes : Nat → α) (m : Nat) (ls : List Nat) (t : List (List Int))
    (m1 s1 : Nat) (h : m1 ≠ m ∨ s1 ∉ ls) :
    cellAt (ls.foldl (conjMoveStep mul sym_cubes inv_sym move_cubes m) t) m1 s1
      = cellAt t m1 s1 := by
  induction ls generalizing t with
  | nil => rfl
  | cons a ls ih =>
    rw [List.foldl_cons, ih]
    · apply conjMoveStep_other
      rintro ⟨h1, h2⟩
      rcases h with h | h
      · exact h h1
      · exact h (by simp [h2])
    · rcases h with h | h
      · exact Or.inl h
      · exact Or.inr (fun hmem => h (List.mem_cons_of_mem _ hmem))

theorem conjMoveRow_same {α : Type} [DecidableEq α] (mul : α → α → α) (sym_cubes : Nat → α)
    (inv_sym : Nat → Nat) (move_cubes : Nat → α) (m s : Nat) (ls : List Nat)
    (t : List (List Int)) (conj : Nat) (hnd : ls.Nodup) (hs : s ∈ ls)
    (h : (cellAt t m s).isSome = true)
    (hfind : findConj move_cubes (mul (mul (sym_cubes s) (move_cubes m)) (sym_cubes (inv_sym s)))
      N_MOVES 0 = some conj) :
    cellAt (ls.foldl (conjMoveStep mul sym_cubes inv_sym move_cubes m) t) m s
      = some (conj : Int) := by
  induction ls generalizing t with
  | nil => simp at hs
  | cons a ls ih =>
    rw [List.foldl_cons]
    rw [List.nodup_cons] at hnd
    by_cases ha : a = s
    · subst ha
      rw [conjMoveRow_other _ _ _ _ _ _ _ _ _ (Or.inr hnd.1)]
      exact conjMoveStep_same mul sym_cubes inv_sym move_cubes m a t conj h hfind
    · have hs1 : s ∈ ls := by
        rcases List.mem_cons.mp hs with h1 | h1
        · exact absurd h1.symm ha
        · exact h1
      refine ih _ hnd.2 hs1 ?_
      rw [conjMoveStep_other _ _ _ _ _ _ _ _ _ (fun hh => ha hh.2.symm)]
      exact h

theorem conjMoveTable_other {α : Type} [DecidableEq α] (mul : α → α → α) (sym_cubes : Nat → α)
    (inv_sym : Nat → Nat) (move_cubes : Nat → α) (lm ls : List Nat) (t : List (List Int))
    (m1 s1 : Nat) (h : m1 ∉ lm) :
    cellAt (lm.foldl
      (fun table m => ls.foldl (conjMoveStep mul sym_cubes inv_sym move_cubes m) table) t) m1 s1
      = cellAt t m1 s1 := by
  induction lm generalizing t with
  | nil => rfl
  | cons a lm ih =>
    rw [List.foldl_cons, ih _ (fun hmem => h (List.mem_cons_of_mem _ hmem))]
    exact conjMoveRow_other _ _ _ _ _ _ _ _ _ (Or.inl (fun hh => h (by simp [hh])))

theorem conjMoveTable_same {α : Type} [DecidableEq α] (mul : α → α → α) (sym_cubes : Nat → α)
    (inv_sym : Nat → Nat) (move_cubes : Nat → α) (m s : Nat) (lm ls : List Nat)
    (t : List (List Int)) (conj : Nat) (hndm : lm.Nodup) (hm : m ∈ lm) (hnd : ls.Nodup)
    (hs : s ∈ ls) (h : (cellAt t m s).isSome = true)
    (hfind : findConj move_cubes (mul (mul (sym_cubes s) (move_cubes m)) (sym_cubes (inv_sym s)))
      N_MOVES 0 = some conj) :
    cellAt (lm.foldl
      (fun table m => ls.foldl (conjMoveStep mul sym_cubes inv_sym move_cubes m) table) t) m s
      = some (conj : Int) := by
  induction lm generalizing t with
  | nil => simp at hm
  | cons a lm ih =>
    rw [List.foldl_cons]
    rw [List.nodup_cons] at hndm
    by_cases ha : a = m
    · subst ha
      rw [conjMoveTable_other _ _ _ _ _ _ _ _ _ hndm.1]
      exact conjMoveRow_same mul sym_cubes inv_sym move_cubes a s ls t conj hnd hs h hfind
    · have hm1 : m ∈ lm := by
        rcases List.mem_cons.mp hm with h1 | h1
        · exact absurd h1.symm ha
        · exact h1
      refine ih _ hndm.2 hm1 ?_
      rw [conjMoveRow_other _ _ _ _ _ _ _ _ _ (Or.inl (fun hh => ha hh.symm))]
      exact h

theorem cellAt_zeros (m s : Nat) (hm : m < N_MOVES) (hs : s < N_SYMS) :
    cellAt (List.replicate N_MOVES (List.replicate N_SYMS 0)) m s = some 0 := by
  simp [cellAt, List.getElem?_replicate, hm, hs]

theorem writeCell_length (t : List (List Int)) (m s : Nat) (v : Int) :
    (writeCell t m s v).length = t.length := by
  simp [writeCell]

theorem conjMoveStep_length {α : Type} [DecidableEq α] (mul : α → α → α) (sym_cubes : Nat → α)
    (inv_sym : Nat → Nat) (move_cubes : Nat → α) (m s : Nat) (t : List (List Int)) :
    (conjMoveStep mul sym_cubes inv_sym move_cubes m t s).length = t.length := by
  simp only [conjMoveStep]
  split
  · exact writeCell_length t m s _
  · rfl

theorem conjMoveRow_length {α : Type} [DecidableEq α] (mul : α → α → α) (sym_cubes : Nat → α)
    (inv_sym : Nat → Nat) (move_cubes : Nat → α) (m : Nat) (ls : List Nat)
    (t : List (List Int)) :
    (ls.foldl (conjMoveStep mul sym_cubes inv_sym move_cubes m) t).length = t.length := by
  induction ls generalizing t with
  | nil => rfl
  | cons a ls ih => rw [List.foldl_cons, ih, conjMoveStep_length]

theorem conjMoveTable_length {α : Type} [DecidableEq α] (mul : α → α → α) (sym_cubes : Nat → α)
    (inv_sym : Nat → Nat) (move_cubes : Nat → α) (lm ls : List Nat) (t : List (List Int)) :
    (lm.foldl
      (fun table m => ls.foldl (conjMoveStep mul sym_cubes inv_sym move_cubes m) table)
      t).length = t.length := by
  induction lm generalizing t with
  | nil => rfl
  | cons a lm ih => rw [List.foldl_cons, ih, conjMoveRow_length]

/-- the table `conj_move` has `N_MOVES` rows, whatever `N_DOUBLE2` is: a row index from
`N_MOVES` on, as the loop over `m` reaches when `N_DOUBLE2` is positive, is no row of it -/
theorem conj_move_row_outside {α : Type} [DecidableEq α] (N_DOUBLE2 : Nat) (mul : α → α → α)
    (sym_cubes : Nat → α) (inv_sym : Nat → Nat) (move_cubes : Nat → α) (m s : Nat)
    (hm : N_MOVES ≤ m) :
    cellAt (initConjMove N_DOUBLE2 mul sym_cubes inv_sym move_cubes) m s = none := by
  have hlen : (initConjMove N_DOUBLE2 mul sym_cubes inv_sym move_cubes).length = N_MOVES := by
    rw [initConjMove, conjMoveTable_length, List.length_replicate]
  rw [cellAt, List.getElem?_eq_none (by omega)]
  rfl

/-! ## The conjugation of the base moves -/

/-- What the third block of `initSym` does for a base move: for every base move index `m` in
`[0, N_MOVES)` and every symmetry `s` in `[0, 48)`, whenever the state
`S_s * move_cubes[m] * S_s^-1` is one of the base moves and the base moves are pairwise distinct,
it equals `move_cubes[conj]` for exactly one index `conj` in `[0, N_MOVES)`, the matching loop
breaks at this index, and after `initSym` the cell `conj_move[m][s]`, a cell of the declared
table, holds it; this for every value of `N_DOUBLE2`.  Whether a conjugate of a base move is a
base move depends on the symmetry cubes, which are not among the sources. -/
theorem conj_move_base_moves {α : Type} [DecidableEq α] (N_DOUBLE2 : Nat) (mul : α → α → α)
    (sym_cubes : Nat → α) (inv_sym : Nat → Nat) (move_cubes : Nat → α) (m s : Nat)
    (hm : m < N_MOVES) (hs : s < N_SYMS)
    (hdist : ∀ a : Nat, a < N_MOVES → ∀ b : Nat, b < N_MOVES →
      move_cubes a = move_cubes b → a = b)
    (hmatch : ∃ conj : Nat, conj < N_MOVES ∧
      mul (mul (sym_cubes s) (move_cubes m)) (sym_cubes (inv_sym s)) = move_cubes conj) :
    ∃ conj : Nat, conj < N_MOVES ∧
      mul (mul (sym_cubes s) (move_cubes m)) (sym_cubes (inv_sym s)) = move_cubes conj ∧
      (∀ c : Nat, c < N_MOVES →
        mul (mul (sym_cubes s) (move_cubes m)) (sym_cubes (inv_sym s)) = move_cubes c →
        c = conj) ∧
      findConj move_cubes (mul (mul (sym_cubes s) (move_cubes m)) (sym_cubes (inv_sym s)))
        N_MOVES 0 = some conj ∧
      cellAt (initConjMove N_DOUBLE2 mul sym_cubes inv_sym move_cubes) m s
        = some (conj : Int) := by
  obtain ⟨conj, hc, heq⟩ := hmatch
  have huniq : ∀ c : Nat, c < N_MOVES →
      mul (mul (sym_cubes s) (move_cubes m)) (sym_cubes (inv_sym s)) = move_cubes c →
      c = conj := by
    intro c hc1 hc2
    exact hdist c hc1 conj hc (hc2.symm.trans heq)
  have hfind := findConj_of_unique move_cubes _ N_MOVES 0 conj (Nat.zero_le _) (by omega) heq
    (fun c _ h2 h3 => huniq c (by omega) h3)
  refine ⟨conj, hc, heq, huniq, hfind, ?_⟩
  rw [initConjMove]
  refine conjMoveTable_same mul sym_cubes inv_sym move_cubes m s _ _ _ conj
    (List.nodup_range _) (List.mem_range.mpr (by omega)) (List.nodup_range _)
    (List.mem_range.mpr hs) ?_ hfind
  rw [cellAt_zeros m s hm hs]
  rfl

theorem conj_move_base_moves_witness :
    ∃ conj : Nat, conj < N_MOVES ∧
      composeCube (composeCube kSolvedCube (powerMoves 4)) kSolvedCube = powerMoves conj ∧
      (∀ c : Nat, c < N_MOVES →
        composeCube (composeCube kSolvedCube (powerMoves 4)) kSolvedCube = powerMoves c →
        c = conj) ∧
      findConj powerMoves (composeCube (composeCube kSolvedCube (powerMoves 4)) kSolvedCube)
        N_MOVES 0 = some conj ∧
      cellAt (initConjMove 0 composeCube (fun _ => kSolvedCube) (fun _ => 0) powerMoves) 4 0
        = some (conj : Int) :=
  conj_move_base_moves 0 composeCube (fun _ => kSolvedCube) (fun _ => 0) powerMoves 4 0
    (by decide) (by decide) (by decide) ⟨4, by decide, by decide⟩

/-! ## Packed entries -/

theorem writeAt_same (t : Nat → Nat) (i v : Nat) : writeAt t i v i = v := by
  simp [writeAt]

theorem writeAt_other (t : Nat → Nat) (i v j : Nat) (h : j ≠ i) : writeAt t i v j = t j := by
  simp [writeAt, h]

theorem symcoord_lt (K N cls s : Nat) (hN : K * N ≤ EMPTY) (hcls : cls < N) (hs : s < K) :
    SYMCOORD K cls s < EMPTY := by
  have h1 : (cls + 1) * K ≤ N * K := Nat.mul_le_mul_right K hcls
  have h2 : (cls + 1) * K = cls * K + K := by ring
  have h3 : N * K = K * N := by ring
  unfold SYMCOORD
  omega

theorem symcoord_mod (K N cls s : Nat) (hN : K * N ≤ EMPTY) (hcls : cls < N) (hs : s < K) :
    SYMCOORD K cls s % 2 ^ 32 = SYMCOORD K cls s := by
  have h := symcoord_lt K N cls s hN hcls hs
  apply Nat.mod_eq_of_lt
  unfold EMPTY at h
  omega

theorem symcoord_div (K cls s : Nat) (hs : s < K) : SYMCOORD K cls s / K = cls := by
  unfold SYMCOORD
  rw [Nat.add_comm, Nat.add_mul_div_right _ _ (by omega), Nat.div_eq_of_lt hs, Nat.zero_add]

theorem symcoord_inj (K c1 s1 c2 s2 : Nat) (h1 : s1 < K) (h2 : s2 < K)
    (h : SYMCOORD K c1 s1 = SYMCOORD K c2 s2) : c1 = c2 ∧ s1 = s2 := by
  have hc : c1 = c2 := by
    rw [← symcoord_div K c1 s1 h1, ← symcoord_div K c2 s2 h2, h]
  subst hc
  unfold SYMCOORD at h
  exact ⟨rfl, by omega⟩

/-! ## The loop over the symmetries for a new class -/

theorem testBit_selfs_write (x j b : Nat) (hb : b < 16) :
    ((x ||| (1 <<< j)) % 2 ^ 16).testBit b = true ↔ (x.testBit b = true ∨ b = j) := by
  rw [Nat.testBit_mod_two_pow, Nat.testBit_or, Nat.one_shiftLeft, Nat.testBit_two_pow]
  simp only [hb, decide_True, Bool.true_and, Bool.or_eq_true, decide_eq_true_eq]
  constructor
  · rintro (h | h)
    · exact Or.inl h
    · exact Or.inr h.symm
  · rintro (h | h)
    · exact Or.inl h
    · exact Or.inr h.symm

theorem classInnerStep_inv (K c : Nat) (conj_c : Nat → Nat) (sym1 raw1 selfs1 : Nat → Nat)
    (cls j : Nat) (t : SymTables) (inv : InnerInv K c conj_c sym1 raw1 selfs1 cls j t)
    (hj1 : 1 ≤ j) (hne : SYMCOORD K cls j ≠ EMPTY)
    (hmod : SYMCOORD K cls j % 2 ^ 32 = SYMCOORD K cls j) (hc : sym1 c ≠ EMPTY) :
    InnerInv K c conj_c sym1 raw1 selfs1 cls (j + 1) (classInnerStep K c conj_c t j) := by
  have hcls := inv.cls_eq
  by_cases h1 : t.sym (conj_c j) = EMPTY
  · -- the conjugate is unassigned: it takes the entry `(cls, j)`
    have hstep : classInnerStep K c conj_c t j
        = { t with sym := writeAt t.sym (conj_c j) (SYMCOORD K cls j) } := by
      simp only [classInnerStep]
      rw [if_pos h1, hcls, hmod]
    have hcj : conj_c j ≠ c := by
      intro h
      rw [h, inv.keep c hc] at h1
      exact hc h1
    rw [hstep]
    refine ⟨inv.cls_eq, inv.raw_eq, ?_, ?_, ?_, inv.selfs_other, ?_⟩
    · intro r hr
      have hne1 : r ≠ conj_c j := by
        intro h
        rw [h] at hr
        rw [inv.keep _ hr] at h1
        exact hr h1
      show writeAt t.sym (conj_c j) (SYMCOORD K cls j) r = sym1 r
      rw [writeAt_other _ _ _ _ hne1]
      exact inv.keep r hr
    · intro r hr0 hr
      by_cases hrc : r = conj_c j
      · refine ⟨j, hj1, by omega, ?_, hrc.symm⟩
        show writeAt t.sym (conj_c j) (SYMCOORD K cls j) r = SYMCOORD K cls j
        rw [hrc, writeAt_same]
      · have hr1 : t.sym r ≠ EMPTY := by
          have : writeAt t.sym (conj_c j) (SYMCOORD K cls j) r ≠ EMPTY := hr
          rw [writeAt_other _ _ _ _ hrc] at this
          exact this
        obtain ⟨s, hs1, hs2, hs3, hs4⟩ := inv.fresh r hr0 hr1
        refine ⟨s, hs1, by omega, ?_, hs4⟩
        show writeAt t.sym (conj_c j) (SYMCOORD K cls j) r = SYMCOORD K cls s
        rw [writeAt_other _ _ _ _ hrc]
        exact hs3
    · intro s hs1 hs2
      show writeAt t.sym (conj_c j) (SYMCOORD K cls j) (conj_c s) ≠ EMPTY
      by_cases hsj : conj_c s = conj_c j
      · rw [hsj, writeAt_same]
        exact hne
      · rw [writeAt_other _ _ _ _ hsj]
        have : s < j := by
          rcases Nat.lt_or_ge s j with h | h
          · exact h
          · have : s = j := by omega
            rw [this] at hsj
            exact absurd rfl hsj
        exact inv.conjs s hs1 this
    · intro b hb
      rw [inv.bits b hb]
      constructor
      · rintro (h | ⟨h2, h3, h4⟩)
        · exact Or.inl h
        · exact Or.inr ⟨h2, by omega, h4⟩
      · rintro (h | ⟨h2, h3, h4⟩)
        · exact Or.inl h
        · refine Or.inr ⟨h2, ?_, h4⟩
          rcases Nat.lt_or_ge b j with h | h
          · exact h
          · have : b = j := by omega
            rw [this] at h4
            exact absurd h4 hcj
  · by_cases h2 : conj_c j = c
    · -- a self-symmetry: bit `j` is set
      have hstep : classInnerStep K c conj_c t j
          = { t with selfs := writeAt t.selfs cls ((t.selfs cls ||| (1 <<< j)) % 2 ^ 16) } := by
        simp only [classInnerStep]
        rw [if_neg h1, if_pos h2, hcls]
      rw [hstep]
      refine ⟨inv.cls_eq, inv.raw_eq, inv.keep, ?_, ?_, ?_, ?_⟩
      · intro r hr0 hr
        obtain ⟨s, hs1, hs2, hs3, hs4⟩ := inv.fresh r hr0 hr
        exact ⟨s, hs1, by omega, hs3, hs4⟩
      · intro s hs1 hs2
        rcases Nat.lt_or_ge s j with h | h
        · exact inv.conjs s hs1 h
        · have : s = j := by omega
          rw [this]
          exact h1
      · intro c1 hc1
        show writeAt t.selfs cls _ c1 = selfs1 c1
        rw [writeAt_other _ _ _ _ hc1]
        exact inv.selfs_other c1 hc1
      · intro b hb
        show (writeAt t.selfs cls ((t.selfs cls ||| (1 <<< j)) % 2 ^ 16) cls).testBit b = true ↔ _
        rw [writeAt_same, testBit_selfs_write _ _ _ hb, inv.bits b hb]
        constructor
        · rintro ((h | ⟨h3, h4, h5⟩) | h)
          · exact Or.inl h
          · exact Or.inr ⟨h3, by omega, h5⟩
          · exact Or.inr ⟨by omega, by omega, by rw [h]; exact h2⟩
        · rintro (h | ⟨h3, h4, h5⟩)
          · exact Or.inl (Or.inl h)
          · rcases Nat.lt_or_ge b j with h | h
            · exact Or.inl (Or.inr ⟨h3, h, h5⟩)
            · exact Or.inr (by omega)
    · -- neither: nothing is written
      have hstep : classInnerStep K c conj_c t j = t := by
        simp only [classInnerStep]
        rw [if_neg h1, if_neg h2]
      rw [hstep]
      refine ⟨inv.cls_eq, inv.raw_eq, inv.keep, ?_, ?_, inv.selfs_other, ?_⟩
      · intro r hr0 hr
        obtain ⟨s, hs1, hs2, hs3, hs4⟩ := inv.fresh r hr0 hr
        exact ⟨s, hs1, by omega, hs3, hs4⟩
      · intro s hs1 hs2
        rcases Nat.lt_or_ge s j with h | h
        · exact inv.conjs s hs1 h
        · have : s = j := by omega
          rw [this]
          exact h1
      · intro b hb
        rw [inv.bits b hb]
        constructor
        · rintro (h | ⟨h3, h4, h5⟩)
          · exact Or.inl h
          · exact Or.inr ⟨h3, by omega, h5⟩
        · rintro (h | ⟨h3, h4, h5⟩)
          · exact Or.inl h
          · refine Or.inr ⟨h3, ?_, h5⟩
            rcases Nat.lt_or_ge b j with h | h
            · exact h
            · have : b = j := by omega
              rw [this] at h5
              exact absurd h5 h2

theorem classInner_fold (K c : Nat) (conj_c : Nat → Nat) (sym1 raw1 selfs1 : Nat → Nat)
    (cls N : Nat) (hN : K * N ≤ EMPTY) (hclsN : cls < N) (hc : sym1 c ≠ EMPTY) (n : Nat)
    (hn : n + 1 ≤ K) (t : SymTables)
    (inv : InnerInv K c conj_c sym1 raw1 selfs1 cls 1 t) :
    InnerInv K c conj_c sym1 raw1 selfs1 cls (n + 1)
      ((List.range' 1 n).foldl (classInnerStep K c conj_c) t) := by
  induction n with
  | zero => exact inv
  | succ n ih =>
    rw [List.range'_concat, List.foldl_append, List.foldl_cons, List.foldl_nil]
    have e : 1 + 1 * n = n + 1 := by omega
    rw [e]
    exact classInnerStep_inv K c conj_c sym1 raw1 selfs1 cls (n + 1) _ (ih (by omega))
      (by omega) (Nat.ne_of_lt (symcoord_lt K N cls (n + 1) hN hclsN (by omega)))
      (symcoord_mod K N cls (n + 1) hN hclsN (by omega)) hc

/-! ## One pass of the loop over the raw coordinates -/

theorem classInnerStep_congr (K c : Nat) (f g : Nat → Nat) (t : SymTables) (s : Nat)
    (h : f s = g s) : classInnerStep K c f t s = classInnerStep K c g t s := by
  simp only [classInnerStep, h]

theorem classStep_congr (K w : Nat) (t : SymTables) (c : Nat) (f g : Nat → Nat)
    (h : ∀ s : Nat, 1 ≤ s → s < K → f s = g s) : classStep K w t c f = classStep K w t c g := by
  have hfold : ∀ t1 : SymTables,
      (List.range' 1 (K - 1)).foldl (classInnerStep K c f) t1
        = (List.range' 1 (K - 1)).foldl (classInnerStep K c g) t1 := by
    intro t1
    apply List.foldl_ext
    intro a s hs
    rw [List.mem_range'] at hs
    obtain ⟨i, hi, rfl⟩ := hs
    exact classInnerStep_congr K c f g a _ (h _ (by omega) (by omega))
  simp only [classStep, hfold]

theorem classStep_skip (K w : Nat) (t : SymTables) (c : Nat) (f : Nat → Nat)
    (h : t.sym c ≠ EMPTY) : classStep K w t c f = t := by
  simp only [classStep]
  rw [if_pos h]

theorem classStep_new (K w N : Nat) (t : SymTables) (c : Nat) (f : Nat → Nat)
    (hK1 : 1 ≤ K) (hN : K * N ≤ EMPTY) (hcls : t.cls < N) (hcw : c < 2 ^ w)
    (h : t.sym c = EMPTY) :
    classStep K w t c f
      = { sym := ((List.range' 1 (K - 1)).foldl (classInnerStep K c f)
            { sym := writeAt t.sym c (SYMCOORD K t.cls 0), raw := writeAt t.raw t.cls c,
              selfs := writeAt t.selfs t.cls 1, cls := t.cls }).sym,
          raw := ((List.range' 1 (K - 1)).foldl (classInnerStep K c f)
            { sym := writeAt t.sym c (SYMCOORD K t.cls 0), raw := writeAt t.raw t.cls c,
              selfs := writeAt t.selfs t.cls 1, cls := t.cls }).raw,
          selfs := ((List.range' 1 (K - 1)).foldl (classInnerStep K c f)
            { sym := writeAt t.sym c (SYMCOORD K t.cls 0), raw := writeAt t.raw t.cls c,
              selfs := writeAt t.selfs t.cls 1, cls := t.cls }).selfs,
          cls := ((List.range' 1 (K - 1)).foldl (classInnerStep K c f)
            { sym := writeAt t.sym c (SYMCOORD K t.cls 0), raw := writeAt t.raw t.cls c,
              selfs := writeAt t.selfs t.cls 1, cls := t.cls }).cls + 1 } := by
  simp only [classStep]
  rw [if_neg (by simpa using h), symcoord_mod K N t.cls 0 hN hcls (by omega),
    Nat.mod_eq_of_lt hcw]

theorem classStep_inv (K R w N : Nat) (conj : Nat → Nat → Nat) (t : SymTables) (c : Nat)
    (hK1 : 1 ≤ K) (hN : K * N ≤ EMPTY) (hcls : t.cls < N) (hc : c < R) (hcw : c < 2 ^ w)
    (hrange : ∀ s : Nat, s < K → ∀ r : Nat, r < R → conj s r < R)
    (inv : ClassInv K R conj t) :
    ClassInv K R conj (classStep K w t c (fun s => conj s c)) ∧
    (classStep K w t c (fun s => conj s c)).cls ≤ t.cls + 1 ∧
    (classStep K w t c (fun s => conj s c)).sym c ≠ EMPTY ∧
    (∀ r : Nat, t.sym r ≠ EMPTY → (classStep K w t c (fun s => conj s c)).sym r = t.sym r) := by
  by_cases h : t.sym c ≠ EMPTY
  · rw [classStep_skip K w t c _ h]
    exact ⟨inv, by omega, h, fun _ _ => rfl⟩
  · have h0 : t.sym c = EMPTY := by simpa using h
    rw [classStep_new K w N t c _ hK1 hN hcls hcw h0]
    have hne0 : SYMCOORD K t.cls 0 ≠ EMPTY :=
      Nat.ne_of_lt (symcoord_lt K N t.cls 0 hN hcls (by omega))
    have hsym1c : writeAt t.sym c (SYMCOORD K t.cls 0) c ≠ EMPTY := by
      rw [writeAt_same]
      exact hne0
    have base : InnerInv K c (fun s => conj s c) (writeAt t.sym c (SYMCOORD K t.cls 0))
        (writeAt t.raw t.cls c) (writeAt t.selfs t.cls 1) t.cls 1
        { sym := writeAt t.sym c (SYMCOORD K t.cls 0), raw := writeAt t.raw t.cls c,
          selfs := writeAt t.selfs t.cls 1, cls := t.cls } := by
      refine ⟨rfl, rfl, fun _ _ => rfl, ?_, ?_, fun _ _ => rfl, ?_⟩
      · intro r hr0 hr
        exact absurd hr0 hr
      · intro s hs1 hs2
        omega
      · intro b _
        show (writeAt t.selfs t.cls 1 t.cls).testBit b = true ↔ _
        rw [writeAt_same, Nat.testBit_one_eq_true_iff_self_eq_zero]
        constructor
        · intro hb
          exact Or.inl hb
        · rintro (hb | ⟨h1, h2, _⟩)
          · exact hb
          · omega
    have J := classInner_fold K c (fun s => conj s c) _ _ _ t.cls N hN hcls hsym1c (K - 1)
      (by omega) _ base
    have eK : K - 1 + 1 = K := by omega
    rw [eK] at J
    generalize (List.range' 1 (K - 1)).foldl (classInnerStep K c (fun s => conj s c))
      { sym := writeAt t.sym c (SYMCOORD K t.cls 0), raw := writeAt t.raw t.cls c,
        selfs := writeAt t.selfs t.cls 1, cls := t.cls } = t2 at J
    have hcls2 : t2.cls = t.cls := J.cls_eq
    have hraw2 : ∀ x : Nat, t2.raw x = writeAt t.raw t.cls c x := by
      intro x
      rw [J.raw_eq]
    have hrawc : t2.raw t.cls = c := by rw [hraw2, writeAt_same]
    have hrawo : ∀ x : Nat, x < t.cls → t2.raw x = t.raw x := by
      intro x hx
      rw [hraw2, writeAt_other _ _ _ _ (by omega)]
    -- the cells that were assigned before the pass keep their entries
    have hold : ∀ r : Nat, t.sym r ≠ EMPTY → t2.sym r = t.sym r := by
      intro r hr
      have hrc : r ≠ c := by
        intro e
        rw [e] at hr
        exact hr h0
      have h1 : writeAt t.sym c (SYMCOORD K t.cls 0) r = t.sym r := writeAt_other _ _ _ _ hrc
      rw [J.keep r (by rw [h1]; exact hr), h1]
    have hnewc : t2.sym c = SYMCOORD K t.cls 0 := by
      rw [J.keep c hsym1c, writeAt_same]
    -- a cell that is assigned after the pass was assigned before, or is `c`, or a conjugate
    have hcases : ∀ r : Nat, t2.sym r ≠ EMPTY →
        t.sym r ≠ EMPTY ∨ r = c ∨
          (∃ s : Nat, 1 ≤ s ∧ s < K ∧ t2.sym r = SYMCOORD K t.cls s ∧ conj s c = r) := by
      intro r hr
      by_cases hrc : r = c
      · exact Or.inr (Or.inl hrc)
      · by_cases hr0 : t.sym r = EMPTY
        · have h1 : writeAt t.sym c (SYMCOORD K t.cls 0) r = EMPTY := by
            rw [writeAt_other _ _ _ _ hrc]
            exact hr0
          exact Or.inr (Or.inr (J.fresh r h1 hr))
        · exact Or.inl hr0
    have hcls' : (t2.cls + 1) = t.cls + 1 := by rw [hcls2]
    refine ⟨⟨?_, ?_, ?_, ?_, ?_, ?_⟩, by simp only; omega, ?_, hold⟩
    · -- inrange
      intro r hr
      rcases hcases r hr with h1 | h1 | ⟨s, hs1, hs2, -, hs4⟩
      · exact inv.inrange r h1
      · rw [h1]
        exact hc
      · rw [← hs4]
        exact hrange s hs2 c hc
    · -- entry
      intro r hr
      rcases hcases r hr with h1 | h1 | ⟨s, hs1, hs2, hs3, hs4⟩
      · obtain ⟨cls, s, hcl, hs, he, hr2⟩ := inv.entry r h1
        refine ⟨cls, s, by simp only; omega, hs, ?_, ?_⟩
        · show t2.sym r = SYMCOORD K cls s
          rw [hold r h1, he]
        · show (if s = 0 then t2.raw cls else conj s (t2.raw cls)) = r
          rw [hrawo cls hcl]
          exact hr2
      · refine ⟨t.cls, 0, by simp only; omega, by omega, ?_, ?_⟩
        · show t2.sym r = SYMCOORD K t.cls 0
          rw [h1, hnewc]
        · show (if (0 : Nat) = 0 then t2.raw t.cls else conj 0 (t2.raw t.cls)) = r
          rw [if_pos rfl, hrawc, h1]
      · refine ⟨t.cls, s, by simp only; omega, hs2, hs3, ?_⟩
        show (if s = 0 then t2.raw t.cls else conj s (t2.raw t.cls)) = r
        rw [if_neg (by omega), hrawc, hs4]
    · -- rep
      intro cls hcl
      show t2.sym (t2.raw cls) = SYMCOORD K cls 0
      rcases Nat.lt_or_ge cls t.cls with h1 | h1
      · rw [hrawo cls h1]
        have h2 := inv.rep cls h1
        have h3 : t.sym (t.raw cls) ≠ EMPTY := by
          rw [h2]
          exact Nat.ne_of_lt (symcoord_lt K N cls 0 hN (by omega) (by omega))
        rw [hold _ h3, h2]
      · have : cls = t.cls := by
          have : cls < t.cls + 1 := by
            have := hcl
            simp only at this
            omega
          omega
        rw [this, hrawc, hnewc]
    · -- conjs
      intro cls s hcl hs1 hs2
      show t2.sym (conj s (t2.raw cls)) ≠ EMPTY
      rcases Nat.lt_or_ge cls t.cls with h1 | h1
      · rw [hrawo cls h1]
        have h3 := inv.conjs cls s h1 hs1 hs2
        rw [hold _ h3]
        exact h3
      · have : cls = t.cls := by
          have : cls < t.cls + 1 := by
            have := hcl
            simp only at this
            omega
          omega
        rw [this, hrawc]
        exact J.conjs s hs1 hs2
    · -- fresh
      intro c1 c2 s h12 h2 hs
      show (if s = 0 then t2.raw c1 else conj s (t2.raw c1)) ≠ t2.raw c2
      have h2' : c2 < t.cls + 1 := by
        have := h2
        simp only at this
        omega
      rcases Nat.lt_or_ge c2 t.cls with h3 | h3
      · rw [hrawo c1 (by omega), hrawo c2 h3]
        exact inv.fresh c1 c2 s h12 h3 hs
      · have e2 : c2 = t.cls := by omega
        rw [e2, hrawc, hrawo c1 (by omega)]
        intro e
        have hassigned : t.sym (if s = 0 then t.raw c1 else conj s (t.raw c1)) ≠ EMPTY := by
          by_cases hs0 : s = 0
          · rw [if_pos hs0, inv.rep c1 (by omega)]
            exact Nat.ne_of_lt (symcoord_lt K N c1 0 hN (by omega) (by omega))
          · rw [if_neg hs0]
            exact inv.conjs c1 s (by omega) (by omega) hs
        rw [e] at hassigned
        exact hassigned h0
    · -- bits
      intro cls s hcl hs hs16
      show (t2.selfs cls).testBit s = true ↔ (s = 0 ∨ conj s (t2.raw cls) = t2.raw cls)
      rcases Nat.lt_or_ge cls t.cls with h1 | h1
      · rw [hrawo cls h1, J.selfs_other cls (by omega), writeAt_other _ _ _ _ (by omega)]
        exact inv.bits cls s h1 hs hs16
      · have e2 : cls = t.cls := by
          have : cls < t.cls + 1 := by
            have := hcl
            simp only at this
            omega
          omega
        rw [e2, hrawc, J.bits s hs16]
        constructor
        · rintro (h | ⟨_, _, h⟩)
          · exact Or.inl h
          · exact Or.inr h
        · rintro (h | h)
          · exact Or.inl h
          · by_cases hs0 : s = 0
            · exact Or.inl hs0
            · exact Or.inr ⟨by omega, hs, h⟩
    · show t2.sym c ≠ EMPTY
      rw [hnewc]
      exact hne0

/-! ## The loop over the raw coordinates -/

theorem classInv_empty (K R : Nat) (conj : Nat → Nat → Nat) (raw0 selfs0 : Nat → Nat) :
    ClassInv K R conj (emptyTables raw0 selfs0) := by
  refine ⟨?_, ?_, ?_, ?_, ?_, ?_⟩
  · intro r hr
    exact absurd rfl hr
  · intro r hr
    exact absurd rfl hr
  · intro cls hcl
    simp [emptyTables] at hcl
  · intro cls s hcl
    simp [emptyTables] at hcl
  · intro c1 c2 s _ h2
    simp [emptyTables] at h2
  · intro cls s hcl
    simp [emptyTables] at hcl

theorem classFold_inv (K R w N : Nat) (conj : Nat → Nat → Nat) (hK1 : 1 ≤ K)
    (hN : K * N ≤ EMPTY) (hrange : ∀ s : Nat, s < K → ∀ r : Nat, r < R → conj s r < R)
    (order : List Nat) (horder : ∀ c ∈ order, c < R ∧ c < 2 ^ w) (t : SymTables) (n : Nat)
    (hcls : t.cls ≤ n) (hn : n + order.length ≤ N) (inv : ClassInv K R conj t) :
    ClassInv K R conj (order.foldl (fun t c => classStep K w t c (fun s => conj s c)) t) ∧
    (order.foldl (fun t c => classStep K w t c (fun s => conj s c)) t).cls ≤ n + order.length ∧
    (∀ c ∈ order,
      (order.foldl (fun t c => classStep K w t c (fun s => conj s c)) t).sym c ≠ EMPTY) ∧
    (∀ r : Nat, t.sym r ≠ EMPTY →
      (order.foldl (fun t c => classStep K w t c (fun s => conj s c)) t).sym r = t.sym r) := by
  induction order generalizing t n with
  | nil => exact ⟨inv, by simpa using hcls, by simp, fun _ _ => rfl⟩
  | cons c order ih =>
    rw [List.foldl_cons]
    simp only [List.length_cons] at hn
    have hc := horder c (by simp)
    obtain ⟨i1, i2, i3, i4⟩ := classStep_inv K R w N conj t c hK1 hN (by omega) hc.1 hc.2 hrange inv
    obtain ⟨j1, j2, j3, j4⟩ := ih (fun x hx => horder x (List.mem_cons_of_mem _ hx)) _ (n + 1)
      (by omega) (by omega) i1
    refine ⟨j1, by simp only [List.length_cons]; omega, ?_, ?_⟩
    · intro x hx
      rcases List.mem_cons.mp hx with h | h
      · rw [h, j4 c i3]
        exact i3
      · exact j3 x h
    · intro r hr
      rw [j4 r (by rw [i4 r hr]; exact hr), i4 r hr]

/-! ## The loops of `initCPermTables` and `initFSliceTables` -/

theorem cperm_fold (env : SymEnv) (n : Nat) (t0 : SymTables) :
    (List.range n).foldl (cpermStep env) (kSolvedCube, t0)
      = ((List.range n).foldl env.setCPerm kSolvedCube,
          (List.range n).foldl
            (fun t c => classStep env.N_SYMS_SUB 16 t c (fun s => cpermConj env s c)) t0) := by
  induction n with
  | zero => rfl
  | succ n ih =>
    rw [List.range_succ, List.foldl_append, List.foldl_append, List.foldl_append, ih]
    simp only [List.foldl_cons, List.foldl_nil, cpermStep]
    refine Prod.ext rfl ?_
    simp only
    have e : env.setCPerm ((List.range n).foldl env.setCPerm kSolvedCube) n = cpermCube env n := by
      rw [cpermCube, List.range_succ, List.foldl_append]
      rfl
    rw [e]
    rfl

theorem initCPermTables_eq (env : SymEnv) (raw0 selfs0 : Nat → Nat) :
    initCPermTables env raw0 selfs0
      = (List.range env.N_CPERM).foldl
          (fun t c => classStep env.N_SYMS_SUB 16 t c (fun s => cpermConj env s c))
          (emptyTables raw0 selfs0) := by
  rw [initCPermTables, cperm_fold]

theorem setFlip_of_parts (cube : CubieCube) (slice flip : Nat)
    (h1 : cube.cp = kSolvedCube.cp) (h2 : cube.co = kSolvedCube.co)
    (h3 : cube.ep = (setSlice kSolvedCube (slice : Int)).ep) :
    setFlip cube (flip : Int) = setFlip (setSlice kSolvedCube (slice : Int)) (flip : Int) := by
  cases cube with
  | mk cp ep co eo =>
    simp only at h1 h2 h3
    subst h1 h2 h3
    rfl

theorem fslice_inner_fold (env : SymEnv) (conj : Nat → Nat → Nat) (slice : Nat) (n : Nat)
    (hconj : ∀ flip : Nat, flip < n → ∀ s : Nat, 1 ≤ s → s < env.N_SYMS_SUB →
      fsliceConj env s slice flip = conj s (env.FSLICE flip slice))
    (cube : CubieCube) (t0 : SymTables)
    (h1 : cube.cp = kSolvedCube.cp) (h2 : cube.co = kSolvedCube.co)
    (h3 : cube.ep = (setSlice kSolvedCube (slice : Int)).ep) :
    ((List.range n).foldl (fsliceStep env slice) (cube, t0)).2
        = ((List.range n).map (fun flip => env.FSLICE flip slice)).foldl
            (fun t c => classStep env.N_SYMS_SUB 32 t c (fun s => conj s c)) t0 ∧
    ((List.range n).foldl (fsliceStep env slice) (cube, t0)).1.cp = kSolvedCube.cp ∧
    ((List.range n).foldl (fsliceStep env slice) (cube, t0)).1.co = kSolvedCube.co ∧
    ((List.range n).foldl (fsliceStep env slice) (cube, t0)).1.ep
      = (setSlice kSolvedCube (slice : Int)).ep := by
  induction n with
  | zero => exact ⟨rfl, h1, h2, h3⟩
  | succ n ih =>
    obtain ⟨i1, i2, i3, i4⟩ := ih (fun flip hf => hconj flip (by omega))
    rw [List.range_succ, List.foldl_append, List.map_append, List.foldl_append]
    simp only [List.foldl_cons, List.foldl_nil, List.map_cons, List.map_nil]
    generalize (List.range n).foldl (fsliceStep env slice) (cube, t0) = st at i1 i2 i3 i4
    refine ⟨?_, ?_, ?_, ?_⟩
    · simp only [fsliceStep]
      rw [i1, setFlip_of_parts st.1 slice n i2 i3 i4]
      exact classStep_congr _ _ _ _ _ _ (fun s hs1 hs2 => hconj n (by omega) s hs1 hs2)
    · simp only [fsliceStep, setFlip]
      exact i2
    · simp only [fsliceStep, setFlip]
      exact i3
    · simp only [fsliceStep, setFlip]
      exact i4

theorem fslice_fold (env : SymEnv) (conj : Nat → Nat → Nat) (slices : List Nat)
    (hconj : ∀ slice ∈ slices, ∀ flip : Nat, flip < env.N_FLIP → ∀ s : Nat, 1 ≤ s →
      s < env.N_SYMS_SUB → fsliceConj env s slice flip = conj s (env.FSLICE flip slice))
    (cube : CubieCube) (t0 : SymTables)
    (h1 : cube.cp = kSolvedCube.cp) (h2 : cube.co = kSolvedCube.co) :
    (slices.foldl (fsliceRow env) (cube, t0)).2
      = (fsliceOrder env slices).foldl
          (fun t c => classStep env.N_SYMS_SUB 32 t c (fun s => conj s c)) t0 := by
  induction slices generalizing cube t0 with
  | nil => rfl
  | cons slice slices ih =>
    rw [List.foldl_cons, fsliceOrder, List.foldl_append]
    obtain ⟨i1, i2, i3, -⟩ := fslice_inner_fold env conj slice env.N_FLIP
      (fun flip hf s hs1 hs2 => hconj slice (by simp) flip hf s hs1 hs2)
      (setSlice cube (slice : Int)) t0 h1 h2 rfl
    have hrow : fsliceRow env (cube, t0) slice
        = (((List.range env.N_FLIP).foldl (fsliceStep env slice)
              (setSlice cube (slice : Int), t0)).1,
            ((List.range env.N_FLIP).foldl (fsliceStep env slice)
              (setSlice cube (slice : Int), t0)).2) := rfl
    rw [hrow, ih (fun sl hsl => hconj sl (List.mem_cons_of_mem _ hsl)) _ _ i2 i3, i1]

theorem fsliceOrder_length (env : SymEnv) (slices : List Nat) :
    (fsliceOrder env slices).length = slices.length * env.N_FLIP := by
  induction slices with
  | nil => simp [fsliceOrder]
  | cons slice slices ih =>
    rw [fsliceOrder, List.length_append, ih]
    simp only [List.length_map, List.length_range, List.length_cons]
    ring

theorem mem_fsliceOrder (env : SymEnv) (slices : List Nat) (c : Nat) :
    c ∈ fsliceOrder env slices
      ↔ ∃ slice ∈ slices, ∃ flip : Nat, flip < env.N_FLIP ∧ env.FSLICE flip slice = c := by
  induction slices with
  | nil => simp [fsliceOrder]
  | cons slice slices ih =>
    rw [fsliceOrder, List.mem_append, ih]
    simp only [List.mem_map, List.mem_range, List.mem_cons, exists_eq_or_imp]

theorem initFSliceTables_eq (env : SymEnv) (conj : Nat → Nat → Nat) (raw0 selfs0 : Nat → Nat)
    (hconj : ∀ slice : Nat, slice < env.N_SLICE → ∀ flip : Nat, flip < env.N_FLIP →
      ∀ s : Nat, s < env.N_SYMS_SUB →
        fsliceConj env s slice flip = conj s (env.FSLICE flip slice)) :
    initFSliceTables env raw0 selfs0
      = (fsliceOrder env (List.range env.N_SLICE)).foldl
          (fun t c => classStep env.N_SYMS_SUB 32 t c (fun s => conj s c))
          (emptyTables raw0 selfs0) := by
  rw [initFSliceTables]
  exact fslice_fold env conj _
    (fun slice hsl flip hf s _ hs2 => hconj slice (List.mem_range.mp hsl) flip hf s hs2)
    _ _ rfl rfl

/-! ## The tables after the loop over all the raw coordinates -/

theorem classFold_final (K R w : Nat) (conj : Nat → Nat → Nat) (hK1 : 1 ≤ K)
    (hrange : ∀ s : Nat, s < K → ∀ r : Nat, r < R → conj s r < R)
    (order : List Nat) (hN : K * order.length ≤ EMPTY)
    (horder : ∀ c ∈ order, c < R ∧ c < 2 ^ w) (hcover : ∀ r : Nat, r < R → r ∈ order)
    (raw0 selfs0 : Nat → Nat) :
    ClassInv K R conj
      (order.foldl (fun t c => classStep K w t c (fun s => conj s c)) (emptyTables raw0 selfs0)) ∧
    (order.foldl (fun t c => classStep K w t c (fun s => conj s c))
      (emptyTables raw0 selfs0)).cls ≤ order.length ∧
    (∀ r : Nat, r < R →
      (order.foldl (fun t c => classStep K w t c (fun s => conj s c))
        (emptyTables raw0 selfs0)).sym r ≠ EMPTY) := by
  obtain ⟨i1, i2, i3, -⟩ := classFold_inv K R w order.length conj hK1 hN hrange order horder
    (emptyTables raw0 selfs0) 0 (Nat.zero_le _) (by omega) (classInv_empty K R conj raw0 selfs0)
  exact ⟨i1, by omega, fun r hr => i3 r (hcover r hr)⟩

theorem rep_lt_of_inv (K R N : Nat) (conj : Nat → Nat → Nat) (t : SymTables) (hK1 : 1 ≤ K)
    (hN : K * N ≤ EMPTY) (hcls : t.cls ≤ N) (inv : ClassInv K R conj t) (cls : Nat)
    (h : cls < t.cls) : t.raw cls < R := by
  apply inv.inrange
  rw [inv.rep cls h]
  exact Nat.ne_of_lt (symcoord_lt K N cls 0 hN (by omega) (by omega))

theorem entries_of_inv (K R : Nat) (conj : Nat → Nat → Nat) (t : SymTables)
    (inv : ClassInv K R conj t) (hall : ∀ r : Nat, r < R → t.sym r ≠ EMPTY) :
    EntriesReconstruct K R conj t := by
  intro r hr
  refine ⟨hall r hr, ?_⟩
  intro cls s hs he
  obtain ⟨cls0, s0, hc0, hs0, he0, hr0⟩ := inv.entry r (hall r hr)
  rw [he0] at he
  obtain ⟨e1, e2⟩ := symcoord_inj K cls0 s0 cls s hs0 hs he
  subst e1 e2
  refine ⟨hc0, ?_, ?_, ?_⟩
  · intro h
    rw [if_pos h] at hr0
    exact hr0
  · intro h
    rw [if_neg h] at hr0
    exact hr0
  · intro hid
    by_cases h : s0 = 0
    · rw [if_pos h] at hr0
      rw [h, hr0]
      exact hid r hr
    · rw [if_neg h] at hr0
      exact hr0

theorem selfs_of_inv (K R N : Nat) (conj : Nat → Nat → Nat) (t : SymTables) (hK1 : 1 ≤ K)
    (hK16 : K ≤ 16) (hN : K * N ≤ EMPTY) (hcls : t.cls ≤ N)
    (hid : ∀ x : Nat, x < R → conj 0 x = x) (inv : ClassInv K R conj t) :
    SelfsMarkStabilizers K conj t := by
  intro cls hc
  have hrep := rep_lt_of_inv K R N conj t hK1 hN hcls inv cls hc
  refine ⟨(inv.bits cls 0 hc (by omega) (by omega)).mpr (Or.inl rfl), ?_⟩
  intro s hs
  rw [inv.bits cls s hc hs (by omega)]
  constructor
  · rintro (h | h)
    · rw [h]
      exact hid _ hrep
    · exact h
  · intro h
    exact Or.inr h

theorem partition_of_inv (K R N : Nat) (conj : Nat → Nat → Nat) (t : SymTables) (hK1 : 1 ≤ K)
    (hN : K * N ≤ EMPTY) (hcls : t.cls ≤ N) (hact : GroupAction K R conj)
    (inv : ClassInv K R conj t) (hall : ∀ r : Nat, r < R → t.sym r ≠ EMPTY) :
    ClassesPartition K R conj t := by
  obtain ⟨hrange, hid, hclosed, hinv⟩ := hact
  -- every raw coordinate is a conjugate of the representative of its class
  have hentry : ∀ r : Nat, r < R → ∃ cls s : Nat, cls < t.cls ∧ s < K ∧
      t.sym r = SYMCOORD K cls s ∧ t.raw cls < R ∧ conj s (t.raw cls) = r ∧
      t.sym r / K = cls := by
    intro r hr
    obtain ⟨cls, s, hc, hs, he, hr0⟩ := inv.entry r (hall r hr)
    have hrep := rep_lt_of_inv K R N conj t hK1 hN hcls inv cls hc
    refine ⟨cls, s, hc, hs, he, hrep, ?_, by rw [he, symcoord_div K cls s hs]⟩
    by_cases h : s = 0
    · rw [if_pos h] at hr0
      rw [h, hid _ hrep]
      exact hr0
    · rw [if_neg h] at hr0
      exact hr0
  -- the representative of a later class is no conjugate of the representative of an earlier one
  have hfresh : ∀ c1 c2 s : Nat, c1 < c2 → c2 < t.cls → s < K → conj s (t.raw c1) ≠ t.raw c2 := by
    intro c1 c2 s h12 h2 hs
    have hrep := rep_lt_of_inv K R N conj t hK1 hN hcls inv c1 (by omega)
    have := inv.fresh c1 c2 s h12 h2 hs
    by_cases h : s = 0
    · rw [if_pos h] at this
      rw [h, hid _ hrep]
      exact this
    · rw [if_neg h] at this
      exact this
  refine ⟨?_, ?_, ?_⟩
  · intro r hr
    refine ⟨hall r hr, ?_⟩
    obtain ⟨cls, s, hc, hs, he, -, -, -⟩ := hentry r hr
    refine ⟨cls, s, hc, hs, he, ?_⟩
    intro cls1 s1 hs1 he1
    rw [he] at he1
    obtain ⟨e1, e2⟩ := symcoord_inj K cls s cls1 s1 hs hs1 he1
    exact ⟨e1.symm, e2.symm⟩
  · intro r1 hr1 r2 hr2
    obtain ⟨c1, s1, hc1, hs1, -, hrep1, hconj1, hd1⟩ := hentry r1 hr1
    obtain ⟨c2, s2, hc2, hs2, -, hrep2, hconj2, hd2⟩ := hentry r2 hr2
    rw [hd1, hd2]
    constructor
    · -- same class: conjugate
      intro hcc
      subst hcc
      obtain ⟨u, hu, hu1⟩ := hinv s1 hs1
      obtain ⟨v, hv, hv1⟩ := hclosed u hu s2 hs2
      refine ⟨v, hv, ?_⟩
      rw [← hv1 r1 hr1, ← hconj1, hu1 _ hrep1, hconj2]
    · -- conjugate: same class
      rintro ⟨u, hu, hur⟩
      -- `r2` is a conjugate of the representative of the class of `r1`
      obtain ⟨v, hv, hv1⟩ := hclosed s1 hs1 u hu
      have h2 : conj v (t.raw c1) = r2 := by
        rw [← hv1 _ hrep1, hconj1, hur]
      rcases Nat.lt_trichotomy c1 c2 with hlt | heq | hgt
      · exfalso
        obtain ⟨a, ha, ha1⟩ := hinv s2 hs2
        obtain ⟨b, hb, hb1⟩ := hclosed v hv a ha
        have : conj b (t.raw c1) = t.raw c2 := by
          rw [← hb1 _ hrep1, h2, ← hconj2, ha1 _ hrep2]
        exact hfresh c1 c2 b hlt hc2 hb this
      · exact heq
      · exfalso
        obtain ⟨a, ha, ha1⟩ := hinv v hv
        obtain ⟨b, hb, hb1⟩ := hclosed s2 hs2 a ha
        have : conj b (t.raw c2) = t.raw c1 := by
          rw [← hb1 _ hrep2, hconj2, ← h2, ha1 _ hrep1]
        exact hfresh c2 c1 b hgt hc1 hb this
  · have h := Finset.card_eq_sum_card_fiberwise (f := fun r => t.sym r / K)
      (s := Finset.range R) (t := Finset.range t.cls) (by
        intro r hr
        rw [Finset.mem_range] at hr
        obtain ⟨cls, s, hc, -, -, -, -, hd⟩ := hentry r hr
        rw [Finset.mem_range]
        simp only [hd]
        exact hc)
    rw [Finset.card_range] at h
    exact h.symm

/-! ## Claims on the symmetry classes -/

theorem cperm_final (env : SymEnv) (raw0 selfs0 : Nat → Nat) (hC : CPermFits env)
    (hrange : ∀ s : Nat, s < env.N_SYMS_SUB → ∀ r : Nat, r < env.N_CPERM →
      cpermConj env s r < env.N_CPERM) :
    ClassInv env.N_SYMS_SUB env.N_CPERM (cpermConj env) (initCPermTables env raw0 selfs0) ∧
    (initCPermTables env raw0 selfs0).cls ≤ env.N_CPERM ∧
    (∀ r : Nat, r < env.N_CPERM → (initCPermTables env raw0 selfs0).sym r ≠ EMPTY) := by
  obtain ⟨hK1, hN, hw⟩ := hC
  rw [initCPermTables_eq]
  have h := classFold_final env.N_SYMS_SUB env.N_CPERM 16 (cpermConj env) hK1 hrange
    (List.range env.N_CPERM) (by rw [List.length_range]; exact hN)
    (fun c hc => ⟨List.mem_range.mp hc, by have := List.mem_range.mp hc; omega⟩)
    (fun r hr => List.mem_range.mpr hr) raw0 selfs0
  rw [List.length_range] at h
  exact h

theorem fslice_final (env : SymEnv) (conj : Nat → Nat → Nat) (raw0 selfs0 : Nat → Nat)
    (hF : FSliceFits env conj)
    (hrange : ∀ s : Nat, s < env.N_SYMS_SUB → ∀ r : Nat, r < env.N_SLICE * env.N_FLIP →
      conj s r < env.N_SLICE * env.N_FLIP) :
    ClassInv env.N_SYMS_SUB (env.N_SLICE * env.N_FLIP) conj (initFSliceTables env raw0 selfs0) ∧
    (initFSliceTables env raw0 selfs0).cls ≤ env.N_SLICE * env.N_FLIP ∧
    (∀ r : Nat, r < env.N_SLICE * env.N_FLIP →
      (initFSliceTables env raw0 selfs0).sym r ≠ EMPTY) := by
  obtain ⟨hK1, hN, hin, hcover, hconj⟩ := hF
  rw [initFSliceTables_eq env conj raw0 selfs0 hconj]
  have hlen : (fsliceOrder env (List.range env.N_SLICE)).length = env.N_SLICE * env.N_FLIP := by
    rw [fsliceOrder_length, List.length_range]
  have hR : env.N_SLICE * env.N_FLIP ≤ EMPTY := by
    have : 1 * (env.N_SLICE * env.N_FLIP) ≤ env.N_SYMS_SUB * (env.N_SLICE * env.N_FLIP) :=
      Nat.mul_le_mul_right _ hK1
    omega
  have h := classFold_final env.N_SYMS_SUB (env.N_SLICE * env.N_FLIP) 32 conj hK1 hrange
    (fsliceOrder env (List.range env.N_SLICE)) (by rw [hlen]; exact hN)
    (fun c hc => by
      rw [mem_fsliceOrder] at hc
      obtain ⟨slice, hsl, flip, hfl, rfl⟩ := hc
      have h1 := hin slice (List.mem_range.mp hsl) flip hfl
      refine ⟨h1, ?_⟩
      unfold EMPTY at hR
      omega)
    (fun r hr => by
      rw [mem_fsliceOrder]
      obtain ⟨slice, hsl, flip, hfl, he⟩ := hcover r hr
      exact ⟨slice, List.mem_range.mpr hsl, flip, hfl, he⟩) raw0 selfs0
  rw [hlen] at h
  exact h

/-- C11: when no cell overflows and the conjugation by the first `K = N_SYMS_SUB` symmetries is a
group action on the raw coordinates `[0, R)`, then after `initCPermTables` (with
`R = N_CPERM`) and after `initFSliceTables` (with `R = N_SLICE * N_FLIP`) every raw coordinate
holds exactly one packed entry `(class, symmetry)` that is not `EMPTY`, with the class below the
final class count; two raw coordinates have the same class if and only if some symmetry of the
subgroup conjugates one into the other; and the numbers of raw coordinates per class sum to
`R`. -/
theorem classes_partition (env : SymEnv) (conj : Nat → Nat → Nat)
    (raw0 selfs0 raw1 selfs1 : Nat → Nat) (hC : CPermFits env)
    (hCact : GroupAction env.N_SYMS_SUB env.N_CPERM (cpermConj env))
    (hF : FSliceFits env conj)
    (hFact : GroupAction env.N_SYMS_SUB (env.N_SLICE * env.N_FLIP) conj) :
    ClassesPartition env.N_SYMS_SUB env.N_CPERM (cpermConj env)
      (initCPermTables env raw0 selfs0) ∧
    ClassesPartition env.N_SYMS_SUB (env.N_SLICE * env.N_FLIP) conj
      (initFSliceTables env raw1 selfs1) := by
  obtain ⟨c1, c2, c3⟩ := cperm_final env raw0 selfs0 hC hCact.1
  obtain ⟨f1, f2, f3⟩ := fslice_final env conj raw1 selfs1 hF hFact.1
  exact ⟨partition_of_inv _ _ env.N_CPERM _ _ hC.1 hC.2.1 c2 hCact c1 c3,
    partition_of_inv _ _ (env.N_SLICE * env.N_FLIP) _ _ hF.1 hF.2.1 f2 hFact f1 f3⟩

theorem classes_partition_witness :
    ClassesPartition 2 4 (cpermConj exampleEnv)
      (initCPermTables exampleEnv (fun _ => 0) (fun _ => 0)) ∧
    ClassesPartition 2 (2 * 2) (fun s r => r ^^^ s)
      (initFSliceTables exampleEnv (fun _ => 0) (fun _ => 0)) :=
  classes_partition exampleEnv (fun s r => r ^^^ s) (fun _ => 0) (fun _ => 0) (fun _ => 0)
    (fun _ => 0) (by decide) (by decide) (by decide) (by decide)

/-- C12: when no cell overflows, `N_SYMS_SUB <= 16`, the conjugation maps the raw coordinates
into themselves and the symmetry 0 conjugates every raw coordinate to itself, then for every
class `cls` created by `initCPermTables` (resp. `initFSliceTables`) and every symmetry index
`s` in `[0, N_SYMS_SUB)`, bit `s` of `cperm_selfs[cls]` (resp. `fslice_selfs[cls]`) is set if
and only if the conjugate of the representative `cperm_raw[cls]` (resp. `fslice_raw[cls]`) by
`s` equals the representative; in particular bit 0 is set for every class. -/
theorem selfs_mark_stabilizers (env : SymEnv) (conj : Nat → Nat → Nat)
    (raw0 selfs0 raw1 selfs1 : Nat → Nat) (hK16 : env.N_SYMS_SUB ≤ 16) (hC : CPermFits env)
    (hCrange : ∀ s : Nat, s < env.N_SYMS_SUB → ∀ r : Nat, r < env.N_CPERM →
      cpermConj env s r < env.N_CPERM)
    (hCid : ∀ r : Nat, r < env.N_CPERM → cpermConj env 0 r = r)
    (hF : FSliceFits env conj)
    (hFrange : ∀ s : Nat, s < env.N_SYMS_SUB → ∀ r : Nat, r < env.N_SLICE * env.N_FLIP →
      conj s r < env.N_SLICE * env.N_FLIP)
    (hFid : ∀ r : Nat, r < env.N_SLICE * env.N_FLIP → conj 0 r = r) :
    SelfsMarkStabilizers env.N_SYMS_SUB (cpermConj env) (initCPermTables env raw0 selfs0) ∧
    SelfsMarkStabilizers env.N_SYMS_SUB conj (initFSliceTables env raw1 selfs1) := by
  obtain ⟨c1, c2, -⟩ := cperm_final env raw0 selfs0 hC hCrange
  obtain ⟨f1, f2, -⟩ := fslice_final env conj raw1 selfs1 hF hFrange
  exact ⟨selfs_of_inv _ env.N_CPERM env.N_CPERM _ _ hC.1 hK16 hC.2.1 c2 hCid c1,
    selfs_of_inv _ (env.N_SLICE * env.N_FLIP) (env.N_SLICE * env.N_FLIP) _ _ hF.1 hK16 hF.2.1 f2
      hFid f1⟩

theorem selfs_mark_stabilizers_witness :
    SelfsMarkStabilizers 2 (cpermConj exampleEnv)
      (initCPermTables exampleEnv (fun _ => 0) (fun _ => 0)) ∧
    SelfsMarkStabilizers 2 (fun s r => r ^^^ s)
      (initFSliceTables exampleEnv (fun _ => 0) (fun _ => 0)) :=
  selfs_mark_stabilizers exampleEnv (fun s r => r ^^^ s) (fun _ => 0) (fun _ => 0) (fun _ => 0)
    (fun _ => 0) (by decide) (by decide) (by decide) (by decide) (by decide) (by decide)
    (by decide)

/-- C13: when no cell overflows and the conjugation maps the raw coordinates into themselves,
then after `initCPermTables` (resp. `initFSliceTables`) every raw coordinate `r` in `[0, R)`
holds an entry, and when this entry is `(cls, s)`, then `cls` is a class that was created, `r` is
the representative `raw[cls]` itself for `s = 0`, and for `s` other than 0 the conjugate of the
representative by the symmetry `s` is `r`; when the symmetry 0 conjugates every raw coordinate
to itself, the conjugate of the representative by `s` is `r` in both cases. -/
theorem entries_reconstruct (env : SymEnv) (conj : Nat → Nat → Nat)
    (raw0 selfs0 raw1 selfs1 : Nat → Nat) (hC : CPermFits env)
    (hCrange : ∀ s : Nat, s < env.N_SYMS_SUB → ∀ r : Nat, r < env.N_CPERM →
      cpermConj env s r < env.N_CPERM)
    (hF : FSliceFits env conj)
    (hFrange : ∀ s : Nat, s < env.N_SYMS_SUB → ∀ r : Nat, r < env.N_SLICE * env.N_FLIP →
      conj s r < env.N_SLICE * env.N_FLIP) :
    EntriesReconstruct env.N_SYMS_SUB env.N_CPERM (cpermConj env)
      (initCPermTables env raw0 selfs0) ∧
    EntriesReconstruct env.N_SYMS_SUB (env.N_SLICE * env.N_FLIP) conj
      (initFSliceTables env raw1 selfs1) := by
  obtain ⟨c1, -, c3⟩ := cperm_final env raw0 selfs0 hC hCrange
  obtain ⟨f1, -, f3⟩ := fslice_final env conj raw1 selfs1 hF hFrange
  exact ⟨entries_of_inv _ _ _ _ c1 c3, entries_of_inv _ _ _ _ f1 f3⟩

theorem entries_reconstruct_witness :
    EntriesReconstruct 2 4 (cpermConj exampleEnv)
      (initCPermTables exampleEnv (fun _ => 0) (fun _ => 0)) ∧
    EntriesReconstruct 2 (2 * 2) (fun s r => r ^^^ s)
      (initFSliceTables exampleEnv (fun _ => 0) (fun _ => 0)) :=
  entries_reconstruct exampleEnv (fun s r => r ^^^ s) (fun _ => 0) (fun _ => 0) (fun _ => 0)
    (fun _ => 0) (by decide) (by decide) (by decide) (by decide)
end TwoPhase
